import Mathlib

/-!
Variable replacement (equivalent-literal substitution) of CryptoMiniSat.

A shallow embedding of `src/cmsat/varreplacer.cpp` (class `VarReplacer`) and of the
part of the solver state it reads and writes, followed by theorems about the
substitution table, the reverse table, `VarReplacer::replace`, the apply phase
`VarReplacer::performReplace`, the deferred equalities (`addLaterAddBinXor`), the
queries `getReplacingVars` and `extendModel`, and the renumbering `updateVars`.

Conventions of the embedding

* `std::vector<T>` is a `List T`; an index outside the vector (undefined behaviour in
  C++) and a failed `assert` both make the embedded function return `none`.
* `std::map<Var, vector<Var>>` is an association list kept in ascending key order.
* Proof logging (`#ifdef DRUP`), statistics and verbose printing are not embedded:
  nothing that is embedded reads them. With the statistics go `impl_tmp_stats` and
  `updateStatsFromImplStats`, whose assertions (binary watches removed in pairs,
  ternary ones in threes) hold when every implicit clause is watched by each of its
  literals. The debug checks `testAllClauseAttach`, `checkNoWrongAttach`, `checkStats`
  and the stamp update, which change nothing that is embedded, are left out too.
-/

namespace CMSat

/-! ## Literals, truth values, variable status -/

/-- A literal `Lit(var, sign)`; `sign = true` is the negated literal. -/
structure Lit where
  var : Nat
  sign : Bool
deriving DecidableEq, Repr

/-- The integer form `2 * var + sign` that orders literals and indexes watch lists. -/
def Lit.toInt (l : Lit) : Nat := 2 * l.var + (if l.sign then 1 else 0)

/-- The C++ `operator~` on literals. -/
def Lit.neg (l : Lit) : Lit := ⟨l.var, !l.sign⟩

/-- The C++ `operator^` of a literal with a bool: flips the sign when `b` holds. -/
def Lit.xor (l : Lit) (b : Bool) : Lit := ⟨l.var, Bool.xor l.sign b⟩

/-- The three-valued `lbool`. -/
inductive LBool where
  | l_True
  | l_False
  | l_Undef
deriving DecidableEq, Repr

/-- The C++ `operator^` of an `lbool` with a bool: `l_Undef` is left alone. -/
def LBool.xor : LBool → Bool → LBool
  | LBool.l_True, true => LBool.l_False
  | LBool.l_False, true => LBool.l_True
  | x, _ => x

/-- The C++ `boolToLBool`. -/
def boolToLBool (b : Bool) : LBool := if b then LBool.l_True else LBool.l_False

/-- The removal tag `Removed` kept in `varData[v].removed`. -/
inductive Removed where
  | none
  | elimed
  | replaced
  | queued_replacer
  | decomposed
deriving DecidableEq, Repr

/-! ## The solver state the replacer works on -/

/-- An entry of a watch list: a reference to a long clause by its offset, the other
literal of a binary clause, or the other two literals of a ternary clause; the last
two carry the redundancy flag. -/
inductive Watched where
  | clause (offset : Nat)
  | binary (lit2 : Lit) (red : Bool)
  | tri (lit2 lit3 : Lit) (red : Bool)
deriving DecidableEq, Repr

/-- A long clause as the allocator holds it: its literals and its redundancy flag. -/
structure Clause where
  lits : List Lit
  red : Bool
deriving DecidableEq, Repr

/-- The fields of `Solver` that the replacer reads or writes. Activities (floating
point), the order heap, the stamps and the statistics are left out. The watch lists
are indexed by `Lit::toInt`, the allocator by clause offset (`none` is a freed
clause), the two containers of long clauses hold offsets, and `assumptionsSet` is
indexed by variable. -/
structure Solver where
  ok : Bool
  decisionLevel : Nat
  assigns : List LBool
  removed : List Removed
  decisionVar : List Bool
  trail : List Lit
  qhead : Nat := 0
  watches : List (List Watched) := []
  clAllocator : List (Option Clause) := []
  longIrredCls : List Nat := []
  longRedCls : List Nat := []
  assumptions : List Lit := []
  assumptionsSet : List Bool := []
deriving DecidableEq, Repr

/-- The call `solver->value(Var)`. -/
def Solver.valueVar (s : Solver) (v : Nat) : Option LBool := s.assigns[v]?

/-- The call `solver->value(Lit)`: the variable's value xor the sign. -/
def Solver.value (s : Solver) (l : Lit) : Option LBool :=
  (s.assigns[l.var]?).map (fun x => x.xor l.sign)

/-- Modelled from the spec: `enqueue(lit)` of the solver (section 6), which is not in
the sources at hand: the literal becomes true and is appended to the trail. -/
def Solver.enqueue (s : Solver) (l : Lit) : Solver :=
  { s with assigns := s.assigns.set l.var (boolToLBool (!l.sign)), trail := s.trail ++ [l] }

/-- Modelled from the spec: the decision-variable disable primitive (section 6). -/
def Solver.unsetDecisionVar (s : Solver) (v : Nat) : Solver :=
  { s with decisionVar := s.decisionVar.set v false }

/-- Modelled from the spec: the decision-variable enable primitive (section 6). -/
def Solver.setDecisionVar (s : Solver) (v : Nat) : Solver :=
  { s with decisionVar := s.decisionVar.set v true }

/-- The test `removed == Removed::none || removed == Removed::queued_replacer` on
`varData[v]`, false when `v` is not a variable of the solver. -/
def Solver.noneOrQueued (s : Solver) (v : Nat) : Prop :=
  s.removed[v]? = some Removed.none ∨ s.removed[v]? = some Removed.queued_replacer

instance (s : Solver) (v : Nat) : Decidable (s.noneOrQueued v) := by
  unfold Solver.noneOrQueued; infer_instance

/-! ## The reverse table: `std::map<Var, vector<Var>>` -/

/-- The reverse table, as the list of its entries in ascending key order. -/
abbrev RevTable := List (Nat × List Nat)

/-- The call `reverseTable.find(k)`: the vector stored under `k`, if any. -/
def rtFind : RevTable → Nat → Option (List Nat)
  | [], _ => none
  | (k, xs) :: rest, key => if k = key then some xs else rtFind rest key

/-- Insertion of a new entry at its place in the key order. -/
def rtInsert : RevTable → Nat → List Nat → RevTable
  | [], key, xs => [(key, xs)]
  | (k, ys) :: rest, key, xs =>
    if key < k then (key, xs) :: (k, ys) :: rest else (k, ys) :: rtInsert rest key xs

/-- The statement `reverseTable[key].push_back(v)`: `operator[]` creates an empty
entry when there is none, then `v` is appended to the entry of `key`. -/
def rtPush (rt : RevTable) (key v : Nat) : RevTable :=
  let rt1 := if (rtFind rt key).isNone then rtInsert rt key [] else rt
  rt1.map (fun e => if e.1 = key then (e.1, e.2 ++ [v]) else e)

/-- The call `reverseTable.erase(it)` for the entry of `key`. -/
def rtErase (rt : RevTable) (key : Nat) : RevTable :=
  rt.filter (fun e => decide (e.1 ≠ key))

/-! ## The replacer -/

/-- An equality queued by `replace` to be added as two binary clauses later. -/
structure LaterAddBinXor where
  lit1 : Lit
  lit2 : Lit
deriving DecidableEq, Repr

/-- A binary clause waiting in `delayedAttach`. -/
structure BinaryClause where
  lit1 : Lit
  lit2 : Lit
  red : Bool
deriving DecidableEq, Repr

/-- The data members of `VarReplacer` (statistics left out). -/
structure VarReplacer where
  table : List Lit
  reverseTable : RevTable
  replacedVars : Nat
  lastReplacedVars : Nat
  laterAddBinXor : List LaterAddBinXor
  delayedEnqueue : List Lit
  delayedAttach : List BinaryClause
deriving DecidableEq, Repr

/-- The replacer as the constructor leaves it. -/
def VarReplacer.init : VarReplacer :=
  { table := [], reverseTable := [], replacedVars := 0, lastReplacedVars := 0,
    laterAddBinXor := [], delayedEnqueue := [], delayedAttach := [] }

/-- The method `VarReplacer::newVar`. -/
def VarReplacer.newVar (vr : VarReplacer) : VarReplacer :=
  { vr with table := vr.table ++ [⟨vr.table.length, false⟩] }

/-- Modelled from the spec: `resolve(lit)`, the inline `getLitReplacedWith` of the
header that is not in the sources at hand; it is the expression
`table[lit.var()] ^ lit.sign()` that `replaceImplicit` writes out in full. -/
def VarReplacer.getLitReplacedWith (vr : VarReplacer) (l : Lit) : Option Lit :=
  (vr.table[l.var]?).map (fun t => t.xor l.sign)

/-- Modelled from the spec: `representativeOf(var)`, the inline `getVarReplacedWith`
of the header that is not in the sources at hand: `table[var].var()`. -/
def VarReplacer.getVarReplacedWith (vr : VarReplacer) (v : Nat) : Option Nat :=
  (vr.table[v]?).map (fun t => t.var)

/-- The assertions of `VarReplacer::replaceChecks`. -/
def replaceChecks (s : Solver) (lit1 lit2 : Lit) : Prop :=
  s.ok = true ∧ s.decisionLevel = 0 ∧ lit1.sign = false ∧ lit2.sign = false
  ∧ s.valueVar lit1.var = some LBool.l_Undef ∧ s.valueVar lit2.var = some LBool.l_Undef
  ∧ s.noneOrQueued lit1.var ∧ s.noneOrQueued lit2.var

instance (s : Solver) (lit1 lit2 : Lit) : Decidable (replaceChecks s lit1 lit2) := by
  unfold replaceChecks; infer_instance

/-- The method `VarReplacer::handleAlreadyReplaced`. -/
def handleAlreadyReplaced (s : Solver) (lit1 lit2 : Lit) : Bool × Solver :=
  if lit1.sign ≠ lit2.sign then (false, { s with ok := false }) else (true, s)

/-- The method `VarReplacer::handleBothSet`. -/
def handleBothSet (s : Solver) (val1 val2 : LBool) : Bool × Solver :=
  let s1 := if val1 ≠ val2 then { s with ok := false } else s
  (s1.ok, s1)

/-- The literal `toEnqueue` that `handleOneSet` computes. -/
def toEnqueue (lit1 : Lit) (val1 : LBool) (lit2 : Lit) (val2 : LBool) : Lit :=
  if val1 ≠ LBool.l_Undef then lit2.xor (decide (val1 = LBool.l_False))
  else lit1.xor (decide (val2 = LBool.l_False))

/-- The method `VarReplacer::handleOneSet`; `propagate` is the solver's propagation,
returning the new solver state and whether `propagate().isNULL()` (no conflict). -/
def handleOneSet (propagate : Solver → Solver × Bool) (s : Solver)
    (lit1 : Lit) (val1 : LBool) (lit2 : Lit) (val2 : LBool) : Bool × Solver :=
  if s.ok then
    let s1 := s.enqueue (toEnqueue lit1 val1 lit2 val2)
    let s2 := { (propagate s1).1 with ok := (propagate s1).2 }
    (s2.ok, s2)
  else (s.ok, s)

/-- The loop of `setAllThatPointsHereTo` over the vector found under `var`: every
element other than `lit.var()` is repointed at `lit` with its own sign composed, and
appended to the entry of `lit.var()`. -/
def repointAll (var : Nat) (lit : Lit) :
    List Nat → List Lit → RevTable → Option (List Lit × RevTable)
  | [], table, rt => some (table, rt)
  | d :: ds, table, rt =>
    match table[d]? with
    | none => none
    | some td =>
      if td.var ≠ var then none
      else if lit.var ≠ d then
        repointAll var lit ds (table.set d (lit.xor td.sign)) (rtPush rt lit.var d)
      else repointAll var lit ds table rt

/-- The method `VarReplacer::setAllThatPointsHereTo`. -/
def setAllThatPointsHereTo (vr : VarReplacer) (var : Nat) (lit : Lit) : Option VarReplacer :=
  let looped : Option (List Lit × RevTable) :=
    match rtFind vr.reverseTable var with
    | some deps =>
      (repointAll var lit deps vr.table vr.reverseTable).map
        (fun p => (p.1, rtErase p.2 var))
    | none => some (vr.table, vr.reverseTable)
  match looped with
  | none => none
  | some (table, rt) =>
    if var < table.length then
      some { vr with table := table.set var lit, reverseTable := rtPush rt lit.var var }
    else none

/-- The tail of `VarReplacer::replace` once both resolved literals are unassigned:
the structural merge of the classes of `lit1` and `lit2`. -/
def replaceStructural (vr : VarReplacer) (s : Solver) (lit1 lit2 : Lit)
    (addLaterAsTwoBins : Bool) : Option (Bool × VarReplacer × Solver) :=
  let vr1 := if addLaterAsTwoBins
    then { vr with laterAddBinXor := vr.laterAddBinXor ++ [⟨lit1, lit2.xor true⟩] }
    else vr
  let s1 := { s with removed :=
    (s.removed.set lit1.var Removed.queued_replacer).set lit2.var Removed.queued_replacer }
  if rtFind vr1.reverseTable lit1.var = none then
    some (true,
      { vr1 with reverseTable := rtPush vr1.reverseTable lit2.var lit1.var,
                 table := vr1.table.set lit1.var (lit2.xor lit1.sign),
                 replacedVars := vr1.replacedVars + 1 }, s1)
  else if rtFind vr1.reverseTable lit2.var = none then
    some (true,
      { vr1 with reverseTable := rtPush vr1.reverseTable lit1.var lit2.var,
                 table := vr1.table.set lit2.var (lit1.xor lit2.sign),
                 replacedVars := vr1.replacedVars + 1 }, s1)
  else
    match setAllThatPointsHereTo vr1 lit1.var (lit2.xor lit1.sign) with
    | none => none
    | some vr2 => some (true, { vr2 with replacedVars := vr2.replacedVars + 1 }, s1)

/-- The method `VarReplacer::replace(lit1, lit2, xorEqualFalse, addLaterAsTwoBins)`,
the `merge` of the spec: `xorEqualFalse = true` asserts `lit1 = lit2`, `false`
asserts `lit1 = ~lit2`. The result is the returned bool with the new replacer and
solver, or `none` when an assertion fails or an index is out of range. -/
def replace (propagate : Solver → Solver × Bool) (vr : VarReplacer) (s : Solver)
    (lit1 lit2 : Lit) (xorEqualFalse addLaterAsTwoBins : Bool) :
    Option (Bool × VarReplacer × Solver) :=
  if replaceChecks s lit1 lit2 then
    match vr.table[lit1.var]?, vr.table[lit2.var]? with
    | some t1, some t2 =>
      let l1 := t1
      let l2 := t2.xor (!xorEqualFalse)
      if l1.var = l2.var then
        some ((handleAlreadyReplaced s l1 l2).1, vr, (handleAlreadyReplaced s l1 l2).2)
      else if s.noneOrQueued l1.var ∧ s.noneOrQueued l2.var then
        match s.value l1, s.value l2 with
        | some val1, some val2 =>
          if val1 ≠ LBool.l_Undef ∧ val2 ≠ LBool.l_Undef then
            some ((handleBothSet s val1 val2).1, vr, (handleBothSet s val1 val2).2)
          else if (val1 ≠ LBool.l_Undef ∧ val2 = LBool.l_Undef)
              ∨ (val2 ≠ LBool.l_Undef ∧ val1 = LBool.l_Undef) then
            some ((handleOneSet propagate s l1 val1 l2 val2).1, vr,
                  (handleOneSet propagate s l1 val1 l2 val2).2)
          else replaceStructural vr s l1 l2 addLaterAsTwoBins
        | _, _ => none
      else none
    | _, _ => none
  else none

/-- The method `VarReplacer::update_vardata_and_decisionvar`. -/
def update_vardata_and_decisionvar (s : Solver) (orig replaced_with : Nat) : Option Solver :=
  match s.removed[replaced_with]? with
  | none => none
  | some _ =>
    let s1 := if orig = replaced_with
        ∧ s.removed[replaced_with]? = some Removed.queued_replacer
      then { s with removed := s.removed.set replaced_with Removed.none } else s
    if orig = replaced_with
        ∨ s1.removed[replaced_with]? = some Removed.decomposed
        ∨ s1.removed[replaced_with]? = some Removed.elimed then some s1
    else
      match s1.removed[orig]? with
      | none => none
      | some ro =>
        if ro = Removed.replaced then some s1
        else
          let s2 := { s1 with removed := s1.removed.set orig Removed.replaced }
          if s2.noneOrQueued replaced_with then
            some ((s2.unsetDecisionVar orig).setDecisionVar replaced_with)
          else none

/-- The loop of `performReplace` over the table that calls
`update_vardata_and_decisionvar(var, it->var())`, from variable `var` on. -/
def statusFlipFrom : List Lit → Nat → Solver → Option Solver
  | [], _, s => some s
  | l :: rest, var, s =>
    match update_vardata_and_decisionvar s var l.var with
    | none => none
    | some s1 => statusFlipFrom rest (var + 1) s1

/-- The status-flip pass of `performReplace` (lines 169-175). -/
def statusFlip (vr : VarReplacer) (s : Solver) : Option Solver :=
  statusFlipFrom vr.table 0 s

/-! ## Invariants and reachable states -/

/-- The table and reverse-table invariant over lookup functions `T` (the table) and
`R` (the reverse table): every entry points at a self-mapped variable, an entry of the
reverse table lists without repetition exactly the other variables pointing at its key,
and a key without entry has no other variable pointing at it. -/
def InvF (T : Nat → Option Lit) (R : Nat → Option (List Nat)) : Prop :=
  (∀ v l, T v = some l → T l.var = some ⟨l.var, false⟩) ∧
  (∀ r deps, R r = some deps →
    deps ≠ [] ∧ deps.Nodup ∧ ∀ v, v ∈ deps ↔ (v ≠ r ∧ ∃ l, T v = some l ∧ l.var = r)) ∧
  (∀ r, R r = none → ∀ v l, T v = some l → l.var = r → v = r)

/-- The invariant of a replacer: `InvF` of its table and reverse table. -/
def WellFormed (vr : VarReplacer) : Prop :=
  InvF (fun v => vr.table[v]?) (rtFind vr.reverseTable)

/-- The replacers reachable from the constructor by `newVar` and by calls of `replace`
that return, each with any arguments, any solver state and any propagation routine. -/
inductive Reachable : VarReplacer → Prop
  | init : Reachable VarReplacer.init
  | newVar (vr : VarReplacer) : Reachable vr → Reachable vr.newVar
  | replace (vr vr1 : VarReplacer) (propagate : Solver → Solver × Bool) (s s1 : Solver)
      (lit1 lit2 : Lit) (xorEqualFalse addLaterAsTwoBins ret : Bool) :
      Reachable vr →
      replace propagate vr s lit1 lit2 xorEqualFalse addLaterAsTwoBins = some (ret, vr1, s1) →
      Reachable vr1

/-- The replacer `vr1` is `vr` with the variable `x`, and every variable of the entry
of `x` in the reverse table, repointed at the variable `y` through the sign `s`. -/
def Linked (vr vr1 : VarReplacer) (x y : Nat) (s : Bool) : Prop :=
  vr1.table.length = vr.table.length ∧
  (∀ v, vr1.table[v]? = if v = x then some ⟨y, s⟩
    else if v ∈ (rtFind vr.reverseTable x).getD []
      then (vr.table[v]?).map (fun td => (⟨y, s⟩ : Lit).xor td.sign)
    else vr.table[v]?) ∧
  (∀ k, rtFind vr1.reverseTable k =
    if k = y then
      some ((rtFind vr.reverseTable y).getD [] ++ (rtFind vr.reverseTable x).getD [] ++ [x])
    else if k = x then none else rtFind vr.reverseTable k)

/-! ## Concrete states used to instantiate the theorems -/

/-- A propagation routine that does nothing and reports no conflict. -/
def propagateNone : Solver → Solver × Bool := fun s => (s, true)

/-- A solver at decision level 0 with `n` unassigned variables of status none. -/
def freshSolver (n : Nat) : Solver :=
  { ok := true, decisionLevel := 0, assigns := List.replicate n LBool.l_Undef,
    removed := List.replicate n Removed.none, decisionVar := List.replicate n true,
    trail := [] }

/-- The replacer after `n` calls of `newVar`. -/
def freshReplacer : Nat → VarReplacer
  | 0 => VarReplacer.init
  | n + 1 => (freshReplacer n).newVar

/-- A run of calls `replace(+a, +b, rel, false)` with `propagateNone`, threading the
replacer and the solver and dropping the returned bools. -/
def mergeSeq : List (Nat × Nat × Bool) → VarReplacer × Solver → Option (VarReplacer × Solver)
  | [], st => some st
  | (a, b, rel) :: rest, st =>
    match replace propagateNone st.1 st.2 ⟨a, false⟩ ⟨b, false⟩ rel false with
    | none => none
    | some r => mergeSeq rest r.2

/-- Six variables after `1 = 2`, `2 = 3`, `4 = ~5`, `1 = 4`: one merge for each of the
three structural cases, the last one folding the class of 2 under 5. -/
def demoReplacer : VarReplacer :=
  ⟨[⟨0, false⟩, ⟨5, true⟩, ⟨5, true⟩, ⟨5, true⟩, ⟨5, true⟩, ⟨5, false⟩],
   [(5, [4, 1, 3, 2])], 4, 0, [], [], []⟩

/-- Six variables after `1 = 2` and `4 = ~5`: two classes, each with one dependent. -/
def pairsReplacer : VarReplacer :=
  ⟨[⟨0, false⟩, ⟨2, false⟩, ⟨2, false⟩, ⟨3, false⟩, ⟨5, true⟩, ⟨5, false⟩],
   [(2, [1]), (5, [4])], 2, 0, [], [], []⟩

/-- The solver that goes with `pairsReplacer`: nothing assigned, the merged variables
queued for replacement. -/
def pairsSolver : Solver :=
  { ok := true, decisionLevel := 0, assigns := List.replicate 6 LBool.l_Undef,
    removed := [Removed.none, Removed.queued_replacer, Removed.queued_replacer,
      Removed.none, Removed.queued_replacer, Removed.queued_replacer],
    decisionVar := List.replicate 6 true, trail := [] }

/-- A propagation routine never changes the value of an assigned variable (at decision
level 0 it only extends the trail). -/
def PropagateKeepsAssigned (propagate : Solver → Solver × Bool) : Prop :=
  ∀ (st : Solver) (v : Nat) (x : LBool), st.assigns[v]? = some x → x ≠ LBool.l_Undef →
    (propagate st).1.assigns[v]? = some x

/-- The solver `pairsSolver` after the representative 2 was set true from outside. -/
def pairsSolverSet : Solver :=
  { pairsSolver with
    assigns := [LBool.l_Undef, LBool.l_Undef, LBool.l_True, LBool.l_Undef, LBool.l_Undef,
      LBool.l_Undef],
    trail := [⟨2, false⟩] }

/-- The solver `pairsSolverSet` after `~5` was enqueued. -/
def pairsSolverForced : Solver :=
  { pairsSolver with
    assigns := [LBool.l_Undef, LBool.l_Undef, LBool.l_True, LBool.l_Undef, LBool.l_Undef,
      LBool.l_False],
    trail := [⟨2, false⟩, ⟨5, true⟩] }

/-- Four variables after `1 = 2` and `2 = 3`: the chain scenario. -/
def chainReplacer : VarReplacer :=
  ⟨[⟨0, false⟩, ⟨2, false⟩, ⟨2, false⟩, ⟨2, false⟩], [(2, [1, 3])], 2, 0, [], [], []⟩

/-- The solver after the two merges of the chain scenario. -/
def chainSolver : Solver :=
  { ok := true, decisionLevel := 0, assigns := List.replicate 4 LBool.l_Undef,
    removed := [Removed.none, Removed.queued_replacer, Removed.queued_replacer,
      Removed.queued_replacer],
    decisionVar := List.replicate 4 true, trail := [] }

/-- The solver `pairsSolver` after the representatives 2 and 5 were both set true. -/
def pairsSolverBoth : Solver :=
  { pairsSolver with
    assigns := [LBool.l_Undef, LBool.l_Undef, LBool.l_True, LBool.l_Undef, LBool.l_Undef,
      LBool.l_True],
    trail := [⟨2, false⟩, ⟨5, false⟩] }

/-! ## The apply phase: collaborators of the solver -/

/-- The call `Lit::toLit(n)`: the literal whose integer form is `n`. -/
def Lit.toLit (n : Nat) : Lit := ⟨n / 2, decide (n % 2 = 1)⟩

/-- The statement `solver->watches[lit.toInt()].push(w)`. -/
def Solver.pushWatch (s : Solver) (l : Lit) (w : Watched) : Option Solver :=
  match s.watches[l.toInt]? with
  | none => none
  | some ws => some { s with watches := s.watches.set l.toInt (ws ++ [w]) }

/-- Modelled from the spec: the binary re-attach primitive (section 6), not in the
sources at hand: each of the two literals watches the other one. -/
def Solver.attachBinClause (s : Solver) (lit1 lit2 : Lit) (red : Bool) : Option Solver :=
  match s.pushWatch lit1 (Watched.binary lit2 red) with
  | none => none
  | some s1 => s1.pushWatch lit2 (Watched.binary lit1 red)

/-- Modelled from the spec: the helper `orderLits`, not in the sources at hand: the
three literals in ascending order, by three conditional swaps. -/
def orderLits (lit1 lit2 lit3 : Lit) : Lit × Lit × Lit :=
  let a := if lit1.toInt > lit3.toInt then (lit3, lit2, lit1) else (lit1, lit2, lit3)
  let b := if a.1.toInt > a.2.1.toInt then (a.2.1, a.1, a.2.2) else a
  if b.2.1.toInt > b.2.2.toInt then (b.1, b.2.2, b.2.1) else b

/-- Modelled from the spec: the ternary re-attach primitive (section 6), not in the
sources at hand: each of the three literals watches the other two, kept in ascending
order. -/
def Solver.attachTriClause (s : Solver) (lit1 lit2 lit3 : Lit) (red : Bool) :
    Option Solver :=
  let o := orderLits lit1 lit2 lit3
  match s.pushWatch o.1 (Watched.tri o.2.1 o.2.2 red) with
  | none => none
  | some s1 =>
    match s1.pushWatch o.2.1 (Watched.tri o.1 o.2.2 red) with
    | none => none
    | some s2 => s2.pushWatch o.2.2 (Watched.tri o.1 o.2.1 red)

/-- Modelled from the spec: the long-clause re-attach primitive (section 6), not in the
sources at hand: the first two literals of the clause at `offset` watch it. -/
def Solver.attachClause (s : Solver) (offset : Nat) : Option Solver :=
  match s.clAllocator[offset]? with
  | some (some c) =>
    match c.lits with
    | l0 :: l1 :: _ =>
      match s.pushWatch l0 (Watched.clause offset) with
      | none => none
      | some s1 => s1.pushWatch l1 (Watched.clause offset)
    | _ => none
  | _ => none

/-- Modelled from the spec: the detach primitive `detachModifiedClause` (sections 4.2
and 6), not in the sources at hand: the clause at `offset` leaves the watch lists of
its original first two literals. -/
def Solver.detachModifiedClause (s : Solver) (origLit1 origLit2 : Lit) (offset : Nat) :
    Option Solver :=
  match s.watches[origLit1.toInt]?, s.watches[origLit2.toInt]? with
  | some _, some _ =>
    let drop := fun (ws : List Watched) => ws.filter (fun w => decide (w ≠ Watched.clause offset))
    some { s with watches :=
      (s.watches.modify drop origLit1.toInt).modify drop origLit2.toInt }
  | _, _ => none

/-- The call `solver->clAllocator->clauseFree(offset)`. -/
def Solver.clauseFree (s : Solver) (offset : Nat) : Solver :=
  { s with clAllocator := s.clAllocator.set offset none }

/-- The ordering `std::sort(c.begin(), c.end())` of literals by their integer form. -/
def sortLits (ls : List Lit) : List Lit :=
  ls.insertionSort (fun a b => a.toInt ≤ b.toInt)

/-! ## The apply phase: the replacer -/

/-- Modelled from the spec: `isReplaced(lit)`, the inline of the header that is not in
the sources at hand: `table[lit.var()].var() != lit.var()`. -/
def VarReplacer.isReplaced (vr : VarReplacer) (l : Lit) : Option Bool :=
  (vr.table[l.var]?).map (fun t => decide (t.var ≠ l.var))

/-- The method `VarReplacer::alreadyIn(var, lit)`, the `alreadyImplies` of the spec:
the returned bool and the solver, whose flag `ok` it may clear. -/
def alreadyIn (vr : VarReplacer) (s : Solver) (var : Nat) (lit : Lit) :
    Option (Bool × Solver) :=
  match vr.table[var]? with
  | none => none
  | some lit2 =>
    if lit2.var = lit.var then
      some (true, if lit2.sign ≠ lit.sign then { s with ok := false } else s)
    else
      match vr.table[lit.var]? with
      | none => none
      | some lit3 =>
        if lit3.var = var then
          some (true, if lit3.sign ≠ lit.sign then { s with ok := false } else s)
        else some (false, s)

/-- The loop of `enqueueDelayedEnqueue` over `delayedEnqueue`: an unassigned literal
is enqueued, a false one clears `ok` and ends the loop. -/
def enqueueDelayedLoop : List Lit → Solver → Option Solver
  | [], s => some s
  | l :: rest, s =>
    match s.value l with
    | none => none
    | some v =>
      if v = LBool.l_Undef then enqueueDelayedLoop rest (s.enqueue l)
      else if v = LBool.l_False then some { s with ok := false }
      else enqueueDelayedLoop rest s

/-- The method `VarReplacer::enqueueDelayedEnqueue`. -/
def enqueueDelayedEnqueue (propagate : Solver → Solver × Bool) (vr : VarReplacer)
    (s : Solver) : Option (Bool × VarReplacer × Solver) :=
  match enqueueDelayedLoop vr.delayedEnqueue s with
  | none => none
  | some s1 =>
    if s1.ok = false then some (false, { vr with delayedEnqueue := [] }, s1)
    else
      some ((propagate s1).2, { vr with delayedEnqueue := [] },
        { (propagate s1).1 with ok := (propagate s1).2 })

/-- The method `VarReplacer::newBinClause`: the binary is queued only from the watch
entry whose three original literals are in ascending order. -/
def newBinClause (vr : VarReplacer) (origLit1 origLit2 origLit3 lit1 lit2 : Lit)
    (red : Bool) : VarReplacer :=
  if origLit1.toInt < origLit2.toInt ∧ origLit2.toInt < origLit3.toInt then
    { vr with delayedAttach := vr.delayedAttach ++ [⟨lit1, lit2, red⟩] }
  else vr

/-- The statement `if (table[l.var()].var() != l.var()) l = table[l.var()] ^ l.sign()`
of `replaceImplicit` and `updateTri`. -/
def replaceLit (vr : VarReplacer) (l : Lit) : Option Lit :=
  match vr.table[l.var]? with
  | none => none
  | some t => some (if t.var ≠ l.var then t.xor l.sign else l)

/-- The method `VarReplacer::updateBin` on the watch entry of the list of `origLit1`
whose second literal was `origLit2` and is now `lit2`; `kept` is the part of the list
already written through the iterator `j`. The result is the new `kept`, the replacer
and the solver. -/
def updateBin (vr : VarReplacer) (s : Solver) (kept : List Watched) (red : Bool)
    (origLit1 lit1 lit2 : Lit) : Option (List Watched × VarReplacer × Solver) :=
  let vr1 := if lit1 = lit2
    then { vr with delayedEnqueue := vr.delayedEnqueue ++ [lit2] } else vr
  if lit1 = lit2 ∨ lit1 = lit2.neg then some (kept, vr1, s)
  else if lit1 ≠ origLit1 then
    match s.pushWatch lit1 (Watched.binary lit2 red) with
    | none => none
    | some s1 => some (kept, vr1, s1)
  else some (kept ++ [Watched.binary lit2 red], vr1, s)

/-- The literals of a kept ternary entry after `orderLits` and the two conditional
swaps of `updateTri` that put them back in the order this entry was in. -/
def triReorder (origLit1 origLit2 origLit3 lit1 lit2 lit3 : Lit) : Lit × Lit × Lit :=
  let o := orderLits lit1 lit2 lit3
  let a := if origLit1.toInt > origLit2.toInt ∧ origLit1.toInt < origLit3.toInt
    then (o.2.1, o.1, o.2.2) else o
  if origLit1.toInt > origLit2.toInt ∧ origLit1.toInt > origLit3.toInt
    then (a.2.2, a.1, a.2.1) else a

/-- The method `VarReplacer::updateTri` on the watch entry of the list of `origLit1`
with original other literals `origLit2`, `origLit3`; `lit1`, `lit2` are the first two
literals after replacement. The chain of `if (!remove && ...)` is written as a chain of
`else if`. -/
def updateTri (vr : VarReplacer) (s : Solver) (kept : List Watched) (red : Bool)
    (origLit1 origLit2 origLit3 lit1 lit2 : Lit) :
    Option (List Watched × VarReplacer × Solver) :=
  if origLit1.var ≠ origLit3.var ∧ origLit2.var ≠ origLit3.var
      ∧ origLit2.toInt < origLit3.toInt ∧ s.value origLit3 = some LBool.l_Undef then
    match replaceLit vr origLit3 with
    | none => none
    | some lit3 =>
      if lit1 = lit2.neg ∨ lit1 = lit3.neg ∨ lit2 = lit3.neg then some (kept, vr, s)
      else if lit1 = lit2 ∧ lit2 = lit3 then
        some (kept, { vr with delayedEnqueue := vr.delayedEnqueue ++ [lit1] }, s)
      else if lit1 = lit2 then
        some (kept, newBinClause vr origLit1 origLit2 origLit3 lit1 lit3 red, s)
      else if lit1 = lit3 ∨ lit2 = lit3 then
        some (kept, newBinClause vr origLit1 origLit2 origLit3 lit1 lit2 red, s)
      else
        let r := triReorder origLit1 origLit2 origLit3 lit1 lit2 lit3
        if r.1 ≠ origLit1 then
          match s.pushWatch r.1 (Watched.tri r.2.1 r.2.2 red) with
          | none => none
          | some s1 => some (kept, vr, s1)
        else some (kept ++ [Watched.tri r.2.1 r.2.2 red], vr, s)
  else none

/-- The body of the inner loop of `replaceImplicit` for one watch entry `w` of the
list of `origLit1`. -/
def scanEntry (vr : VarReplacer) (s : Solver) (kept : List Watched) (origLit1 : Lit)
    (w : Watched) : Option (List Watched × VarReplacer × Solver) :=
  match w with
  | Watched.clause _ => some (kept ++ [w], vr, s)
  | Watched.binary origLit2 red =>
    if s.value origLit1 = some LBool.l_Undef ∧ s.value origLit2 = some LBool.l_Undef
        ∧ origLit1.var ≠ origLit2.var then
      match replaceLit vr origLit1, replaceLit vr origLit2 with
      | some lit1, some lit2 => updateBin vr s kept red origLit1 lit1 lit2
      | _, _ => none
    else none
  | Watched.tri origLit2 origLit3 red =>
    if s.value origLit1 = some LBool.l_Undef ∧ s.value origLit2 = some LBool.l_Undef
        ∧ origLit1.var ≠ origLit2.var then
      match replaceLit vr origLit1, replaceLit vr origLit2 with
      | some lit1, some lit2 => updateTri vr s kept red origLit1 origLit2 origLit3 lit1 lit2
      | _, _ => none
    else none

/-- The inner loop of `replaceImplicit` over the watch list of `origLit1`. -/
def scanList (origLit1 : Lit) :
    List Watched → List Watched → VarReplacer → Solver →
      Option (List Watched × VarReplacer × Solver)
  | [], kept, vr, s => some (kept, vr, s)
  | w :: rest, kept, vr, s =>
    match scanEntry vr s kept origLit1 w with
    | none => none
    | some r => scanList origLit1 rest r.1 r.2.1 r.2.2

/-- The outer loop of `replaceImplicit` over the watch lists `wsLit`, `wsLit + 1`, ...,
`n` of them: each list is read when its turn comes, scanned, and cut down to its kept
part (`ws.shrink_(i-j)`). -/
def scanWatches : Nat → Nat → VarReplacer → Solver → Option (VarReplacer × Solver)
  | 0, _, vr, s => some (vr, s)
  | n + 1, wsLit, vr, s =>
    match s.watches[wsLit]? with
    | none => none
    | some ws =>
      match scanList (Lit.toLit wsLit) ws [] vr s with
      | none => none
      | some r =>
        scanWatches n (wsLit + 1) r.2.1 { r.2.2 with watches := r.2.2.watches.set wsLit r.1 }

/-- The loop of `replaceImplicit` that attaches the queued binary clauses. -/
def attachDelayed : List BinaryClause → Solver → Option Solver
  | [], s => some s
  | b :: rest, s =>
    match s.attachBinClause b.lit1 b.lit2 b.red with
    | none => none
    | some s1 => attachDelayed rest s1

/-- The scan of `replaceImplicit`: both queues are cleared, then every watch list is
rewritten; the queued binary clauses are still in `delayedAttach`. -/
def replaceImplicitScan (vr : VarReplacer) (s : Solver) : Option (VarReplacer × Solver) :=
  scanWatches s.watches.length 0 { vr with delayedEnqueue := [], delayedAttach := [] } s

/-- The method `VarReplacer::replaceImplicit`. -/
def replaceImplicit (vr : VarReplacer) (s : Solver) : Option (Bool × VarReplacer × Solver) :=
  match replaceImplicitScan vr s with
  | none => none
  | some r =>
    match attachDelayed r.1.delayedAttach r.2 with
    | none => none
    | some s1 => some (s1.ok, { r.1 with delayedAttach := [] }, s1)

/-- The loop `for (Lit& l: c)` of `replace_set`: whether some literal was replaced,
and the literals after replacement. -/
def replaceLits (vr : VarReplacer) : List Lit → Option (Bool × List Lit)
  | [] => some (false, [])
  | l :: rest =>
    match vr.table[l.var]? with
    | none => none
    | some t =>
      match replaceLits vr rest with
      | none => none
      | some r =>
        if t.var ≠ l.var then some (true, t.xor l.sign :: r.2) else some (r.1, l :: r.2)

/-- The simplification loop of `handleUpdatedClause` over the sorted literals still to
visit; `kept` are the literals written through `j`, `p` the last literal kept
(`lit_Undef` is `none`). The result is `satisfied`, the kept literals and the literals
from the index `i` the loop stopped at. -/
def simplifyLoop (s : Solver) : List Lit → List Lit → Option Lit →
    Option (Bool × List Lit × List Lit)
  | [], kept, _ => some (false, kept, [])
  | l :: rest, kept, p =>
    if s.removed[l.var]? = some Removed.none then
      match s.value l with
      | none => none
      | some v =>
        if v = LBool.l_True ∨ some l = p.map Lit.neg then some (true, kept, l :: rest)
        else if v ≠ LBool.l_False ∧ some l ≠ p then
          simplifyLoop s rest (kept ++ [l]) (some l)
        else simplifyLoop s rest kept p
    else none

/-- The method `VarReplacer::handleUpdatedClause` on the clause at `offset`, whose
literals were already replaced: the returned bool (the clause is to be freed) and the
solver. After the loop the clause holds the kept literals, followed, when the loop
stopped early, by what `c.shrink(i - j)` leaves of the sorted literals. -/
def handleUpdatedClause (propagate : Solver → Solver × Bool) (s : Solver) (offset : Nat)
    (origLit1 origLit2 : Lit) : Option (Bool × Solver) :=
  match s.clAllocator[offset]? with
  | some (some c) =>
    match simplifyLoop s (sortLits c.lits) [] none with
    | none => none
    | some r =>
      let lits := r.2.1 ++ ((sortLits c.lits).drop r.2.1.length).take r.2.2.length
      let s1 := { s with clAllocator := s.clAllocator.set offset (some { c with lits := lits }) }
      match s1.detachModifiedClause origLit1 origLit2 offset with
      | none => none
      | some s2 =>
        if r.1 = true then some (true, s2)
        else
          match lits with
          | [] => some (true, { s2 with ok := false })
          | [l0] =>
            some (true, { (propagate (s2.enqueue l0)).1 with ok := (propagate (s2.enqueue l0)).2 })
          | [l0, l1] =>
            match s2.attachBinClause l0 l1 c.red with
            | none => none
            | some s3 => some (true, s3)
          | [l0, l1, l2] =>
            match s2.attachTriClause l0 l1 l2 c.red with
            | none => none
            | some s3 => some (true, s3)
          | _ =>
            match s2.attachClause offset with
            | none => none
            | some s3 => some (false, s3)
  | _ => none

/-- The loop of `VarReplacer::replace_set` over the offsets still to visit of the
container `cs`; `kept` are the offsets written through `j`. The result is the returned
bool, the container and the solver. On the early `return false` the container is not
resized: it is `kept` followed by what `cs` held from there on. -/
def replaceSetLoop (propagate : Solver → Solver × Bool) (vr : VarReplacer) (cs : List Nat) :
    List Nat → List Nat → Solver → Option (Bool × List Nat × Solver)
  | [], kept, s => some (s.ok, kept, s)
  | offset :: rest, kept, s =>
    match s.clAllocator[offset]? with
    | some (some c) =>
      match c.lits with
      | origLit1 :: origLit2 :: _ :: _ :: _ =>
        match replaceLits vr c.lits with
        | none => none
        | some r =>
          if r.1 = true then
            match handleUpdatedClause propagate
                { s with clAllocator := s.clAllocator.set offset (some { c with lits := r.2 }) }
                offset origLit1 origLit2 with
            | none => none
            | some h =>
              if h.1 = true then
                if (h.2.clauseFree offset).ok = false then
                  some (false, kept ++ cs.drop kept.length, h.2.clauseFree offset)
                else replaceSetLoop propagate vr cs rest kept (h.2.clauseFree offset)
              else replaceSetLoop propagate vr cs rest (kept ++ [offset]) h.2
          else replaceSetLoop propagate vr cs rest (kept ++ [offset]) s
      | _ => none
    | _ => none

/-- The method `VarReplacer::replace_set(cs)`. -/
def replace_set (propagate : Solver → Solver × Bool) (vr : VarReplacer) (s : Solver)
    (cs : List Nat) : Option (Bool × List Nat × Solver) :=
  replaceSetLoop propagate vr cs cs [] s

/-- The test of `checkUnsetSanity` for the variable `i`: whether it is a violation. The
three conjuncts are evaluated left to right, as `&&` does. -/
def sanityViolationAt (vr : VarReplacer) (s : Solver) (i : Nat) : Option Bool :=
  match vr.table[i]?, s.removed[i]? with
  | some repLit, some ri =>
    if ri = Removed.none ∨ ri = Removed.queued_replacer then
      match s.removed[repLit.var]? with
      | none => none
      | some rr =>
        if rr = Removed.none ∨ rr = Removed.queued_replacer then
          match s.assigns[i]?, s.value repLit with
          | some vi, some vrep => some (decide (vi ≠ vrep))
          | _, _ => none
        else some false
    else some false
  | _, _ => none

/-- The loop of `checkUnsetSanity` over the variables still to check: `some true` when
none is a violation, `some false` when one is (the process exits). -/
def checkUnsetSanityFrom (vr : VarReplacer) (s : Solver) : List Nat → Option Bool
  | [] => some true
  | i :: rest =>
    match sanityViolationAt vr s i with
    | none => none
    | some viol => if viol = true then some false else checkUnsetSanityFrom vr s rest

/-- The method `VarReplacer::checkUnsetSanity`, over the `nVars()` variables of the
solver. -/
def checkUnsetSanity (vr : VarReplacer) (s : Solver) : Option Bool :=
  checkUnsetSanityFrom vr s (List.range s.assigns.length)

/-- The loop of `performReplace` over the assumptions: the flag of the old variable is
cleared, the literal replaced, the flag of the new variable set. -/
def updateAssumptions (vr : VarReplacer) : List Lit → List Bool → Option (List Lit × List Bool)
  | [], flags => some ([], flags)
  | lit :: rest, flags =>
    if lit.var < flags.length then
      match vr.getLitReplacedWith lit with
      | none => none
      | some lit1 =>
        if lit1.var < flags.length then
          match updateAssumptions vr rest ((flags.set lit.var false).set lit1.var true) with
          | none => none
          | some r => some (lit1 :: r.1, r.2)
        else none
    else none

/-- The steps of `performReplace` from `replaceImplicit` to the label `end`: each step
that returns `false` jumps to `end`. -/
def performReplaceSteps (propagate : Solver → Solver × Bool) (vr : VarReplacer) (s : Solver) :
    Option (VarReplacer × Solver) :=
  match replaceImplicit vr s with
  | none => none
  | some r1 =>
    if r1.1 = false then some r1.2
    else
      match enqueueDelayedEnqueue propagate r1.2.1 r1.2.2 with
      | none => none
      | some r2 =>
        if r2.1 = false then some r2.2
        else
          match replace_set propagate r2.2.1 r2.2.2 r2.2.2.longIrredCls with
          | none => none
          | some r3 =>
            if r3.1 = false then some (r2.2.1, { r3.2.2 with longIrredCls := r3.2.1 })
            else
              match replace_set propagate r2.2.1 { r3.2.2 with longIrredCls := r3.2.1 }
                  r3.2.2.longRedCls with
              | none => none
              | some r4 =>
                if r4.1 = false then
                  some (r2.2.1, { r4.2.2 with longRedCls := r4.2.1 })
                else
                  match updateAssumptions r2.2.1 r4.2.2.assumptions
                      r4.2.2.assumptionsSet with
                  | none => none
                  | some a =>
                    some (r2.2.1, { r4.2.2 with longRedCls := r4.2.1, assumptions := a.1,
                                                assumptionsSet := a.2 })

/-- The method `VarReplacer::performReplace`, the `applyAll` of the spec; `clean` is
the clause cleaner's `removeAndCleanAll`, `propagate` the solver's propagation. The
result is `none` when an assertion fails or `checkUnsetSanity` exits. -/
def performReplace (clean : Solver → Solver) (propagate : Solver → Solver × Bool)
    (vr : VarReplacer) (s : Solver) : Option (Bool × VarReplacer × Solver) :=
  if s.ok = true ∧ checkUnsetSanity vr s = some true then
    match statusFlip vr (clean s) with
    | none => none
    | some s1 =>
      if s1.qhead = s1.trail.length then
        match performReplaceSteps propagate { vr with lastReplacedVars := vr.replacedVars }
            s1 with
        | none => none
        | some r =>
          if (r.2.qhead = r.2.trail.length ∨ r.2.ok = false)
              ∧ (r.2.ok = true → checkUnsetSanity r.1 r.2 = some true) then
            some (r.2.ok, r.1, r.2)
          else none
      else none
  else none

/-! ## Assignments and outcomes of a rewrite -/

/-- The value of a literal under a total assignment of the variables. -/
def Lit.eval (α : Nat → Bool) (l : Lit) : Bool := Bool.xor (α l.var) l.sign

/-- A clause, as a list of literals, is satisfied by `α`. -/
def clauseHolds (α : Nat → Bool) (ls : List Lit) : Prop := ∃ l ∈ ls, l.eval α = true

/-- The assignment `α` gives each variable the value of the literal it resolves to. -/
def Consistent (vr : VarReplacer) (α : Nat → Bool) : Prop :=
  ∀ (v : Nat) (t : Lit), vr.table[v]? = some t → α v = t.eval α

/-- The assignment `α` agrees with the root-level assignment of the solver. -/
def AgreesRoot (s : Solver) (α : Nat → Bool) : Prop :=
  ∀ v : Nat, (s.assigns[v]? = some LBool.l_True → α v = true)
    ∧ (s.assigns[v]? = some LBool.l_False → α v = false)

/-- What the rewrite of one clause comes to: the clause is dropped as a tautology or
as satisfied, a unit is deferred or enqueued, a binary or ternary clause is registered,
the clause is empty, or it is kept with rewritten literals. -/
inductive Outcome where
  | dropped
  | unit (l : Lit)
  | binary (l1 l2 : Lit)
  | ternary (l1 l2 l3 : Lit)
  | empty
  | kept (ls : List Lit)

/-- The outcome of a rewrite is satisfied by `α`: a dropped clause counts as true, a
unit as its literal, a binary, ternary or kept clause as that clause, the empty clause
as false. -/
def Outcome.holds (α : Nat → Bool) : Outcome → Prop
  | Outcome.dropped => True
  | Outcome.unit l => l.eval α = true
  | Outcome.binary l1 l2 => clauseHolds α [l1, l2]
  | Outcome.ternary l1 l2 l3 => clauseHolds α [l1, l2, l3]
  | Outcome.empty => False
  | Outcome.kept ls => clauseHolds α ls

/-- The result `r` of rewriting a binary watch entry of the list of `origLit1` has the
outcome `o`: dropped with nothing queued, dropped with a unit appended to
`delayedEnqueue`, or kept as the binary `l1 ∨ l2`, in place when `l1` is `origLit1` and
pushed on the list of `l1` otherwise. -/
def BinOutcome (vr : VarReplacer) (s : Solver) (kept : List Watched) (origLit1 : Lit)
    (red : Bool) (r : List Watched × VarReplacer × Solver) : Outcome → Prop
  | Outcome.dropped => r = (kept, vr, s)
  | Outcome.unit l => r = (kept, { vr with delayedEnqueue := vr.delayedEnqueue ++ [l] }, s)
  | Outcome.binary l1 l2 =>
    (l1 = origLit1 ∧ r = (kept ++ [Watched.binary l2 red], vr, s))
    ∨ (l1 ≠ origLit1 ∧ r.1 = kept ∧ r.2.1 = vr
        ∧ s.pushWatch l1 (Watched.binary l2 red) = some r.2.2)
  | _ => False

/-- The result `r` of rewriting a ternary watch entry of the list of `origLit1` has the
outcome `o`: dropped with nothing queued, dropped with a unit appended to
`delayedEnqueue`, dropped with the binary `l1 ∨ l2` handed to `newBinClause`, or kept
as the ternary `l1 ∨ l2 ∨ l3`, in place when `l1` is `origLit1` and pushed on the list
of `l1` otherwise. -/
def TriOutcome (vr : VarReplacer) (s : Solver) (kept : List Watched)
    (origLit1 origLit2 origLit3 : Lit) (red : Bool)
    (r : List Watched × VarReplacer × Solver) : Outcome → Prop
  | Outcome.dropped => r = (kept, vr, s)
  | Outcome.unit l => r = (kept, { vr with delayedEnqueue := vr.delayedEnqueue ++ [l] }, s)
  | Outcome.binary l1 l2 =>
    r = (kept, newBinClause vr origLit1 origLit2 origLit3 l1 l2 red, s)
  | Outcome.ternary l1 l2 l3 =>
    (l1 = origLit1 ∧ r = (kept ++ [Watched.tri l2 l3 red], vr, s))
    ∨ (l1 ≠ origLit1 ∧ r.1 = kept ∧ r.2.1 = vr
        ∧ s.pushWatch l1 (Watched.tri l2 l3 red) = some r.2.2)
  | _ => False

/-- The result `h` of `handleUpdatedClause` on the clause at `offset` has the outcome
`o`, where `s2` is the solver after the simplification in place and the detach:
dropped as satisfied, the flag `ok` cleared for size 0, the unit enqueued and
propagated, the binary or ternary clause attached, or the clause kept with at least
four literals and attached again. -/
def LongOutcome (propagate : Solver → Solver × Bool) (s2 : Solver) (offset : Nat)
    (red : Bool) (h : Bool × Solver) : Outcome → Prop
  | Outcome.dropped => h = (true, s2)
  | Outcome.empty => h = (true, { s2 with ok := false })
  | Outcome.unit l =>
    h = (true, { (propagate (s2.enqueue l)).1 with ok := (propagate (s2.enqueue l)).2 })
  | Outcome.binary l1 l2 => h.1 = true ∧ s2.attachBinClause l1 l2 red = some h.2
  | Outcome.ternary l1 l2 l3 => h.1 = true ∧ s2.attachTriClause l1 l2 l3 red = some h.2
  | Outcome.kept ls =>
    4 ≤ ls.length ∧ h.1 = false ∧ s2.clAllocator[offset]? = some (some ⟨ls, red⟩)
      ∧ s2.attachClause offset = some h.2

/-- The outcome `updateBin` decides for the rewritten literals `lit1`, `lit2` of a
binary entry: a unit when they are the same, dropped when they are complementary, the
binary otherwise. -/
def binOutcomeOf (lit1 lit2 : Lit) : Outcome :=
  if lit1 = lit2 then Outcome.unit lit2
  else if lit1 = lit2.neg then Outcome.dropped
  else Outcome.binary lit1 lit2

/-- The outcome `updateTri` decides for the rewritten literals of a ternary entry, by
its tests in their order: dropped when two are complementary, a unit when all three
are the same, a binary when two are the same, the reordered ternary otherwise. -/
def triOutcomeOf (origLit1 origLit2 origLit3 lit1 lit2 lit3 : Lit) : Outcome :=
  if lit1 = lit2.neg ∨ lit1 = lit3.neg ∨ lit2 = lit3.neg then Outcome.dropped
  else if lit1 = lit2 ∧ lit2 = lit3 then Outcome.unit lit1
  else if lit1 = lit2 then Outcome.binary lit1 lit3
  else if lit1 = lit3 ∨ lit2 = lit3 then Outcome.binary lit1 lit2
  else Outcome.ternary (triReorder origLit1 origLit2 origLit3 lit1 lit2 lit3).1
    (triReorder origLit1 origLit2 origLit3 lit1 lit2 lit3).2.1
    (triReorder origLit1 origLit2 origLit3 lit1 lit2 lit3).2.2

/-- The outcome `handleUpdatedClause` decides from the flag `satisfied` of its loop and
the literals `lits` the clause is left with: dropped when satisfied, otherwise by the
`switch` on the size. -/
def longOutcomeOf (satisfied : Bool) (lits : List Lit) : Outcome :=
  if satisfied = true then Outcome.dropped
  else
    match lits with
    | [] => Outcome.empty
    | [l0] => Outcome.unit l0
    | [l0, l1] => Outcome.binary l0 l1
    | [l0, l1, l2] => Outcome.ternary l0 l1 l2
    | ls => Outcome.kept ls

/-- Four variables after `1 = 2`. -/
def implReplacer : VarReplacer :=
  ⟨[⟨0, false⟩, ⟨2, false⟩, ⟨2, false⟩, ⟨3, false⟩], [(2, [1])], 1, 0, [], [], []⟩

/-- Watch lists over four variables holding the ternary clause `0 ∨ 1 ∨ 2` (three
entries) and the binary clause `1 ∨ 3` (two entries). -/
def implWatches : List (List Watched) :=
  [[Watched.tri ⟨1, false⟩ ⟨2, false⟩ false], [],
   [Watched.tri ⟨0, false⟩ ⟨2, false⟩ false, Watched.binary ⟨3, false⟩ false], [],
   [Watched.tri ⟨0, false⟩ ⟨1, false⟩ false], [],
   [Watched.binary ⟨1, false⟩ false], []]

/-- A solver for `implReplacer`: nothing assigned, the watch lists `implWatches`, two
irredundant long clauses, one redundant long clause and two assumptions. -/
def implSolver : Solver :=
  { ok := true, decisionLevel := 0, assigns := List.replicate 4 LBool.l_Undef,
    removed := [Removed.none, Removed.queued_replacer, Removed.queued_replacer, Removed.none],
    decisionVar := List.replicate 4 true, trail := [], qhead := 0,
    watches := implWatches,
    clAllocator := [some ⟨[⟨0, false⟩, ⟨1, false⟩, ⟨2, true⟩, ⟨3, false⟩], false⟩,
                    some ⟨[⟨0, false⟩, ⟨1, false⟩, ⟨2, false⟩, ⟨3, false⟩], false⟩,
                    some ⟨[⟨0, false⟩, ⟨0, true⟩, ⟨2, false⟩, ⟨3, false⟩], true⟩],
    longIrredCls := [0, 1], longRedCls := [2],
    assumptions := [⟨1, true⟩, ⟨2, false⟩],
    assumptionsSet := [false, true, true, false] }

/-- The solver `implSolver` once the statuses are flipped and the literals of the long
clauses are replaced in place, with variable 3 false at the root level. -/
def implSolverLong : Solver :=
  { implSolver with
    assigns := [LBool.l_Undef, LBool.l_Undef, LBool.l_Undef, LBool.l_False],
    removed := [Removed.none, Removed.replaced, Removed.none, Removed.none],
    clAllocator := [some ⟨[⟨0, false⟩, ⟨2, false⟩, ⟨2, true⟩, ⟨3, false⟩], false⟩,
                    some ⟨[⟨0, false⟩, ⟨2, false⟩, ⟨2, false⟩, ⟨3, false⟩], false⟩,
                    some ⟨[⟨0, false⟩, ⟨0, true⟩, ⟨2, false⟩, ⟨3, false⟩], true⟩] }

/-- The assignment that makes every variable but 3 true. -/
def implAlpha (v : Nat) : Bool := decide (v ≠ 3)

/-- The literals an outcome leaves of the clause: none when the clause is dropped as
satisfied, the simplified literals otherwise. -/
def Outcome.lits : Outcome → Option (List Lit)
  | Outcome.dropped => none
  | Outcome.empty => some []
  | Outcome.unit l => some [l]
  | Outcome.binary l1 l2 => some [l1, l2]
  | Outcome.ternary l1 l2 l3 => some [l1, l2, l3]
  | Outcome.kept ls => some ls

/-- A clause database for `pairsReplacer` that the rewrite refutes: the binaries
`~1 ∨ ~2` and `4 ∨ ~5` and the long clause `1 ∨ 2 ∨ ~4 ∨ 5` at offset 0. -/
def refutedSolver : Solver :=
  { pairsSolver with
    watches := [[], [], [Watched.clause 0], [Watched.binary ⟨2, true⟩ false],
                [Watched.clause 0], [Watched.binary ⟨1, true⟩ false], [], [],
                [Watched.binary ⟨5, true⟩ false], [], [],
                [Watched.binary ⟨4, false⟩ false]],
    clAllocator := [some ⟨[⟨1, false⟩, ⟨2, false⟩, ⟨4, true⟩, ⟨5, false⟩], false⟩],
    longIrredCls := [0] }

/-- The solver `refutedSolver` when `replace_set` starts: the statuses are flipped, the
two binaries are gone and their units `~2` and `~5` are enqueued. -/
def refutedSolverMid : Solver :=
  { refutedSolver with
    assigns := [LBool.l_Undef, LBool.l_Undef, LBool.l_False, LBool.l_Undef, LBool.l_Undef,
      LBool.l_False],
    removed := [Removed.none, Removed.replaced, Removed.none, Removed.none,
      Removed.replaced, Removed.none],
    trail := [⟨2, true⟩, ⟨5, true⟩],
    watches := [[], [], [Watched.clause 0], [], [Watched.clause 0], [], [], [], [], [], [],
      []] }

/-- The solver `refutedSolverMid` once the literals of its long clause are replaced in
place. -/
def refutedSolverReplaced : Solver :=
  { refutedSolverMid with
    clAllocator := [some ⟨[⟨2, false⟩, ⟨2, false⟩, ⟨5, false⟩, ⟨5, false⟩], false⟩] }

/-- The flush of the deferred units as the specification words it, without the stop:
each literal that is unassigned when its turn comes is enqueued, the others are
skipped. -/
def enqueueUnassigned (s : Solver) (ls : List Lit) : Solver :=
  ls.foldl (fun st l => if st.value l = some LBool.l_Undef then st.enqueue l else st) s

/-- The replacer `pairsReplacer` with the deferred units `~2, ~2, ~5`. -/
def flushReplacerOk : VarReplacer :=
  { pairsReplacer with delayedEnqueue := [⟨2, true⟩, ⟨2, true⟩, ⟨5, true⟩] }

/-- The replacer `pairsReplacer` with the deferred units `~2, ~2, ~5, 2, 5`: the fourth
one contradicts the first. -/
def flushReplacer : VarReplacer :=
  { pairsReplacer with
    delayedEnqueue := [⟨2, true⟩, ⟨2, true⟩, ⟨5, true⟩, ⟨2, false⟩, ⟨5, false⟩] }

/-- The solver `b` has the assumptions, the assumption flags and the two containers of
long clauses of `a`. -/
def Solver.sameLists (a b : Solver) : Prop :=
  b.assumptions = a.assumptions ∧ b.assumptionsSet = a.assumptionsSet
  ∧ b.longIrredCls = a.longIrredCls ∧ b.longRedCls = a.longRedCls

/-- The solver `b` has the assumptions, the flags, the containers and the clause
allocator of `a`. -/
def Solver.sameClauses (a b : Solver) : Prop :=
  a.sameLists b ∧ b.clAllocator = a.clAllocator

/-- The allocator entry `y` is the entry `x` up to the order of its literals: the same
entry, or a clause with the same flag whose literals are those of `x` in some order. -/
def entryUpToOrder (x y : Option (Option Clause)) : Prop :=
  x = y ∨ ∃ c d : Clause, x = some (some c) ∧ y = some (some d)
    ∧ d.lits.Perm c.lits ∧ d.red = c.red

/-- A propagation routine leaves the assumptions, their flags and the two containers of
long clauses as they are. -/
def PropagateKeepsLists (propagate : Solver → Solver × Bool) : Prop :=
  ∀ st : Solver, st.sameLists (propagate st).1

/-- A propagation routine rewrites no clause: besides the lists it leaves every entry
of the allocator as it is up to the order of the literals, which it changes when it
moves a watch of a long clause. -/
def PropagateKeepsLiterals (propagate : Solver → Solver × Bool) : Prop :=
  PropagateKeepsLists propagate
  ∧ ∀ (st : Solver) (off : Nat),
      entryUpToOrder (st.clAllocator[off]?) ((propagate st).1.clAllocator[off]?)

/-- The first two literals of a clause exchanged, as a propagation does with the two
watched literals of a long clause. -/
def swapWatched : List Lit → List Lit
  | a :: b :: rest => b :: a :: rest
  | ls => ls

/-- A stand-in for a propagation that moves watches: it drains the queue, reports no
conflict and exchanges the two watched literals of every long clause. -/
def propagateSwap : Solver → Solver × Bool :=
  fun s => ({ s with qhead := s.trail.length, clAllocator := s.clAllocator.map (fun e => e.map (fun c => { c with lits := swapWatched c.lits })) }, true)

/-- A clause database for `pairsReplacer` whose deferred units contradict each other:
the binaries `1 ∨ 2` and `~1 ∨ ~2`, the irredundant clause `0 ∨ 1 ∨ 3 ∨ 4` at offset 0,
the redundant clause `0 ∨ ~1 ∨ 3 ∨ 5` at offset 1, and the assumptions `1` and `~4`. -/
def flushFailSolver : Solver :=
  { pairsSolver with
    watches := [[Watched.clause 0, Watched.clause 1], [],
                [Watched.binary ⟨2, false⟩ false, Watched.clause 0],
                [Watched.binary ⟨2, true⟩ false, Watched.clause 1],
                [Watched.binary ⟨1, false⟩ false], [Watched.binary ⟨1, true⟩ false],
                [], [], [], [], [], []],
    clAllocator := [some ⟨[⟨0, false⟩, ⟨1, false⟩, ⟨3, false⟩, ⟨4, false⟩], false⟩,
                    some ⟨[⟨0, false⟩, ⟨1, true⟩, ⟨3, false⟩, ⟨5, false⟩], true⟩],
    longIrredCls := [0],
    longRedCls := [1],
    assumptions := [⟨1, false⟩, ⟨4, true⟩],
    assumptionsSet := [false, true, false, false, true, false] }

/-- The database of `refutedSolver` with the redundant clause `0 ∨ 1 ∨ 3 ∨ 4` at offset
1 and the assumptions `1` and `~4`. -/
def refutedSolverFull : Solver :=
  { refutedSolver with
    watches := [[Watched.clause 1], [], [Watched.clause 0, Watched.clause 1],
                [Watched.binary ⟨2, true⟩ false], [Watched.clause 0],
                [Watched.binary ⟨1, true⟩ false], [], [],
                [Watched.binary ⟨5, true⟩ false], [], [],
                [Watched.binary ⟨4, false⟩ false]],
    clAllocator := [some ⟨[⟨1, false⟩, ⟨2, false⟩, ⟨4, true⟩, ⟨5, false⟩], false⟩,
                    some ⟨[⟨0, false⟩, ⟨1, false⟩, ⟨3, false⟩, ⟨4, false⟩], true⟩],
    longRedCls := [1],
    assumptions := [⟨1, false⟩, ⟨4, true⟩],
    assumptionsSet := [false, true, false, false, true, false] }

/-- A propagation routine that finds nothing to propagate: it drains the queue
(`qhead` reaches the end of the trail) and reports no conflict. -/
def propagateDrain : Solver → Solver × Bool :=
  fun s => ({ s with qhead := s.trail.length }, true)

/-- Three variables after `1 = 2`: the replacer that `replace(+1, +2, true)` leaves on
three fresh variables. -/
def scenarioReplacer : VarReplacer :=
  ⟨[⟨0, false⟩, ⟨2, false⟩, ⟨2, false⟩], [(2, [1])], 1, 0, [], [], []⟩

/-- The solver that `replace(+1, +2, true)` leaves on three fresh variables. -/
def scenarioSolver : Solver :=
  { freshSolver 3 with
    removed := [Removed.none, Removed.queued_replacer, Removed.queued_replacer] }

/-- The solver `scenarioSolver` after variable 1 was forced true from outside and the
queue drained; variable 2 is still unassigned. -/
def forcedSolver : Solver := (propagateDrain (scenarioSolver.enqueue ⟨1, false⟩)).1

/-- The solver `scenarioSolver` after variables 1 and 2 were both set true from outside
and the queue drained. -/
def forcedBothSolver : Solver :=
  (propagateDrain ((scenarioSolver.enqueue ⟨1, false⟩).enqueue ⟨2, false⟩)).1

/-- A clause database for `pairsReplacer` that holds the binary `~1 ∨ ~2` only: the
rewrite turns it into the unit `~2`. -/
def unitSolver : Solver :=
  { pairsSolver with
    watches := [[], [], [], [Watched.binary ⟨2, true⟩ false], [],
                [Watched.binary ⟨1, true⟩ false], [], [], [], [], [], []] }

/-- Every variable assigned in `a` has the same value in `b`. -/
def Solver.keepsAssigned (a b : Solver) : Prop :=
  ∀ (v : Nat) (x : LBool), a.assigns[v]? = some x → x ≠ LBool.l_Undef →
    b.assigns[v]? = some x

/-! ## Deferred equalities, queries, model extension, counters and renumbering -/

/-- The loop of `addLaterAddBinXor` over the queued equalities; `addClauseInt` is the
solver's clause insertion, a collaborator that is not in the sources at hand. The
result is whether the loop ran to its end, and the solver. -/
def addLaterLoop (addClauseInt : Solver → List Lit → Solver) :
    List LaterAddBinXor → Solver → Bool × Solver
  | [], s => (true, s)
  | f :: rest, s =>
    let s1 := addClauseInt s [f.lit1, f.lit2]
    if s1.ok = false then (false, s1)
    else
      let s2 := addClauseInt s1 [f.lit1.xor true, f.lit2.xor true]
      if s2.ok = false then (false, s2) else addLaterLoop addClauseInt rest s2

/-- The method `VarReplacer::addLaterAddBinXor`, the
`materializeDeferredEqualityClauses` of the spec. -/
def addLaterAddBinXor (addClauseInt : Solver → List Lit → Solver) (vr : VarReplacer)
    (s : Solver) : Option (Bool × VarReplacer × Solver) :=
  if s.ok = true then
    if (addLaterLoop addClauseInt vr.laterAddBinXor s).1 = true then
      some (true, { vr with laterAddBinXor := [] },
        (addLaterLoop addClauseInt vr.laterAddBinXor s).2)
    else some (false, vr, (addLaterLoop addClauseInt vr.laterAddBinXor s).2)
  else none

/-- The clauses the specification gives for the queued equalities: two implication
clauses for each fact, in the order of the queue. -/
def equalityClauses (fs : List LaterAddBinXor) : List (List Lit) :=
  fs.flatMap (fun f => [[f.lit1, f.lit2], [f.lit1.neg, f.lit2.neg]])

/-- A clause insertion that only records the clause, as a long clause of the
allocator. -/
def addClauseRecord : Solver → List Lit → Solver :=
  fun s c => { s with clAllocator := s.clAllocator ++ [some ⟨c, false⟩] }

/-- The replacer that `replace(+1, +2, true)` with the defer flag leaves on three fresh
variables: `scenarioReplacer` with the fact `(+1, ~2)` queued. -/
def deferredReplacer : VarReplacer :=
  { scenarioReplacer with laterAddBinXor := [⟨⟨1, false⟩, ⟨2, true⟩⟩] }

/-- The method `VarReplacer::getReplacingVars`, the `listRepresentativeVariables` of
the spec: the keys of the reverse table in the order of the map. -/
def getReplacingVars (vr : VarReplacer) : List Nat :=
  vr.reverseTable.map (fun e => e.1)

/-- The loop of `VarReplacer::extendModel` from index `i` on: a self-mapped variable is
skipped, for any other the clause `[Lit(rep, true), Lit(i, sign)]` and then the clause
of both literals flipped go to `addClause` of the extender, which returns the new
extender and its bool; a `false` fails the assertion `assert(OK)`. -/
def extendModelLoop {E : Type} (addClause : E → List Lit → E × Bool) :
    List Lit → Nat → E → Option E
  | [], _, e => some e
  | t :: rest, i, e =>
    if t.var = i then extendModelLoop addClause rest (i + 1) e
    else
      let lit1 : Lit := ⟨t.var, true⟩
      let lit2 : Lit := ⟨i, t.sign⟩
      let r1 := addClause e [lit1, lit2]
      if r1.2 = false then none
      else
        let r2 := addClause r1.1 [lit1.xor true, lit2.xor true]
        if r2.2 = false then none
        else extendModelLoop addClause rest (i + 1) r2.1

/-- The method `VarReplacer::extendModel(extender)`, with the extender as a state of
any type `E` and its `addClause` as a parameter. -/
def extendModel {E : Type} (addClause : E → List Lit → E × Bool) (vr : VarReplacer)
    (e : E) : Option E :=
  extendModelLoop addClause vr.table 0 e

/-- The clauses that state `v = t` for the table entry `t` of the variable `v`: none
when `t` is on `v` itself, else `(~rep or v^sign)` and `(rep or ~(v^sign))`. -/
def extensionClausesAt (v : Nat) (t : Lit) : List (List Lit) :=
  if t.var = v then []
  else [[⟨t.var, true⟩, ⟨v, t.sign⟩], [⟨t.var, false⟩, ⟨v, !t.sign⟩]]

/-- The clauses of `extensionClausesAt` for the entries of a table that starts at the
variable `i`, in the order of the variables. -/
def extensionClausesFrom : List Lit → Nat → List (List Lit)
  | [], _ => []
  | t :: rest, i => extensionClausesAt i t ++ extensionClausesFrom rest (i + 1)

/-- An extender that records the clauses it is given and accepts each. -/
def recordClause : List (List Lit) → List Lit → List (List Lit) × Bool :=
  fun e c => (e ++ [c], true)

/-- An extender that records the clauses it is given and refuses every clause on the
variable 4. -/
def recordClauseRefuse : List (List Lit) → List Lit → List (List Lit) × Bool :=
  fun e c => (e ++ [c], !(c.any (fun l => l.var == 4)))

/-- Six variables after `1 = 2`, `4 = ~5` and then `1 = 4`: the class of 2 folded under
the representative 5. -/
def pairsMergedReplacer : VarReplacer :=
  ⟨[⟨0, false⟩, ⟨5, true⟩, ⟨5, true⟩, ⟨3, false⟩, ⟨5, true⟩, ⟨5, false⟩],
   [(5, [4, 1, 2])], 3, 0, [], [], []⟩

/-- The number of variables whose table entry is not the positive literal of the
variable itself. -/
def replacedCount (vr : VarReplacer) : Nat :=
  (List.range vr.table.length).countP (fun v => decide (vr.table[v]? ≠ some ⟨v, false⟩))

/-- The value `performReplace` stores in `runStats.actuallyReplacedVars` (line 177):
`replacedVars - lastReplacedVars`. -/
def actuallyReplacedVars (vr : VarReplacer) : Nat :=
  vr.replacedVars - vr.lastReplacedVars

/-- The call `replace(lit1, lit2, xorEqualFalse, _)` reaches the structural case: the
resolved literals are on different variables and neither has a value. -/
def reachesStructural (vr : VarReplacer) (s : Solver) (lit1 lit2 : Lit)
    (xorEqualFalse : Bool) : Prop :=
  ∃ t1 t2, vr.table[lit1.var]? = some t1 ∧ vr.table[lit2.var]? = some t2
    ∧ t1.var ≠ t2.var ∧ s.value t1 = some LBool.l_Undef
    ∧ s.value (t2.xor (!xorEqualFalse)) = some LBool.l_Undef

/-- The replacer `vr` comes from the replacer `a` by calls of `newVar` and returning
calls of `replace`, of which `n` reached the structural case. -/
inductive MergesSince (a : VarReplacer) : VarReplacer → Nat → Prop
  | start : MergesSince a a 0
  | newVar (vr : VarReplacer) (n : Nat) : MergesSince a vr n → MergesSince a vr.newVar n
  | structural (vr vr1 : VarReplacer) (n : Nat) (propagate : Solver → Solver × Bool)
      (s s1 : Solver) (lit1 lit2 : Lit) (xorEqualFalse addLaterAsTwoBins ret : Bool) :
      MergesSince a vr n →
      replace propagate vr s lit1 lit2 xorEqualFalse addLaterAsTwoBins = some (ret, vr1, s1) →
      reachesStructural vr s lit1 lit2 xorEqualFalse →
      MergesSince a vr1 (n + 1)
  | other (vr vr1 : VarReplacer) (n : Nat) (propagate : Solver → Solver × Bool)
      (s s1 : Solver) (lit1 lit2 : Lit) (xorEqualFalse addLaterAsTwoBins ret : Bool) :
      MergesSince a vr n →
      replace propagate vr s lit1 lit2 xorEqualFalse addLaterAsTwoBins = some (ret, vr1, s1) →
      ¬ reachesStructural vr s lit1 lit2 xorEqualFalse →
      MergesSince a vr1 n

/-- The replacer `b` has the table, the reverse table and the two counters of `a`. -/
def VarReplacer.sameIndex (a b : VarReplacer) : Prop :=
  b.table = a.table ∧ b.reverseTable = a.reverseTable ∧ b.replacedVars = a.replacedVars
    ∧ b.lastReplacedVars = a.lastReplacedVars

/-- Four variables after `0 = 3`: the variable 0 points at 3, so the literal `+0`, the
smallest of a clause, resolves to the largest one. -/
def rankReplacer : VarReplacer :=
  ⟨[⟨3, false⟩, ⟨1, false⟩, ⟨2, false⟩, ⟨3, false⟩], [(3, [0])], 1, 0, [], [], []⟩

/-- A solver for `rankReplacer`: nothing assigned, and the ternary clause `0 ∨ 1 ∨ 2`
as its three watch entries. -/
def rankSolver : Solver :=
  { ok := true, decisionLevel := 0, assigns := List.replicate 4 LBool.l_Undef,
    removed := [Removed.queued_replacer, Removed.none, Removed.none, Removed.queued_replacer],
    decisionVar := List.replicate 4 true, trail := [], qhead := 0,
    watches := [[Watched.tri ⟨1, false⟩ ⟨2, false⟩ false], [],
                [Watched.tri ⟨0, false⟩ ⟨2, false⟩ false], [],
                [Watched.tri ⟨0, false⟩ ⟨1, false⟩ false], [], [], []] }

/-- A list mapped element by element through a function that can fail (an access
`at()` out of range): `none` as soon as one call fails. -/
def mapAll {α β : Type} (f : α → Option β) : List α → Option (List β)
  | [] => some []
  | x :: xs =>
    match f x, mapAll f xs with
    | some y, some ys => some (y :: ys)
    | _, _ => none

/-- Modelled from the spec: the helper `updateArray(toUpdate, mapper)` of the
renumbering, not in the sources at hand: the entry `i` becomes the old entry
`mapper[i]`. -/
def updateArray {α : Type} (toUpdate : List α) (mapper : List Nat) : Option (List α) :=
  mapAll (fun i => (mapper[i]?).bind (fun j => toUpdate[j]?)) (List.range toUpdate.length)

/-- Modelled from the spec: the helper `updateLitsMap(toUpdate, mapper)` of the
renumbering, not in the sources at hand: each literal keeps its sign and gets the
variable `mapper[var]`. -/
def updateLitsMap (toUpdate : List Lit) (mapper : List Nat) : Option (List Lit) :=
  mapAll (fun l => (mapper[l.var]?).map (fun v => (⟨v, l.sign⟩ : Lit))) toUpdate

/-- Modelled from the spec: the helper `updateArrayMapCopy(toUpdate, mapper)` of the
renumbering, not in the sources at hand: each variable `x` becomes `mapper[x]`. -/
def updateArrayMapCopy (toUpdate : List Nat) (mapper : List Nat) : Option (List Nat) :=
  mapAll (fun x => mapper[x]?) toUpdate

/-- The statement `newReverseTable[key] = xs`: `operator[]` of the map, which
overwrites the entry of `key` or creates it at its place in the key order. -/
def rtAssign (rt : RevTable) (key : Nat) (xs : List Nat) : RevTable :=
  rtInsert (rtErase rt key) key xs

/-- The loop of `updateVars` over the entries of the reverse table, with the new map
built so far. -/
def updateReverse (outerToInter : List Nat) : RevTable → RevTable → Option RevTable
  | [], new => some new
  | (k, deps) :: rest, new =>
    match updateArrayMapCopy deps outerToInter, outerToInter[k]? with
    | some deps1, some k1 => updateReverse outerToInter rest (rtAssign new k1 deps1)
    | _, _ => none

/-- The method `VarReplacer::updateVars(outerToInter, interToOuter)`; `none` when the
assertion `laterAddBinXor.empty()` fails or an index is out of range. -/
def updateVars (vr : VarReplacer) (outerToInter interToOuter : List Nat) :
    Option VarReplacer :=
  if vr.laterAddBinXor = [] then
    match updateArray vr.table interToOuter with
    | none => none
    | some t1 =>
      match updateLitsMap t1 outerToInter with
      | none => none
      | some t2 =>
        match updateReverse outerToInter vr.reverseTable [] with
        | none => none
        | some rt => some { vr with table := t2, reverseTable := rt }
  else none

/-- Six variables after `1 = 2` and `4 = ~5`, renumbered by `v ↦ v + 1 mod 6`. -/
def pairsRenumbered : VarReplacer :=
  ⟨[⟨0, false⟩, ⟨1, false⟩, ⟨3, false⟩, ⟨3, false⟩, ⟨4, false⟩, ⟨0, true⟩],
   [(0, [5]), (3, [2])], 2, 0, [], [], []⟩

/-! ## Lookup lemmas for the reverse table -/

theorem rtFind_cons (k1 : Nat) (ys : List Nat) (rest : RevTable) (k : Nat) :
    rtFind ((k1, ys) :: rest) k = if k1 = k then some ys else rtFind rest k := rfl

theorem rtFind_rtInsert (rt : RevTable) (key : Nat) (xs : List Nat) (k : Nat)
    (h : rtFind rt key = none) :
    rtFind (rtInsert rt key xs) k = if k = key then some xs else rtFind rt k := by
  induction rt with
  | nil => simp [rtInsert, rtFind, eq_comm]
  | cons e rest ih =>
    obtain ⟨k1, ys⟩ := e
    rw [rtFind_cons] at h
    split at h
    · simp at h
    · rename_i hk1
      simp only [rtInsert]
      split
      · simp only [rtFind_cons]
        by_cases hk : key = k
        · subst hk; simp
        · simp [hk, Ne.symm hk]
      · simp only [rtFind_cons, ih h]
        by_cases hk : k1 = k
        · subst hk; simp [hk1]
        · simp [hk]

theorem rtFind_map_push (rt : RevTable) (key v k : Nat) :
    rtFind (rt.map (fun e => if e.1 = key then (e.1, e.2 ++ [v]) else e)) k
      = if k = key then (rtFind rt k).map (fun xs => xs ++ [v]) else rtFind rt k := by
  induction rt with
  | nil => simp [rtFind]
  | cons e rest ih =>
    obtain ⟨k1, ys⟩ := e
    rw [List.map_cons]
    dsimp only
    by_cases hk1 : k1 = key
    · rw [if_pos hk1, rtFind_cons, rtFind_cons, ih]
      by_cases hk : k1 = k
      · rw [if_pos hk, if_pos hk, if_pos (hk ▸ hk1)]; rfl
      · rw [if_neg hk, if_neg hk]
    · rw [if_neg hk1, rtFind_cons, rtFind_cons, ih]
      by_cases hk : k1 = k
      · rw [if_pos hk, if_pos hk, if_neg (hk ▸ hk1)]
      · rw [if_neg hk, if_neg hk]

theorem rtFind_rtPush (rt : RevTable) (key v k : Nat) :
    rtFind (rtPush rt key v) k
      = if k = key then some ((rtFind rt key).getD [] ++ [v]) else rtFind rt k := by
  unfold rtPush
  simp only [rtFind_map_push]
  by_cases hk : k = key
  · subst hk
    cases hf : rtFind rt k with
    | none => simp [rtFind_rtInsert rt k [] k hf]
    | some xs => simp [hf]
  · cases hf : rtFind rt key with
    | none => simp [hk, rtFind_rtInsert rt key [] k hf]
    | some xs => simp [hk]

theorem rtFind_rtErase (rt : RevTable) (key k : Nat) :
    rtFind (rtErase rt key) k = if k = key then none else rtFind rt k := by
  induction rt with
  | nil => simp [rtErase, rtFind]
  | cons e rest ih =>
    obtain ⟨k1, ys⟩ := e
    have hcons : rtErase ((k1, ys) :: rest) key
        = if k1 = key then rtErase rest key else (k1, ys) :: rtErase rest key := by
      unfold rtErase
      by_cases hk1 : k1 = key <;> simp [List.filter_cons, hk1]
    rw [hcons]
    by_cases hk1 : k1 = key
    · rw [if_pos hk1, ih, rtFind_cons]
      by_cases hk : k1 = k
      · have hkk : k = key := hk.symm.trans hk1
        simp [hkk]
      · rw [if_neg hk]
    · rw [if_neg hk1, rtFind_cons, rtFind_cons, ih]
      by_cases hk : k1 = k
      · rw [if_pos hk, if_pos hk, if_neg (hk ▸ hk1)]
      · rw [if_neg hk, if_neg hk]

/-! ## The invariant is kept by linking -/

theorem invF_mem {T : Nat → Option Lit} {R : Nat → Option (List Nat)} (h : InvF T R)
    (r v : Nat) : v ∈ (R r).getD [] ↔ (v ≠ r ∧ ∃ l, T v = some l ∧ l.var = r) := by
  cases hr : R r with
  | none =>
    simp only [Option.getD_none, List.not_mem_nil, false_iff]
    rintro ⟨hne, l, hl, hv⟩
    exact hne (h.2.2 r hr v l hl hv)
  | some deps => simpa using (h.2.1 r deps hr).2.2 v

theorem invF_nodup {T : Nat → Option Lit} {R : Nat → Option (List Nat)} (h : InvF T R)
    (r : Nat) : ((R r).getD []).Nodup := by
  cases hr : R r with
  | none => simp
  | some deps => simpa using (h.2.1 r deps hr).2.1

/-- Folding the self-mapped variable `x`, with everything that points at it, under the
self-mapped variable `y` keeps the invariant. -/
theorem invF_link {T T' : Nat → Option Lit} {R R' : Nat → Option (List Nat)}
    {x y : Nat} {s : Bool} (h : InvF T R)
    (hx : T x = some ⟨x, false⟩) (hy : T y = some ⟨y, false⟩) (hxy : x ≠ y)
    (hT : ∀ v, T' v = if v = x then some ⟨y, s⟩
      else if v ∈ (R x).getD [] then (T v).map (fun td => (⟨y, s⟩ : Lit).xor td.sign)
      else T v)
    (hR : ∀ k, R' k = if k = y then some ((R y).getD [] ++ (R x).getD [] ++ [x])
      else if k = x then none else R k) :
    InvF T' R' := by
  have memx := invF_mem h x
  have memy := invF_mem h y
  -- what `T'` says, case by case
  have T'x : T' x = some ⟨y, s⟩ := by rw [hT]; simp
  have T'dep : ∀ v, v ∈ (R x).getD [] → ∃ td, T v = some td ∧ td.var = x
      ∧ T' v = some ⟨y, Bool.xor s td.sign⟩ := by
    intro v hv
    obtain ⟨hne, l, hl, hlx⟩ := (memx v).1 hv
    refine ⟨l, hl, hlx, ?_⟩
    rw [hT, if_neg hne, if_pos hv, hl]; rfl
  have T'other : ∀ v, v ≠ x → v ∉ (R x).getD [] → T' v = T v := by
    intro v h1 h2; rw [hT, if_neg h1, if_neg h2]
  have other_var : ∀ v l, v ≠ x → v ∉ (R x).getD [] → T v = some l → l.var ≠ x := by
    intro v l h1 h2 hl hlx
    exact h2 ((memx v).2 ⟨h1, l, hl, hlx⟩)
  have root_not_dep : ∀ r, T r = some ⟨r, false⟩ → r ≠ x → r ∉ (R x).getD [] := by
    intro r hr hrx hmem
    obtain ⟨_, l, hl, hlx⟩ := (memx r).1 hmem
    rw [hr] at hl
    cases hl
    exact hrx hlx
  have T'y : T' y = some ⟨y, false⟩ := by
    rw [T'other y (Ne.symm hxy) (root_not_dep y hy (Ne.symm hxy))]; exact hy
  -- the variable a `T'` entry points at
  have T'var : ∀ v l, T' v = some l →
      (l.var = y ∧ (v = x ∨ v ∈ (R x).getD [])) ∨
      (v ≠ x ∧ v ∉ (R x).getD [] ∧ T v = some l ∧ l.var ≠ x) := by
    intro v l hl
    by_cases h1 : v = x
    · subst h1; rw [T'x] at hl; cases hl; exact Or.inl ⟨rfl, Or.inl rfl⟩
    · by_cases h2 : v ∈ (R x).getD []
      · obtain ⟨td, _, _, h3⟩ := T'dep v h2
        rw [h3] at hl; cases hl; exact Or.inl ⟨rfl, Or.inr h2⟩
      · rw [T'other v h1 h2] at hl
        exact Or.inr ⟨h1, h2, hl, other_var v l h1 h2 hl⟩
  refine ⟨?_, ?_, ?_⟩
  · intro v l hl
    rcases T'var v l hl with ⟨hly, _⟩ | ⟨h1, h2, hTl, hlx⟩
    · rw [hly]; exact T'y
    · have hroot := h.1 v l hTl
      rw [T'other l.var hlx (root_not_dep l.var hroot hlx)]
      exact hroot
  · intro k deps hk
    rw [hR] at hk
    by_cases hky : k = y
    · subst hky
      rw [if_pos rfl] at hk
      cases hk
      refine ⟨by simp, ?_, ?_⟩
      · have n1 := invF_nodup h k
        have n2 := invF_nodup h x
        rw [List.nodup_append, List.nodup_append]
        refine ⟨⟨n1, n2, ?_⟩, by simp, ?_⟩
        · intro a ha1 ha2
          obtain ⟨_, l1, hl1, hv1⟩ := (memy a).1 ha1
          obtain ⟨_, l2, hl2, hv2⟩ := (memx a).1 ha2
          rw [hl1] at hl2; cases hl2
          exact hxy (hv2.symm.trans hv1)
        · intro a ha1 ha2
          simp only [List.mem_singleton] at ha2
          subst ha2
          rcases List.mem_append.1 ha1 with ha | ha
          · obtain ⟨_, l1, hl1, hv1⟩ := (memy a).1 ha
            rw [hx] at hl1; cases hl1
            exact hxy hv1
          · exact ((memx a).1 ha).1 rfl
      · intro v
        simp only [List.mem_append, List.mem_singleton]
        constructor
        · rintro ((hv | hv) | hv)
          · obtain ⟨hne, l, hl, hlv⟩ := (memy v).1 hv
            have hvx : v ≠ x := by
              rintro rfl; rw [hx] at hl; cases hl; exact hxy hlv
            have hnd : v ∉ (R x).getD [] := by
              intro hmem
              obtain ⟨_, l2, hl2, hv2⟩ := (memx v).1 hmem
              rw [hl] at hl2; cases hl2
              exact hxy (hv2.symm.trans hlv)
            exact ⟨hne, l, by rw [T'other v hvx hnd]; exact hl, hlv⟩
          · obtain ⟨td, _, _, h3⟩ := T'dep v hv
            refine ⟨?_, _, h3, rfl⟩
            rintro rfl
            exact root_not_dep v hy (Ne.symm hxy) hv
          · subst hv
            exact ⟨hxy, _, T'x, rfl⟩
        · rintro ⟨hne, l, hl, hlv⟩
          rcases T'var v l hl with ⟨_, h1 | h1⟩ | ⟨h1, h2, hTl, _⟩
          · exact Or.inr h1
          · exact Or.inl (Or.inr h1)
          · exact Or.inl (Or.inl ((memy v).2 ⟨hne, l, hTl, hlv⟩))
    · rw [if_neg hky] at hk
      by_cases hkx : k = x
      · rw [if_pos hkx] at hk; cases hk
      · rw [if_neg hkx] at hk
        obtain ⟨d1, d2, d3⟩ := h.2.1 k deps hk
        refine ⟨d1, d2, ?_⟩
        intro v
        rw [d3 v]
        constructor
        · rintro ⟨hne, l, hl, hlv⟩
          have hvx : v ≠ x := by
            rintro rfl; rw [hx] at hl; cases hl; exact hkx hlv.symm
          have hnd : v ∉ (R x).getD [] := by
            intro hmem
            obtain ⟨_, l2, hl2, hv2⟩ := (memx v).1 hmem
            rw [hl] at hl2; cases hl2
            exact hkx (hlv.symm.trans hv2)
          exact ⟨hne, l, by rw [T'other v hvx hnd]; exact hl, hlv⟩
        · rintro ⟨hne, l, hl, hlv⟩
          rcases T'var v l hl with ⟨h0, _⟩ | ⟨_, _, hTl, _⟩
          · exact absurd (hlv.symm.trans h0) hky
          · exact ⟨hne, l, hTl, hlv⟩
  · intro k hk v l hl hlv
    rw [hR] at hk
    by_cases hky : k = y
    · rw [if_pos hky] at hk; cases hk
    · rw [if_neg hky] at hk
      rcases T'var v l hl with ⟨h0, _⟩ | ⟨h1, h2, hTl, hlx⟩
      · exact absurd (hlv.symm.trans h0) hky
      · by_cases hkx : k = x
        · exact absurd (hlv.trans hkx) hlx
        · rw [if_neg hkx] at hk
          exact h.2.2 k hk v l hTl hlv

/-! ## Closed forms of `setAllThatPointsHereTo` and of the structural merge -/

theorem getElem?_set_lt {α : Type} (l : List α) (i : Nat) (a : α) (v : Nat)
    (hi : i < l.length) : (l.set i a)[v]? = if v = i then some a else l[v]? := by
  rw [List.getElem?_set]
  by_cases h : i = v
  · subst h; simp [hi]
  · simp [h, Ne.symm h]

/-- The loop of `setAllThatPointsHereTo` in closed form. -/
theorem repointAll_spec (var : Nat) (lit : Lit) (deps : List Nat) :
    ∀ (table : List Lit) (rt : RevTable),
    (∀ d ∈ deps, ∃ td, table[d]? = some td ∧ td.var = var) → deps.Nodup → lit.var ∉ deps →
    ∃ t1 rt1, repointAll var lit deps table rt = some (t1, rt1)
      ∧ t1.length = table.length
      ∧ (∀ v, t1[v]? = if v ∈ deps then (table[v]?).map (fun td => lit.xor td.sign)
          else table[v]?)
      ∧ (rtFind rt1 lit.var).getD [] = (rtFind rt lit.var).getD [] ++ deps
      ∧ (∀ k, k ≠ lit.var → rtFind rt1 k = rtFind rt k) := by
  induction deps with
  | nil =>
    intro table rt _ _ _
    exact ⟨table, rt, rfl, rfl, by simp, by simp, fun _ _ => rfl⟩
  | cons d ds ih =>
    intro table rt hdeps hnd hy
    obtain ⟨td, htd, htv⟩ := hdeps d (List.mem_cons_self d ds)
    have hdlen : d < table.length := by
      rcases List.getElem?_eq_some.1 htd with ⟨hlt, _⟩; exact hlt
    have hyd : lit.var ≠ d := fun e => hy (e ▸ List.mem_cons_self d ds)
    have hyds : lit.var ∉ ds := fun e => hy (List.mem_cons_of_mem d e)
    have hdds : d ∉ ds := (List.nodup_cons.1 hnd).1
    have hnds : ds.Nodup := (List.nodup_cons.1 hnd).2
    have hstep : ∀ d1 ∈ ds, ∃ td1, (table.set d (lit.xor td.sign))[d1]? = some td1
        ∧ td1.var = var := by
      intro d1 hd1
      obtain ⟨td1, h1, h2⟩ := hdeps d1 (List.mem_cons_of_mem d hd1)
      have hne : d1 ≠ d := fun e => hdds (e ▸ hd1)
      exact ⟨td1, by rw [getElem?_set_lt _ _ _ _ hdlen, if_neg hne]; exact h1, h2⟩
    obtain ⟨t1, rt1, hrun, hlen, ht, hr1, hr2⟩ :=
      ih (table.set d (lit.xor td.sign)) (rtPush rt lit.var d) hstep hnds hyds
    refine ⟨t1, rt1, ?_, ?_, ?_, ?_, ?_⟩
    · simp only [repointAll, htd]
      rw [if_neg (by simpa using htv), if_pos hyd]
      exact hrun
    · rw [hlen, List.length_set]
    · intro v
      rw [ht v, getElem?_set_lt _ _ _ _ hdlen]
      by_cases hvd : v = d
      · subst hvd
        simp [hdds, htd]
      · by_cases hvds : v ∈ ds
        · simp [hvd, hvds]
        · simp [hvd, hvds]
    · rw [hr1, rtFind_rtPush]
      simp
    · intro k hk
      rw [hr2 k hk, rtFind_rtPush, if_neg hk]

/-- Under the invariant, `setAllThatPointsHereTo` of a self-mapped `x` to a literal of
another self-mapped variable returns, and links `x` under that variable. -/
theorem setAll_linked (vr : VarReplacer) (x : Nat) (lit : Lit) (h : WellFormed vr)
    (hx : vr.table[x]? = some ⟨x, false⟩) (hy : vr.table[lit.var]? = some ⟨lit.var, false⟩)
    (hxy : x ≠ lit.var) :
    ∃ vr1, setAllThatPointsHereTo vr x lit = some vr1 ∧ Linked vr vr1 x lit.var lit.sign
      ∧ vr1.replacedVars = vr.replacedVars ∧ vr1.lastReplacedVars = vr.lastReplacedVars
      ∧ vr1.laterAddBinXor = vr.laterAddBinXor ∧ vr1.delayedEnqueue = vr.delayedEnqueue
      ∧ vr1.delayedAttach = vr.delayedAttach := by
  have hxlen : x < vr.table.length := by
    rcases List.getElem?_eq_some.1 hx with ⟨hlt, _⟩; exact hlt
  have memx := invF_mem h x
  have hlit : (⟨lit.var, lit.sign⟩ : Lit) = lit := rfl
  cases hf : rtFind vr.reverseTable x with
  | none =>
    refine ⟨{ vr with table := vr.table.set x lit,
                      reverseTable := rtPush vr.reverseTable lit.var x },
      ?_, ⟨?_, ?_, ?_⟩, rfl, rfl, rfl, rfl, rfl⟩
    · simp only [setAllThatPointsHereTo, hf]
      rw [if_pos hxlen]
    · simp
    · intro v
      simp only [getElem?_set_lt _ _ _ _ hxlen, hf, Option.getD_none, List.not_mem_nil,
        if_false]
    · intro k
      simp only [rtFind_rtPush, hf, Option.getD_none, List.append_nil]
      by_cases hk : k = lit.var
      · simp [hk]
      · by_cases hkx : k = x
        · subst hkx; simp [hk, hf]
        · simp [hk, hkx]
  | some deps =>
    have hdeps : ∀ d ∈ deps, ∃ td, vr.table[d]? = some td ∧ td.var = x := by
      intro d hd
      have := (memx d).1 (by rw [hf]; exact hd)
      exact this.2
    have hnd : deps.Nodup := by simpa [hf] using invF_nodup h x
    have hynot : lit.var ∉ deps := by
      intro hmem
      obtain ⟨td, h1, h2⟩ := hdeps _ hmem
      have h3 : vr.table[lit.var]? = some td := h1
      rw [hy] at h3; cases h3
      exact hxy h2.symm
    obtain ⟨t1, rt1, hrun, hlen, ht, hr1, hr2⟩ :=
      repointAll_spec x lit deps vr.table vr.reverseTable hdeps hnd hynot
    have hx1 : x < t1.length := by rw [hlen]; exact hxlen
    refine ⟨{ vr with table := t1.set x lit,
                      reverseTable := rtPush (rtErase rt1 x) lit.var x },
      ?_, ⟨?_, ?_, ?_⟩, rfl, rfl, rfl, rfl, rfl⟩
    · simp only [setAllThatPointsHereTo, hf, hrun, Option.map_some']
      rw [if_pos hx1]
    · simp [hlen]
    · intro v
      simp only [getElem?_set_lt _ _ _ _ hx1, ht v, hf, Option.getD_some]
    · intro k
      simp only [rtFind_rtPush, rtFind_rtErase, hf, Option.getD_some]
      by_cases hk : k = lit.var
      · subst hk
        rw [if_pos rfl, if_pos rfl, if_neg (Ne.symm hxy), hr1]
      · rw [if_neg hk, if_neg hk]
        by_cases hkx : k = x
        · rw [if_pos hkx, if_pos hkx]
        · rw [if_neg hkx, if_neg hkx, hr2 k hk]

/-- A linked replacer keeps the invariant. -/
theorem wellFormed_of_linked (vr vr1 : VarReplacer) (x y : Nat) (s : Bool)
    (h : WellFormed vr) (hx : vr.table[x]? = some ⟨x, false⟩)
    (hy : vr.table[y]? = some ⟨y, false⟩) (hxy : x ≠ y) (hl : Linked vr vr1 x y s) :
    WellFormed vr1 :=
  invF_link h hx hy hxy hl.2.1 hl.2.2

@[simp] theorem Lit.xor_var (l : Lit) (b : Bool) : (l.xor b).var = l.var := rfl
@[simp] theorem Lit.xor_sign (l : Lit) (b : Bool) : (l.xor b).sign = Bool.xor l.sign b := rfl
@[simp] theorem Lit.neg_var (l : Lit) : l.neg.var = l.var := rfl
@[simp] theorem Lit.neg_sign (l : Lit) : l.neg.sign = !l.sign := rfl
@[simp] theorem Lit.xor_false (l : Lit) : l.xor false = l := by
  cases l; simp [Lit.xor]
theorem Lit.xor_true (l : Lit) : l.xor true = l.neg := by
  cases l; simp [Lit.xor, Lit.neg]
@[simp] theorem Lit.xor_xor (l : Lit) (b : Bool) : (l.xor b).xor b = l := by
  cases l; cases b <;> simp [Lit.xor]

/-- The body of `replace` once the entry checks pass and both table reads succeed. -/
theorem replace_unfold (propagate : Solver → Solver × Bool) (vr : VarReplacer) (s : Solver)
    (lit1 lit2 t1 t2 : Lit) (x dl : Bool) (hc : replaceChecks s lit1 lit2)
    (h1 : vr.table[lit1.var]? = some t1) (h2 : vr.table[lit2.var]? = some t2) :
    replace propagate vr s lit1 lit2 x dl =
      if t1.var = t2.var then
        some ((handleAlreadyReplaced s t1 (t2.xor (!x))).1, vr,
              (handleAlreadyReplaced s t1 (t2.xor (!x))).2)
      else if s.noneOrQueued t1.var ∧ s.noneOrQueued t2.var then
        match s.value t1, s.value (t2.xor (!x)) with
        | some val1, some val2 =>
          if val1 ≠ LBool.l_Undef ∧ val2 ≠ LBool.l_Undef then
            some ((handleBothSet s val1 val2).1, vr, (handleBothSet s val1 val2).2)
          else if (val1 ≠ LBool.l_Undef ∧ val2 = LBool.l_Undef)
              ∨ (val2 ≠ LBool.l_Undef ∧ val1 = LBool.l_Undef) then
            some ((handleOneSet propagate s t1 val1 (t2.xor (!x)) val2).1, vr,
                  (handleOneSet propagate s t1 val1 (t2.xor (!x)) val2).2)
          else replaceStructural vr s t1 (t2.xor (!x)) dl
        | _, _ => none
      else none := by
  simp only [replace, if_pos hc, h1, h2, Lit.xor_var]

/-- A call of `replace` that returns passed the entry checks and read both entries. -/
theorem replace_some_pre (propagate : Solver → Solver × Bool) (vr : VarReplacer) (s : Solver)
    (lit1 lit2 : Lit) (x dl : Bool) (r : Bool × VarReplacer × Solver)
    (h : replace propagate vr s lit1 lit2 x dl = some r) :
    replaceChecks s lit1 lit2 ∧ ∃ t1 t2, vr.table[lit1.var]? = some t1
      ∧ vr.table[lit2.var]? = some t2 := by
  by_cases hc : replaceChecks s lit1 lit2
  · refine ⟨hc, ?_⟩
    cases h1 : vr.table[lit1.var]? with
    | none => simp [replace, hc, h1] at h
    | some t1 =>
      cases h2 : vr.table[lit2.var]? with
      | none => simp [replace, hc, h1, h2] at h
      | some t2 => exact ⟨t1, t2, rfl, rfl⟩
  · simp [replace, hc] at h

/-- The structural merge in closed form: under the invariant, for resolved literals of
two different self-mapped variables it returns `true`, marks both variables queued,
adds one to the counter, queues the equality when asked to, and links one variable
under the other: the second under the first exactly when the first has an entry in the
reverse table and the second has none. -/
theorem replaceStructural_spec (vr : VarReplacer) (s : Solver) (l1 l2 : Lit) (dl : Bool)
    (h : WellFormed vr) (hx : vr.table[l1.var]? = some ⟨l1.var, false⟩)
    (hy : vr.table[l2.var]? = some ⟨l2.var, false⟩) (hxy : l1.var ≠ l2.var) :
    ∃ vr1, replaceStructural vr s l1 l2 dl = some (true, vr1,
        { s with removed := (s.removed.set l1.var Removed.queued_replacer).set l2.var Removed.queued_replacer })
      ∧ (if rtFind vr.reverseTable l1.var ≠ none ∧ rtFind vr.reverseTable l2.var = none
          then Linked vr vr1 l2.var l1.var (Bool.xor l1.sign l2.sign)
          else Linked vr vr1 l1.var l2.var (Bool.xor l2.sign l1.sign))
      ∧ vr1.replacedVars = vr.replacedVars + 1
      ∧ vr1.lastReplacedVars = vr.lastReplacedVars
      ∧ vr1.laterAddBinXor
          = (if dl then vr.laterAddBinXor ++ [⟨l1, l2.xor true⟩] else vr.laterAddBinXor)
      ∧ vr1.delayedEnqueue = vr.delayedEnqueue ∧ vr1.delayedAttach = vr.delayedAttach := by
  -- the replacer after the optional push on `laterAddBinXor`
  let vr0 : VarReplacer := if dl
    then { vr with laterAddBinXor := vr.laterAddBinXor ++ [⟨l1, l2.xor true⟩] } else vr
  have ht0 : vr0.table = vr.table := by simp only [vr0]; split <;> rfl
  have hr0 : vr0.reverseTable = vr.reverseTable := by simp only [vr0]; split <;> rfl
  have hc0 : vr0.replacedVars = vr.replacedVars := by simp only [vr0]; split <;> rfl
  have hlast0 : vr0.lastReplacedVars = vr.lastReplacedVars := by simp only [vr0]; split <;> rfl
  have hq0 : vr0.laterAddBinXor
      = (if dl then vr.laterAddBinXor ++ [⟨l1, l2.xor true⟩] else vr.laterAddBinXor) := by
    simp only [vr0]; split <;> rfl
  have he0 : vr0.delayedEnqueue = vr.delayedEnqueue := by simp only [vr0]; split <;> rfl
  have ha0 : vr0.delayedAttach = vr.delayedAttach := by simp only [vr0]; split <;> rfl
  have hwf0 : WellFormed vr0 := by unfold WellFormed; rw [ht0, hr0]; exact h
  have hlink : ∀ vr1 a b sg, Linked vr0 vr1 a b sg → Linked vr vr1 a b sg := by
    intro vr1 a b sg hl; unfold Linked at hl ⊢; rw [ht0, hr0] at hl; exact hl
  have hbody : replaceStructural vr s l1 l2 dl =
      if rtFind vr0.reverseTable l1.var = none then
        some (true,
          { vr0 with reverseTable := rtPush vr0.reverseTable l2.var l1.var,
                     table := vr0.table.set l1.var (l2.xor l1.sign),
                     replacedVars := vr0.replacedVars + 1 },
          { s with removed := (s.removed.set l1.var Removed.queued_replacer).set l2.var Removed.queued_replacer })
      else if rtFind vr0.reverseTable l2.var = none then
        some (true,
          { vr0 with reverseTable := rtPush vr0.reverseTable l1.var l2.var,
                     table := vr0.table.set l2.var (l1.xor l2.sign),
                     replacedVars := vr0.replacedVars + 1 },
          { s with removed := (s.removed.set l1.var Removed.queued_replacer).set l2.var Removed.queued_replacer })
      else
        match setAllThatPointsHereTo vr0 l1.var (l2.xor l1.sign) with
        | none => none
        | some vr2 => some (true, { vr2 with replacedVars := vr2.replacedVars + 1 },
          { s with removed := (s.removed.set l1.var Removed.queued_replacer).set l2.var Removed.queued_replacer }) := rfl
  rw [hbody]
  have hx0 : vr0.table[l1.var]? = some ⟨l1.var, false⟩ := by rw [ht0]; exact hx
  have hy0 : vr0.table[l2.var]? = some ⟨l2.var, false⟩ := by rw [ht0]; exact hy
  by_cases hf1 : rtFind vr0.reverseTable l1.var = none
  · -- first variable has no entry: it goes under the second
    obtain ⟨vr2, hrun, hlk, e1, e2, e3, e4, e5⟩ :=
      setAll_linked vr0 l1.var (l2.xor l1.sign) hwf0 hx0 hy0 hxy
    have hrun2 : vr2 = { vr0 with table := vr0.table.set l1.var (l2.xor l1.sign),
                                  reverseTable := rtPush vr0.reverseTable l2.var l1.var } := by
      have hlen : l1.var < vr0.table.length := by
        rcases List.getElem?_eq_some.1 hx0 with ⟨hlt, _⟩; exact hlt
      simp only [setAllThatPointsHereTo, hf1, Lit.xor_var] at hrun
      rw [if_pos hlen] at hrun
      exact (Option.some.inj hrun).symm
    rw [if_pos hf1]
    refine ⟨_, rfl, ?_, ?_, hlast0, hq0, he0, ha0⟩
    · rw [if_neg (by rw [← hr0]; simp [hf1])]
      apply hlink
      rw [hrun2] at hlk
      exact hlk
    · simp [hc0]
  · rw [if_neg hf1]
    by_cases hf2 : rtFind vr0.reverseTable l2.var = none
    · -- only the first variable has an entry: the second goes under it
      obtain ⟨vr2, hrun, hlk, e1, e2, e3, e4, e5⟩ :=
        setAll_linked vr0 l2.var (l1.xor l2.sign) hwf0 hy0 hx0 (Ne.symm hxy)
      have hrun2 : vr2 = { vr0 with table := vr0.table.set l2.var (l1.xor l2.sign),
                                    reverseTable := rtPush vr0.reverseTable l1.var l2.var } := by
        have hlen : l2.var < vr0.table.length := by
          rcases List.getElem?_eq_some.1 hy0 with ⟨hlt, _⟩; exact hlt
        simp only [setAllThatPointsHereTo, hf2, Lit.xor_var] at hrun
        rw [if_pos hlen] at hrun
        exact (Option.some.inj hrun).symm
      rw [if_pos hf2]
      refine ⟨_, rfl, ?_, ?_, hlast0, hq0, he0, ha0⟩
      · rw [if_pos (by rw [← hr0]; exact ⟨hf1, hf2⟩)]
        apply hlink
        rw [hrun2] at hlk
        exact hlk
      · simp [hc0]
    · -- both have entries: the first, with its entry, goes under the second
      obtain ⟨vr2, hrun, hlk, e1, e2, e3, e4, e5⟩ :=
        setAll_linked vr0 l1.var (l2.xor l1.sign) hwf0 hx0 hy0 hxy
      rw [if_neg hf2, hrun]
      refine ⟨_, rfl, ?_, ?_, ?_, ?_, ?_, ?_⟩
      · rw [if_neg (by rw [← hr0]; exact fun hh => hf2 hh.2)]
        apply hlink
        exact hlk
      · simp [e1, hc0]
      · simp [e2, hlast0]
      · simp [e3, hq0]
      · simp [e4, he0]
      · simp [e5, ha0]

/-! ## Every reachable replacer satisfies the invariant -/

/-- A call of `replace` that returns either leaves the replacer alone or went through
the structural merge of two different resolved variables. -/
theorem replace_inv (propagate : Solver → Solver × Bool) (vr vr1 : VarReplacer)
    (s s1 : Solver) (lit1 lit2 : Lit) (x dl ret : Bool)
    (h : replace propagate vr s lit1 lit2 x dl = some (ret, vr1, s1)) :
    vr1 = vr ∨ ∃ t1 t2, vr.table[lit1.var]? = some t1 ∧ vr.table[lit2.var]? = some t2
      ∧ t1.var ≠ t2.var
      ∧ replaceStructural vr s t1 (t2.xor (!x)) dl = some (ret, vr1, s1) := by
  obtain ⟨hc, t1, t2, h1, h2⟩ := replace_some_pre propagate vr s lit1 lit2 x dl _ h
  rw [replace_unfold propagate vr s lit1 lit2 t1 t2 x dl hc h1 h2] at h
  split at h
  · left; simp only [Option.some.injEq, Prod.mk.injEq] at h; exact h.2.1.symm
  · rename_i hne
    split at h
    · split at h
      · split at h
        · left; simp only [Option.some.injEq, Prod.mk.injEq] at h; exact h.2.1.symm
        · split at h
          · left; simp only [Option.some.injEq, Prod.mk.injEq] at h; exact h.2.1.symm
          · right; exact ⟨t1, t2, h1, h2, hne, h⟩
      · cases h
    · cases h

theorem wellFormed_init : WellFormed VarReplacer.init := by
  refine ⟨?_, ?_, ?_⟩
  · intro v l hl; simp [VarReplacer.init] at hl
  · intro r deps hr; simp [VarReplacer.init, rtFind] at hr
  · intro r _ v l hl; simp [VarReplacer.init] at hl

theorem newVar_getElem? (vr : VarReplacer) (v : Nat) :
    vr.newVar.table[v]? = if v = vr.table.length then some ⟨v, false⟩ else vr.table[v]? := by
  unfold VarReplacer.newVar
  simp only
  by_cases hv : v = vr.table.length
  · subst hv; simp
  · rw [if_neg hv]
    by_cases hlt : v < vr.table.length
    · rw [List.getElem?_append_left hlt]
    · have hgt : vr.table.length < v := by omega
      rw [List.getElem?_eq_none (by simp; omega), List.getElem?_eq_none (by omega)]

theorem wellFormed_newVar (vr : VarReplacer) (h : WellFormed vr) : WellFormed vr.newVar := by
  have hold : ∀ v l, vr.table[v]? = some l → v ≠ vr.table.length := by
    intro v l hl hv
    rcases List.getElem?_eq_some.1 hl with ⟨hlt, _⟩
    omega
  have hnew : ∀ v l, vr.newVar.table[v]? = some l →
      (v = vr.table.length ∧ l = ⟨v, false⟩) ∨ (v ≠ vr.table.length ∧ vr.table[v]? = some l) := by
    intro v l hl
    rw [newVar_getElem?] at hl
    by_cases hv : v = vr.table.length
    · rw [if_pos hv] at hl; left; exact ⟨hv, (Option.some.inj hl).symm⟩
    · rw [if_neg hv] at hl; right; exact ⟨hv, hl⟩
  have hrt : vr.newVar.reverseTable = vr.reverseTable := rfl
  unfold WellFormed
  rw [hrt]
  refine ⟨?_, ?_, ?_⟩
  · intro v l hl
    rcases hnew v l hl with ⟨hv, rfl⟩ | ⟨hv, hl1⟩
    · show vr.newVar.table[v]? = _
      rw [newVar_getElem?, if_pos hv]
    · have h2 := h.1 v l hl1
      show vr.newVar.table[l.var]? = _
      rw [newVar_getElem?, if_neg (hold _ _ h2)]
      exact h2
  · intro r deps hr
    obtain ⟨d1, d2, d3⟩ := h.2.1 r deps hr
    refine ⟨d1, d2, ?_⟩
    intro v
    rw [d3 v]
    constructor
    · rintro ⟨hne, l, hl, hlv⟩
      refine ⟨hne, l, ?_, hlv⟩
      show vr.newVar.table[v]? = _
      rw [newVar_getElem?, if_neg (hold _ _ hl)]
      exact hl
    · rintro ⟨hne, l, hl, hlv⟩
      rcases hnew v l hl with ⟨hv, rfl⟩ | ⟨hv, hl1⟩
      · exact absurd hlv hne
      · exact ⟨hne, l, hl1, hlv⟩
  · intro r hr v l hl hlv
    rcases hnew v l hl with ⟨hv, rfl⟩ | ⟨hv, hl1⟩
    · exact hlv
    · exact h.2.2 r hr v l hl1 hlv

/-- The structural merge keeps the invariant. -/
theorem replaceStructural_wellFormed (vr vr1 : VarReplacer) (s s1 : Solver) (l1 l2 : Lit)
    (dl ret : Bool) (h : WellFormed vr) (hx : vr.table[l1.var]? = some ⟨l1.var, false⟩)
    (hy : vr.table[l2.var]? = some ⟨l2.var, false⟩) (hxy : l1.var ≠ l2.var)
    (hrun : replaceStructural vr s l1 l2 dl = some (ret, vr1, s1)) : WellFormed vr1 := by
  obtain ⟨vr2, hrun2, hlk, _⟩ := replaceStructural_spec vr s l1 l2 dl h hx hy hxy
  rw [hrun2] at hrun
  simp only [Option.some.injEq, Prod.mk.injEq] at hrun
  obtain ⟨_, rfl, _⟩ := hrun
  split at hlk
  · exact wellFormed_of_linked vr vr2 _ _ _ h hy hx (Ne.symm hxy) hlk
  · exact wellFormed_of_linked vr vr2 _ _ _ h hx hy hxy hlk

/-- Every call of `replace` that returns keeps the invariant. -/
theorem replace_wellFormed (propagate : Solver → Solver × Bool) (vr vr1 : VarReplacer)
    (s s1 : Solver) (lit1 lit2 : Lit) (x dl ret : Bool) (h : WellFormed vr)
    (hrun : replace propagate vr s lit1 lit2 x dl = some (ret, vr1, s1)) :
    WellFormed vr1 := by
  rcases replace_inv propagate vr vr1 s s1 lit1 lit2 x dl ret hrun with rfl | ⟨t1, t2, h1, h2, hne, hs⟩
  · exact h
  · exact replaceStructural_wellFormed vr vr1 s s1 t1 (t2.xor (!x)) dl ret h
      (h.1 _ _ h1) (h.1 _ t2 h2) hne hs

/-- Every reachable replacer satisfies the invariant. -/
theorem reachable_wellFormed (vr : VarReplacer) (h : Reachable vr) : WellFormed vr := by
  induction h with
  | init => exact wellFormed_init
  | newVar vr _ ih => exact wellFormed_newVar vr ih
  | replace vr vr1 propagate s s1 lit1 lit2 x dl ret _ hrun ih =>
    exact replace_wellFormed propagate vr vr1 s s1 lit1 lit2 x dl ret ih hrun

/-! ## Reachability of the concrete states -/

theorem reachable_freshReplacer (n : Nat) : Reachable (freshReplacer n) := by
  induction n with
  | zero => exact Reachable.init
  | succ n ih => exact Reachable.newVar _ ih

theorem reachable_mergeSeq (ms : List (Nat × Nat × Bool)) :
    ∀ (st st1 : VarReplacer × Solver), Reachable st.1 → mergeSeq ms st = some st1 →
      Reachable st1.1 := by
  induction ms with
  | nil =>
    intro st st1 h hrun
    simp only [mergeSeq, Option.some.injEq] at hrun
    rw [← hrun]; exact h
  | cons m rest ih =>
    intro st st1 h hrun
    obtain ⟨a, b, rel⟩ := m
    simp only [mergeSeq] at hrun
    cases hr : replace propagateNone st.1 st.2 ⟨a, false⟩ ⟨b, false⟩ rel false with
    | none => rw [hr] at hrun; cases hrun
    | some r =>
      rw [hr] at hrun
      obtain ⟨ret, vr1, s1⟩ := r
      exact ih (vr1, s1) st1
        (Reachable.replace st.1 vr1 propagateNone st.2 s1 _ _ rel false ret h hr) hrun

theorem reachable_demoReplacer : Reachable demoReplacer :=
  reachable_mergeSeq [(1, 2, true), (2, 3, true), (4, 5, false), (1, 4, true)]
    (freshReplacer 6, freshSolver 6) (demoReplacer, _) (reachable_freshReplacer 6)
    (by decide : mergeSeq [(1, 2, true), (2, 3, true), (4, 5, false), (1, 4, true)]
        (freshReplacer 6, freshSolver 6)
      = some (demoReplacer, { freshSolver 6 with removed := [Removed.none,
          Removed.queued_replacer, Removed.queued_replacer, Removed.queued_replacer,
          Removed.queued_replacer, Removed.queued_replacer] }))

/-! ## What a link does to the entry of a variable -/

theorem linked_lookup (vr vr1 : VarReplacer) (x y : Nat) (sg : Bool) (h : WellFormed vr)
    (hl : Linked vr vr1 x y sg) (hx : vr.table[x]? = some ⟨x, false⟩)
    (v : Nat) (t : Lit) (hv : vr.table[v]? = some t) :
    vr1.table[v]? = some (if t.var = x then ⟨y, Bool.xor sg t.sign⟩ else t) := by
  have memx := invF_mem h x
  rw [hl.2.1 v]
  by_cases hvx : v = x
  · subst hvx
    rw [hx] at hv; cases hv
    simp
  · rw [if_neg hvx]
    by_cases htx : t.var = x
    · have hmem : v ∈ (rtFind vr.reverseTable x).getD [] := (memx v).2 ⟨hvx, t, hv, htx⟩
      rw [if_pos hmem, if_pos htx, hv]
      rfl
    · have hmem : v ∉ (rtFind vr.reverseTable x).getD [] := by
        intro hm
        obtain ⟨_, t2, h2, h3⟩ := (memx v).1 hm
        have h4 : vr.table[v]? = some t2 := h2
        rw [hv] at h4; cases h4
        exact htx h3
      rw [if_neg hmem, if_neg htx]
      exact hv

/-! ## The claims -/

/-- C1 (flattening invariant). In every replacer reachable from the constructor by
`newVar` and completed `replace` calls, each table entry points at a variable whose own
entry is its positive literal, and resolving a literal twice gives the same literal as
resolving it once. -/
theorem flattening_invariant (vr : VarReplacer) (h : Reachable vr) :
    (∀ (v : Nat) (t : Lit), vr.table[v]? = some t →
        vr.table[t.var]? = some ⟨t.var, false⟩)
    ∧ (∀ l : Lit, l.var < vr.table.length →
        ∃ r, vr.getLitReplacedWith l = some r ∧ vr.getLitReplacedWith r = some r) := by
  have hwf := reachable_wellFormed vr h
  refine ⟨fun v t hv => hwf.1 v t hv, ?_⟩
  intro l hl
  have hsome : vr.table[l.var]? = some (vr.table[l.var]) := List.getElem?_eq_getElem hl
  refine ⟨(vr.table[l.var]).xor l.sign, ?_, ?_⟩
  · simp [VarReplacer.getLitReplacedWith, hsome]
  · have hroot := hwf.1 _ _ hsome
    simp only [VarReplacer.getLitReplacedWith, Lit.xor_var]
    have hroot2 : vr.table[(vr.table[l.var]).var]? = some ⟨(vr.table[l.var]).var, false⟩ := hroot
    rw [hroot2]
    simp [Lit.xor]

/-- Witness of C1 on six variables merged through all three structural cases. -/
theorem flattening_invariant_witness :
    Reachable demoReplacer
    ∧ ((∀ (v : Nat) (t : Lit), demoReplacer.table[v]? = some t →
          demoReplacer.table[t.var]? = some ⟨t.var, false⟩)
      ∧ (∀ l : Lit, l.var < demoReplacer.table.length →
          ∃ r, demoReplacer.getLitReplacedWith l = some r
            ∧ demoReplacer.getLitReplacedWith r = some r)) :=
  ⟨reachable_demoReplacer, flattening_invariant demoReplacer reachable_demoReplacer⟩

/-- C2 (reverse-index exactness). In every reachable replacer, the reverse table has
an entry for `r` exactly when some other variable's table entry has variable `r`, and
the entry lists, without repetition, exactly those other variables. -/
theorem reverse_index_exact (vr : VarReplacer) (h : Reachable vr) (r : Nat) :
    ((rtFind vr.reverseTable r).isSome ↔ ∃ v, v ≠ r ∧ ∃ t, vr.table[v]? = some t ∧ t.var = r)
    ∧ (∀ deps, rtFind vr.reverseTable r = some deps →
        deps.Nodup ∧ ∀ v, v ∈ deps ↔ (v ≠ r ∧ ∃ t, vr.table[v]? = some t ∧ t.var = r)) := by
  have hwf := reachable_wellFormed vr h
  constructor
  · constructor
    · intro hs
      obtain ⟨deps, hd⟩ := Option.isSome_iff_exists.1 hs
      obtain ⟨hne, _, hmem⟩ := hwf.2.1 r deps hd
      obtain ⟨v, hv⟩ := List.exists_mem_of_ne_nil deps hne
      exact ⟨v, (hmem v).1 hv⟩
    · rintro ⟨v, hne, t, ht, htr⟩
      cases hf : rtFind vr.reverseTable r with
      | none => exact absurd (hwf.2.2 r hf v t ht htr) hne
      | some deps => rfl
  · intro deps hd
    exact ⟨(hwf.2.1 r deps hd).2.1, (hwf.2.1 r deps hd).2.2⟩

/-- Witness of C2 at the representative 5 of the six-variable replacer. -/
theorem reverse_index_exact_witness :
    Reachable demoReplacer
    ∧ (((rtFind demoReplacer.reverseTable 5).isSome
          ↔ ∃ v, v ≠ 5 ∧ ∃ t, demoReplacer.table[v]? = some t ∧ t.var = 5)
      ∧ (∀ deps, rtFind demoReplacer.reverseTable 5 = some deps →
          deps.Nodup
          ∧ ∀ v, v ∈ deps ↔ (v ≠ 5 ∧ ∃ t, demoReplacer.table[v]? = some t ∧ t.var = 5))) :=
  ⟨reachable_demoReplacer, reverse_index_exact demoReplacer reachable_demoReplacer 5⟩

theorem value_undef_of_valueVar (s : Solver) (l : Lit)
    (h : s.valueVar l.var = some LBool.l_Undef) : s.value l = some LBool.l_Undef := by
  unfold Solver.valueVar at h
  simp [Solver.value, h, LBool.xor]

/-- The call of `replace` on two classes with different unassigned representatives is
the structural merge of the two resolved literals. -/
theorem replace_eq_structural (propagate : Solver → Solver × Bool) (vr : VarReplacer)
    (s : Solver) (a b ta tb : Lit) (rel dl : Bool) (hc : replaceChecks s a b)
    (ha : vr.table[a.var]? = some ta) (hb : vr.table[b.var]? = some tb)
    (hne : ta.var ≠ tb.var) (hsa : s.noneOrQueued ta.var) (hsb : s.noneOrQueued tb.var)
    (hva : s.valueVar ta.var = some LBool.l_Undef)
    (hvb : s.valueVar tb.var = some LBool.l_Undef) :
    replace propagate vr s a b rel dl = replaceStructural vr s ta (tb.xor (!rel)) dl := by
  rw [replace_unfold propagate vr s a b ta tb rel dl hc ha hb, if_neg hne,
    if_pos ⟨hsa, hsb⟩, value_undef_of_valueVar s ta hva,
    value_undef_of_valueVar s (tb.xor (!rel)) hvb]
  simp

/-- The entries of the two arguments after a structural merge: the first resolves to
what the second resolves to, composed with the requested relation. -/
theorem structural_resolve (vr vr1 : VarReplacer) (s s1 : Solver) (a b ta tb : Lit)
    (rel dl ret : Bool) (hwf : WellFormed vr)
    (ha : vr.table[a.var]? = some ta) (hb : vr.table[b.var]? = some tb)
    (hne : ta.var ≠ tb.var)
    (hrun : replaceStructural vr s ta (tb.xor (!rel)) dl = some (ret, vr1, s1)) :
    ∃ ra rb, vr1.table[a.var]? = some ra ∧ vr1.table[b.var]? = some rb
      ∧ ra = rb.xor (!rel) := by
  have hx : vr.table[ta.var]? = some ⟨ta.var, false⟩ := hwf.1 _ _ ha
  have hy : vr.table[tb.var]? = some ⟨tb.var, false⟩ := hwf.1 _ _ hb
  obtain ⟨vr2, hrun2, hlk, _⟩ :=
    replaceStructural_spec vr s ta (tb.xor (!rel)) dl hwf hx hy hne
  rw [hrun2] at hrun
  simp only [Option.some.injEq, Prod.mk.injEq] at hrun
  obtain ⟨_, rfl, _⟩ := hrun
  split at hlk
  · -- the class of `b` went under the representative of `a`
    have h1 := linked_lookup vr vr2 _ _ _ hwf hlk hy a.var ta ha
    have h2 := linked_lookup vr vr2 _ _ _ hwf hlk hy b.var tb hb
    simp only [Lit.xor_var, Lit.xor_sign] at h1 h2
    rw [if_neg hne] at h1
    rw [if_pos trivial] at h2
    refine ⟨_, _, h1, h2, ?_⟩
    cases ta; cases tb; cases rel <;> simp [Lit.xor]
  · -- the class of `a` went under the representative of `b`
    have h1 := linked_lookup vr vr2 _ _ _ hwf hlk hx a.var ta ha
    have h2 := linked_lookup vr vr2 _ _ _ hwf hlk hx b.var tb hb
    simp only [Lit.xor_var, Lit.xor_sign] at h1 h2
    rw [if_pos trivial] at h1
    rw [if_neg (Ne.symm hne)] at h2
    refine ⟨_, _, h1, h2, ?_⟩
    cases ta; cases tb; cases rel <;> simp [Lit.xor]

/-- C3 (equivalence soundness of merge). For a replacer satisfying the table invariant
(every reachable one does), positive unassigned literals `a`, `b` whose entries `ta`,
`tb` have different variables, both unassigned and of status none or queued:
`replace(a, b, rel)` returns `true`, afterwards `resolve(a) = resolve(b)` when
`rel = true` and `resolve(a) = ~resolve(b)` when `rel = false`, and every assignment
`α` that gives each variable the value of its table entry gives `a` and `b` equal,
respectively opposite, values. -/
theorem merge_equivalence_sound (propagate : Solver → Solver × Bool) (vr : VarReplacer)
    (s : Solver) (a b ta tb : Lit) (rel dl : Bool) (hwf : WellFormed vr)
    (hc : replaceChecks s a b)
    (ha : vr.table[a.var]? = some ta) (hb : vr.table[b.var]? = some tb)
    (hne : ta.var ≠ tb.var) (hsa : s.noneOrQueued ta.var) (hsb : s.noneOrQueued tb.var)
    (hva : s.valueVar ta.var = some LBool.l_Undef)
    (hvb : s.valueVar tb.var = some LBool.l_Undef) :
    ∃ vr1 s1, replace propagate vr s a b rel dl = some (true, vr1, s1)
      ∧ (∃ ra rb, vr1.getLitReplacedWith a = some ra ∧ vr1.getLitReplacedWith b = some rb
          ∧ ra = (if rel then rb else rb.neg))
      ∧ (∀ α : Nat → Bool,
          (∀ (v : Nat) (t : Lit), vr1.table[v]? = some t → α v = Bool.xor (α t.var) t.sign) →
          (if rel then α a.var = α b.var else α a.var = !(α b.var))) := by
  have hx : vr.table[ta.var]? = some ⟨ta.var, false⟩ := hwf.1 _ _ ha
  have hy : vr.table[tb.var]? = some ⟨tb.var, false⟩ := hwf.1 _ _ hb
  obtain ⟨vr2, hrun2, _⟩ :=
    replaceStructural_spec vr s ta (tb.xor (!rel)) dl hwf hx hy hne
  obtain ⟨ra, rb, h1, h2, h3⟩ :=
    structural_resolve vr vr2 s _ a b ta tb rel dl true hwf ha hb hne hrun2
  refine ⟨vr2, { s with removed := (s.removed.set ta.var Removed.queued_replacer).set (tb.xor (!rel)).var Removed.queued_replacer }, ?_, ?_, ?_⟩
  · rw [replace_eq_structural propagate vr s a b ta tb rel dl hc ha hb hne hsa hsb hva hvb]
    exact hrun2
  · have hsa0 : a.sign = false := hc.2.2.1
    have hsb0 : b.sign = false := hc.2.2.2.1
    refine ⟨ra, rb, ?_, ?_, ?_⟩
    · simp [VarReplacer.getLitReplacedWith, h1, hsa0]
    · simp [VarReplacer.getLitReplacedWith, h2, hsb0]
    · rw [h3]; cases rel <;> simp [Lit.xor_true]
  · intro α hα
    have e1 := hα a.var ra h1
    have e2 := hα b.var rb h2
    rw [h3] at e1
    simp only [Lit.xor_var, Lit.xor_sign] at e1
    cases rel <;> simp [e1, e2]

theorem reachable_pairsReplacer : Reachable pairsReplacer :=
  reachable_mergeSeq [(1, 2, true), (4, 5, false)]
    (freshReplacer 6, freshSolver 6) (pairsReplacer, pairsSolver) (reachable_freshReplacer 6)
    (by decide)

/-- Witness of C3: `1 = ~4` asserted on the classes {1, 2} and {4, 5}. -/
theorem merge_equivalence_sound_witness :
    WellFormed pairsReplacer
    ∧ replaceChecks pairsSolver ⟨1, false⟩ ⟨4, false⟩
    ∧ pairsReplacer.table[(⟨1, false⟩ : Lit).var]? = some ⟨2, false⟩
    ∧ pairsReplacer.table[(⟨4, false⟩ : Lit).var]? = some ⟨5, true⟩
    ∧ (⟨2, false⟩ : Lit).var ≠ (⟨5, true⟩ : Lit).var
    ∧ pairsSolver.noneOrQueued 2 ∧ pairsSolver.noneOrQueued 5
    ∧ pairsSolver.valueVar 2 = some LBool.l_Undef
    ∧ pairsSolver.valueVar 5 = some LBool.l_Undef
    ∧ ∃ vr1 s1, replace propagateNone pairsReplacer pairsSolver ⟨1, false⟩ ⟨4, false⟩
          false true = some (true, vr1, s1)
      ∧ (∃ ra rb, vr1.getLitReplacedWith ⟨1, false⟩ = some ra
          ∧ vr1.getLitReplacedWith ⟨4, false⟩ = some rb
          ∧ ra = (if false then rb else rb.neg))
      ∧ (∀ α : Nat → Bool,
          (∀ (v : Nat) (t : Lit), vr1.table[v]? = some t → α v = Bool.xor (α t.var) t.sign) →
          (if false then α 1 = α 4 else α 1 = !(α 4))) :=
  ⟨reachable_wellFormed _ reachable_pairsReplacer, by decide, by decide, by decide,
    by decide, by decide, by decide, by decide, by decide,
    merge_equivalence_sound propagateNone pairsReplacer pairsSolver ⟨1, false⟩ ⟨4, false⟩
      ⟨2, false⟩ ⟨5, true⟩ false true (reachable_wellFormed _ reachable_pairsReplacer)
      (by decide) (by decide) (by decide) (by decide) (by decide) (by decide) (by decide)
      (by decide)⟩

/-- C4 (contradiction detection). For every variable `x` of the table that passes the
entry checks of `replace`, asserting `x = ~x` returns `false` with the flag `ok`
cleared and nothing else changed, whatever the table holds. -/
theorem contradiction_detection (propagate : Solver → Solver × Bool) (vr : VarReplacer)
    (s : Solver) (x : Lit) (dl : Bool) (hc : replaceChecks s x x)
    (hx : x.var < vr.table.length) :
    replace propagate vr s x x false dl = some (false, vr, { s with ok := false }) := by
  have hsome : vr.table[x.var]? = some (vr.table[x.var]) := List.getElem?_eq_getElem hx
  rw [replace_unfold propagate vr s x x _ _ false dl hc hsome hsome, if_pos rfl]
  simp [handleAlreadyReplaced]

/-- Witness of C4 on the dependent variable 1 of `pairsReplacer`. -/
theorem contradiction_detection_witness :
    replaceChecks pairsSolver ⟨1, false⟩ ⟨1, false⟩
    ∧ (⟨1, false⟩ : Lit).var < pairsReplacer.table.length
    ∧ replace propagateNone pairsReplacer pairsSolver ⟨1, false⟩ ⟨1, false⟩ false false
        = some (false, pairsReplacer, { pairsSolver with ok := false }) :=
  ⟨by decide, by decide,
    contradiction_detection propagateNone pairsReplacer pairsSolver ⟨1, false⟩ false
      (by decide) (by decide)⟩

/-- C5 (merge inside one class). When the entries `ta`, `tb` of `a`, `b` have the same
variable, `replace(a, b, rel)` returns whether `rel` agrees with the relation the
table implies (`a = b` exactly when the two signs are equal); it clears `ok` exactly
when they disagree; the replacer (table, reverse table, counter, queue of pending
equalities) is returned as it was, and so are the statuses, the assignment and the
trail. On three fresh variables, `1 = 2` followed by `1 = ~2` ends with `ok` cleared. -/
theorem merge_same_class (propagate : Solver → Solver × Bool) (vr : VarReplacer)
    (s : Solver) (a b ta tb : Lit) (rel dl : Bool) (hc : replaceChecks s a b)
    (ha : vr.table[a.var]? = some ta) (hb : vr.table[b.var]? = some tb)
    (he : ta.var = tb.var) :
    (∃ ret s1, replace propagate vr s a b rel dl = some (ret, vr, s1)
      ∧ (ret = false ↔ rel ≠ decide (ta.sign = tb.sign))
      ∧ (s1.ok = false ↔ rel ≠ decide (ta.sign = tb.sign))
      ∧ s1.removed = s.removed ∧ s1.assigns = s.assigns ∧ s1.trail = s.trail
      ∧ s1.decisionVar = s.decisionVar ∧ s1.decisionLevel = s.decisionLevel
      ∧ (ret = true → s1 = s))
    ∧ (∃ vr1 s1 vr2 s2,
        replace propagate (freshReplacer 3) (freshSolver 3) ⟨1, false⟩ ⟨2, false⟩ true false
          = some (true, vr1, s1)
        ∧ replace propagate vr1 s1 ⟨1, false⟩ ⟨2, false⟩ false false = some (false, vr2, s2)
        ∧ s2.ok = false) := by
  constructor
  · have hok : s.ok = true := hc.1
    rw [replace_unfold propagate vr s a b ta tb rel dl hc ha hb, if_pos he]
    by_cases hagree : ta.sign = Bool.xor tb.sign (!rel)
    · refine ⟨true, s, ?_, ?_, ?_, rfl, rfl, rfl, rfl, rfl, fun _ => rfl⟩
      · simp only [handleAlreadyReplaced, Lit.xor_sign]
        rw [if_neg (not_not.2 hagree)]
      · cases rel <;> cases h2 : tb.sign <;> simp [hagree, h2]
      · rw [hok]; cases rel <;> cases h2 : tb.sign <;> simp [hagree, h2]
    · refine ⟨false, { s with ok := false }, ?_, ?_, ?_, rfl, rfl, rfl, rfl, rfl, ?_⟩
      · simp only [handleAlreadyReplaced, Lit.xor_sign]
        rw [if_pos hagree]
      · cases rel <;> cases h1 : ta.sign <;> cases h2 : tb.sign <;> simp_all
      · cases rel <;> cases h1 : ta.sign <;> cases h2 : tb.sign <;> simp_all
      · intro h; cases h
  · exact ⟨_, _, _, _, rfl, rfl, rfl⟩

/-- Witness of C5 on the variables 1 and 2 of one class of `pairsReplacer`, asserted
opposite. -/
theorem merge_same_class_witness :
    replaceChecks pairsSolver ⟨1, false⟩ ⟨2, false⟩
    ∧ pairsReplacer.table[(⟨1, false⟩ : Lit).var]? = some ⟨2, false⟩
    ∧ pairsReplacer.table[(⟨2, false⟩ : Lit).var]? = some ⟨2, false⟩
    ∧ (⟨2, false⟩ : Lit).var = (⟨2, false⟩ : Lit).var
    ∧ ((∃ ret s1, replace propagateNone pairsReplacer pairsSolver ⟨1, false⟩ ⟨2, false⟩
            false false = some (ret, pairsReplacer, s1)
        ∧ (ret = false ↔ false ≠ decide ((⟨2, false⟩ : Lit).sign = (⟨2, false⟩ : Lit).sign))
        ∧ (s1.ok = false ↔ false ≠ decide ((⟨2, false⟩ : Lit).sign = (⟨2, false⟩ : Lit).sign))
        ∧ s1.removed = pairsSolver.removed ∧ s1.assigns = pairsSolver.assigns
        ∧ s1.trail = pairsSolver.trail
        ∧ s1.decisionVar = pairsSolver.decisionVar
        ∧ s1.decisionLevel = pairsSolver.decisionLevel
        ∧ (ret = true → s1 = pairsSolver))
      ∧ (∃ vr1 s1 vr2 s2,
          replace propagateNone (freshReplacer 3) (freshSolver 3) ⟨1, false⟩ ⟨2, false⟩
            true false = some (true, vr1, s1)
          ∧ replace propagateNone vr1 s1 ⟨1, false⟩ ⟨2, false⟩ false false
            = some (false, vr2, s2)
          ∧ s2.ok = false)) :=
  ⟨by decide, by decide, by decide, rfl,
    merge_same_class propagateNone pairsReplacer pairsSolver ⟨1, false⟩ ⟨2, false⟩
      ⟨2, false⟩ ⟨2, false⟩ false false (by decide) (by decide) (by decide) rfl⟩

theorem propagateNone_keeps : PropagateKeepsAssigned propagateNone := by
  intro st v x h _; exact h

/-- After the enqueue of `handleOneSet` both literals have the same defined value. -/
theorem enqueue_toEnqueue_values (s : Solver) (l1 l2 : Lit) (v1 v2 : LBool)
    (hne : l1.var ≠ l2.var) (hv1 : s.value l1 = some v1) (hv2 : s.value l2 = some v2)
    (hone : (v1 ≠ LBool.l_Undef ∧ v2 = LBool.l_Undef)
      ∨ (v2 ≠ LBool.l_Undef ∧ v1 = LBool.l_Undef)) :
    ∃ x1 x2, (s.enqueue (toEnqueue l1 v1 l2 v2)).assigns[l1.var]? = some x1
      ∧ (s.enqueue (toEnqueue l1 v1 l2 v2)).assigns[l2.var]? = some x2
      ∧ x1 ≠ LBool.l_Undef ∧ x2 ≠ LBool.l_Undef
      ∧ x1.xor l1.sign = x2.xor l2.sign
      ∧ x1.xor l1.sign ≠ LBool.l_Undef
      ∧ (v1 ≠ LBool.l_Undef → x1.xor l1.sign = v1)
      ∧ (v2 ≠ LBool.l_Undef → x2.xor l2.sign = v2) := by
  unfold Solver.value at hv1 hv2
  cases ha1 : s.assigns[l1.var]? with
  | none => rw [ha1] at hv1; cases hv1
  | some y1 =>
    cases ha2 : s.assigns[l2.var]? with
    | none => rw [ha2] at hv2; cases hv2
    | some y2 =>
      rw [ha1] at hv1; rw [ha2] at hv2
      simp only [Option.map_some', Option.some.injEq] at hv1 hv2
      have hlen1 : l1.var < s.assigns.length := by
        rcases List.getElem?_eq_some.1 ha1 with ⟨hlt, _⟩; exact hlt
      have hlen2 : l2.var < s.assigns.length := by
        rcases List.getElem?_eq_some.1 ha2 with ⟨hlt, _⟩; exact hlt
      rcases hone with ⟨h1, h2⟩ | ⟨h2, h1⟩
      · -- the first is set: the second is enqueued
        refine ⟨y1, boolToLBool (!(toEnqueue l1 v1 l2 v2).sign), ?_, ?_, ?_, ?_, ?_, ?_, ?_, ?_⟩
        · simp only [Solver.enqueue, toEnqueue, if_pos h1, Lit.xor_var]
          rw [getElem?_set_lt _ _ _ _ hlen2, if_neg hne]; exact ha1
        · simp only [Solver.enqueue, toEnqueue, if_pos h1, Lit.xor_var]
          rw [getElem?_set_lt _ _ _ _ hlen2, if_pos rfl]
        · intro hy; rw [hy] at hv1; cases hs : l1.sign <;> simp [hs, LBool.xor] at hv1 <;>
            exact h1 hv1.symm
        · cases (toEnqueue l1 v1 l2 v2).sign <;> simp [boolToLBool]
        · simp only [toEnqueue, if_pos h1, Lit.xor_sign]
          rw [hv1]
          cases v1 <;> cases hs : l2.sign <;> simp [boolToLBool, LBool.xor] at h1 ⊢
        · rw [hv1]; exact h1
        · intro _; exact hv1
        · intro h; exact absurd h2 h
      · -- the second is set: the first is enqueued
        have hte : toEnqueue l1 v1 l2 v2 = l1.xor (decide (v2 = LBool.l_False)) := by
          simp [toEnqueue, h1]
        refine ⟨boolToLBool (!(toEnqueue l1 v1 l2 v2).sign), y2, ?_, ?_, ?_, ?_, ?_, ?_, ?_, ?_⟩
        · simp only [Solver.enqueue, hte, Lit.xor_var]
          rw [getElem?_set_lt _ _ _ _ hlen1, if_pos rfl]
        · simp only [Solver.enqueue, hte, Lit.xor_var]
          rw [getElem?_set_lt _ _ _ _ hlen1, if_neg (Ne.symm hne)]; exact ha2
        · cases (toEnqueue l1 v1 l2 v2).sign <;> simp [boolToLBool]
        · intro hy; rw [hy] at hv2; cases hs : l2.sign <;> simp [hs, LBool.xor] at hv2 <;>
            exact h2 hv2.symm
        · rw [hte]
          simp only [Lit.xor_sign]
          rw [hv2]
          cases v2 <;> cases hs : l1.sign <;> simp [boolToLBool, LBool.xor] at h2 ⊢
        · rw [hte]
          simp only [Lit.xor_sign]
          cases v2 <;> cases hs : l1.sign <;> simp [boolToLBool, LBool.xor] at h2 ⊢
        · intro h; exact absurd h1 h
        · intro _; exact hv2

theorem handleBothSet_same (s : Solver) (v : LBool) : handleBothSet s v v = (s.ok, s) := by
  simp [handleBothSet]

/-- C6 (idempotence of merge). For a replacer satisfying the table invariant and a
propagation routine that keeps assigned values: if `replace(a, b, true)` returned and
the same call made again right after does not fail an assertion (the preconditions
hold at both calls), then the second call returns `true` and leaves the replacer and
the solver (table, reverse table, statuses, counter, queue of pending equalities and
the flag `ok`) exactly as the first call left them. -/
theorem merge_idempotent (propagate : Solver → Solver × Bool) (vr vr1 : VarReplacer)
    (s s1 : Solver) (a b : Lit) (dl dl2 ret : Bool)
    (hP : PropagateKeepsAssigned propagate) (hwf : WellFormed vr)
    (h1 : replace propagate vr s a b true dl = some (ret, vr1, s1))
    (h2 : (replace propagate vr1 s1 a b true dl2).isSome = true) :
    replace propagate vr1 s1 a b true dl2 = some (true, vr1, s1) := by
  obtain ⟨hc, ta, tb, ha, hb⟩ := replace_some_pre propagate vr s a b true dl _ h1
  obtain ⟨r2, hr2⟩ := Option.isSome_iff_exists.1 h2
  obtain ⟨hc2, ta2, tb2, ha2, hb2⟩ := replace_some_pre propagate vr1 s1 a b true dl2 _ hr2
  have hok2 : s1.ok = true := hc2.1
  rw [replace_unfold propagate vr s a b ta tb true dl hc ha hb] at h1
  rw [replace_unfold propagate vr1 s1 a b ta2 tb2 true dl2 hc2 ha2 hb2] at hr2 ⊢
  simp only [Bool.not_true, Lit.xor_false] at h1 hr2 ⊢
  by_cases hsame : ta.var = tb.var
  · -- already in one class
    rw [if_pos hsame] at h1
    simp only [Option.some.injEq, Prod.mk.injEq] at h1
    obtain ⟨_, rfl, hs1⟩ := h1
    rw [ha] at ha2; rw [hb] at hb2
    cases ha2; cases hb2
    rw [if_pos hsame]
    unfold handleAlreadyReplaced at hs1 ⊢
    by_cases hsg : ta.sign ≠ tb.sign
    · rw [if_pos hsg] at hs1
      rw [← hs1] at hok2
      cases hok2
    · rw [if_neg hsg] at hs1
      simp only at hs1
      subst hs1
      rw [if_neg hsg]
  · rw [if_neg hsame] at h1
    by_cases hst : s.noneOrQueued ta.var ∧ s.noneOrQueued tb.var
    · rw [if_pos hst] at h1
      cases hv1 : s.value ta with
      | none => rw [hv1] at h1; cases h1
      | some v1 =>
        cases hv2 : s.value tb with
        | none => rw [hv1, hv2] at h1; cases h1
        | some v2 =>
          rw [hv1, hv2] at h1
          simp only at h1
          by_cases hboth : v1 ≠ LBool.l_Undef ∧ v2 ≠ LBool.l_Undef
          · -- both set
            rw [if_pos hboth] at h1
            simp only [Option.some.injEq, Prod.mk.injEq] at h1
            obtain ⟨_, rfl, hs1⟩ := h1
            rw [ha] at ha2; rw [hb] at hb2
            cases ha2; cases hb2
            have hveq : v1 = v2 := by
              by_contra hne
              simp only [handleBothSet] at hs1
              rw [if_pos hne] at hs1
              rw [← hs1] at hok2
              cases hok2
            subst hveq
            rw [handleBothSet_same] at hs1
            simp only at hs1
            subst hs1
            rw [if_neg hsame, if_pos hst, hv1, hv2]
            simp only
            rw [if_pos hboth, handleBothSet_same, hok2]
          · rw [if_neg hboth] at h1
            by_cases hone : (v1 ≠ LBool.l_Undef ∧ v2 = LBool.l_Undef)
                ∨ (v2 ≠ LBool.l_Undef ∧ v1 = LBool.l_Undef)
            · -- exactly one set
              rw [if_pos hone] at h1
              simp only [Option.some.injEq, Prod.mk.injEq] at h1
              obtain ⟨_, rfl, hs1⟩ := h1
              rw [ha] at ha2; rw [hb] at hb2
              cases ha2; cases hb2
              have hok : s.ok = true := hc.1
              obtain ⟨x1, x2, e1, e2, n1, n2, heq, hdef, _, _⟩ :=
                enqueue_toEnqueue_values s ta tb v1 v2 hsame hv1 hv2 hone
              have hs1a : s1.assigns
                  = (propagate (s.enqueue (toEnqueue ta v1 tb v2))).1.assigns := by
                rw [← hs1]; simp [handleOneSet, hok]
              have w1 : s1.value ta = some (x1.xor ta.sign) := by
                unfold Solver.value
                rw [hs1a, hP _ _ _ e1 n1]; rfl
              have w2 : s1.value tb = some (x1.xor ta.sign) := by
                unfold Solver.value
                rw [hs1a, hP _ _ _ e2 n2, heq]; rfl
              rw [if_neg hsame] at hr2 ⊢
              by_cases hst2 : s1.noneOrQueued ta.var ∧ s1.noneOrQueued tb.var
              · rw [if_pos hst2, w1, w2]
                simp only
                rw [if_pos ⟨hdef, hdef⟩, handleBothSet_same, hok2]
              · rw [if_neg hst2] at hr2; cases hr2
            · -- structural merge
              rw [if_neg hone] at h1
              have hx : vr.table[ta.var]? = some ⟨ta.var, false⟩ := hwf.1 _ _ ha
              have hy : vr.table[tb.var]? = some ⟨tb.var, false⟩ := hwf.1 _ _ hb
              have h1' : replaceStructural vr s ta (tb.xor (!true)) dl = some (ret, vr1, s1) := by
                simpa using h1
              obtain ⟨ra, rb, q1, q2, q3⟩ :=
                structural_resolve vr vr1 s s1 a b ta tb true dl ret hwf ha hb hsame h1'
              rw [ha2] at q1; rw [hb2] at q2
              cases q1; cases q2
              simp only [Bool.not_true, Lit.xor_false] at q3
              subst q3
              rw [if_pos rfl]
              simp [handleAlreadyReplaced]
    · rw [if_neg hst] at h1; cases h1

/-- Witness of C6: `1 = 4` asserted twice while the representative of 1 is set, so
that the first call enqueues `~5` and the second finds both representatives set. -/
theorem merge_idempotent_witness :
    PropagateKeepsAssigned propagateNone ∧ WellFormed pairsReplacer
    ∧ replace propagateNone pairsReplacer pairsSolverSet ⟨1, false⟩ ⟨4, false⟩ true false
        = some (true, pairsReplacer, pairsSolverForced)
    ∧ (replace propagateNone pairsReplacer pairsSolverForced ⟨1, false⟩ ⟨4, false⟩ true
        false).isSome = true
    ∧ replace propagateNone pairsReplacer pairsSolverForced ⟨1, false⟩ ⟨4, false⟩ true false
        = some (true, pairsReplacer, pairsSolverForced) :=
  ⟨propagateNone_keeps, reachable_wellFormed _ reachable_pairsReplacer, by decide, by decide,
    merge_idempotent propagateNone pairsReplacer pairsReplacer pairsSolverSet
      pairsSolverForced ⟨1, false⟩ ⟨4, false⟩ false false true propagateNone_keeps
      (reachable_wellFormed _ reachable_pairsReplacer) (by decide) (by decide)⟩

/-- C7 (chain scenario). On four fresh unassigned variables 0..3, after
`replace(+1, +2, true)` and `replace(+2, +3, true)` (both return `true`) the variables
1, 2, 3 all resolve to one self-mapped variable `rep`, and the negative literal of
variable 3 (the pair of variable 3 and polarity false) resolves to the negation of the
positive literal of `rep`, as the positive literal of 3 resolves to the positive literal
of `rep`. The same holds when the three variables are the indices 0, 1, 2 of a
three-variable table. -/
theorem chain_scenario (propagate : Solver → Solver × Bool) :
    (∃ vr1 s1 vr2 s2 rep,
      replace propagate (freshReplacer 4) (freshSolver 4) ⟨1, false⟩ ⟨2, false⟩ true false
        = some (true, vr1, s1)
      ∧ replace propagate vr1 s1 ⟨2, false⟩ ⟨3, false⟩ true false = some (true, vr2, s2)
      ∧ vr2.getVarReplacedWith 1 = some rep ∧ vr2.getVarReplacedWith 2 = some rep
      ∧ vr2.getVarReplacedWith 3 = some rep
      ∧ vr2.table[rep]? = some ⟨rep, false⟩
      ∧ vr2.getLitReplacedWith ⟨3, true⟩ = some (Lit.neg ⟨rep, false⟩)
      ∧ vr2.getLitReplacedWith ⟨3, false⟩ = some ⟨rep, false⟩)
    ∧ (∃ vr1 s1 vr2 s2 rep,
      replace propagate (freshReplacer 3) (freshSolver 3) ⟨0, false⟩ ⟨1, false⟩ true false
        = some (true, vr1, s1)
      ∧ replace propagate vr1 s1 ⟨1, false⟩ ⟨2, false⟩ true false = some (true, vr2, s2)
      ∧ vr2.getVarReplacedWith 0 = some rep ∧ vr2.getVarReplacedWith 1 = some rep
      ∧ vr2.getVarReplacedWith 2 = some rep
      ∧ vr2.table[rep]? = some ⟨rep, false⟩
      ∧ vr2.getLitReplacedWith ⟨2, true⟩ = some (Lit.neg ⟨rep, false⟩)
      ∧ vr2.getLitReplacedWith ⟨2, false⟩ = some ⟨rep, false⟩) :=
  ⟨⟨_, _, _, _, 2, rfl, rfl, rfl, rfl, rfl, rfl, rfl, rfl⟩,
   ⟨_, _, _, _, 1, rfl, rfl, rfl, rfl, rfl, rfl, rfl, rfl⟩⟩

/-! ## The status flip of `performReplace` -/

/-- What `update_vardata_and_decisionvar` does to the statuses when it returns. -/
theorem update_removed (s s1 : Solver) (orig rw : Nat)
    (h : update_vardata_and_decisionvar s orig rw = some s1) :
    s1.removed =
      if orig = rw then
        (if s.removed[rw]? = some Removed.queued_replacer
          then s.removed.set rw Removed.none else s.removed)
      else if s.removed[rw]? = some Removed.decomposed ∨ s.removed[rw]? = some Removed.elimed
        then s.removed
      else if s.removed[orig]? = some Removed.replaced then s.removed
      else s.removed.set orig Removed.replaced := by
  unfold update_vardata_and_decisionvar at h
  cases hrw : s.removed[rw]? with
  | none => rw [hrw] at h; cases h
  | some x =>
    rw [hrw] at h
    simp only at h
    by_cases ho : orig = rw
    · subst ho
      simp only [true_and, true_or, if_true] at h
      rw [if_pos rfl]
      by_cases hq : x = Removed.queued_replacer
      · subst hq
        simp only [if_true, Option.some.injEq] at h
        rw [← h]; simp
      · have hq2 : ¬ (some x = some Removed.queued_replacer) := by simpa using hq
        rw [if_neg hq2] at h
        simp only [Option.some.injEq] at h
        rw [← h, if_neg hq2]
    · rw [if_neg ho]
      simp only [ho, false_and, if_false, false_or] at h
      rw [hrw] at h
      by_cases hd : some x = some Removed.decomposed ∨ some x = some Removed.elimed
      · rw [if_pos hd] at h
        simp only [Option.some.injEq] at h
        rw [← h, if_pos hd]
      · rw [if_neg hd] at h
        rw [if_neg hd]
        cases hor : s.removed[orig]? with
        | none => rw [hor] at h; cases h
        | some ro =>
          rw [hor] at h
          simp only at h
          by_cases hr : ro = Removed.replaced
          · rw [if_pos hr] at h
            simp only [Option.some.injEq] at h
            rw [← h, hr, if_pos rfl]
          · rw [if_neg hr] at h
            have hr2 : ¬ (some ro = some Removed.replaced) := by simpa using hr
            rw [if_neg hr2]
            split at h
            · simp only [Option.some.injEq] at h
              rw [← h]; rfl
            · cases h

theorem getElem?_set_any {α : Type} (l : List α) (i : Nat) (a : α) (u : Nat) (hu : u ≠ i) :
    (l.set i a)[u]? = l[u]? := by
  rw [List.getElem?_set, if_neg (Ne.symm hu)]

/-- The facts about one status update that the loop needs. -/
theorem update_facts (s s1 : Solver) (orig rw : Nat)
    (h : update_vardata_and_decisionvar s orig rw = some s1) :
    s1.removed.length = s.removed.length
    ∧ (∀ u : Nat, u ≠ orig → s1.removed[u]? = s.removed[u]?)
    ∧ (s1.removed[orig]? = s.removed[orig]? ∨ s1.removed[orig]? = some Removed.none
        ∨ s1.removed[orig]? = some Removed.replaced)
    ∧ (orig ≠ rw → s.removed[rw]? ≠ some Removed.elimed →
        s.removed[rw]? ≠ some Removed.decomposed → s1.removed[orig]? = some Removed.replaced)
    ∧ (orig = rw → s.removed[orig]? = some Removed.queued_replacer →
        s1.removed[orig]? = some Removed.none)
    ∧ (orig = rw → s.removed[orig]? ≠ some Removed.queued_replacer →
        s1.removed[orig]? = s.removed[orig]?) := by
  have hrem := update_removed s s1 orig rw h
  have horig_lt : orig ≠ rw → s.removed[rw]? ≠ some Removed.elimed →
      s.removed[rw]? ≠ some Removed.decomposed → orig < s.removed.length := by
    intro ho he hd
    unfold update_vardata_and_decisionvar at h
    cases hrw : s.removed[rw]? with
    | none => rw [hrw] at h; cases h
    | some x =>
      rw [hrw] at h he hd
      simp only [ho, false_and, if_false, false_or] at h
      rw [hrw] at h
      rw [if_neg (by simp only [not_or]; exact ⟨hd, he⟩)] at h
      cases hor : s.removed[orig]? with
      | none => rw [hor] at h; cases h
      | some ro => rcases List.getElem?_eq_some.1 hor with ⟨hlt, _⟩; exact hlt
  by_cases ho : orig = rw
  · subst ho
    rw [if_pos rfl] at hrem
    by_cases hq : s.removed[orig]? = some Removed.queued_replacer
    · rw [if_pos hq] at hrem
      have hlt : orig < s.removed.length := by
        rcases List.getElem?_eq_some.1 hq with ⟨hlt, _⟩; exact hlt
      have hself : s1.removed[orig]? = some Removed.none := by
        rw [hrem, getElem?_set_lt _ _ _ _ hlt, if_pos rfl]
      refine ⟨by rw [hrem, List.length_set], ?_, Or.inr (Or.inl hself), ?_, ?_, ?_⟩
      · intro u hu; rw [hrem, getElem?_set_any _ _ _ _ hu]
      · intro hne; exact absurd rfl hne
      · intro _ _; exact hself
      · intro _ hnq; exact absurd hq hnq
    · rw [if_neg hq] at hrem
      refine ⟨by rw [hrem], ?_, Or.inl (by rw [hrem]), ?_, ?_, ?_⟩
      · intro u _; rw [hrem]
      · intro hne; exact absurd rfl hne
      · intro _ hq2; exact absurd hq2 hq
      · intro _ _; rw [hrem]
  · rw [if_neg ho] at hrem
    by_cases hd : s.removed[rw]? = some Removed.decomposed ∨ s.removed[rw]? = some Removed.elimed
    · rw [if_pos hd] at hrem
      refine ⟨by rw [hrem], ?_, Or.inl (by rw [hrem]), ?_, ?_, ?_⟩
      · intro u _; rw [hrem]
      · intro _ he hdc; rcases hd with hd | hd
        · exact absurd hd hdc
        · exact absurd hd he
      · intro he; exact absurd he ho
      · intro he; exact absurd he ho
    · rw [if_neg hd] at hrem
      have hlt : orig < s.removed.length :=
        horig_lt ho (fun he => hd (Or.inr he)) (fun hdc => hd (Or.inl hdc))
      by_cases hr : s.removed[orig]? = some Removed.replaced
      · rw [if_pos hr] at hrem
        refine ⟨by rw [hrem], ?_, Or.inl (by rw [hrem]), ?_, ?_, ?_⟩
        · intro u _; rw [hrem]
        · intro _ _ _; rw [hrem]; exact hr
        · intro he; exact absurd he ho
        · intro he; exact absurd he ho
      · rw [if_neg hr] at hrem
        have hself : s1.removed[orig]? = some Removed.replaced := by
          rw [hrem, getElem?_set_lt _ _ _ _ hlt, if_pos rfl]
        refine ⟨by rw [hrem, List.length_set], ?_, Or.inr (Or.inr hself), ?_, ?_, ?_⟩
        · intro u hu; rw [hrem, getElem?_set_any _ _ _ _ hu]
        · intro _ _ _; exact hself
        · intro he; exact absurd he ho
        · intro he; exact absurd he ho

/-- The status-flip loop, when it returns: statuses outside the range it walks are
kept; a variable whose entry is another variable that is neither eliminated nor
decomposed ends replaced; a self-mapped variable that was queued ends with status
none, and any other self-mapped variable keeps its status. -/
theorem statusFlipFrom_spec (l : List Lit) :
    ∀ (var : Nat) (s s1 : Solver), statusFlipFrom l var s = some s1 →
      (∀ u : Nat, u < var ∨ var + l.length ≤ u → s1.removed[u]? = s.removed[u]?)
      ∧ (∀ (i : Nat) (t : Lit), l[i]? = some t →
          (t.var ≠ var + i → s.removed[t.var]? ≠ some Removed.elimed →
            s.removed[t.var]? ≠ some Removed.decomposed →
            s1.removed[var + i]? = some Removed.replaced)
          ∧ (t.var = var + i → s.removed[var + i]? = some Removed.queued_replacer →
            s1.removed[var + i]? = some Removed.none)
          ∧ (t.var = var + i → s.removed[var + i]? ≠ some Removed.queued_replacer →
            s1.removed[var + i]? = s.removed[var + i]?)) := by
  induction l with
  | nil =>
    intro var s s1 h
    simp only [statusFlipFrom, Option.some.injEq] at h
    subst h
    exact ⟨fun _ _ => rfl, fun i t hi => by simp at hi⟩
  | cons hd rest ih =>
    intro var s s1 h
    simp only [statusFlipFrom] at h
    cases hu : update_vardata_and_decisionvar s var hd.var with
    | none => rw [hu] at h; cases h
    | some s0 =>
      rw [hu] at h
      simp only at h
      obtain ⟨_, f1, f2, f3, f4, f5⟩ := update_facts s s0 var hd.var hu
      obtain ⟨i1, i2⟩ := ih (var + 1) s0 s1 h
      have keep : ∀ u : Nat, s.removed[u]? ≠ some Removed.elimed →
          s.removed[u]? ≠ some Removed.decomposed →
          s0.removed[u]? ≠ some Removed.elimed ∧ s0.removed[u]? ≠ some Removed.decomposed := by
        intro u he hdc
        by_cases huv : u = var
        · subst huv
          rcases f2 with e | e | e
          · rw [e]; exact ⟨he, hdc⟩
          · rw [e]; simp
          · rw [e]; simp
        · rw [f1 u huv]; exact ⟨he, hdc⟩
      constructor
      · intro u hu2
        have h1 : u < var + 1 ∨ var + 1 + rest.length ≤ u := by
          simp only [List.length_cons] at hu2; omega
        have h2 : u ≠ var := by
          simp only [List.length_cons] at hu2; omega
        rw [i1 u h1, f1 u h2]
      · intro i t hi
        cases i with
        | zero =>
          simp only [List.getElem?_cons_zero, Option.some.injEq] at hi
          subst hi
          have hsame : s1.removed[var]? = s0.removed[var]? := i1 var (Or.inl (by omega))
          simp only [Nat.add_zero]
          refine ⟨?_, ?_, ?_⟩
          · intro a b c; rw [hsame]; exact f3 (Ne.symm a) b c
          · intro a b; rw [hsame]; exact f4 a.symm b
          · intro a b; rw [hsame]; exact f5 a.symm b
        | succ j =>
          simp only [List.getElem?_cons_succ] at hi
          obtain ⟨g1, g2, g3⟩ := i2 j t hi
          have hidx : var + (j + 1) = var + 1 + j := by omega
          have hne : var + 1 + j ≠ var := by omega
          rw [hidx]
          refine ⟨?_, ?_, ?_⟩
          · intro a b c
            exact g1 a (keep _ b c).1 (keep _ b c).2
          · intro a b
            exact g2 a (by rw [f1 _ hne]; exact b)
          · intro a b
            rw [g3 a (by rw [f1 _ hne]; exact b), f1 _ hne]

/-- One status update returns when both indices are variables of the solver and the
variable replaced with, if it is another one, has status none or queued. -/
theorem update_total (s : Solver) (orig rw : Nat) (hrw : rw < s.removed.length)
    (horig : orig < s.removed.length) (hst : orig ≠ rw → s.noneOrQueued rw) :
    ∃ s1, update_vardata_and_decisionvar s orig rw = some s1 := by
  have hr : s.removed[rw]? = some (s.removed[rw]) := List.getElem?_eq_getElem hrw
  have ho : s.removed[orig]? = some (s.removed[orig]) := List.getElem?_eq_getElem horig
  unfold update_vardata_and_decisionvar
  rw [hr]
  simp only
  by_cases hne : orig = rw
  · simp [hne]
  · simp only [hne, false_and, if_false, false_or]
    split
    · exact ⟨_, rfl⟩
    · rw [ho]
      simp only
      split
      · exact ⟨_, rfl⟩
      · have hq : ({ s with removed := s.removed.set orig Removed.replaced } : Solver).noneOrQueued
            rw := by
          have := hst hne
          unfold Solver.noneOrQueued at this ⊢
          simp only
          rw [getElem?_set_any _ _ _ _ (Ne.symm hne)]
          exact this
        rw [if_pos hq]
        exact ⟨_, rfl⟩

/-- The status-flip loop returns when every index it meets is a variable of the
solver, every variable replaced with has status none or queued, and no variable
replaced with is itself replaced. -/
theorem statusFlipFrom_total (l : List Lit) :
    ∀ (var : Nat) (s : Solver),
      (∀ (i : Nat) (t : Lit), l[i]? = some t →
        t.var < s.removed.length ∧ var + i < s.removed.length) →
      (∀ (i : Nat) (t : Lit), l[i]? = some t → t.var ≠ var + i → s.noneOrQueued t.var) →
      (∀ (i : Nat) (t : Lit) (j : Nat) (t2 : Lit), l[i]? = some t → t.var ≠ var + i →
        l[j]? = some t2 → t2.var ≠ var + j → t.var ≠ var + j) →
      ∃ s1, statusFlipFrom l var s = some s1 := by
  induction l with
  | nil => intro var s _ _ _; exact ⟨s, rfl⟩
  | cons hd rest ih =>
    intro var s H1 H2 H3
    have h0 : (hd :: rest)[0]? = some hd := by simp
    obtain ⟨hrw, horig⟩ := H1 0 hd h0
    obtain ⟨s0, hs0⟩ := update_total s var hd.var hrw horig
      (fun hne => H2 0 hd h0 (Ne.symm hne))
    obtain ⟨flen, f1, _, _, f4, f5⟩ := update_facts s s0 var hd.var hs0
    have hshift : ∀ (i : Nat), (hd :: rest)[i + 1]? = rest[i]? := fun i => by simp
    have hidx : ∀ i, var + 1 + i = var + (i + 1) := fun i => by omega
    obtain ⟨s1, hs1⟩ := ih (var + 1) s0
      (by
        intro i t hi
        rw [flen, hidx]
        exact H1 (i + 1) t (by rw [hshift]; exact hi))
      (by
        intro i t hi hne
        rw [hidx] at hne
        have hq := H2 (i + 1) t (by rw [hshift]; exact hi) hne
        by_cases htv : t.var = var
        · -- the head is the variable replaced with: it must be self-mapped
          have hself : hd.var = var := by
            by_contra hc
            exact H3 (i + 1) t 0 hd (by rw [hshift]; exact hi) hne h0 hc htv
          unfold Solver.noneOrQueued at hq ⊢
          rw [htv] at hq ⊢
          by_cases hqq : s.removed[var]? = some Removed.queued_replacer
          · left; exact f4 hself.symm hqq
          · rw [f5 hself.symm hqq]; exact hq
        · unfold Solver.noneOrQueued at hq ⊢
          rw [f1 _ htv]; exact hq)
      (by
        intro i t j t2 hi hne hj hne2
        rw [hidx] at hne hne2 ⊢
        exact H3 (i + 1) t (j + 1) t2 (by rw [hshift]; exact hi) hne
          (by rw [hshift]; exact hj) hne2)
    refine ⟨s1, ?_⟩
    simp only [statusFlipFrom, hs0]
    exact hs1

/-- C8 (status flip of applyAll). Over a table in which no variable replaced with is
eliminated or decomposed: whenever the status-flip pass of `performReplace` returns,
every variable whose entry is another variable has status replaced, every self-mapped
variable that was queued has status none, and no variable of the table is left queued;
the pass does return when, moreover, the table satisfies the invariant, its variables
are variables of the solver and every variable replaced with has status none or queued
(the assertion of the code). In the chain scenario the pass leaves the statuses none,
replaced, none, replaced and exactly variable 2 of 1, 2, 3 a decision variable. -/
theorem status_flip (vr : VarReplacer) (s : Solver)
    (hrep : ∀ (v : Nat) (t : Lit), vr.table[v]? = some t → t.var ≠ v →
      s.removed[t.var]? ≠ some Removed.elimed ∧ s.removed[t.var]? ≠ some Removed.decomposed) :
    (∀ s1, statusFlip vr s = some s1 →
      (∀ (v : Nat) (t : Lit), vr.table[v]? = some t → t.var ≠ v →
        s1.removed[v]? = some Removed.replaced)
      ∧ (∀ (v : Nat) (t : Lit), vr.table[v]? = some t → t.var = v →
        s.removed[v]? = some Removed.queued_replacer → s1.removed[v]? = some Removed.none)
      ∧ (∀ v : Nat, v < vr.table.length → s1.removed[v]? ≠ some Removed.queued_replacer))
    ∧ (WellFormed vr → vr.table.length ≤ s.removed.length →
        (∀ (v : Nat) (t : Lit), vr.table[v]? = some t → t.var ≠ v → s.noneOrQueued t.var) →
        ∃ s1, statusFlip vr s = some s1)
    ∧ (∀ propagate : Solver → Solver × Bool, ∃ vr1 s1 vr2 s2 s3,
        replace propagate (freshReplacer 4) (freshSolver 4) ⟨1, false⟩ ⟨2, false⟩ true false
          = some (true, vr1, s1)
        ∧ replace propagate vr1 s1 ⟨2, false⟩ ⟨3, false⟩ true false = some (true, vr2, s2)
        ∧ statusFlip vr2 s2 = some s3
        ∧ s3.removed = [Removed.none, Removed.replaced, Removed.none, Removed.replaced]
        ∧ s3.decisionVar = [true, false, true, false]) := by
  refine ⟨?_, ?_, ?_⟩
  · intro s1 hrun
    obtain ⟨_, hspec⟩ := statusFlipFrom_spec vr.table 0 s s1 hrun
    have hrepl : ∀ (v : Nat) (t : Lit), vr.table[v]? = some t → t.var ≠ v →
        s1.removed[v]? = some Removed.replaced := by
      intro v t hv hne
      have := (hspec v t hv).1 (by simpa using hne) (hrep v t hv hne).1 (hrep v t hv hne).2
      simpa using this
    have hnone : ∀ (v : Nat) (t : Lit), vr.table[v]? = some t → t.var = v →
        s.removed[v]? = some Removed.queued_replacer →
        s1.removed[v]? = some Removed.none := by
      intro v t hv he hq
      have := (hspec v t hv).2.1 (by simpa using he) (by simpa using hq)
      simpa using this
    refine ⟨hrepl, hnone, ?_⟩
    intro v hv
    have hsome : vr.table[v]? = some (vr.table[v]) := List.getElem?_eq_getElem hv
    by_cases hself : (vr.table[v]).var = v
    · by_cases hq : s.removed[v]? = some Removed.queued_replacer
      · rw [hnone v _ hsome hself hq]; simp
      · have := (hspec v _ hsome).2.2 (by simpa using hself) (by simpa using hq)
        simp only [Nat.zero_add] at this
        rw [this]; exact hq
    · rw [hrepl v _ hsome hself]; simp
  · intro hwf hlen hq
    have hlt : ∀ (v : Nat) (t : Lit), vr.table[v]? = some t → v < vr.table.length := by
      intro v t hv
      rcases List.getElem?_eq_some.1 hv with ⟨h, _⟩; exact h
    apply statusFlipFrom_total vr.table 0 s
    · intro i t hi
      have hroot : vr.table[t.var]? = some ⟨t.var, false⟩ := hwf.1 i t hi
      have h1 := hlt _ _ hroot
      have h2 := hlt _ _ hi
      omega
    · intro i t hi hne
      exact hq i t hi (by simpa using hne)
    · intro i t j t2 hi _ hj hne2 he
      have hroot : vr.table[t.var]? = some ⟨t.var, false⟩ := hwf.1 i t hi
      simp only [Nat.zero_add] at hne2 he
      rw [he, hj] at hroot
      cases hroot
      exact hne2 rfl
  · intro propagate
    exact ⟨_, _, _, _, _, rfl, rfl, rfl, rfl, rfl⟩

/-- Witness of C8 on the replacer and solver of the chain scenario. -/
theorem status_flip_witness :
    (∀ (v : Nat) (t : Lit), chainReplacer.table[v]? = some t → t.var ≠ v →
      chainSolver.removed[t.var]? ≠ some Removed.elimed
      ∧ chainSolver.removed[t.var]? ≠ some Removed.decomposed)
    ∧ WellFormed chainReplacer
    ∧ chainReplacer.table.length ≤ chainSolver.removed.length
    ∧ (∀ (v : Nat) (t : Lit), chainReplacer.table[v]? = some t → t.var ≠ v →
        chainSolver.noneOrQueued t.var)
    ∧ ∃ s1, statusFlip chainReplacer chainSolver = some s1
      ∧ (∀ (v : Nat) (t : Lit), chainReplacer.table[v]? = some t → t.var ≠ v →
          s1.removed[v]? = some Removed.replaced)
      ∧ (∀ (v : Nat) (t : Lit), chainReplacer.table[v]? = some t → t.var = v →
          chainSolver.removed[v]? = some Removed.queued_replacer →
          s1.removed[v]? = some Removed.none)
      ∧ (∀ v : Nat, v < chainReplacer.table.length →
          s1.removed[v]? ≠ some Removed.queued_replacer) := by
  have hrep : ∀ (v : Nat) (t : Lit), chainReplacer.table[v]? = some t → t.var ≠ v →
      chainSolver.removed[t.var]? ≠ some Removed.elimed
      ∧ chainSolver.removed[t.var]? ≠ some Removed.decomposed := by
    intro v t hv hne
    rcases v with _ | _ | _ | _ | v <;>
      simp [chainReplacer] at hv <;> subst hv <;> simp [chainSolver] at hne ⊢
  have hq : ∀ (v : Nat) (t : Lit), chainReplacer.table[v]? = some t → t.var ≠ v →
      chainSolver.noneOrQueued t.var := by
    intro v t hv hne
    rcases v with _ | _ | _ | _ | v <;>
      simp [chainReplacer] at hv <;> subst hv <;>
      simp [chainSolver, Solver.noneOrQueued] at hne ⊢
  have hwf : WellFormed chainReplacer :=
    reachable_wellFormed _ (reachable_mergeSeq [(1, 2, true), (2, 3, true)]
      (freshReplacer 4, freshSolver 4) (chainReplacer, chainSolver)
      (reachable_freshReplacer 4) (by decide))
  have hmain := status_flip chainReplacer chainSolver hrep
  obtain ⟨s1, hs1⟩ := hmain.2.1 hwf (by decide) hq
  exact ⟨hrep, hwf, by decide, hq, s1, hs1, hmain.1 s1 hs1⟩

/-- C9 (tie-break of a structural merge). Under the table invariant and the asserted
preconditions, for entries `ta`, `tb` with different unassigned variables `r1 = ta.var`
and `r2 = tb.var`: `replace` returns `true`; `r1` is still self-mapped afterwards
exactly when `r1` has an entry in the reverse table and `r2` has none, and then `r2`
points at `r1`; in every other case `r2` is still self-mapped and `r1` points at `r2`;
and when both have entries, every variable of the entry of `r1` points at `r2` too. -/
theorem merge_tie_break (propagate : Solver → Solver × Bool) (vr : VarReplacer)
    (s : Solver) (a b ta tb : Lit) (rel dl : Bool) (hwf : WellFormed vr)
    (hc : replaceChecks s a b)
    (ha : vr.table[a.var]? = some ta) (hb : vr.table[b.var]? = some tb)
    (hne : ta.var ≠ tb.var) (hsa : s.noneOrQueued ta.var) (hsb : s.noneOrQueued tb.var)
    (hva : s.valueVar ta.var = some LBool.l_Undef)
    (hvb : s.valueVar tb.var = some LBool.l_Undef) :
    ∃ vr1 s1, replace propagate vr s a b rel dl = some (true, vr1, s1)
      ∧ (vr1.table[ta.var]? = some ⟨ta.var, false⟩ ↔
          (rtFind vr.reverseTable ta.var ≠ none ∧ rtFind vr.reverseTable tb.var = none))
      ∧ ((rtFind vr.reverseTable ta.var ≠ none ∧ rtFind vr.reverseTable tb.var = none) →
          ∃ t, vr1.table[tb.var]? = some t ∧ t.var = ta.var)
      ∧ (¬ (rtFind vr.reverseTable ta.var ≠ none ∧ rtFind vr.reverseTable tb.var = none) →
          vr1.table[tb.var]? = some ⟨tb.var, false⟩
          ∧ ∃ t, vr1.table[ta.var]? = some t ∧ t.var = tb.var)
      ∧ (rtFind vr.reverseTable ta.var ≠ none → rtFind vr.reverseTable tb.var ≠ none →
          ∀ deps, rtFind vr.reverseTable ta.var = some deps →
            ∀ v ∈ deps, ∃ t, vr1.table[v]? = some t ∧ t.var = tb.var) := by
  have hx : vr.table[ta.var]? = some ⟨ta.var, false⟩ := hwf.1 _ _ ha
  have hy : vr.table[tb.var]? = some ⟨tb.var, false⟩ := hwf.1 _ _ hb
  obtain ⟨vr2, hrun2, hlk, _⟩ :=
    replaceStructural_spec vr s ta (tb.xor (!rel)) dl hwf hx hy hne
  simp only [Lit.xor_var] at hlk
  refine ⟨vr2, { s with removed := (s.removed.set ta.var Removed.queued_replacer).set (tb.xor (!rel)).var Removed.queued_replacer }, ?_, ?_⟩
  · rw [replace_eq_structural propagate vr s a b ta tb rel dl hc ha hb hne hsa hsb hva hvb]
    exact hrun2
  · by_cases hcond : rtFind vr.reverseTable ta.var ≠ none
        ∧ rtFind vr.reverseTable tb.var = none
    · rw [if_pos hcond] at hlk
      have e1 := linked_lookup vr vr2 _ _ _ hwf hlk hy ta.var _ hx
      have e2 := linked_lookup vr vr2 _ _ _ hwf hlk hy tb.var _ hy
      simp [hne] at e1 e2
      refine ⟨⟨fun _ => hcond, fun _ => e1⟩, fun _ => ⟨_, e2, rfl⟩,
        fun hn => absurd hcond hn, fun _ h2 => absurd hcond.2 h2⟩
    · rw [if_neg hcond] at hlk
      have e1 := linked_lookup vr vr2 _ _ _ hwf hlk hx ta.var _ hx
      have e2 := linked_lookup vr vr2 _ _ _ hwf hlk hx tb.var _ hy
      simp [Ne.symm hne] at e1 e2
      refine ⟨⟨?_, fun h => absurd h hcond⟩, fun h => absurd h hcond,
        fun _ => ⟨e2, _, e1, rfl⟩, ?_⟩
      · intro h
        rw [e1] at h
        simp only [Option.some.injEq, Lit.mk.injEq] at h
        exact absurd h.1.symm hne
      · intro _ _ deps hdeps v hv
        obtain ⟨_, t, ht, htv⟩ := ((hwf.2.1 _ deps hdeps).2.2 v).1 hv
        have e3 := linked_lookup vr vr2 _ _ _ hwf hlk hx v t ht
        rw [if_pos htv] at e3
        exact ⟨_, e3, rfl⟩

/-- Witness of C9: `1 = 4` asserted on the classes {1, 2} and {4, 5}, whose
representatives 2 and 5 both have an entry in the reverse table. -/
theorem merge_tie_break_witness :
    WellFormed pairsReplacer
    ∧ replaceChecks pairsSolver ⟨1, false⟩ ⟨4, false⟩
    ∧ pairsReplacer.table[(⟨1, false⟩ : Lit).var]? = some ⟨2, false⟩
    ∧ pairsReplacer.table[(⟨4, false⟩ : Lit).var]? = some ⟨5, true⟩
    ∧ (⟨2, false⟩ : Lit).var ≠ (⟨5, true⟩ : Lit).var
    ∧ pairsSolver.noneOrQueued 2 ∧ pairsSolver.noneOrQueued 5
    ∧ pairsSolver.valueVar 2 = some LBool.l_Undef
    ∧ pairsSolver.valueVar 5 = some LBool.l_Undef
    ∧ ∃ vr1 s1, replace propagateNone pairsReplacer pairsSolver ⟨1, false⟩ ⟨4, false⟩
          true false = some (true, vr1, s1)
      ∧ (vr1.table[2]? = some ⟨2, false⟩ ↔
          (rtFind pairsReplacer.reverseTable 2 ≠ none
            ∧ rtFind pairsReplacer.reverseTable 5 = none))
      ∧ ((rtFind pairsReplacer.reverseTable 2 ≠ none
            ∧ rtFind pairsReplacer.reverseTable 5 = none) →
          ∃ t, vr1.table[5]? = some t ∧ t.var = 2)
      ∧ (¬ (rtFind pairsReplacer.reverseTable 2 ≠ none
            ∧ rtFind pairsReplacer.reverseTable 5 = none) →
          vr1.table[5]? = some ⟨5, false⟩ ∧ ∃ t, vr1.table[2]? = some t ∧ t.var = 5)
      ∧ (rtFind pairsReplacer.reverseTable 2 ≠ none →
          rtFind pairsReplacer.reverseTable 5 ≠ none →
          ∀ deps, rtFind pairsReplacer.reverseTable 2 = some deps →
            ∀ v ∈ deps, ∃ t, vr1.table[v]? = some t ∧ t.var = 5) :=
  ⟨reachable_wellFormed _ reachable_pairsReplacer, by decide, by decide, by decide,
    by decide, by decide, by decide, by decide, by decide,
    merge_tie_break propagateNone pairsReplacer pairsSolver ⟨1, false⟩ ⟨4, false⟩
      ⟨2, false⟩ ⟨5, true⟩ true false (reachable_wellFormed _ reachable_pairsReplacer)
      (by decide) (by decide) (by decide) (by decide) (by decide) (by decide) (by decide)
      (by decide)⟩

/-- C10 (merge with assigned representatives). For entries `ta`, `tb` of different
variables, with `v1` the value of `ta` and `v2` the value of `tb` composed with the
requested relation: (i) when both are assigned, `replace` returns whether `v1 = v2`,
clears `ok` exactly when they differ, and changes nothing else (nothing is enqueued);
(ii) when exactly one is assigned, it enqueues the literal `toEnqueue`, whose variable
is the unassigned one and after whose enqueue both literals have the value of the
assigned one, runs `propagate` once on the result and sets `ok` to whether propagation
found no conflict. In both cases the replacer (table and reverse table) is returned
unchanged. -/
theorem merge_assigned (propagate : Solver → Solver × Bool) (vr : VarReplacer)
    (s : Solver) (a b ta tb : Lit) (rel dl : Bool) (v1 v2 : LBool)
    (hc : replaceChecks s a b)
    (ha : vr.table[a.var]? = some ta) (hb : vr.table[b.var]? = some tb)
    (hne : ta.var ≠ tb.var) (hsa : s.noneOrQueued ta.var) (hsb : s.noneOrQueued tb.var)
    (hv1 : s.value ta = some v1) (hv2 : s.value (tb.xor (!rel)) = some v2) :
    (v1 ≠ LBool.l_Undef ∧ v2 ≠ LBool.l_Undef →
      replace propagate vr s a b rel dl
        = some (decide (v1 = v2), vr, { s with ok := decide (v1 = v2) }))
    ∧ ((v1 ≠ LBool.l_Undef ∧ v2 = LBool.l_Undef) ∨ (v2 ≠ LBool.l_Undef ∧ v1 = LBool.l_Undef) →
      replace propagate vr s a b rel dl
        = some ((propagate (s.enqueue (toEnqueue ta v1 (tb.xor (!rel)) v2))).2, vr,
            { (propagate (s.enqueue (toEnqueue ta v1 (tb.xor (!rel)) v2))).1 with
              ok := (propagate (s.enqueue (toEnqueue ta v1 (tb.xor (!rel)) v2))).2 })
      ∧ (v1 ≠ LBool.l_Undef → (toEnqueue ta v1 (tb.xor (!rel)) v2).var = tb.var)
      ∧ (v2 ≠ LBool.l_Undef → (toEnqueue ta v1 (tb.xor (!rel)) v2).var = ta.var)
      ∧ (s.enqueue (toEnqueue ta v1 (tb.xor (!rel)) v2)).trail
          = s.trail ++ [toEnqueue ta v1 (tb.xor (!rel)) v2]
      ∧ ∃ w, w ≠ LBool.l_Undef
          ∧ (s.enqueue (toEnqueue ta v1 (tb.xor (!rel)) v2)).value ta = some w
          ∧ (s.enqueue (toEnqueue ta v1 (tb.xor (!rel)) v2)).value (tb.xor (!rel)) = some w
          ∧ (v1 ≠ LBool.l_Undef → w = v1) ∧ (v2 ≠ LBool.l_Undef → w = v2)) := by
  have hok : s.ok = true := hc.1
  have hunf := replace_unfold propagate vr s a b ta tb rel dl hc ha hb
  rw [if_neg hne, if_pos ⟨hsa, hsb⟩, hv1, hv2] at hunf
  simp only at hunf
  constructor
  · intro hboth
    rw [hunf, if_pos hboth]
    by_cases he : v1 = v2
    · subst he
      simp only [handleBothSet_same, hok, decide_True]
      congr 2
      cases s
      simp only at hok
      subst hok
      rfl
    · simp [handleBothSet, he]
  · intro hone
    have hnb : ¬ (v1 ≠ LBool.l_Undef ∧ v2 ≠ LBool.l_Undef) := by
      rcases hone with ⟨_, h⟩ | ⟨_, h⟩
      · exact fun hb => hb.2 h
      · exact fun hb => hb.1 h
    refine ⟨?_, ?_, ?_, rfl, ?_⟩
    · rw [hunf, if_neg hnb, if_pos hone]
      simp [handleOneSet, hok]
    · intro h; simp [toEnqueue, h]
    · intro h
      have h1 : v1 = LBool.l_Undef := by
        rcases hone with ⟨_, h2⟩ | ⟨_, h1⟩
        · exact absurd h2 h
        · exact h1
      simp [toEnqueue, h1]
    · obtain ⟨x1, x2, e1, e2, _, _, heq, hdef, w1, w2⟩ :=
        enqueue_toEnqueue_values s ta (tb.xor (!rel)) v1 v2 (by simpa using hne) hv1 hv2 hone
      refine ⟨x1.xor ta.sign, hdef, ?_, ?_, w1, ?_⟩
      · unfold Solver.value; rw [e1]; rfl
      · unfold Solver.value; rw [e2, heq]; rfl
      · intro h; rw [heq]; exact w2 h

/-- Witness of C10: `1 = 4` asserted while both representatives are set (to values
that disagree), and while only the representative of 1 is set. -/
theorem merge_assigned_witness :
    replace propagateNone pairsReplacer pairsSolverBoth ⟨1, false⟩ ⟨4, false⟩ true false
        = some (false, pairsReplacer, { pairsSolverBoth with ok := false })
    ∧ replace propagateNone pairsReplacer pairsSolverSet ⟨1, false⟩ ⟨4, false⟩ true false
        = some (true, pairsReplacer, pairsSolverForced)
    ∧ toEnqueue ⟨2, false⟩ LBool.l_True ⟨5, true⟩ LBool.l_Undef = ⟨5, true⟩ := by
  have hboth := (merge_assigned propagateNone pairsReplacer pairsSolverBoth ⟨1, false⟩
    ⟨4, false⟩ ⟨2, false⟩ ⟨5, true⟩ true false LBool.l_True LBool.l_False
    (by decide) (by decide) (by decide) (by decide) (by decide) (by decide) (by decide)
    (by decide)).1 (by decide)
  have hone := ((merge_assigned propagateNone pairsReplacer pairsSolverSet ⟨1, false⟩
    ⟨4, false⟩ ⟨2, false⟩ ⟨5, true⟩ true false LBool.l_True LBool.l_Undef
    (by decide) (by decide) (by decide) (by decide) (by decide) (by decide) (by decide)
    (by decide)).2 (by decide)).1
  exact ⟨hboth, hone, by decide⟩

/-! ## The claims on `alreadyIn` and on the apply phase -/

/-- C11, counterexample. In the reachable six-variable replacer the variables 1 and 2
resolve to the same representative 5, yet `alreadyIn(1, +2)` returns `false`: neither
is the table entry of the other. -/
theorem alreadyIn_misses_siblings :
    Reachable demoReplacer
    ∧ demoReplacer.getVarReplacedWith 1 = some 5
    ∧ demoReplacer.getVarReplacedWith (⟨2, false⟩ : Lit).var = some 5
    ∧ alreadyIn demoReplacer (freshSolver 6) 1 ⟨2, false⟩ = some (false, freshSolver 6) :=
  ⟨reachable_demoReplacer, by decide, by decide, by decide⟩

/-- C11, amended. For a variable `var` and a literal `lit` of the table, with entries
`t1` of `var` and `t2` of the variable of `lit`: `alreadyIn(var, lit)` returns `true`
exactly when the entry of one is a literal of the other (`t1` has the variable of
`lit`, or `t2` has the variable `var`); under the table invariant this implies that
both resolve to the same representative variable; it clears `ok` exactly when that
entry asserts `var = ~lit` (`t1 = ~lit`, or else `resolve(lit)` is the negative
literal of `var`), and otherwise returns the solver as it was. -/
theorem alreadyIn_direct_entry (vr : VarReplacer) (s : Solver) (var : Nat) (lit t1 t2 : Lit)
    (h1 : vr.table[var]? = some t1) (h2 : vr.table[lit.var]? = some t2) :
    ∃ ret s1, alreadyIn vr s var lit = some (ret, s1)
      ∧ (ret = true ↔ (t1.var = lit.var ∨ t2.var = var))
      ∧ (WellFormed vr → ret = true → t1.var = t2.var)
      ∧ s1 = (if t1 = lit.neg ∨ (t1.var ≠ lit.var ∧ t2.xor lit.sign = ⟨var, true⟩)
          then { s with ok := false } else s) := by
  unfold alreadyIn
  rw [h1]
  simp only
  by_cases hv1 : t1.var = lit.var
  · rw [if_pos hv1]
    refine ⟨true, _, rfl, ?_, ?_, ?_⟩
    · simp [hv1]
    · intro hwf _
      have hroot : vr.table[t1.var]? = some ⟨t1.var, false⟩ := hwf.1 _ _ h1
      rw [hv1, h2] at hroot
      cases hroot
      exact hv1
    · by_cases hs : t1.sign ≠ lit.sign
      · have : t1 = lit.neg := by
          cases t1; cases lit
          simp only [Lit.neg, Lit.mk.injEq] at hv1 hs ⊢
          refine ⟨hv1, ?_⟩
          rename_i s1 _ s2
          cases s1 <;> cases s2 <;> simp_all
        rw [if_pos hs, if_pos (Or.inl this)]
      · have hne : ¬ t1 = lit.neg := by
          intro h
          apply hs
          rw [h]; simp
        rw [if_neg hs, if_neg (by simp [hne, hv1])]
  · rw [if_neg hv1, h2]
    simp only
    by_cases hv2 : t2.var = var
    · rw [if_pos hv2]
      refine ⟨true, _, rfl, ?_, ?_, ?_⟩
      · simp [hv2]
      · intro hwf _
        have hroot : vr.table[t2.var]? = some ⟨t2.var, false⟩ := hwf.1 _ _ h2
        rw [hv2, h1] at hroot
        cases hroot
        exact hv2.symm
      · have hne : ¬ t1 = lit.neg := fun h => hv1 (by rw [h]; rfl)
        by_cases hs : t2.sign ≠ lit.sign
        · have : t2.xor lit.sign = ⟨var, true⟩ := by
            cases t2; cases lit
            simp only [Lit.xor, Lit.mk.injEq] at hv2 hs ⊢
            refine ⟨hv2, ?_⟩
            rename_i s1 _ s2
            cases s1 <;> cases s2 <;> simp_all
          rw [if_pos hs, if_pos (Or.inr ⟨hv1, this⟩)]
        · have hx : ¬ t2.xor lit.sign = ⟨var, true⟩ := by
            intro h
            apply hs
            have := congrArg Lit.sign h
            simp only [Lit.xor_sign] at this
            intro heq
            rw [heq] at this
            simp at this
          rw [if_neg hs, if_neg (by simp [hne, hx])]
    · rw [if_neg hv2]
      refine ⟨false, _, rfl, ?_, ?_, ?_⟩
      · simp [hv1, hv2]
      · intro _ h; cases h
      · have hne : ¬ t1 = lit.neg := fun h => hv1 (by rw [h]; rfl)
        have hx : ¬ t2.xor lit.sign = ⟨var, true⟩ := by
          intro h
          exact hv2 (congrArg Lit.var h)
        rw [if_neg (by simp [hne, hx])]

/-- Witness of C11 (amended): `alreadyIn(1, +5)` on the six-variable replacer, where
the entry of 1 is `~5`. -/
theorem alreadyIn_direct_entry_witness :
    demoReplacer.table[1]? = some ⟨5, true⟩
    ∧ demoReplacer.table[(⟨5, false⟩ : Lit).var]? = some ⟨5, false⟩
    ∧ ∃ ret s1, alreadyIn demoReplacer (freshSolver 6) 1 ⟨5, false⟩ = some (ret, s1)
      ∧ (ret = true ↔ ((⟨5, true⟩ : Lit).var = (⟨5, false⟩ : Lit).var
          ∨ (⟨5, false⟩ : Lit).var = 1))
      ∧ (WellFormed demoReplacer → ret = true →
          (⟨5, true⟩ : Lit).var = (⟨5, false⟩ : Lit).var)
      ∧ s1 = (if (⟨5, true⟩ : Lit) = (⟨5, false⟩ : Lit).neg
            ∨ ((⟨5, true⟩ : Lit).var ≠ (⟨5, false⟩ : Lit).var
              ∧ (⟨5, false⟩ : Lit).xor (⟨5, false⟩ : Lit).sign = ⟨1, true⟩)
          then { freshSolver 6 with ok := false } else freshSolver 6) :=
  ⟨by decide, by decide,
    alreadyIn_direct_entry demoReplacer (freshSolver 6) 1 ⟨5, false⟩ ⟨5, true⟩ ⟨5, false⟩
      (by decide) (by decide)⟩

@[simp] theorem Lit.neg_neg (l : Lit) : l.neg.neg = l := by
  cases l; simp [Lit.neg]

theorem Lit.ne_neg (l : Lit) : l ≠ l.neg := by
  cases l with
  | mk v sg => cases sg <;> simp [Lit.neg]

/-- Under the table invariant the conditional replacement of `replaceImplicit` is
`resolve`. -/
theorem replaceLit_eq_resolve (vr : VarReplacer) (h : WellFormed vr) (l : Lit) :
    replaceLit vr l = vr.getLitReplacedWith l := by
  unfold replaceLit VarReplacer.getLitReplacedWith
  cases ht : vr.table[l.var]? with
  | none => rfl
  | some t =>
    simp only [Option.map_some']
    by_cases hv : t.var ≠ l.var
    · rw [if_pos hv]
    · rw [if_neg hv]
      have hv2 : t.var = l.var := not_not.1 hv
      have hroot : vr.table[t.var]? = some ⟨t.var, false⟩ := h.1 _ _ ht
      rw [hv2, ht] at hroot
      cases hroot
      cases l with
      | mk v sg => simp [Lit.xor] at hv2 ⊢

theorem scanEntry_binary (vr : VarReplacer) (s : Solver) (kept : List Watched)
    (origLit1 origLit2 l1 l2 : Lit) (red : Bool)
    (ha : s.value origLit1 = some LBool.l_Undef ∧ s.value origLit2 = some LBool.l_Undef
      ∧ origLit1.var ≠ origLit2.var)
    (h1 : replaceLit vr origLit1 = some l1) (h2 : replaceLit vr origLit2 = some l2) :
    scanEntry vr s kept origLit1 (Watched.binary origLit2 red)
      = updateBin vr s kept red origLit1 l1 l2 := by
  simp only [scanEntry, if_pos ha, h1, h2]

theorem scanEntry_tri (vr : VarReplacer) (s : Solver) (kept : List Watched)
    (origLit1 origLit2 origLit3 l1 l2 : Lit) (red : Bool)
    (ha : s.value origLit1 = some LBool.l_Undef ∧ s.value origLit2 = some LBool.l_Undef
      ∧ origLit1.var ≠ origLit2.var)
    (h1 : replaceLit vr origLit1 = some l1) (h2 : replaceLit vr origLit2 = some l2) :
    scanEntry vr s kept origLit1 (Watched.tri origLit2 origLit3 red)
      = updateTri vr s kept red origLit1 origLit2 origLit3 l1 l2 := by
  simp only [scanEntry, if_pos ha, h1, h2]

/-- C14 (binary rewrite rules). For a binary watch entry of the list of `origLit1`
with second literal `origLit2`, both unassigned and of different variables, and with
`l1`, `l2` the two literals after replacement (under the table invariant, their
resolved literals): if `l1 = ~l2` the entry is dropped and nothing is queued; if
`l1 = l2` it is dropped and `l1` is appended to `delayedEnqueue`; otherwise it survives
as the entry with second literal `l2`, written back to its own list when `l1` is
`origLit1`, and appended to the list of `l1`, without being written back, when `l1`
changed. -/
theorem binary_rewrite_rules (vr : VarReplacer) (s : Solver) (kept : List Watched)
    (origLit1 origLit2 l1 l2 : Lit) (red : Bool)
    (ha : s.value origLit1 = some LBool.l_Undef ∧ s.value origLit2 = some LBool.l_Undef
      ∧ origLit1.var ≠ origLit2.var)
    (h1 : replaceLit vr origLit1 = some l1) (h2 : replaceLit vr origLit2 = some l2) :
    (WellFormed vr → vr.getLitReplacedWith origLit1 = some l1
      ∧ vr.getLitReplacedWith origLit2 = some l2)
    ∧ (l1 = l2.neg →
        scanEntry vr s kept origLit1 (Watched.binary origLit2 red) = some (kept, vr, s))
    ∧ (l1 = l2 →
        scanEntry vr s kept origLit1 (Watched.binary origLit2 red)
          = some (kept, { vr with delayedEnqueue := vr.delayedEnqueue ++ [l1] }, s))
    ∧ (l1 ≠ l2 → l1 ≠ l2.neg → l1 = origLit1 →
        scanEntry vr s kept origLit1 (Watched.binary origLit2 red)
          = some (kept ++ [Watched.binary l2 red], vr, s))
    ∧ (l1 ≠ l2 → l1 ≠ l2.neg → l1 ≠ origLit1 →
        ∀ ws, s.watches[l1.toInt]? = some ws →
          scanEntry vr s kept origLit1 (Watched.binary origLit2 red)
            = some (kept, vr,
                { s with watches := s.watches.set l1.toInt (ws ++ [Watched.binary l2 red]) }))
    := by
  rw [scanEntry_binary vr s kept origLit1 origLit2 l1 l2 red ha h1 h2]
  refine ⟨?_, ?_, ?_, ?_, ?_⟩
  · intro hwf
    rw [← replaceLit_eq_resolve vr hwf, ← replaceLit_eq_resolve vr hwf]
    exact ⟨h1, h2⟩
  · intro h
    have hne : l1 ≠ l2 := by rw [h]; exact (Lit.ne_neg l2).symm
    simp only [updateBin, if_neg hne]
    rw [if_pos (Or.inr h)]
  · intro h
    simp only [updateBin, h, true_or, if_true]
  · intro hne hnn ho
    simp only [updateBin, if_neg hne]
    rw [if_neg (by simp [hne, hnn]), if_neg (by simpa using ho)]
  · intro hne hnn ho ws hws
    simp only [updateBin, if_neg hne]
    rw [if_neg (by simp [hne, hnn]), if_pos ho]
    simp only [Solver.pushWatch, hws]

theorem reachable_implReplacer : Reachable implReplacer :=
  reachable_mergeSeq [(1, 2, true)] (freshReplacer 4, freshSolver 4)
    (implReplacer, { freshSolver 4 with removed := [Removed.none, Removed.queued_replacer,
        Removed.queued_replacer, Removed.none] })
    (reachable_freshReplacer 4) (by decide)

/-- Witness of C14: the entry `1 ∨ 3` in the watch list of `+1`, whose first literal
becomes `+2`, moves to the watch list of `+2`. -/
theorem binary_rewrite_rules_witness :
    (implSolver.value ⟨1, false⟩ = some LBool.l_Undef
      ∧ implSolver.value ⟨3, false⟩ = some LBool.l_Undef
      ∧ (⟨1, false⟩ : Lit).var ≠ (⟨3, false⟩ : Lit).var)
    ∧ replaceLit implReplacer ⟨1, false⟩ = some ⟨2, false⟩
    ∧ replaceLit implReplacer ⟨3, false⟩ = some ⟨3, false⟩
    ∧ scanEntry implReplacer implSolver [] ⟨1, false⟩ (Watched.binary ⟨3, false⟩ false)
        = some ([], implReplacer,
            { implSolver with
              watches := implSolver.watches.set (⟨2, false⟩ : Lit).toInt
                           ([Watched.tri ⟨0, false⟩ ⟨1, false⟩ false]
                             ++ [Watched.binary ⟨3, false⟩ false]) }) :=
  ⟨by decide, by decide, by decide,
    (binary_rewrite_rules implReplacer implSolver [] ⟨1, false⟩ ⟨3, false⟩ ⟨2, false⟩
      ⟨3, false⟩ false (by decide) (by decide) (by decide)).2.2.2.2
      (by decide) (by decide) (by decide) _ (by decide)⟩

/-- The three literals `orderLits` returns are the three it was given. -/
theorem orderLits_perm (a b c : Lit) :
    [(orderLits a b c).1, (orderLits a b c).2.1, (orderLits a b c).2.2].Perm [a, b, c] := by
  unfold orderLits
  simp only
  split_ifs <;>
    (rw [List.perm_iff_count]; intro x; simp only [List.count_cons, List.count_nil]
     try omega)

/-- The three literals of a kept ternary entry are the three rewritten literals. -/
theorem triReorder_perm (o1 o2 o3 a b c : Lit) :
    [(triReorder o1 o2 o3 a b c).1, (triReorder o1 o2 o3 a b c).2.1,
      (triReorder o1 o2 o3 a b c).2.2].Perm [a, b, c] := by
  have h := orderLits_perm a b c
  unfold triReorder
  simp only
  split_ifs <;>
    (refine List.Perm.trans ?_ h
     rw [List.perm_iff_count]; intro x; simp only [List.count_cons, List.count_nil]
     try omega)

/-- The body of `updateTri` once its assertions pass and the third literal is read. -/
theorem updateTri_unfold (vr : VarReplacer) (s : Solver) (kept : List Watched) (red : Bool)
    (o1 o2 o3 l1 l2 l3 : Lit)
    (hb : o1.var ≠ o3.var ∧ o2.var ≠ o3.var ∧ o2.toInt < o3.toInt
      ∧ s.value o3 = some LBool.l_Undef)
    (h3 : replaceLit vr o3 = some l3) :
    updateTri vr s kept red o1 o2 o3 l1 l2 =
      if l1 = l2.neg ∨ l1 = l3.neg ∨ l2 = l3.neg then some (kept, vr, s)
      else if l1 = l2 ∧ l2 = l3 then
        some (kept, { vr with delayedEnqueue := vr.delayedEnqueue ++ [l1] }, s)
      else if l1 = l2 then some (kept, newBinClause vr o1 o2 o3 l1 l3 red, s)
      else if l1 = l3 ∨ l2 = l3 then some (kept, newBinClause vr o1 o2 o3 l1 l2 red, s)
      else
        if (triReorder o1 o2 o3 l1 l2 l3).1 ≠ o1 then
          match s.pushWatch (triReorder o1 o2 o3 l1 l2 l3).1
              (Watched.tri (triReorder o1 o2 o3 l1 l2 l3).2.1
                (triReorder o1 o2 o3 l1 l2 l3).2.2 red) with
          | none => none
          | some s1 => some (kept, vr, s1)
        else some (kept ++ [Watched.tri (triReorder o1 o2 o3 l1 l2 l3).2.1
          (triReorder o1 o2 o3 l1 l2 l3).2.2 red], vr, s) := by
  simp only [updateTri, if_pos hb, h3]

/-- C15 (ternary rewrite rules, in order). For a ternary watch entry of the list of
`origLit1` with other literals `origLit2 < origLit3`, all unassigned and of different
variables, and with `l1`, `l2`, `l3` the three literals after replacement (under the
table invariant, their resolved literals): if two of them are complementary the entry
is dropped and neither queue changes, whatever the third is; else if all three are the
same the entry is dropped and that literal is appended to `delayedEnqueue`; else if two
are the same the entry is dropped, the two different literals going to `newBinClause`;
else the entry is kept, with the three rewritten literals: written back to its own list
when the first one is `origLit1`, appended to the list of the first one otherwise. -/
theorem ternary_rewrite_rules (vr : VarReplacer) (s : Solver) (kept : List Watched)
    (origLit1 origLit2 origLit3 l1 l2 l3 : Lit) (red : Bool)
    (ha : s.value origLit1 = some LBool.l_Undef ∧ s.value origLit2 = some LBool.l_Undef
      ∧ origLit1.var ≠ origLit2.var)
    (hb : origLit1.var ≠ origLit3.var ∧ origLit2.var ≠ origLit3.var
      ∧ origLit2.toInt < origLit3.toInt ∧ s.value origLit3 = some LBool.l_Undef)
    (h1 : replaceLit vr origLit1 = some l1) (h2 : replaceLit vr origLit2 = some l2)
    (h3 : replaceLit vr origLit3 = some l3) :
    (WellFormed vr → vr.getLitReplacedWith origLit1 = some l1
      ∧ vr.getLitReplacedWith origLit2 = some l2 ∧ vr.getLitReplacedWith origLit3 = some l3)
    ∧ (l1 = l2.neg ∨ l1 = l3.neg ∨ l2 = l3.neg →
        scanEntry vr s kept origLit1 (Watched.tri origLit2 origLit3 red) = some (kept, vr, s))
    ∧ (¬ (l1 = l2.neg ∨ l1 = l3.neg ∨ l2 = l3.neg) → l1 = l2 → l2 = l3 →
        scanEntry vr s kept origLit1 (Watched.tri origLit2 origLit3 red)
          = some (kept, { vr with delayedEnqueue := vr.delayedEnqueue ++ [l1] }, s))
    ∧ (¬ (l1 = l2.neg ∨ l1 = l3.neg ∨ l2 = l3.neg) → ¬ (l1 = l2 ∧ l2 = l3) →
        (l1 = l2 ∨ l1 = l3 ∨ l2 = l3) →
        ∃ x y, x ≠ y ∧ x ∈ [l1, l2, l3] ∧ y ∈ [l1, l2, l3]
          ∧ scanEntry vr s kept origLit1 (Watched.tri origLit2 origLit3 red)
            = some (kept, newBinClause vr origLit1 origLit2 origLit3 x y red, s))
    ∧ (¬ (l1 = l2.neg ∨ l1 = l3.neg ∨ l2 = l3.neg) → l1 ≠ l2 → l1 ≠ l3 → l2 ≠ l3 →
        ∃ r1 r2 r3, [r1, r2, r3].Perm [l1, l2, l3]
          ∧ (r1 = origLit1 →
              scanEntry vr s kept origLit1 (Watched.tri origLit2 origLit3 red)
                = some (kept ++ [Watched.tri r2 r3 red], vr, s))
          ∧ (r1 ≠ origLit1 → ∀ ws, s.watches[r1.toInt]? = some ws →
              scanEntry vr s kept origLit1 (Watched.tri origLit2 origLit3 red)
                = some (kept, vr,
                    { s with watches := s.watches.set r1.toInt (ws ++ [Watched.tri r2 r3 red]) })))
    := by
  rw [scanEntry_tri vr s kept origLit1 origLit2 origLit3 l1 l2 red ha h1 h2,
    updateTri_unfold vr s kept red origLit1 origLit2 origLit3 l1 l2 l3 hb h3]
  refine ⟨?_, ?_, ?_, ?_, ?_⟩
  · intro hwf
    rw [← replaceLit_eq_resolve vr hwf, ← replaceLit_eq_resolve vr hwf,
      ← replaceLit_eq_resolve vr hwf]
    exact ⟨h1, h2, h3⟩
  · intro ht
    rw [if_pos ht]
  · intro ht e1 e2
    rw [if_neg ht, if_pos ⟨e1, e2⟩]
  · intro ht hall htwo
    rw [if_neg ht, if_neg hall]
    by_cases e12 : l1 = l2
    · rw [if_pos e12]
      have h23 : l2 ≠ l3 := fun h => hall ⟨e12, h⟩
      exact ⟨l1, l3, by rw [e12]; exact h23, by simp, by simp, rfl⟩
    · rw [if_neg e12]
      have h13 : l1 = l3 ∨ l2 = l3 := by
        rcases htwo with h | h | h
        · exact absurd h e12
        · exact Or.inl h
        · exact Or.inr h
      rw [if_pos h13]
      exact ⟨l1, l2, e12, by simp, by simp, rfl⟩
  · intro ht n12 n13 n23
    rw [if_neg ht, if_neg (fun h => n12 h.1), if_neg n12,
      if_neg (by simp [n13, n23])]
    refine ⟨_, _, _, triReorder_perm origLit1 origLit2 origLit3 l1 l2 l3, ?_, ?_⟩
    · intro h
      rw [if_neg (by simpa using h)]
    · intro h ws hws
      rw [if_pos h]
      simp only [Solver.pushWatch, hws]

/-- Witness of C15: the three entries of the clause `0 ∨ 1 ∨ 2` after `1 = 2`; two
rewritten literals are the same, so each entry is dropped, and the one in the list of
`+0` hands `0 ∨ 2` to `newBinClause`. -/
theorem ternary_rewrite_rules_witness :
    (implSolver.value ⟨0, false⟩ = some LBool.l_Undef
      ∧ implSolver.value ⟨1, false⟩ = some LBool.l_Undef
      ∧ (⟨0, false⟩ : Lit).var ≠ (⟨1, false⟩ : Lit).var)
    ∧ ((⟨0, false⟩ : Lit).var ≠ (⟨2, false⟩ : Lit).var
      ∧ (⟨1, false⟩ : Lit).var ≠ (⟨2, false⟩ : Lit).var
      ∧ (⟨1, false⟩ : Lit).toInt < (⟨2, false⟩ : Lit).toInt
      ∧ implSolver.value ⟨2, false⟩ = some LBool.l_Undef)
    ∧ replaceLit implReplacer ⟨0, false⟩ = some ⟨0, false⟩
    ∧ replaceLit implReplacer ⟨1, false⟩ = some ⟨2, false⟩
    ∧ replaceLit implReplacer ⟨2, false⟩ = some ⟨2, false⟩
    ∧ ∃ x y, x ≠ y ∧ x ∈ [(⟨0, false⟩ : Lit), ⟨2, false⟩, ⟨2, false⟩]
        ∧ y ∈ [(⟨0, false⟩ : Lit), ⟨2, false⟩, ⟨2, false⟩]
        ∧ scanEntry implReplacer implSolver [] ⟨0, false⟩
            (Watched.tri ⟨1, false⟩ ⟨2, false⟩ false)
          = some ([], newBinClause implReplacer ⟨0, false⟩ ⟨1, false⟩ ⟨2, false⟩ x y false,
              implSolver) :=
  ⟨by decide, by decide, by decide, by decide, by decide,
    (ternary_rewrite_rules implReplacer implSolver [] ⟨0, false⟩ ⟨1, false⟩ ⟨2, false⟩
      ⟨0, false⟩ ⟨2, false⟩ ⟨2, false⟩ false (by decide) (by decide) (by decide)
      (by decide) (by decide)).2.2.2.1 (by decide) (by decide) (by decide)⟩

theorem replaceLit_congr (vr vr1 : VarReplacer) (h : vr1.table = vr.table) (l : Lit) :
    replaceLit vr1 l = replaceLit vr l := by
  unfold replaceLit; rw [h]

theorem value_congr (s s1 : Solver) (h : s1.assigns = s.assigns) (l : Lit) :
    s1.value l = s.value l := by
  unfold Solver.value; rw [h]

theorem newBinClause_not_ascending (vr : VarReplacer) (o1 o2 o3 x y : Lit) (red : Bool)
    (h : ¬ (o1.toInt < o2.toInt ∧ o2.toInt < o3.toInt)) :
    newBinClause vr o1 o2 o3 x y red = vr := by
  unfold newBinClause; rw [if_neg h]

theorem newBinClause_ascending (vr : VarReplacer) (o1 o2 o3 x y : Lit) (red : Bool)
    (h : o1.toInt < o2.toInt ∧ o2.toInt < o3.toInt) :
    newBinClause vr o1 o2 o3 x y red
      = { vr with delayedAttach := vr.delayedAttach ++ [⟨x, y, red⟩] } := by
  unfold newBinClause; rw [if_pos h]

theorem Lit.eq_neg_comm (x y : Lit) : x = y.neg ↔ y = x.neg := by
  constructor
  · intro h; rw [h]; simp
  · intro h; rw [h]; simp

/-- C13 (ternary dedup). Let the ternary clause of the unassigned literals
`a < b < c`, of three different variables, be stored as the entry `(b, c)` in the
list of `a`, `(a, c)` in the list of `b` and `(a, b)` in the list of `c`, and let
exactly two of the rewritten literals `ra`, `rb`, `rc` be the same and no two
complementary. Then there are two different literals `x`, `y`, which are exactly the
rewritten literals, such that, whatever the queues hold: the rewrite of the entry of
`a` drops it and appends the one binary clause `x ∨ y` to `delayedAttach`, and the
rewrites of the entries of `b` and of `c` drop them and append nothing. -/
theorem ternary_dedup (vr : VarReplacer) (s : Solver) (a b c ra rb rc : Lit) (red : Bool)
    (hab : a.toInt < b.toInt) (hbc : b.toInt < c.toInt)
    (hvars : a.var ≠ b.var ∧ a.var ≠ c.var ∧ b.var ≠ c.var)
    (hval : s.value a = some LBool.l_Undef ∧ s.value b = some LBool.l_Undef
      ∧ s.value c = some LBool.l_Undef)
    (ha : replaceLit vr a = some ra) (hb : replaceLit vr b = some rb)
    (hc : replaceLit vr c = some rc)
    (hnot : ¬ (ra = rb.neg ∨ ra = rc.neg ∨ rb = rc.neg))
    (htwo : (ra = rb ∧ rb ≠ rc) ∨ (ra = rc ∧ ra ≠ rb) ∨ (rb = rc ∧ ra ≠ rb)) :
    ∃ x y, x ≠ y ∧ (∀ l, l ∈ [ra, rb, rc] ↔ (l = x ∨ l = y))
      ∧ ∀ (vr1 : VarReplacer) (s1 : Solver) (kept : List Watched),
          vr1.table = vr.table → s1.assigns = s.assigns →
          scanEntry vr1 s1 kept a (Watched.tri b c red)
            = some (kept, { vr1 with delayedAttach := vr1.delayedAttach ++ [⟨x, y, red⟩] }, s1)
          ∧ scanEntry vr1 s1 kept b (Watched.tri a c red) = some (kept, vr1, s1)
          ∧ scanEntry vr1 s1 kept c (Watched.tri a b red) = some (kept, vr1, s1) := by
  have hac : a.toInt < c.toInt := Nat.lt_trans hab hbc
  -- the two different literals
  obtain ⟨x, y, hxy, hmem, hsel⟩ : ∃ x y, x ≠ y ∧ (∀ l, l ∈ [ra, rb, rc] ↔ (l = x ∨ l = y))
      ∧ x = ra ∧ y = (if ra = rb then rc else rb) := by
    refine ⟨ra, if ra = rb then rc else rb, ?_, ?_, rfl, rfl⟩
    · rcases htwo with ⟨e, n⟩ | ⟨e, n⟩ | ⟨e, n⟩
      · rw [if_pos e, e]; exact n
      · rw [if_neg n]; exact n
      · rw [if_neg n]; exact n
    · intro l
      rcases htwo with ⟨e, n⟩ | ⟨e, n⟩ | ⟨e, n⟩
      · rw [if_pos e]; subst e; simp
      · rw [if_neg n]; subst e
        simp only [List.mem_cons, List.mem_singleton, List.not_mem_nil, or_false]
        tauto
      · rw [if_neg n]; subst e
        simp only [List.mem_cons, List.mem_singleton, List.not_mem_nil, or_false]
        tauto
  refine ⟨x, y, hxy, hmem, ?_⟩
  intro vr1 s1 kept htab hass
  have ha1 : replaceLit vr1 a = some ra := by rw [replaceLit_congr vr vr1 htab]; exact ha
  have hb1 : replaceLit vr1 b = some rb := by rw [replaceLit_congr vr vr1 htab]; exact hb
  have hc1 : replaceLit vr1 c = some rc := by rw [replaceLit_congr vr vr1 htab]; exact hc
  have va : s1.value a = some LBool.l_Undef := by rw [value_congr s s1 hass]; exact hval.1
  have vb : s1.value b = some LBool.l_Undef := by rw [value_congr s s1 hass]; exact hval.2.1
  have vc : s1.value c = some LBool.l_Undef := by rw [value_congr s s1 hass]; exact hval.2.2
  have nall : ¬ (ra = rb ∧ rb = rc) := by
    rintro ⟨e1, e2⟩
    rcases htwo with ⟨_, n⟩ | ⟨_, n⟩ | ⟨_, n⟩
    · exact n e2
    · exact n e1
    · exact n e1
  refine ⟨?_, ?_, ?_⟩
  · -- the entry in the list of `a`: the originals are ascending
    rw [scanEntry_tri vr1 s1 kept a b c ra rb red ⟨va, vb, hvars.1⟩ ha1 hb1,
      updateTri_unfold vr1 s1 kept red a b c ra rb rc ⟨hvars.2.1, hvars.2.2, hbc, vc⟩ hc1,
      if_neg hnot, if_neg nall]
    rw [hsel.1, hsel.2]
    by_cases e : ra = rb
    · rw [if_pos e, if_pos e, newBinClause_ascending _ _ _ _ _ _ _ ⟨hab, hbc⟩]
    · have h13 : ra = rc ∨ rb = rc := by
        rcases htwo with ⟨e1, _⟩ | ⟨e1, _⟩ | ⟨e1, _⟩
        · exact absurd e1 e
        · exact Or.inl e1
        · exact Or.inr e1
      rw [if_neg e, if_neg e, if_pos h13, newBinClause_ascending _ _ _ _ _ _ _ ⟨hab, hbc⟩]
  · -- the entry in the list of `b`: `b < a` fails
    have hnot2 : ¬ (rb = ra.neg ∨ rb = rc.neg ∨ ra = rc.neg) := by
      intro h
      rcases h with h | h | h
      · exact hnot (Or.inl ((Lit.eq_neg_comm _ _).1 h))
      · exact hnot (Or.inr (Or.inr h))
      · exact hnot (Or.inr (Or.inl h))
    have nall2 : ¬ (rb = ra ∧ ra = rc) := fun h => nall ⟨h.1.symm, h.1.trans h.2⟩
    have hasc : ¬ (b.toInt < a.toInt ∧ a.toInt < c.toInt) := fun h => by omega
    rw [scanEntry_tri vr1 s1 kept b a c rb ra red ⟨vb, va, Ne.symm hvars.1⟩ hb1 ha1,
      updateTri_unfold vr1 s1 kept red b a c rb ra rc ⟨hvars.2.2, hvars.2.1, hac, vc⟩ hc1,
      if_neg hnot2, if_neg nall2]
    by_cases e : rb = ra
    · rw [if_pos e, newBinClause_not_ascending _ _ _ _ _ _ _ hasc]
    · have h13 : rb = rc ∨ ra = rc := by
        rcases htwo with ⟨e1, _⟩ | ⟨e1, _⟩ | ⟨e1, _⟩
        · exact absurd e1.symm e
        · exact Or.inr e1
        · exact Or.inl e1
      rw [if_neg e, if_pos h13, newBinClause_not_ascending _ _ _ _ _ _ _ hasc]
  · -- the entry in the list of `c`: `c < a` fails
    have hnot3 : ¬ (rc = ra.neg ∨ rc = rb.neg ∨ ra = rb.neg) := by
      intro h
      rcases h with h | h | h
      · exact hnot (Or.inr (Or.inl ((Lit.eq_neg_comm _ _).1 h)))
      · exact hnot (Or.inr (Or.inr ((Lit.eq_neg_comm _ _).1 h)))
      · exact hnot (Or.inl h)
    have nall3 : ¬ (rc = ra ∧ ra = rb) := fun h => nall ⟨h.2, (h.1.trans h.2).symm⟩
    have hasc : ¬ (c.toInt < a.toInt ∧ a.toInt < b.toInt) := fun h => by omega
    rw [scanEntry_tri vr1 s1 kept c a b rc ra red ⟨vc, va, Ne.symm hvars.2.1⟩ hc1 ha1,
      updateTri_unfold vr1 s1 kept red c a b rc ra rb
        ⟨Ne.symm hvars.2.2, hvars.1, hab, vb⟩ hb1,
      if_neg hnot3, if_neg nall3]
    by_cases e : rc = ra
    · rw [if_pos e, newBinClause_not_ascending _ _ _ _ _ _ _ hasc]
    · have h13 : rc = rb ∨ ra = rb := by
        rcases htwo with ⟨e1, _⟩ | ⟨e1, _⟩ | ⟨e1, _⟩
        · exact Or.inr e1
        · exact absurd e1.symm e
        · exact Or.inl e1.symm
      rw [if_neg e, if_pos h13, newBinClause_not_ascending _ _ _ _ _ _ _ hasc]

/-- Witness of C13: the clause `0 ∨ 1 ∨ 2` after `1 = 2`. The whole scan of
`replaceImplicit` over `implWatches` leaves exactly the binary clause `0 ∨ 2` in
`delayedAttach`. -/
theorem ternary_dedup_witness :
    (⟨0, false⟩ : Lit).toInt < (⟨1, false⟩ : Lit).toInt
    ∧ (⟨1, false⟩ : Lit).toInt < (⟨2, false⟩ : Lit).toInt
    ∧ (implSolver.value ⟨0, false⟩ = some LBool.l_Undef
      ∧ implSolver.value ⟨1, false⟩ = some LBool.l_Undef
      ∧ implSolver.value ⟨2, false⟩ = some LBool.l_Undef)
    ∧ replaceLit implReplacer ⟨0, false⟩ = some ⟨0, false⟩
    ∧ replaceLit implReplacer ⟨1, false⟩ = some ⟨2, false⟩
    ∧ replaceLit implReplacer ⟨2, false⟩ = some ⟨2, false⟩
    ∧ (∃ x y, x ≠ y ∧ (∀ l, l ∈ [(⟨0, false⟩ : Lit), ⟨2, false⟩, ⟨2, false⟩] ↔ (l = x ∨ l = y))
      ∧ ∀ (vr1 : VarReplacer) (s1 : Solver) (kept : List Watched),
          vr1.table = implReplacer.table → s1.assigns = implSolver.assigns →
          scanEntry vr1 s1 kept ⟨0, false⟩ (Watched.tri ⟨1, false⟩ ⟨2, false⟩ false)
            = some (kept,
                { vr1 with delayedAttach := vr1.delayedAttach ++ [⟨x, y, false⟩] }, s1)
          ∧ scanEntry vr1 s1 kept ⟨1, false⟩ (Watched.tri ⟨0, false⟩ ⟨2, false⟩ false)
            = some (kept, vr1, s1)
          ∧ scanEntry vr1 s1 kept ⟨2, false⟩ (Watched.tri ⟨0, false⟩ ⟨1, false⟩ false)
            = some (kept, vr1, s1))
    ∧ (replaceImplicitScan implReplacer implSolver).map (fun r => r.1.delayedAttach)
        = some [⟨⟨0, false⟩, ⟨2, false⟩, false⟩] :=
  ⟨by decide, by decide, by decide, by decide, by decide, by decide,
    ternary_dedup implReplacer implSolver ⟨0, false⟩ ⟨1, false⟩ ⟨2, false⟩
      ⟨0, false⟩ ⟨2, false⟩ ⟨2, false⟩ false (by decide) (by decide) (by decide)
      (by decide) (by decide) (by decide) (by decide) (by decide) (by decide),
    by decide⟩

/-! ## Rewrites and assignments -/

@[simp] theorem Lit.eval_xor (α : Nat → Bool) (l : Lit) (b : Bool) :
    (l.xor b).eval α = Bool.xor (l.eval α) b := by
  cases l; cases b <;> simp [Lit.eval, Lit.xor]

@[simp] theorem Lit.eval_neg (α : Nat → Bool) (l : Lit) : l.neg.eval α = !(l.eval α) := by
  cases l with
  | mk v sg => cases sg <;> simp [Lit.eval, Lit.neg]

theorem replaceLit_eval (vr : VarReplacer) (α : Nat → Bool) (hc : Consistent vr α)
    (l l1 : Lit) (h : replaceLit vr l = some l1) : l1.eval α = l.eval α := by
  unfold replaceLit at h
  cases ht : vr.table[l.var]? with
  | none => rw [ht] at h; cases h
  | some t =>
    rw [ht] at h
    simp only [Option.some.injEq] at h
    by_cases hv : t.var ≠ l.var
    · rw [if_pos hv] at h
      rw [← h, Lit.eval_xor]
      have := hc l.var t ht
      simp only [Lit.eval] at this ⊢
      rw [this]
    · rw [if_neg hv] at h
      rw [h]

theorem clauseHolds_pair (α : Nat → Bool) (a b : Lit) :
    clauseHolds α [a, b] ↔ (a.eval α = true ∨ b.eval α = true) := by
  simp [clauseHolds]

theorem clauseHolds_triple (α : Nat → Bool) (a b c : Lit) :
    clauseHolds α [a, b, c] ↔ (a.eval α = true ∨ b.eval α = true ∨ c.eval α = true) := by
  simp [clauseHolds]

theorem clauseHolds_perm (α : Nat → Bool) (l1 l2 : List Lit) (h : l1.Perm l2) :
    clauseHolds α l1 ↔ clauseHolds α l2 := by
  unfold clauseHolds
  constructor
  · rintro ⟨l, hl, he⟩; exact ⟨l, (h.mem_iff).1 hl, he⟩
  · rintro ⟨l, hl, he⟩; exact ⟨l, (h.mem_iff).2 hl, he⟩

/-- The rewrite of a binary watch entry registers the outcome that `binOutcomeOf` gives
for the two rewritten literals, and that outcome is satisfied exactly when the original
clause is. -/
theorem binary_rewrite_sound (α : Nat → Bool) (vr : VarReplacer) (s : Solver)
    (hc : Consistent vr α) (kept : List Watched) (o1 o2 : Lit) (red : Bool)
    (r : List Watched × VarReplacer × Solver)
    (h : scanEntry vr s kept o1 (Watched.binary o2 red) = some r) :
    ∃ l1 l2, replaceLit vr o1 = some l1 ∧ replaceLit vr o2 = some l2
      ∧ BinOutcome vr s kept o1 red r (binOutcomeOf l1 l2)
      ∧ (clauseHolds α [o1, o2] ↔ (binOutcomeOf l1 l2).holds α) := by
  simp only [scanEntry] at h
  split at h
  · cases h1 : replaceLit vr o1 with
    | none => rw [h1] at h; cases h
    | some l1 =>
      cases h2 : replaceLit vr o2 with
      | none => rw [h1, h2] at h; cases h
      | some l2 =>
        rw [h1, h2] at h
        simp only at h
        refine ⟨l1, l2, rfl, rfl, ?_⟩
        have e1 := replaceLit_eval vr α hc o1 l1 h1
        have e2 := replaceLit_eval vr α hc o2 l2 h2
        rw [clauseHolds_pair, ← e1, ← e2]
        unfold updateBin at h
        by_cases heq : l1 = l2
        · -- a unit
          have ho : binOutcomeOf l1 l2 = Outcome.unit l2 := by
            unfold binOutcomeOf; rw [if_pos heq]
          rw [ho]
          simp only [heq, true_or, if_true, Option.some.injEq] at h
          refine ⟨h.symm, ?_⟩
          simp [Outcome.holds, heq]
        · simp only [if_neg heq] at h
          by_cases hneg : l1 = l2.neg
          · -- a tautology
            have ho : binOutcomeOf l1 l2 = Outcome.dropped := by
              unfold binOutcomeOf; rw [if_neg heq, if_pos hneg]
            rw [ho]
            rw [if_pos (Or.inr hneg)] at h
            simp only [Option.some.injEq] at h
            refine ⟨h.symm, ?_⟩
            simp only [Outcome.holds, iff_true]
            rw [hneg, Lit.eval_neg]
            cases l2.eval α <;> simp
          · have ho : binOutcomeOf l1 l2 = Outcome.binary l1 l2 := by
              unfold binOutcomeOf; rw [if_neg heq, if_neg hneg]
            rw [ho]
            rw [if_neg (by simp [heq, hneg])] at h
            refine ⟨?_, ?_⟩
            · by_cases ho1 : l1 ≠ o1
              · rw [if_pos ho1] at h
                cases hp : s.pushWatch l1 (Watched.binary l2 red) with
                | none => rw [hp] at h; cases h
                | some s1 =>
                  rw [hp] at h
                  simp only [Option.some.injEq] at h
                  right
                  rw [← h]
                  exact ⟨ho1, rfl, rfl, hp⟩
              · rw [if_neg ho1] at h
                simp only [Option.some.injEq] at h
                left
                exact ⟨not_not.1 ho1, h.symm⟩
            · simp [Outcome.holds, clauseHolds_pair]
  · cases h

/-- The rewrite of a ternary watch entry registers the outcome that `triOutcomeOf`
gives for the three rewritten literals, and that outcome is satisfied exactly when the
original clause is. -/
theorem ternary_rewrite_sound (α : Nat → Bool) (vr : VarReplacer) (s : Solver)
    (hc : Consistent vr α) (kept : List Watched) (o1 o2 o3 : Lit) (red : Bool)
    (r : List Watched × VarReplacer × Solver)
    (h : scanEntry vr s kept o1 (Watched.tri o2 o3 red) = some r) :
    ∃ l1 l2 l3, replaceLit vr o1 = some l1 ∧ replaceLit vr o2 = some l2
      ∧ replaceLit vr o3 = some l3
      ∧ TriOutcome vr s kept o1 o2 o3 red r (triOutcomeOf o1 o2 o3 l1 l2 l3)
      ∧ (clauseHolds α [o1, o2, o3] ↔ (triOutcomeOf o1 o2 o3 l1 l2 l3).holds α) := by
  simp only [scanEntry] at h
  split at h
  · cases h1 : replaceLit vr o1 with
    | none => rw [h1] at h; cases h
    | some l1 =>
      cases h2 : replaceLit vr o2 with
      | none => rw [h1, h2] at h; cases h
      | some l2 =>
        rw [h1, h2] at h
        simp only at h
        by_cases hb : o1.var ≠ o3.var ∧ o2.var ≠ o3.var ∧ o2.toInt < o3.toInt
            ∧ s.value o3 = some LBool.l_Undef
        · cases h3 : replaceLit vr o3 with
          | none => simp only [updateTri, if_pos hb, h3] at h; cases h
          | some l3 =>
            rw [updateTri_unfold vr s kept red o1 o2 o3 l1 l2 l3 hb h3] at h
            refine ⟨l1, l2, l3, rfl, rfl, rfl, ?_⟩
            have e1 := replaceLit_eval vr α hc o1 l1 h1
            have e2 := replaceLit_eval vr α hc o2 l2 h2
            have e3 := replaceLit_eval vr α hc o3 l3 h3
            rw [clauseHolds_triple, ← e1, ← e2, ← e3]
            unfold triOutcomeOf
            by_cases ht : l1 = l2.neg ∨ l1 = l3.neg ∨ l2 = l3.neg
            · rw [if_pos ht] at h
              rw [if_pos ht]
              simp only [Option.some.injEq] at h
              refine ⟨h.symm, ?_⟩
              simp only [Outcome.holds, iff_true]
              rcases ht with e | e | e
              · rw [e, Lit.eval_neg]; cases l2.eval α <;> simp
              · rw [e, Lit.eval_neg]; cases l3.eval α <;> simp
              · rw [e, Lit.eval_neg]; cases l3.eval α <;> simp
            · rw [if_neg ht] at h
              rw [if_neg ht]
              by_cases hall : l1 = l2 ∧ l2 = l3
              · rw [if_pos hall] at h
                rw [if_pos hall]
                simp only [Option.some.injEq] at h
                refine ⟨h.symm, ?_⟩
                simp [Outcome.holds, ← hall.2, ← hall.1]
              · rw [if_neg hall] at h
                rw [if_neg hall]
                by_cases e12 : l1 = l2
                · rw [if_pos e12] at h
                  rw [if_pos e12]
                  simp only [Option.some.injEq] at h
                  refine ⟨h.symm, ?_⟩
                  simp only [Outcome.holds, clauseHolds_pair, ← e12]
                  tauto
                · rw [if_neg e12] at h
                  rw [if_neg e12]
                  by_cases e3 : l1 = l3 ∨ l2 = l3
                  · rw [if_pos e3] at h
                    rw [if_pos e3]
                    simp only [Option.some.injEq] at h
                    refine ⟨h.symm, ?_⟩
                    simp only [Outcome.holds, clauseHolds_pair]
                    rcases e3 with e | e
                    · rw [← e]; tauto
                    · rw [← e]; tauto
                  · rw [if_neg e3] at h
                    rw [if_neg e3]
                    refine ⟨?_, ?_⟩
                    · by_cases ho : (triReorder o1 o2 o3 l1 l2 l3).1 ≠ o1
                      · rw [if_pos ho] at h
                        cases hp : s.pushWatch (triReorder o1 o2 o3 l1 l2 l3).1
                            (Watched.tri (triReorder o1 o2 o3 l1 l2 l3).2.1
                              (triReorder o1 o2 o3 l1 l2 l3).2.2 red) with
                        | none => rw [hp] at h; cases h
                        | some s1 =>
                          rw [hp] at h
                          simp only [Option.some.injEq] at h
                          right
                          rw [← h]
                          exact ⟨ho, rfl, rfl, hp⟩
                      · rw [if_neg ho] at h
                        simp only [Option.some.injEq] at h
                        left
                        exact ⟨not_not.1 ho, h.symm⟩
                    · simp only [Outcome.holds]
                      rw [clauseHolds_perm α _ _ (triReorder_perm o1 o2 o3 l1 l2 l3),
                        clauseHolds_triple]
        · simp only [updateTri, if_neg hb] at h
          cases h
  · cases h

theorem value_eval (s : Solver) (α : Nat → Bool) (hr : AgreesRoot s α) (l : Lit) :
    (s.value l = some LBool.l_True → l.eval α = true)
    ∧ (s.value l = some LBool.l_False → l.eval α = false) := by
  unfold Solver.value
  cases ha : s.assigns[l.var]? with
  | none => simp
  | some x =>
    have h1 := (hr l.var).1
    have h2 := (hr l.var).2
    rw [ha] at h1 h2
    simp only [Option.map_some', Option.some.injEq]
    cases x <;> cases hs : l.sign <;> simp [LBool.xor, Lit.eval, hs] at h1 h2 ⊢ <;>
      simp [h1, h2]

theorem clauseHolds_cons (α : Nat → Bool) (l : Lit) (ls : List Lit) :
    clauseHolds α (l :: ls) ↔ (l.eval α = true ∨ clauseHolds α ls) := by
  simp [clauseHolds]

theorem clauseHolds_append (α : Nat → Bool) (l1 l2 : List Lit) :
    clauseHolds α (l1 ++ l2) ↔ (clauseHolds α l1 ∨ clauseHolds α l2) := by
  simp only [clauseHolds, List.mem_append]
  constructor
  · rintro ⟨l, h | h, he⟩
    · exact Or.inl ⟨l, h, he⟩
    · exact Or.inr ⟨l, h, he⟩
  · rintro (⟨l, h, he⟩ | ⟨l, h, he⟩)
    · exact ⟨l, Or.inl h, he⟩
    · exact ⟨l, Or.inr h, he⟩

/-- Replacing the literals of a clause keeps what it says. -/
theorem replaceLits_sound (vr : VarReplacer) (α : Nat → Bool) (hc : Consistent vr α)
    (ls : List Lit) : ∀ (r : Bool × List Lit), replaceLits vr ls = some r →
      (clauseHolds α ls ↔ clauseHolds α r.2) := by
  induction ls with
  | nil =>
    intro r h
    simp only [replaceLits, Option.some.injEq] at h
    rw [← h]
  | cons l rest ih =>
    intro r h
    simp only [replaceLits] at h
    cases ht : vr.table[l.var]? with
    | none => rw [ht] at h; cases h
    | some t =>
      rw [ht] at h
      simp only at h
      cases hrest : replaceLits vr rest with
      | none => rw [hrest] at h; cases h
      | some r0 =>
        rw [hrest] at h
        simp only at h
        have hih := ih r0 hrest
        have hl : replaceLit vr l = some (if t.var ≠ l.var then t.xor l.sign else l) := by
          simp only [replaceLit, ht]
        have he := replaceLit_eval vr α hc l _ hl
        by_cases hv : t.var ≠ l.var
        · rw [if_pos hv] at h he
          simp only [Option.some.injEq] at h
          rw [← h, clauseHolds_cons, clauseHolds_cons, he, hih]
        · rw [if_neg hv] at h
          simp only [Option.some.injEq] at h
          rw [← h, clauseHolds_cons, clauseHolds_cons, hih]

/-- The simplification loop of `handleUpdatedClause` keeps what the clause says: when
it reports the clause satisfied the clause is satisfied, and otherwise the clause is
satisfied exactly when the kept literals are. -/
theorem simplifyLoop_sound (s : Solver) (α : Nat → Bool) (hr : AgreesRoot s α)
    (ls : List Lit) : ∀ (kept : List Lit) (p : Option Lit) (r : Bool × List Lit × List Lit),
      (∀ q, p = some q → q ∈ kept) → simplifyLoop s ls kept p = some r →
      (r.1 = true → clauseHolds α (kept ++ ls))
      ∧ (r.1 = false → r.2.2 = []
          ∧ (clauseHolds α (kept ++ ls) ↔ clauseHolds α r.2.1)) := by
  induction ls with
  | nil =>
    intro kept p r _ h
    simp only [simplifyLoop, Option.some.injEq] at h
    rw [← h]
    simp
  | cons l rest ih =>
    intro kept p r hp h
    simp only [simplifyLoop] at h
    split at h
    · cases hv : s.value l with
      | none => rw [hv] at h; cases h
      | some v =>
        rw [hv] at h
        simp only at h
        by_cases hsat : v = LBool.l_True ∨ some l = p.map Lit.neg
        · rw [if_pos hsat] at h
          simp only [Option.some.injEq] at h
          rw [← h]
          refine ⟨fun _ => ?_, fun hf => by cases hf⟩
          rcases hsat with e | e
          · rw [e] at hv
            exact ⟨l, by simp, (value_eval s α hr l).1 hv⟩
          · cases p with
            | none => simp at e
            | some q =>
              simp only [Option.map_some', Option.some.injEq] at e
              have hq := hp q rfl
              by_cases hqe : q.eval α = true
              · exact ⟨q, by simp [hq], hqe⟩
              · refine ⟨l, by simp, ?_⟩
                rw [e, Lit.eval_neg]
                simpa using hqe
        · rw [if_neg hsat] at h
          by_cases hkeep : v ≠ LBool.l_False ∧ some l ≠ p
          · rw [if_pos hkeep] at h
            have := ih (kept ++ [l]) (some l) r
              (fun q hq => by simp only [Option.some.injEq] at hq; simp [hq]) h
            simpa using this
          · rw [if_neg hkeep] at h
            obtain ⟨i1, i2⟩ := ih kept p r hp h
            have hskip : clauseHolds α (kept ++ l :: rest) ↔ clauseHolds α (kept ++ rest) := by
              rw [clauseHolds_append, clauseHolds_append, clauseHolds_cons]
              constructor
              · rintro (hk | hl | hrest)
                · exact Or.inl hk
                · by_cases hvf : v = LBool.l_False
                  · rw [hvf] at hv
                    rw [(value_eval s α hr l).2 hv] at hl
                    cases hl
                  · have hpl : some l = p := by
                      by_contra hne
                      exact hkeep ⟨hvf, hne⟩
                    exact Or.inl ⟨l, hp l hpl.symm, hl⟩
                · exact Or.inr hrest
              · rintro (hk | hrest)
                · exact Or.inl hk
                · exact Or.inr (Or.inr hrest)
            refine ⟨fun hs => hskip.2 (i1 hs), fun hf => ?_⟩
            obtain ⟨j1, j2⟩ := i2 hf
            exact ⟨j1, hskip.trans j2⟩
    · cases h

/-- The detach primitive changes the watch lists only. -/
theorem detachModifiedClause_frame (s s2 : Solver) (o1 o2 : Lit) (offset : Nat)
    (h : s.detachModifiedClause o1 o2 offset = some s2) :
    s2.ok = s.ok ∧ s2.assigns = s.assigns ∧ s2.trail = s.trail
    ∧ s2.clAllocator = s.clAllocator ∧ s2.removed = s.removed
    ∧ s2.longIrredCls = s.longIrredCls ∧ s2.longRedCls = s.longRedCls
    ∧ s2.assumptions = s.assumptions ∧ s2.assumptionsSet = s.assumptionsSet
    ∧ s2.qhead = s.qhead ∧ s2.decisionVar = s.decisionVar
    ∧ s2.decisionLevel = s.decisionLevel := by
  unfold Solver.detachModifiedClause at h
  split at h
  · simp only [Option.some.injEq] at h
    rw [← h]
    exact ⟨rfl, rfl, rfl, rfl, rfl, rfl, rfl, rfl, rfl, rfl, rfl, rfl⟩
  · cases h

/-- What `handleUpdatedClause` returns, in terms of the result `r` of its
simplification loop and of the solver `s2` after the write-back and the detach. -/
theorem handleUpdatedClause_cases (propagate : Solver → Solver × Bool) (s : Solver)
    (offset : Nat) (o1 o2 : Lit) (c : Clause) (h : Bool × Solver)
    (hc : s.clAllocator[offset]? = some (some c))
    (hrun : handleUpdatedClause propagate s offset o1 o2 = some h) :
    ∃ r s2, simplifyLoop s (sortLits c.lits) [] none = some r
      ∧ s2.ok = s.ok ∧ s2.assigns = s.assigns ∧ s2.trail = s.trail
      ∧ s2.clAllocator = s.clAllocator.set offset (some ⟨r.2.1
          ++ ((sortLits c.lits).drop r.2.1.length).take r.2.2.length, c.red⟩)
      ∧ (r.1 = true → h = (true, s2))
      ∧ (r.1 = false →
          match r.2.1 ++ ((sortLits c.lits).drop r.2.1.length).take r.2.2.length with
          | [] => h = (true, { s2 with ok := false })
          | [l0] =>
            h = (true, { (propagate (s2.enqueue l0)).1 with
                         ok := (propagate (s2.enqueue l0)).2 })
          | [l0, l1] => h.1 = true ∧ s2.attachBinClause l0 l1 c.red = some h.2
          | [l0, l1, l2] => h.1 = true ∧ s2.attachTriClause l0 l1 l2 c.red = some h.2
          | _ => h.1 = false ∧ s2.attachClause offset = some h.2) := by
  unfold handleUpdatedClause at hrun
  rw [hc] at hrun
  simp only at hrun
  cases hr : simplifyLoop s (sortLits c.lits) [] none with
  | none => rw [hr] at hrun; cases hrun
  | some r =>
    rw [hr] at hrun
    simp only at hrun
    split at hrun
    · cases hrun
    · rename_i s2 hd
      have hf := detachModifiedClause_frame _ s2 o1 o2 offset hd
      refine ⟨r, s2, rfl, hf.1, hf.2.1, hf.2.2.1, hf.2.2.2.1, ?_, ?_⟩
      · intro hs
        rw [if_pos hs] at hrun
        exact (Option.some.inj hrun).symm
      · intro hs
        rw [if_neg (by rw [hs]; simp)] at hrun
        generalize r.2.1 ++ ((sortLits c.lits).drop r.2.1.length).take r.2.2.length
          = lits at hrun
        rcases lits with _ | ⟨l0, _ | ⟨l1, _ | ⟨l2, _ | ⟨l3, t⟩⟩⟩⟩
        · exact (Option.some.inj hrun).symm
        · exact (Option.some.inj hrun).symm
        · simp only at hrun ⊢
          split at hrun
          · cases hrun
          · rename_i s3 h3
            rw [← Option.some.inj hrun]
            exact ⟨rfl, h3⟩
        · simp only at hrun ⊢
          split at hrun
          · cases hrun
          · rename_i s3 h3
            rw [← Option.some.inj hrun]
            exact ⟨rfl, h3⟩
        · simp only at hrun ⊢
          split at hrun
          · cases hrun
          · rename_i s3 h3
            rw [← Option.some.inj hrun]
            exact ⟨rfl, h3⟩

/-- Soundness of the rewrite of one long clause: `lits0` are its literals before the
replacement in place, `c` the clause the allocator holds afterwards. With `r` the
result of the simplification loop, `lits` the literals the clause is left with and `s2`
the solver after the write-back and the detach, the call registers the outcome that
`longOutcomeOf` gives for them, and that outcome is satisfied exactly when the original
clause is. -/
theorem long_rewrite_sound (α : Nat → Bool) (vr : VarReplacer) (hc : Consistent vr α)
    (propagate : Solver → Solver × Bool) (s : Solver) (hr : AgreesRoot s α)
    (offset : Nat) (o1 o2 : Lit) (c : Clause) (lits0 : List Lit) (ch : Bool)
    (h : Bool × Solver)
    (hrl : replaceLits vr lits0 = some (ch, c.lits))
    (hal : s.clAllocator[offset]? = some (some c))
    (hrun : handleUpdatedClause propagate s offset o1 o2 = some h) :
    ∃ r lits s2, simplifyLoop s (sortLits c.lits) [] none = some r
      ∧ lits = r.2.1 ++ ((sortLits c.lits).drop r.2.1.length).take r.2.2.length
      ∧ Solver.detachModifiedClause { s with clAllocator := s.clAllocator.set offset (some { c with lits := lits }) } o1 o2 offset = some s2
      ∧ LongOutcome propagate s2 offset c.red h (longOutcomeOf r.1 lits)
      ∧ (clauseHolds α lits0 ↔ (longOutcomeOf r.1 lits).holds α) := by
  have hlt : offset < s.clAllocator.length := by
    rcases Nat.lt_or_ge offset s.clAllocator.length with hlt | hge
    · exact hlt
    · rw [List.getElem?_eq_none hge] at hal
      cases hal
  unfold handleUpdatedClause at hrun
  rw [hal] at hrun
  simp only at hrun
  cases hsl : simplifyLoop s (sortLits c.lits) [] none with
  | none => rw [hsl] at hrun; cases hrun
  | some r =>
    rw [hsl] at hrun
    simp only at hrun
    have hs := simplifyLoop_sound s α hr (sortLits c.lits) [] none r
      (by intro q hq; cases hq) hsl
    have hperm : clauseHolds α (sortLits c.lits) ↔ clauseHolds α c.lits :=
      clauseHolds_perm α _ _ (List.perm_insertionSort _ _)
    have h0 : clauseHolds α lits0 ↔ clauseHolds α c.lits :=
      replaceLits_sound vr α hc lits0 (ch, c.lits) hrl
    rw [List.nil_append] at hs
    generalize hL : r.2.1 ++ ((sortLits c.lits).drop r.2.1.length).take r.2.2.length
      = lits at hrun
    split at hrun
    · cases hrun
    · rename_i s2 hd
      have hf := detachModifiedClause_frame _ s2 o1 o2 offset hd
      have hcl : s2.clAllocator[offset]? = some (some ⟨lits, c.red⟩) := by
        rw [hf.2.2.2.1]
        simp only
        rw [List.getElem?_set_self hlt]
      refine ⟨r, lits, s2, rfl, hL.symm, hd, ?_⟩
      by_cases hsat : r.1 = true
      · rw [if_pos hsat] at hrun
        have ho : longOutcomeOf r.1 lits = Outcome.dropped := by
          unfold longOutcomeOf; rw [if_pos hsat]
        rw [ho]
        refine ⟨(Option.some.inj hrun).symm, ?_⟩
        rw [h0, ← hperm]
        exact ⟨fun _ => trivial, fun _ => hs.1 hsat⟩
      · have hsat2 : r.1 = false := by
          cases hb : r.1
          · rfl
          · exact absurd hb hsat
        rw [if_neg hsat] at hrun
        obtain ⟨hnil, hiff⟩ := hs.2 hsat2
        rw [hnil] at hL
        simp only [List.length_nil, List.take_zero, List.append_nil] at hL
        rw [h0, ← hperm, hiff, hL]
        clear hL
        rcases lits with _ | ⟨l0, _ | ⟨l1, _ | ⟨l2, _ | ⟨l3, t⟩⟩⟩⟩
        · have ho : longOutcomeOf r.1 [] = Outcome.empty := by
            simp [longOutcomeOf, hsat2]
          rw [ho]
          refine ⟨(Option.some.inj hrun).symm, ?_⟩
          simp [clauseHolds, Outcome.holds]
        · have ho : longOutcomeOf r.1 [l0] = Outcome.unit l0 := by
            simp [longOutcomeOf, hsat2]
          rw [ho]
          refine ⟨(Option.some.inj hrun).symm, ?_⟩
          simp [clauseHolds, Outcome.holds]
        · have ho : longOutcomeOf r.1 [l0, l1] = Outcome.binary l0 l1 := by
            simp [longOutcomeOf, hsat2]
          rw [ho]
          simp only at hrun ⊢
          split at hrun
          · cases hrun
          · rename_i s3 h3
            rw [← Option.some.inj hrun]
            exact ⟨⟨rfl, h3⟩, Iff.rfl⟩
        · have ho : longOutcomeOf r.1 [l0, l1, l2] = Outcome.ternary l0 l1 l2 := by
            simp [longOutcomeOf, hsat2]
          rw [ho]
          simp only at hrun ⊢
          split at hrun
          · cases hrun
          · rename_i s3 h3
            rw [← Option.some.inj hrun]
            exact ⟨⟨rfl, h3⟩, Iff.rfl⟩
        · have ho : longOutcomeOf r.1 (l0 :: l1 :: l2 :: l3 :: t)
              = Outcome.kept (l0 :: l1 :: l2 :: l3 :: t) := by
            simp [longOutcomeOf, hsat2]
          rw [ho]
          simp only at hrun ⊢
          split at hrun
          · cases hrun
          · rename_i s3 h3
            rw [← Option.some.inj hrun]
            refine ⟨⟨?_, rfl, hcl, h3⟩, Iff.rfl⟩
            simp only [List.length_cons]
            omega

/-- C12 (rewrite preserves satisfiability, clause by clause): let the total assignment
`α` give each variable the value of the literal it resolves to and agree with the
root-level assignment of the solver. The outcome of a rewrite is a function of what the
code computes and does not depend on `α`: for a binary or ternary watch entry it is
`binOutcomeOf` or `triOutcomeOf` of the rewritten literals, for a long clause
`longOutcomeOf` of the flag and the literals the simplification loop leaves. For every
binary entry, every ternary entry and every long clause whose rewrite returns, the
result of the code is the registration of that outcome (the unit deferred or enqueued,
the binary or ternary pushed or attached, the flag `ok` cleared, the clause kept with
its rewritten literals, or nothing for a dropped clause), and the original clause is
satisfied by `α` if and only if that outcome is, a dropped clause counting as true and
the empty clause as false. For a long clause `lits0` are the literals before the
replacement in place, `c` is the clause the allocator holds after it, and `s2` is the
solver after the write-back of the simplified literals and the detach. -/
theorem rewrite_preserves_satisfiability (α : Nat → Bool) (vr : VarReplacer) (s : Solver)
    (hc : Consistent vr α) (hr : AgreesRoot s α) :
    (∀ (kept : List Watched) (o1 o2 : Lit) (red : Bool)
        (r : List Watched × VarReplacer × Solver),
        scanEntry vr s kept o1 (Watched.binary o2 red) = some r →
        ∃ l1 l2, replaceLit vr o1 = some l1 ∧ replaceLit vr o2 = some l2
          ∧ BinOutcome vr s kept o1 red r (binOutcomeOf l1 l2)
          ∧ (clauseHolds α [o1, o2] ↔ (binOutcomeOf l1 l2).holds α))
    ∧ (∀ (kept : List Watched) (o1 o2 o3 : Lit) (red : Bool)
        (r : List Watched × VarReplacer × Solver),
        scanEntry vr s kept o1 (Watched.tri o2 o3 red) = some r →
        ∃ l1 l2 l3, replaceLit vr o1 = some l1 ∧ replaceLit vr o2 = some l2
          ∧ replaceLit vr o3 = some l3
          ∧ TriOutcome vr s kept o1 o2 o3 red r (triOutcomeOf o1 o2 o3 l1 l2 l3)
          ∧ (clauseHolds α [o1, o2, o3] ↔ (triOutcomeOf o1 o2 o3 l1 l2 l3).holds α))
    ∧ (∀ (propagate : Solver → Solver × Bool) (offset : Nat) (o1 o2 : Lit) (c : Clause)
        (lits0 : List Lit) (ch : Bool) (h : Bool × Solver),
        replaceLits vr lits0 = some (ch, c.lits) →
        s.clAllocator[offset]? = some (some c) →
        handleUpdatedClause propagate s offset o1 o2 = some h →
        ∃ r lits s2, simplifyLoop s (sortLits c.lits) [] none = some r
          ∧ lits = r.2.1 ++ ((sortLits c.lits).drop r.2.1.length).take r.2.2.length
          ∧ Solver.detachModifiedClause { s with clAllocator := s.clAllocator.set offset (some { c with lits := lits }) } o1 o2 offset = some s2
          ∧ LongOutcome propagate s2 offset c.red h (longOutcomeOf r.1 lits)
          ∧ (clauseHolds α lits0 ↔ (longOutcomeOf r.1 lits).holds α)) :=
  ⟨fun kept o1 o2 red r h => binary_rewrite_sound α vr s hc kept o1 o2 red r h,
   fun kept o1 o2 o3 red r h => ternary_rewrite_sound α vr s hc kept o1 o2 o3 red r h,
   fun propagate offset o1 o2 c lits0 ch h hrl hal hrun =>
     long_rewrite_sound α vr hc propagate s hr offset o1 o2 c lits0 ch h hrl hal hrun⟩

theorem consistent_implAlpha : Consistent implReplacer implAlpha := by
  intro v t h
  have hv : v < 4 := by
    rcases Nat.lt_or_ge v 4 with hlt | hge
    · exact hlt
    · have : implReplacer.table[v]? = none := List.getElem?_eq_none hge
      rw [this] at h; cases h
  interval_cases v <;> simp only [implReplacer, List.getElem?_cons_zero,
    List.getElem?_cons_succ, Option.some.injEq] at h <;> subst h <;> decide

theorem agreesRoot_implAlpha : AgreesRoot implSolverLong implAlpha := by
  intro v
  rcases Nat.lt_or_ge v 4 with hlt | hge
  · interval_cases v <;> decide
  · have : implSolverLong.assigns[v]? = none := List.getElem?_eq_none hge
    rw [this]
    simp

/-- Witness of C12: after `1 = 2`, with variable 3 false at the root level, the binary
`1 ∨ 0` is kept as `2 ∨ 0`, the ternary `0 ∨ 1 ∨ 2` becomes the binary `0 ∨ 2`, and the
long clause `0 ∨ 1 ∨ 2 ∨ 3` shrinks to the binary `0 ∨ 2`, which is attached; each is
equivalent to the outcome of its rewrite. -/
theorem rewrite_preserves_satisfiability_witness :
    Consistent implReplacer implAlpha ∧ AgreesRoot implSolverLong implAlpha
    ∧ (replaceLit implReplacer ⟨0, false⟩ = some ⟨0, false⟩
      ∧ replaceLit implReplacer ⟨1, false⟩ = some ⟨2, false⟩
      ∧ replaceLit implReplacer ⟨2, false⟩ = some ⟨2, false⟩)
    ∧ (binOutcomeOf ⟨2, false⟩ ⟨0, false⟩ = Outcome.binary ⟨2, false⟩ ⟨0, false⟩
      ∧ triOutcomeOf ⟨0, false⟩ ⟨1, false⟩ ⟨2, false⟩ ⟨0, false⟩ ⟨2, false⟩ ⟨2, false⟩
          = Outcome.binary ⟨0, false⟩ ⟨2, false⟩
      ∧ longOutcomeOf false [⟨0, false⟩, ⟨2, false⟩] = Outcome.binary ⟨0, false⟩ ⟨2, false⟩)
    ∧ (∃ r l1 l2, scanEntry implReplacer implSolverLong [] ⟨1, false⟩
          (Watched.binary ⟨0, false⟩ false) = some r
        ∧ replaceLit implReplacer ⟨1, false⟩ = some l1
        ∧ replaceLit implReplacer ⟨0, false⟩ = some l2
        ∧ BinOutcome implReplacer implSolverLong [] ⟨1, false⟩ false r (binOutcomeOf l1 l2)
        ∧ (clauseHolds implAlpha [⟨1, false⟩, ⟨0, false⟩]
            ↔ (binOutcomeOf l1 l2).holds implAlpha))
    ∧ (∃ r l1 l2 l3, scanEntry implReplacer implSolverLong [] ⟨0, false⟩
          (Watched.tri ⟨1, false⟩ ⟨2, false⟩ false) = some r
        ∧ replaceLit implReplacer ⟨0, false⟩ = some l1
        ∧ replaceLit implReplacer ⟨1, false⟩ = some l2
        ∧ replaceLit implReplacer ⟨2, false⟩ = some l3
        ∧ TriOutcome implReplacer implSolverLong [] ⟨0, false⟩ ⟨1, false⟩ ⟨2, false⟩
            false r (triOutcomeOf ⟨0, false⟩ ⟨1, false⟩ ⟨2, false⟩ l1 l2 l3)
        ∧ (clauseHolds implAlpha [⟨0, false⟩, ⟨1, false⟩, ⟨2, false⟩]
            ↔ (triOutcomeOf ⟨0, false⟩ ⟨1, false⟩ ⟨2, false⟩ l1 l2 l3).holds implAlpha))
    ∧ (handleUpdatedClause propagateNone implSolverLong 1 ⟨0, false⟩ ⟨1, false⟩).map
        (fun h => (h.1, h.2.ok, h.2.watches[0]?, h.2.watches[4]?))
        = some (true, true,
            some [Watched.tri ⟨1, false⟩ ⟨2, false⟩ false, Watched.binary ⟨2, false⟩ false],
            some [Watched.tri ⟨0, false⟩ ⟨1, false⟩ false, Watched.binary ⟨0, false⟩ false])
    ∧ (simplifyLoop implSolverLong
          (sortLits [⟨0, false⟩, ⟨2, false⟩, ⟨2, false⟩, ⟨3, false⟩]) [] none
        = some (false, [⟨0, false⟩, ⟨2, false⟩], []))
    ∧ (∃ h r lits s2,
        handleUpdatedClause propagateNone implSolverLong 1 ⟨0, false⟩ ⟨1, false⟩ = some h
        ∧ simplifyLoop implSolverLong
            (sortLits [⟨0, false⟩, ⟨2, false⟩, ⟨2, false⟩, ⟨3, false⟩]) [] none = some r
        ∧ LongOutcome propagateNone s2 1 false h (longOutcomeOf r.1 lits)
        ∧ (clauseHolds implAlpha [⟨0, false⟩, ⟨1, false⟩, ⟨2, false⟩, ⟨3, false⟩]
            ↔ (longOutcomeOf r.1 lits).holds implAlpha)) := by
  have T := rewrite_preserves_satisfiability implAlpha implReplacer implSolverLong
    consistent_implAlpha agreesRoot_implAlpha
  have e1 : (scanEntry implReplacer implSolverLong [] ⟨1, false⟩
      (Watched.binary ⟨0, false⟩ false)).isSome = true := by decide
  have e2 : (scanEntry implReplacer implSolverLong [] ⟨0, false⟩
      (Watched.tri ⟨1, false⟩ ⟨2, false⟩ false)).isSome = true := by decide
  have e3 : (handleUpdatedClause propagateNone implSolverLong 1 ⟨0, false⟩
      ⟨1, false⟩).isSome = true := by decide
  refine ⟨consistent_implAlpha, agreesRoot_implAlpha, ⟨by decide, by decide, by decide⟩,
    ⟨rfl, rfl, rfl⟩, ?_, ?_, by decide, by decide, ?_⟩
  · obtain ⟨l1, l2, h1, h2, h3, h4⟩ :=
      T.1 [] ⟨1, false⟩ ⟨0, false⟩ false _ (Option.some_get e1).symm
    exact ⟨_, l1, l2, (Option.some_get e1).symm, h1, h2, h3, h4⟩
  · obtain ⟨l1, l2, l3, h1, h2, h3, h4, h5⟩ :=
      T.2.1 [] ⟨0, false⟩ ⟨1, false⟩ ⟨2, false⟩ false _ (Option.some_get e2).symm
    exact ⟨_, l1, l2, l3, (Option.some_get e2).symm, h1, h2, h3, h4, h5⟩
  · obtain ⟨r, lits, s2, h1, _, _, h4, h5⟩ := T.2.2 propagateNone 1 ⟨0, false⟩ ⟨1, false⟩
      ⟨[⟨0, false⟩, ⟨2, false⟩, ⟨2, false⟩, ⟨3, false⟩], false⟩
      [⟨0, false⟩, ⟨1, false⟩, ⟨2, false⟩, ⟨3, false⟩] true _ (by decide) (by decide)
      (Option.some_get e3).symm
    exact ⟨_, r, lits, s2, (Option.some_get e3).symm, h1, h4, h5⟩

theorem Lit.toInt_inj (a b : Lit) (h : a.toInt = b.toInt) : a = b := by
  obtain ⟨av, as⟩ := a
  obtain ⟨bv, bs⟩ := b
  unfold Lit.toInt at h
  simp only at h
  cases as <;> cases bs <;> simp at h ⊢ <;> omega

theorem Lit.neg_toInt (l : Lit) :
    l.neg.toInt = l.toInt + 1 ∨ l.neg.toInt + 1 = l.toInt := by
  obtain ⟨v, sg⟩ := l
  unfold Lit.neg Lit.toInt
  cases sg <;> simp

theorem value_neg_undef (s : Solver) (l : Lit) (h : s.value l = some LBool.l_Undef) :
    s.value l.neg = some LBool.l_Undef := by
  unfold Solver.value at h ⊢
  simp only [Lit.neg]
  cases ha : s.assigns[l.var]? with
  | none => rw [ha] at h; cases h
  | some x =>
    rw [ha] at h
    simp only [Option.map_some', Option.some.injEq] at h ⊢
    cases x <;> cases hs : l.sign <;> rw [hs] at h <;> simp [LBool.xor] at h ⊢

theorem value_total (s : Solver) (l : Lit) (h : l.var < s.assigns.length) :
    ∃ v, s.value l = some v := by
  unfold Solver.value
  rw [List.getElem?_eq_getElem h]
  exact ⟨_, rfl⟩

/-- The simplification loop on sorted literals, from any point of its run: `kept` is
strictly ascending, unassigned and free of complementary pairs, `p` is its last and
largest literal, and the literals still to visit are not smaller. -/
theorem simplifyLoop_spec (s : Solver) (ls : List Lit) :
    ∀ (kept : List Lit) (p : Option Lit),
      ((p = none ∧ kept = []) ∨ (∃ q, p = some q ∧ q ∈ kept
        ∧ ∀ k ∈ kept, k.toInt ≤ q.toInt)) →
      kept.Pairwise (fun a b => a.toInt < b.toInt) →
      (∀ k ∈ kept, k.neg ∉ kept) →
      (∀ k ∈ kept, s.value k = some LBool.l_Undef) →
      ls.Pairwise (fun a b => a.toInt ≤ b.toInt) →
      (∀ k ∈ kept, ∀ l ∈ ls, k.toInt ≤ l.toInt) →
      (∀ l ∈ ls, s.removed[l.var]? = some Removed.none ∧ ∃ v, s.value l = some v) →
      ∃ r, simplifyLoop s ls kept p = some r
        ∧ (r.1 = true →
            (∃ l ∈ ls, s.value l = some LBool.l_True)
            ∨ (∃ l ∈ ls, l.neg ∈ kept ++ ls ∧ s.value l = some LBool.l_Undef
                ∧ s.value l.neg = some LBool.l_Undef))
        ∧ (r.1 = false → r.2.2 = []
            ∧ (∀ l ∈ ls, s.value l ≠ some LBool.l_True)
            ∧ r.2.1.Pairwise (fun a b => a.toInt < b.toInt)
            ∧ (∀ k ∈ r.2.1, k.neg ∉ r.2.1)
            ∧ (∀ l, l ∈ r.2.1 ↔ (l ∈ kept ∨ (l ∈ ls ∧ s.value l ≠ some LBool.l_False)))) := by
  induction ls with
  | nil =>
    intro kept p _ hk hc _ _ _ _
    refine ⟨(false, kept, []), rfl, ?_, ?_⟩
    · intro h; cases h
    · intro _
      refine ⟨rfl, ?_, hk, hc, ?_⟩
      · intro l hl; cases hl
      · intro l; simp
  | cons l rest ih =>
    intro kept p hp hk hc hu hs hb ht
    obtain ⟨hrem, v, hv⟩ := ht l (List.mem_cons_self _ _)
    have hs2 := List.pairwise_cons.1 hs
    have ht2 : ∀ m ∈ rest, s.removed[m.var]? = some Removed.none
        ∧ ∃ v, s.value m = some v := fun m hm => ht m (List.mem_cons_of_mem _ hm)
    have hunf : simplifyLoop s (l :: rest) kept p =
        if v = LBool.l_True ∨ some l = p.map Lit.neg then some (true, kept, l :: rest)
        else if v ≠ LBool.l_False ∧ some l ≠ p then
          simplifyLoop s rest (kept ++ [l]) (some l)
        else simplifyLoop s rest kept p := by
      simp only [simplifyLoop, if_pos hrem, hv]
    rw [hunf]
    by_cases hA : v = LBool.l_True ∨ some l = p.map Lit.neg
    · rw [if_pos hA]
      refine ⟨(true, kept, l :: rest), rfl, ?_, ?_⟩
      · intro _
        rcases hA with hA | hA
        · left
          exact ⟨l, List.mem_cons_self _ _, by rw [hv, hA]⟩
        · right
          rcases hp with ⟨hp1, _⟩ | ⟨q, hq, hqk, _⟩
          · rw [hp1] at hA; cases hA
          · rw [hq] at hA
            simp only [Option.map_some', Option.some.injEq] at hA
            have hqu := hu q hqk
            have hlu : s.value l = some LBool.l_Undef := by
              rw [hA]; exact value_neg_undef s q hqu
            refine ⟨l, List.mem_cons_self _ _, ?_, hlu, ?_⟩
            · rw [hA, Lit.neg_neg]
              exact List.mem_append_left _ hqk
            · rw [hA, Lit.neg_neg]; exact hqu
      · intro h; cases h
    · rw [if_neg hA]
      have hnT : v ≠ LBool.l_True := fun h => hA (Or.inl h)
      have hnP : some l ≠ p.map Lit.neg := fun h => hA (Or.inr h)
      by_cases hB : v ≠ LBool.l_False ∧ some l ≠ p
      · rw [if_pos hB]
        have hvU : v = LBool.l_Undef := by
          cases v
          · exact absurd rfl hnT
          · exact absurd rfl hB.1
          · rfl
        -- every kept literal is strictly below `l`
        have hlt : ∀ k ∈ kept, k.toInt < l.toInt := by
          intro k hkm
          rcases hp with ⟨_, hp2⟩ | ⟨q, hq, hqk, hqmax⟩
          · rw [hp2] at hkm; cases hkm
          · have h1 := hqmax k hkm
            have h2 := hb q hqk l (List.mem_cons_self _ _)
            have h3 : q.toInt ≠ l.toInt := by
              intro he
              apply hB.2
              rw [hq, Lit.toInt_inj q l he]
            omega
        -- no kept literal is the complement of `l`
        have hnc : ∀ k ∈ kept, k.neg ≠ l := by
          intro k hkm he
          rcases hp with ⟨_, hp2⟩ | ⟨q, hq, hqk, hqmax⟩
          · rw [hp2] at hkm; cases hkm
          · have h1 := hqmax k hkm
            have h2 := hlt q hqk
            have h3 := hlt k hkm
            have h4 := Lit.neg_toInt k
            rw [he] at h4
            have h5 : k.toInt = q.toInt := by omega
            have h6 : k = q := Lit.toInt_inj k q h5
            apply hnP
            rw [hq, ← h6, ← he]
            rfl
        obtain ⟨r, hr, hT, hF⟩ := ih (kept ++ [l]) (some l)
          (Or.inr ⟨l, rfl, by simp, by
            intro k hkm
            rcases List.mem_append.1 hkm with hk1 | hk1
            · exact Nat.le_of_lt (hlt k hk1)
            · rw [List.mem_singleton.1 hk1]⟩)
          (by
            rw [List.pairwise_append]
            refine ⟨hk, List.pairwise_singleton _ _, ?_⟩
            intro a ha b hb2
            rw [List.mem_singleton.1 hb2]
            exact hlt a ha)
          (by
            intro k hkm hkn
            rcases List.mem_append.1 hkm with hk1 | hk1
            · rcases List.mem_append.1 hkn with hk2 | hk2
              · exact hc k hk1 hk2
              · exact hnc k hk1 (List.mem_singleton.1 hk2)
            · have hkl := List.mem_singleton.1 hk1
              rcases List.mem_append.1 hkn with hk2 | hk2
              · apply hnc k.neg hk2
                rw [Lit.neg_neg, hkl]
              · have := List.mem_singleton.1 hk2
                rw [hkl] at this
                exact Lit.ne_neg l this.symm)
          (by
            intro k hkm
            rcases List.mem_append.1 hkm with hk1 | hk1
            · exact hu k hk1
            · rw [List.mem_singleton.1 hk1, hv, hvU])
          hs2.2
          (by
            intro k hkm m hm
            rcases List.mem_append.1 hkm with hk1 | hk1
            · exact hb k hk1 m (List.mem_cons_of_mem _ hm)
            · rw [List.mem_singleton.1 hk1]
              exact hs2.1 m hm)
          ht2
        refine ⟨r, hr, ?_, ?_⟩
        · intro h
          rcases hT h with ⟨m, hm, hmv⟩ | ⟨m, hm, hmn, hmv⟩
          · exact Or.inl ⟨m, List.mem_cons_of_mem _ hm, hmv⟩
          · refine Or.inr ⟨m, List.mem_cons_of_mem _ hm, ?_, hmv⟩
            simp only [List.append_assoc, List.singleton_append] at hmn
            exact hmn
        · intro h
          obtain ⟨h1, h2, h3, h4, h5⟩ := hF h
          refine ⟨h1, ?_, h3, h4, ?_⟩
          · intro m hm
            rcases List.mem_cons.1 hm with hm | hm
            · rw [hm, hv, hvU]; simp
            · exact h2 m hm
          · intro m
            rw [h5 m]
            simp only [List.mem_append, List.mem_cons, List.not_mem_nil, or_false]
            constructor
            · rintro ((hm | hm) | ⟨hm, hmv⟩)
              · exact Or.inl hm
              · refine Or.inr ⟨Or.inl hm, ?_⟩
                rw [hm, hv, hvU]; simp
              · exact Or.inr ⟨Or.inr hm, hmv⟩
            · rintro (hm | ⟨hm | hm, hmv⟩)
              · exact Or.inl (Or.inl hm)
              · exact Or.inl (Or.inr hm)
              · exact Or.inr ⟨hm, hmv⟩
      · rw [if_neg hB]
        obtain ⟨r, hr, hT, hF⟩ := ih kept p hp hk hc hu hs2.2
          (fun k hkm m hm => hb k hkm m (List.mem_cons_of_mem _ hm)) ht2
        refine ⟨r, hr, ?_, ?_⟩
        · intro h
          rcases hT h with ⟨m, hm, hmv⟩ | ⟨m, hm, hmn, hmv⟩
          · exact Or.inl ⟨m, List.mem_cons_of_mem _ hm, hmv⟩
          · refine Or.inr ⟨m, List.mem_cons_of_mem _ hm, ?_, hmv⟩
            rcases List.mem_append.1 hmn with hx | hx
            · exact List.mem_append_left _ hx
            · exact List.mem_append_right _ (List.mem_cons_of_mem _ hx)
        · intro h
          obtain ⟨h1, h2, h3, h4, h5⟩ := hF h
          refine ⟨h1, ?_, h3, h4, ?_⟩
          · intro m hm
            rcases List.mem_cons.1 hm with hm | hm
            · rw [hm, hv]
              intro he
              exact hnT (Option.some.inj he)
            · exact h2 m hm
          · intro m
            rw [h5 m]
            simp only [List.mem_cons]
            constructor
            · rintro (hm | ⟨hm, hmv⟩)
              · exact Or.inl hm
              · exact Or.inr ⟨Or.inr hm, hmv⟩
            · rintro (hm | ⟨hm | hm, hmv⟩)
              · exact Or.inl hm
              · left
                rw [hm] at hmv ⊢
                have hvF : v ≠ LBool.l_False := by
                  intro he; apply hmv; rw [hv, he]
                have hlp : some l = p := by
                  by_contra hne
                  exact hB ⟨hvF, hne⟩
                rcases hp with ⟨hp1, _⟩ | ⟨q, hq, hqk, _⟩
                · rw [hp1] at hlp; cases hlp
                · rw [hq] at hlp
                  rw [Option.some.inj hlp]
                  exact hqk
              · exact Or.inr ⟨hm, hmv⟩

/-- The part of the solver state that the watch-list primitives leave alone. -/
theorem pushWatch_total (s : Solver) (l : Lit) (w : Watched)
    (h : l.toInt < s.watches.length) :
    ∃ s1, s.pushWatch l w = some s1 ∧ s1.watches.length = s.watches.length
      ∧ s1.ok = s.ok ∧ s1.assigns = s.assigns ∧ s1.trail = s.trail
      ∧ s1.clAllocator = s.clAllocator ∧ s1.removed = s.removed
      ∧ s1.longIrredCls = s.longIrredCls ∧ s1.longRedCls = s.longRedCls
      ∧ s1.assumptions = s.assumptions ∧ s1.assumptionsSet = s.assumptionsSet
      ∧ s1.qhead = s.qhead := by
  unfold Solver.pushWatch
  rw [List.getElem?_eq_getElem h]
  exact ⟨_, rfl, by simp, rfl, rfl, rfl, rfl, rfl, rfl, rfl, rfl, rfl, rfl⟩

theorem attachBinClause_total (s : Solver) (l1 l2 : Lit) (red : Bool)
    (h1 : l1.toInt < s.watches.length) (h2 : l2.toInt < s.watches.length) :
    ∃ s1, s.attachBinClause l1 l2 red = some s1 ∧ s1.watches.length = s.watches.length
      ∧ s1.ok = s.ok ∧ s1.assigns = s.assigns ∧ s1.trail = s.trail
      ∧ s1.clAllocator = s.clAllocator ∧ s1.removed = s.removed
      ∧ s1.longIrredCls = s.longIrredCls ∧ s1.longRedCls = s.longRedCls
      ∧ s1.assumptions = s.assumptions ∧ s1.assumptionsSet = s.assumptionsSet
      ∧ s1.qhead = s.qhead := by
  obtain ⟨a, ha, hl, f1, f2, f3, f4, f5, f6, f7, f8, f9, f10⟩ :=
    pushWatch_total s l1 (Watched.binary l2 red) h1
  obtain ⟨b, hb, hl2, g1, g2, g3, g4, g5, g6, g7, g8, g9, g10⟩ :=
    pushWatch_total a l2 (Watched.binary l1 red) (by rw [hl]; exact h2)
  refine ⟨b, ?_, by rw [hl2, hl], by rw [g1, f1], by rw [g2, f2], by rw [g3, f3],
    by rw [g4, f4], by rw [g5, f5], by rw [g6, f6], by rw [g7, f7], by rw [g8, f8],
    by rw [g9, f9], by rw [g10, f10]⟩
  unfold Solver.attachBinClause
  rw [ha]
  exact hb

theorem attachTriClause_total (s : Solver) (l1 l2 l3 : Lit) (red : Bool)
    (h1 : l1.toInt < s.watches.length) (h2 : l2.toInt < s.watches.length)
    (h3 : l3.toInt < s.watches.length) :
    ∃ s1, s.attachTriClause l1 l2 l3 red = some s1
      ∧ s1.watches.length = s.watches.length
      ∧ s1.ok = s.ok ∧ s1.assigns = s.assigns ∧ s1.trail = s.trail
      ∧ s1.clAllocator = s.clAllocator ∧ s1.removed = s.removed
      ∧ s1.longIrredCls = s.longIrredCls ∧ s1.longRedCls = s.longRedCls
      ∧ s1.assumptions = s.assumptions ∧ s1.assumptionsSet = s.assumptionsSet
      ∧ s1.qhead = s.qhead := by
  have hperm := orderLits_perm l1 l2 l3
  have hall : ∀ x ∈ [(orderLits l1 l2 l3).1, (orderLits l1 l2 l3).2.1,
      (orderLits l1 l2 l3).2.2], x.toInt < s.watches.length := by
    intro x hx
    have hx2 := (hperm.mem_iff).1 hx
    simp only [List.mem_cons, List.not_mem_nil, or_false] at hx2
    rcases hx2 with hx2 | hx2 | hx2 <;> rw [hx2] <;> assumption
  have k1 := hall _ (List.mem_cons_self _ _)
  have k2 := hall _ (List.mem_cons_of_mem _ (List.mem_cons_self _ _))
  have k3 := hall _ (List.mem_cons_of_mem _ (List.mem_cons_of_mem _ (List.mem_cons_self _ _)))
  obtain ⟨a, ha, hl, f1, f2, f3, f4, f5, f6, f7, f8, f9, f10⟩ :=
    pushWatch_total s _ (Watched.tri (orderLits l1 l2 l3).2.1 (orderLits l1 l2 l3).2.2 red) k1
  obtain ⟨b, hb, hl2, g1, g2, g3, g4, g5, g6, g7, g8, g9, g10⟩ :=
    pushWatch_total a _ (Watched.tri (orderLits l1 l2 l3).1 (orderLits l1 l2 l3).2.2 red)
      (by rw [hl]; exact k2)
  obtain ⟨d, hd, hl3, e1, e2, e3, e4, e5, e6, e7, e8, e9, e10⟩ :=
    pushWatch_total b _ (Watched.tri (orderLits l1 l2 l3).1 (orderLits l1 l2 l3).2.1 red)
      (by rw [hl2, hl]; exact k3)
  refine ⟨d, ?_, by rw [hl3, hl2, hl], by rw [e1, g1, f1], by rw [e2, g2, f2],
    by rw [e3, g3, f3], by rw [e4, g4, f4], by rw [e5, g5, f5], by rw [e6, g6, f6],
    by rw [e7, g7, f7], by rw [e8, g8, f8], by rw [e9, g9, f9], by rw [e10, g10, f10]⟩
  unfold Solver.attachTriClause
  simp only
  rw [ha]
  simp only
  rw [hb]
  exact hd

theorem attachClause_total (s : Solver) (offset : Nat) (l0 l1 : Lit) (t : List Lit)
    (red : Bool) (hal : s.clAllocator[offset]? = some (some ⟨l0 :: l1 :: t, red⟩))
    (h0 : l0.toInt < s.watches.length) (h1 : l1.toInt < s.watches.length) :
    ∃ s1, s.attachClause offset = some s1 ∧ s1.watches.length = s.watches.length
      ∧ s1.ok = s.ok ∧ s1.assigns = s.assigns ∧ s1.trail = s.trail
      ∧ s1.clAllocator = s.clAllocator ∧ s1.removed = s.removed
      ∧ s1.longIrredCls = s.longIrredCls ∧ s1.longRedCls = s.longRedCls
      ∧ s1.assumptions = s.assumptions ∧ s1.assumptionsSet = s.assumptionsSet
      ∧ s1.qhead = s.qhead := by
  obtain ⟨a, ha, hl, f1, f2, f3, f4, f5, f6, f7, f8, f9, f10⟩ :=
    pushWatch_total s l0 (Watched.clause offset) h0
  obtain ⟨b, hb, hl2, g1, g2, g3, g4, g5, g6, g7, g8, g9, g10⟩ :=
    pushWatch_total a l1 (Watched.clause offset) (by rw [hl]; exact h1)
  refine ⟨b, ?_, by rw [hl2, hl], by rw [g1, f1], by rw [g2, f2], by rw [g3, f3],
    by rw [g4, f4], by rw [g5, f5], by rw [g6, f6], by rw [g7, f7], by rw [g8, f8],
    by rw [g9, f9], by rw [g10, f10]⟩
  unfold Solver.attachClause
  rw [hal]
  simp only
  rw [ha]
  exact hb

theorem detachModifiedClause_total (s : Solver) (o1 o2 : Lit) (offset : Nat)
    (h1 : o1.toInt < s.watches.length) (h2 : o2.toInt < s.watches.length) :
    ∃ s2, s.detachModifiedClause o1 o2 offset = some s2
      ∧ s2.watches.length = s.watches.length := by
  unfold Solver.detachModifiedClause
  rw [List.getElem?_eq_getElem h1, List.getElem?_eq_getElem h2]
  exact ⟨_, rfl, by simp⟩

/-- The method `handleUpdatedClause` returns when its simplification loop does and the
watch lists of the two original literals and of the kept literals exist; `s2` is the
solver after the write-back of the simplified clause and the detach. -/
theorem handleUpdatedClause_run (propagate : Solver → Solver × Bool) (s : Solver)
    (offset : Nat) (o1 o2 : Lit) (c : Clause) (r : Bool × List Lit × List Lit)
    (hal : s.clAllocator[offset]? = some (some c))
    (hsl : simplifyLoop s (sortLits c.lits) [] none = some r)
    (hnil : r.1 = false → r.2.2 = [])
    (hw1 : o1.toInt < s.watches.length) (hw2 : o2.toInt < s.watches.length)
    (hw : r.1 = false → ∀ l ∈ r.2.1, l.toInt < s.watches.length) :
    ∃ h s2 o, handleUpdatedClause propagate s offset o1 o2 = some h
      ∧ (s2.ok = s.ok ∧ s2.assigns = s.assigns ∧ s2.trail = s.trail
        ∧ s2.removed = s.removed ∧ s2.assumptions = s.assumptions
        ∧ s2.assumptionsSet = s.assumptionsSet ∧ s2.qhead = s.qhead
        ∧ s2.watches.length = s.watches.length)
      ∧ LongOutcome propagate s2 offset c.red h o
      ∧ ((r.1 = true ∧ o = Outcome.dropped) ∨ (r.1 = false ∧ o.lits = some r.2.1)) := by
  have hlt : offset < s.clAllocator.length := by
    rcases Nat.lt_or_ge offset s.clAllocator.length with hlt | hge
    · exact hlt
    · rw [List.getElem?_eq_none hge] at hal
      cases hal
  obtain ⟨s2, hd, hlen⟩ := detachModifiedClause_total
    { s with clAllocator := s.clAllocator.set offset (some ⟨r.2.1 ++ ((sortLits c.lits).drop r.2.1.length).take r.2.2.length, c.red⟩) }
    o1 o2 offset hw1 hw2
  have hf := detachModifiedClause_frame _ s2 o1 o2 offset hd
  have hfr : s2.ok = s.ok ∧ s2.assigns = s.assigns ∧ s2.trail = s.trail
      ∧ s2.removed = s.removed ∧ s2.assumptions = s.assumptions
      ∧ s2.assumptionsSet = s.assumptionsSet ∧ s2.qhead = s.qhead
      ∧ s2.watches.length = s.watches.length :=
    ⟨hf.1, hf.2.1, hf.2.2.1, hf.2.2.2.2.1, hf.2.2.2.2.2.2.2.1, hf.2.2.2.2.2.2.2.2.1,
      hf.2.2.2.2.2.2.2.2.2.1, hlen⟩
  have hcl := hf.2.2.2.1
  simp only at hcl
  unfold handleUpdatedClause
  rw [hal]
  simp only
  rw [hsl]
  simp only
  rw [hd]
  simp only
  by_cases hsat : r.1 = true
  · rw [if_pos hsat]
    exact ⟨_, s2, Outcome.dropped, rfl, hfr, rfl, Or.inl ⟨hsat, rfl⟩⟩
  · rw [if_neg hsat]
    have hsat2 : r.1 = false := by
      cases hb : r.1
      · rfl
      · exact absurd hb hsat
    have hn := hnil hsat2
    have hw := hw hsat2
    rw [hn] at hcl ⊢
    simp only [List.length_nil, List.take_zero, List.append_nil] at hcl ⊢
    generalize r.2.1 = lits at hcl hw ⊢
    rcases lits with _ | ⟨l0, _ | ⟨l1, _ | ⟨l2, _ | ⟨l3, t⟩⟩⟩⟩
    · exact ⟨_, s2, Outcome.empty, rfl, hfr, rfl, Or.inr ⟨hsat2, rfl⟩⟩
    · exact ⟨_, s2, Outcome.unit l0, rfl, hfr, rfl, Or.inr ⟨hsat2, rfl⟩⟩
    · obtain ⟨s3, h3, _⟩ := attachBinClause_total s2 l0 l1 c.red
        (by rw [hlen]; exact hw l0 (by simp)) (by rw [hlen]; exact hw l1 (by simp))
      simp only [h3]
      exact ⟨_, s2, Outcome.binary l0 l1, rfl, hfr, ⟨rfl, h3⟩, Or.inr ⟨hsat2, rfl⟩⟩
    · obtain ⟨s3, h3, _⟩ := attachTriClause_total s2 l0 l1 l2 c.red
        (by rw [hlen]; exact hw l0 (by simp)) (by rw [hlen]; exact hw l1 (by simp))
        (by rw [hlen]; exact hw l2 (by simp))
      simp only [h3]
      exact ⟨_, s2, Outcome.ternary l0 l1 l2, rfl, hfr, ⟨rfl, h3⟩, Or.inr ⟨hsat2, rfl⟩⟩
    · have hal2 : s2.clAllocator[offset]?
          = some (some ⟨l0 :: l1 :: l2 :: l3 :: t, c.red⟩) := by
        rw [hcl]
        simp [hlt]
      obtain ⟨s3, h3, _⟩ := attachClause_total s2 offset l0 l1 (l2 :: l3 :: t) c.red hal2
        (by rw [hlen]; exact hw l0 (by simp)) (by rw [hlen]; exact hw l1 (by simp))
      simp only [h3]
      refine ⟨_, s2, Outcome.kept (l0 :: l1 :: l2 :: l3 :: t), rfl, hfr,
        ⟨?_, rfl, hal2, h3⟩, Or.inr ⟨hsat2, rfl⟩⟩
      simp only [List.length_cons]
      omega

theorem replaceLits_spec (vr : VarReplacer) (ls : List Lit) :
    ∀ (r : Bool × List Lit), replaceLits vr ls = some r →
      List.Forall₂ (fun l0 l => replaceLit vr l0 = some l) ls r.2 := by
  induction ls with
  | nil =>
    intro r h
    simp only [replaceLits, Option.some.injEq] at h
    rw [← h]
    exact List.Forall₂.nil
  | cons l rest ih =>
    intro r h
    simp only [replaceLits] at h
    cases ht : vr.table[l.var]? with
    | none => rw [ht] at h; cases h
    | some t =>
      rw [ht] at h
      simp only at h
      cases hr : replaceLits vr rest with
      | none => rw [hr] at h; cases h
      | some r1 =>
        rw [hr] at h
        simp only at h
        have ih1 := ih r1 hr
        split at h
        · rename_i hv
          rw [← Option.some.inj h]
          refine List.Forall₂.cons ?_ ih1
          simp only [replaceLit, ht, if_pos hv]
        · rename_i hv
          rw [← Option.some.inj h]
          refine List.Forall₂.cons ?_ ih1
          simp only [replaceLit, ht, if_neg hv]

theorem sortLits_sorted (ls : List Lit) :
    (sortLits ls).Pairwise (fun a b => a.toInt ≤ b.toInt) := by
  haveI : IsTotal Lit (fun a b => a.toInt ≤ b.toInt) := ⟨fun a b => Nat.le_total _ _⟩
  haveI : IsTrans Lit (fun a b => a.toInt ≤ b.toInt) := ⟨fun a b c h1 h2 => Nat.le_trans h1 h2⟩
  exact List.sorted_insertionSort (fun a b => a.toInt ≤ b.toInt) ls

theorem mem_sortLits (ls : List Lit) (l : Lit) : l ∈ sortLits ls ↔ l ∈ ls :=
  (List.perm_insertionSort _ ls).mem_iff

/-- The simplification loop of `handleUpdatedClause` on a whole clause: it returns, it
reports `satisfied` exactly when a literal is true or two complementary literals are
both not false, and otherwise it keeps the literals that are not false, each once, in
ascending order. -/
theorem simplifyLoop_clause (s : Solver) (lits : List Lit)
    (hrem : ∀ l ∈ lits, s.removed[l.var]? = some Removed.none)
    (hval : ∀ l ∈ lits, l.var < s.assigns.length) :
    ∃ r, simplifyLoop s (sortLits lits) [] none = some r
      ∧ (r.1 = true ↔
          ((∃ l ∈ lits, s.value l = some LBool.l_True)
           ∨ (∃ l ∈ lits, l.neg ∈ lits ∧ s.value l ≠ some LBool.l_False
                ∧ s.value l.neg ≠ some LBool.l_False)))
      ∧ (r.1 = false → r.2.2 = []
          ∧ r.2.1.Pairwise (fun a b => a.toInt < b.toInt)
          ∧ (∀ l, l ∈ r.2.1 ↔ (l ∈ lits ∧ s.value l ≠ some LBool.l_False))) := by
  obtain ⟨r, hr, hT, hF⟩ := simplifyLoop_spec s (sortLits lits) [] none
    (Or.inl ⟨rfl, rfl⟩) List.Pairwise.nil
    (fun k hk => by cases hk) (fun k hk => by cases hk)
    (sortLits_sorted lits) (fun k hk => by cases hk)
    (fun l hl => ⟨hrem l ((mem_sortLits lits l).1 hl),
      value_total s l (hval l ((mem_sortLits lits l).1 hl))⟩)
  refine ⟨r, hr, ⟨?_, ?_⟩, ?_⟩
  · intro h
    rcases hT h with ⟨l, hl, hv⟩ | ⟨l, hl, hn, hv1, hv2⟩
    · exact Or.inl ⟨l, (mem_sortLits lits l).1 hl, hv⟩
    · rw [List.nil_append] at hn
      refine Or.inr ⟨l, (mem_sortLits lits l).1 hl, (mem_sortLits lits _).1 hn, ?_, ?_⟩
      · rw [hv1]; simp
      · rw [hv2]; simp
  · intro hsat
    by_contra hne
    have hf : r.1 = false := by
      cases hb : r.1
      · rfl
      · exact absurd hb hne
    obtain ⟨_, h2, _, h4, h5⟩ := hF hf
    rcases hsat with ⟨l, hl, hv⟩ | ⟨l, hl, hn, hv1, hv2⟩
    · exact h2 l ((mem_sortLits lits l).2 hl) hv
    · have m1 : l ∈ r.2.1 := (h5 l).2 (Or.inr ⟨(mem_sortLits lits l).2 hl, hv1⟩)
      have m2 : l.neg ∈ r.2.1 := (h5 _).2 (Or.inr ⟨(mem_sortLits lits _).2 hn, hv2⟩)
      exact h4 l m1 m2
  · intro hf
    obtain ⟨h1, _, h3, _, h5⟩ := hF hf
    refine ⟨h1, h3, ?_⟩
    intro l
    rw [h5 l, mem_sortLits]
    simp

/-- C16 (long-clause simplification). Let `c` be the clause the allocator holds at
`offset` after the replacement in place of the literals `lits0`, at least one of which
was substituted, let its variables be variables of the solver of status none, and let the watch lists of its literals and of the two original first literals exist.
Then `c.lits` are the resolved literals of `lits0`, the call of `handleUpdatedClause`
returns, and its outcome is "dropped as satisfied" if and only if some resolved literal
is true at root level or two complementary resolved literals are both not false;
otherwise the literals it leaves are exactly the resolved literals that are not false
at root level, in strictly ascending order (so without duplicates). -/
theorem long_clause_simplification (vr : VarReplacer) (hwf : WellFormed vr)
    (propagate : Solver → Solver × Bool) (s : Solver) (offset : Nat) (o1 o2 : Lit)
    (c : Clause) (lits0 : List Lit)
    (hrl : replaceLits vr lits0 = some (true, c.lits))
    (hal : s.clAllocator[offset]? = some (some c))
    (hrem : ∀ l ∈ c.lits, s.removed[l.var]? = some Removed.none)
    (hval : ∀ l ∈ c.lits, l.var < s.assigns.length)
    (hw : ∀ l ∈ o1 :: o2 :: c.lits, l.toInt < s.watches.length) :
    List.Forall₂ (fun l0 l => vr.getLitReplacedWith l0 = some l) lits0 c.lits
    ∧ ∃ h s2 o, handleUpdatedClause propagate s offset o1 o2 = some h
        ∧ (s2.ok = s.ok ∧ s2.assigns = s.assigns ∧ s2.trail = s.trail)
        ∧ LongOutcome propagate s2 offset c.red h o
        ∧ (o = Outcome.dropped ↔
            ((∃ l ∈ c.lits, s.value l = some LBool.l_True)
             ∨ (∃ l ∈ c.lits, l.neg ∈ c.lits ∧ s.value l ≠ some LBool.l_False
                  ∧ s.value l.neg ≠ some LBool.l_False)))
        ∧ (o ≠ Outcome.dropped → ∃ ls, o.lits = some ls
            ∧ ls.Pairwise (fun a b => a.toInt < b.toInt)
            ∧ (∀ l, l ∈ ls ↔ (l ∈ c.lits ∧ s.value l ≠ some LBool.l_False))) := by
  constructor
  · have h := replaceLits_spec vr lits0 (true, c.lits) hrl
    refine List.Forall₂.imp ?_ h
    intro a b hab
    rw [← replaceLit_eq_resolve vr hwf a]
    exact hab
  · obtain ⟨r, hsl, hiff, hF⟩ := simplifyLoop_clause s c.lits hrem hval
    obtain ⟨h, s2, o, hrun, hfr, hout, hcase⟩ :=
      handleUpdatedClause_run propagate s offset o1 o2 c r hal hsl
        (fun hf => (hF hf).1)
        (hw o1 (List.mem_cons_self _ _))
        (hw o2 (List.mem_cons_of_mem _ (List.mem_cons_self _ _)))
        (fun hf l hl => hw l (List.mem_cons_of_mem _ (List.mem_cons_of_mem _
          (((hF hf).2.2 l).1 hl).1)))
    refine ⟨h, s2, o, hrun, ⟨hfr.1, hfr.2.1, hfr.2.2.1⟩, hout, ?_, ?_⟩
    · rw [← hiff]
      constructor
      · intro ho
        rcases hcase with ⟨ht, _⟩ | ⟨_, hl⟩
        · exact ht
        · rw [ho] at hl; cases hl
      · intro ht
        rcases hcase with ⟨_, ho⟩ | ⟨hf, _⟩
        · exact ho
        · rw [ht] at hf; cases hf
    · intro hne
      rcases hcase with ⟨_, ho⟩ | ⟨hf, hl⟩
      · exact absurd ho hne
      · exact ⟨r.2.1, hl, (hF hf).2.1, (hF hf).2.2⟩

/-- Witness of C16: after `1 = 2`, with variable 3 false at root level, the clause
`0 ∨ 1 ∨ 2 ∨ 3` has the resolved literals `0, 2, 2, 3`; its rewrite returns and is not
dropped, and it leaves the literals `0, 2`. -/
theorem long_clause_simplification_witness :
    (replaceLits implReplacer [⟨0, false⟩, ⟨1, false⟩, ⟨2, false⟩, ⟨3, false⟩]
        = some (true, [⟨0, false⟩, ⟨2, false⟩, ⟨2, false⟩, ⟨3, false⟩])
      ∧ implSolverLong.clAllocator[1]?
        = some (some ⟨[⟨0, false⟩, ⟨2, false⟩, ⟨2, false⟩, ⟨3, false⟩], false⟩))
    ∧ (handleUpdatedClause propagateNone implSolverLong 1 ⟨0, false⟩ ⟨1, false⟩).map
        (fun h => (h.1, h.2.ok, h.2.clAllocator[1]?))
        = some (true, true, some (some ⟨[⟨0, false⟩, ⟨2, false⟩], false⟩))
    ∧ ∃ h s2 o, handleUpdatedClause propagateNone implSolverLong 1 ⟨0, false⟩ ⟨1, false⟩
          = some h
        ∧ LongOutcome propagateNone s2 1 false h o
        ∧ (o = Outcome.dropped ↔
            ((∃ l ∈ [(⟨0, false⟩ : Lit), ⟨2, false⟩, ⟨2, false⟩, ⟨3, false⟩],
                implSolverLong.value l = some LBool.l_True)
             ∨ (∃ l ∈ [(⟨0, false⟩ : Lit), ⟨2, false⟩, ⟨2, false⟩, ⟨3, false⟩],
                  l.neg ∈ [(⟨0, false⟩ : Lit), ⟨2, false⟩, ⟨2, false⟩, ⟨3, false⟩]
                  ∧ implSolverLong.value l ≠ some LBool.l_False
                  ∧ implSolverLong.value l.neg ≠ some LBool.l_False)))
        ∧ (o ≠ Outcome.dropped → ∃ ls, o.lits = some ls
            ∧ ls.Pairwise (fun a b => a.toInt < b.toInt)
            ∧ (∀ l, l ∈ ls ↔
                (l ∈ [(⟨0, false⟩ : Lit), ⟨2, false⟩, ⟨2, false⟩, ⟨3, false⟩]
                  ∧ implSolverLong.value l ≠ some LBool.l_False))) := by
  obtain ⟨_, h, s2, o, h1, _, h3, h4, h5⟩ :=
    long_clause_simplification implReplacer (reachable_wellFormed _ reachable_implReplacer)
      propagateNone implSolverLong 1 ⟨0, false⟩ ⟨1, false⟩
      ⟨[⟨0, false⟩, ⟨2, false⟩, ⟨2, false⟩, ⟨3, false⟩], false⟩
      [⟨0, false⟩, ⟨1, false⟩, ⟨2, false⟩, ⟨3, false⟩]
      (by decide) (by decide) (by decide) (by decide) (by decide)
  exact ⟨⟨by decide, by decide⟩, by decide, h, s2, o, h1, h3, h4, h5⟩

/-- A push on a watch list changes the watch lists only. -/
theorem pushWatch_frame (s s1 : Solver) (l : Lit) (w : Watched)
    (h : s.pushWatch l w = some s1) :
    s1.ok = s.ok ∧ s1.assigns = s.assigns ∧ s1.trail = s.trail
    ∧ s1.clAllocator = s.clAllocator ∧ s1.removed = s.removed
    ∧ s1.longIrredCls = s.longIrredCls ∧ s1.longRedCls = s.longRedCls
    ∧ s1.assumptions = s.assumptions ∧ s1.assumptionsSet = s.assumptionsSet
    ∧ s1.qhead = s.qhead ∧ s1.decisionVar = s.decisionVar
    ∧ s1.decisionLevel = s.decisionLevel := by
  unfold Solver.pushWatch at h
  split at h
  · cases h
  · simp only [Option.some.injEq] at h
    rw [← h]
    exact ⟨rfl, rfl, rfl, rfl, rfl, rfl, rfl, rfl, rfl, rfl, rfl, rfl⟩

/-- The fields of the solver other than the watch lists. -/
theorem frame_trans {a b c : Solver}
    (h1 : b.ok = a.ok ∧ b.assigns = a.assigns ∧ b.trail = a.trail
      ∧ b.clAllocator = a.clAllocator ∧ b.removed = a.removed
      ∧ b.longIrredCls = a.longIrredCls ∧ b.longRedCls = a.longRedCls
      ∧ b.assumptions = a.assumptions ∧ b.assumptionsSet = a.assumptionsSet
      ∧ b.qhead = a.qhead ∧ b.decisionVar = a.decisionVar
      ∧ b.decisionLevel = a.decisionLevel)
    (h2 : c.ok = b.ok ∧ c.assigns = b.assigns ∧ c.trail = b.trail
      ∧ c.clAllocator = b.clAllocator ∧ c.removed = b.removed
      ∧ c.longIrredCls = b.longIrredCls ∧ c.longRedCls = b.longRedCls
      ∧ c.assumptions = b.assumptions ∧ c.assumptionsSet = b.assumptionsSet
      ∧ c.qhead = b.qhead ∧ c.decisionVar = b.decisionVar
      ∧ c.decisionLevel = b.decisionLevel) :
    c.ok = a.ok ∧ c.assigns = a.assigns ∧ c.trail = a.trail
      ∧ c.clAllocator = a.clAllocator ∧ c.removed = a.removed
      ∧ c.longIrredCls = a.longIrredCls ∧ c.longRedCls = a.longRedCls
      ∧ c.assumptions = a.assumptions ∧ c.assumptionsSet = a.assumptionsSet
      ∧ c.qhead = a.qhead ∧ c.decisionVar = a.decisionVar
      ∧ c.decisionLevel = a.decisionLevel := by
  obtain ⟨a1, a2, a3, a4, a5, a6, a7, a8, a9, a10, a11, a12⟩ := h1
  obtain ⟨b1, b2, b3, b4, b5, b6, b7, b8, b9, b10, b11, b12⟩ := h2
  exact ⟨b1.trans a1, b2.trans a2, b3.trans a3, b4.trans a4, b5.trans a5, b6.trans a6,
    b7.trans a7, b8.trans a8, b9.trans a9, b10.trans a10, b11.trans a11, b12.trans a12⟩

theorem attachBinClause_frame (s s1 : Solver) (l1 l2 : Lit) (red : Bool)
    (h : s.attachBinClause l1 l2 red = some s1) :
    s1.ok = s.ok ∧ s1.assigns = s.assigns ∧ s1.trail = s.trail
    ∧ s1.clAllocator = s.clAllocator ∧ s1.removed = s.removed
    ∧ s1.longIrredCls = s.longIrredCls ∧ s1.longRedCls = s.longRedCls
    ∧ s1.assumptions = s.assumptions ∧ s1.assumptionsSet = s.assumptionsSet
    ∧ s1.qhead = s.qhead ∧ s1.decisionVar = s.decisionVar
    ∧ s1.decisionLevel = s.decisionLevel := by
  unfold Solver.attachBinClause at h
  split at h
  · cases h
  · rename_i a ha
    exact frame_trans (pushWatch_frame _ _ _ _ ha) (pushWatch_frame _ _ _ _ h)

theorem attachTriClause_frame (s s1 : Solver) (l1 l2 l3 : Lit) (red : Bool)
    (h : s.attachTriClause l1 l2 l3 red = some s1) :
    s1.ok = s.ok ∧ s1.assigns = s.assigns ∧ s1.trail = s.trail
    ∧ s1.clAllocator = s.clAllocator ∧ s1.removed = s.removed
    ∧ s1.longIrredCls = s.longIrredCls ∧ s1.longRedCls = s.longRedCls
    ∧ s1.assumptions = s.assumptions ∧ s1.assumptionsSet = s.assumptionsSet
    ∧ s1.qhead = s.qhead ∧ s1.decisionVar = s.decisionVar
    ∧ s1.decisionLevel = s.decisionLevel := by
  unfold Solver.attachTriClause at h
  simp only at h
  split at h
  · cases h
  · rename_i a ha
    split at h
    · cases h
    · rename_i b hb
      exact frame_trans (frame_trans (pushWatch_frame _ _ _ _ ha)
        (pushWatch_frame _ _ _ _ hb)) (pushWatch_frame _ _ _ _ h)

theorem attachClause_frame (s s1 : Solver) (offset : Nat)
    (h : s.attachClause offset = some s1) :
    s1.ok = s.ok ∧ s1.assigns = s.assigns ∧ s1.trail = s.trail
    ∧ s1.clAllocator = s.clAllocator ∧ s1.removed = s.removed
    ∧ s1.longIrredCls = s.longIrredCls ∧ s1.longRedCls = s.longRedCls
    ∧ s1.assumptions = s.assumptions ∧ s1.assumptionsSet = s.assumptionsSet
    ∧ s1.qhead = s.qhead ∧ s1.decisionVar = s.decisionVar
    ∧ s1.decisionLevel = s.decisionLevel := by
  unfold Solver.attachClause at h
  split at h
  · split at h
    · split at h
      · cases h
      · rename_i a ha
        exact frame_trans (pushWatch_frame _ _ _ _ ha) (pushWatch_frame _ _ _ _ h)
    · cases h
  · cases h

/-- When `handleUpdatedClause` returns `false` (the clause stays a long clause) the
flag `ok`, the assignment and the trail are as before. -/
theorem handleUpdatedClause_kept_frame (propagate : Solver → Solver × Bool) (s : Solver)
    (offset : Nat) (o1 o2 : Lit) (c : Clause) (h : Bool × Solver)
    (hc : s.clAllocator[offset]? = some (some c))
    (hrun : handleUpdatedClause propagate s offset o1 o2 = some h) (hk : h.1 = false) :
    h.2.ok = s.ok ∧ h.2.assigns = s.assigns ∧ h.2.trail = s.trail
    ∧ h.2.removed = s.removed ∧ h.2.assumptions = s.assumptions
    ∧ h.2.assumptionsSet = s.assumptionsSet ∧ h.2.qhead = s.qhead
    ∧ h.2.longIrredCls = s.longIrredCls ∧ h.2.longRedCls = s.longRedCls
    ∧ h.2.clAllocator.length = s.clAllocator.length := by
  unfold handleUpdatedClause at hrun
  rw [hc] at hrun
  simp only at hrun
  split at hrun
  · cases hrun
  · rename_i r hr
    split at hrun
    · cases hrun
    · rename_i s2 hd
      have hf := detachModifiedClause_frame _ s2 o1 o2 offset hd
      split at hrun
      · rw [← Option.some.inj hrun] at hk; cases hk
      · split at hrun
        · rw [← Option.some.inj hrun] at hk; cases hk
        · rw [← Option.some.inj hrun] at hk; cases hk
        · split at hrun
          · cases hrun
          · rw [← Option.some.inj hrun] at hk; cases hk
        · split at hrun
          · cases hrun
          · rw [← Option.some.inj hrun] at hk; cases hk
        · split at hrun
          · cases hrun
          · rename_i s3 h3
            have hg := attachClause_frame _ _ _ h3
            rw [← Option.some.inj hrun]
            simp only
            refine ⟨hg.1.trans hf.1, hg.2.1.trans hf.2.1, hg.2.2.1.trans hf.2.2.1,
              hg.2.2.2.2.1.trans hf.2.2.2.2.1,
              hg.2.2.2.2.2.2.2.1.trans hf.2.2.2.2.2.2.2.1,
              hg.2.2.2.2.2.2.2.2.1.trans hf.2.2.2.2.2.2.2.2.1,
              hg.2.2.2.2.2.2.2.2.2.1.trans hf.2.2.2.2.2.2.2.2.2.1,
              hg.2.2.2.2.2.1.trans hf.2.2.2.2.2.1,
              hg.2.2.2.2.2.2.1.trans hf.2.2.2.2.2.2.1, ?_⟩
            rw [hg.2.2.2.1, hf.2.2.2.1]
            simp

/-- One turn of the loop of `replace_set` on a clause without a substituted literal:
the offset is kept and the solver is not touched. -/
theorem replaceSetLoop_unchanged (propagate : Solver → Solver × Bool) (vr : VarReplacer)
    (cs : List Nat) (s : Solver) (offset : Nat) (rest kept : List Nat) (c : Clause)
    (o1 o2 l3 l4 : Lit) (t lits1 : List Lit)
    (hal : s.clAllocator[offset]? = some (some c))
    (hshape : c.lits = o1 :: o2 :: l3 :: l4 :: t)
    (hrl : replaceLits vr c.lits = some (false, lits1)) :
    replaceSetLoop propagate vr cs (offset :: rest) kept s
      = replaceSetLoop propagate vr cs rest (kept ++ [offset]) s := by
  rw [hshape] at hrl
  rw [replaceSetLoop, hal]
  simp only
  rw [hshape]
  simp only
  rw [hrl]
  simp

/-- One turn of the loop of `replace_set` on a clause with a substituted literal, in
terms of the result `h` of `handleUpdatedClause`. -/
theorem replaceSetLoop_changed (propagate : Solver → Solver × Bool) (vr : VarReplacer)
    (cs : List Nat) (s s1 : Solver) (offset : Nat) (rest kept : List Nat) (c : Clause)
    (o1 o2 l3 l4 : Lit) (t lits1 : List Lit) (h : Bool × Solver)
    (hal : s.clAllocator[offset]? = some (some c))
    (hshape : c.lits = o1 :: o2 :: l3 :: l4 :: t)
    (hrl : replaceLits vr c.lits = some (true, lits1))
    (hs1 : s1 = { s with clAllocator := s.clAllocator.set offset (some ⟨lits1, c.red⟩) })
    (hrun : handleUpdatedClause propagate s1 offset o1 o2 = some h) :
    replaceSetLoop propagate vr cs (offset :: rest) kept s
      = if h.1 = true then
          if (h.2.clauseFree offset).ok = false then
            some (false, kept ++ cs.drop kept.length, h.2.clauseFree offset)
          else replaceSetLoop propagate vr cs rest kept (h.2.clauseFree offset)
        else replaceSetLoop propagate vr cs rest (kept ++ [offset]) h.2 := by
  rw [hshape] at hrl
  rw [hs1] at hrun
  rw [replaceSetLoop, hal]
  simp only
  rw [hshape]
  simp only
  rw [hrl]
  simp only [if_true]
  rw [hrun]

/-- A turn of the loop of `replace_set` that returns: the clause is allocated, has at
least four literals, and either no literal is substituted or `handleUpdatedClause`
returned. -/
theorem replaceSetLoop_cons_inv (propagate : Solver → Solver × Bool) (vr : VarReplacer)
    (cs : List Nat) (s : Solver) (offset : Nat) (rest kept : List Nat)
    (r : Bool × List Nat × Solver)
    (hr : replaceSetLoop propagate vr cs (offset :: rest) kept s = some r) :
    ∃ (c : Clause) (o1 o2 l3 l4 : Lit) (t : List Lit),
      s.clAllocator[offset]? = some (some c) ∧ c.lits = o1 :: o2 :: l3 :: l4 :: t
      ∧ ((∃ lits1, replaceLits vr c.lits = some (false, lits1)
            ∧ replaceSetLoop propagate vr cs rest (kept ++ [offset]) s = some r)
         ∨ (∃ lits1 h, replaceLits vr c.lits = some (true, lits1)
            ∧ handleUpdatedClause propagate
                { s with clAllocator := s.clAllocator.set offset (some ⟨lits1, c.red⟩) }
                offset o1 o2 = some h
            ∧ (if h.1 = true then
                if (h.2.clauseFree offset).ok = false then
                  some (false, kept ++ cs.drop kept.length, h.2.clauseFree offset)
                else replaceSetLoop propagate vr cs rest kept (h.2.clauseFree offset)
              else replaceSetLoop propagate vr cs rest (kept ++ [offset]) h.2) = some r)) := by
  cases hal : s.clAllocator[offset]? with
  | none => rw [replaceSetLoop, hal] at hr; cases hr
  | some oc =>
    cases oc with
    | none => rw [replaceSetLoop, hal] at hr; cases hr
    | some c =>
      obtain ⟨lits, red⟩ := c
      rcases lits with _ | ⟨o1, _ | ⟨o2, _ | ⟨l3, _ | ⟨l4, t⟩⟩⟩⟩
      · rw [replaceSetLoop, hal] at hr; cases hr
      · rw [replaceSetLoop, hal] at hr; cases hr
      · rw [replaceSetLoop, hal] at hr; cases hr
      · rw [replaceSetLoop, hal] at hr; cases hr
      · refine ⟨⟨o1 :: o2 :: l3 :: l4 :: t, red⟩, o1, o2, l3, l4, t, rfl, rfl, ?_⟩
        cases hrl : replaceLits vr (o1 :: o2 :: l3 :: l4 :: t) with
        | none =>
          rw [replaceSetLoop, hal] at hr
          simp only [hrl] at hr
          cases hr
        | some q =>
          obtain ⟨ch, lits1⟩ := q
          cases ch with
          | false =>
            left
            refine ⟨lits1, rfl, ?_⟩
            rw [← hr]
            exact (replaceSetLoop_unchanged propagate vr cs s offset rest kept
              ⟨o1 :: o2 :: l3 :: l4 :: t, red⟩ o1 o2 l3 l4 t lits1 hal rfl hrl).symm
          | true =>
            right
            cases hrun : handleUpdatedClause propagate
                { s with clAllocator := s.clAllocator.set offset (some ⟨lits1, red⟩) }
                offset o1 o2 with
            | none =>
              rw [replaceSetLoop, hal] at hr
              simp only [hrl, if_true] at hr
              rw [hrun] at hr
              cases hr
            | some h =>
              refine ⟨lits1, h, rfl, hrun, ?_⟩
              rw [← hr]
              exact (replaceSetLoop_changed propagate vr cs s _ offset rest kept
                ⟨o1 :: o2 :: l3 :: l4 :: t, red⟩ o1 o2 l3 l4 t lits1 h hal rfl hrl rfl
                hrun).symm

/-- When `replace_set` runs to its end with the flag `ok` set, the container it leaves
is what was kept so far followed by a sublist of the offsets still to visit. -/
theorem replaceSetLoop_container (propagate : Solver → Solver × Bool) (vr : VarReplacer)
    (cs : List Nat) (rest : List Nat) :
    ∀ (kept : List Nat) (s : Solver) (r : Bool × List Nat × Solver),
      replaceSetLoop propagate vr cs rest kept s = some r → r.1 = true →
      ∃ ks, r.2.1 = kept ++ ks ∧ ks.Sublist rest := by
  induction rest with
  | nil =>
    intro kept s r hr _
    simp only [replaceSetLoop, Option.some.injEq] at hr
    rw [← hr]
    exact ⟨[], by simp, List.Sublist.refl _⟩
  | cons offset rest ih =>
    intro kept s r hr ht
    obtain ⟨c, o1, o2, l3, l4, t, _, _, hcase⟩ :=
      replaceSetLoop_cons_inv propagate vr cs s offset rest kept r hr
    rcases hcase with ⟨lits1, _, hloop⟩ | ⟨lits1, h, _, _, hloop⟩
    · obtain ⟨ks, hk, hsub⟩ := ih (kept ++ [offset]) s r hloop ht
      refine ⟨offset :: ks, ?_, hsub.cons₂ offset⟩
      rw [hk]; simp
    · split at hloop
      · split at hloop
        · rw [← Option.some.inj hloop] at ht; cases ht
        · obtain ⟨ks, hk, hsub⟩ := ih kept _ r hloop ht
          exact ⟨ks, hk, hsub.cons offset⟩
      · obtain ⟨ks, hk, hsub⟩ := ih (kept ++ [offset]) _ r hloop ht
        refine ⟨offset :: ks, ?_, hsub.cons₂ offset⟩
        rw [hk]; simp

/-- From a state with the flag `ok` set, `replace_set` returns the flag `ok`; when it
returns `false` the container has its old length and still holds the offset of the
clause that was freed last. -/
theorem replaceSetLoop_fail (propagate : Solver → Solver × Bool) (vr : VarReplacer)
    (cs : List Nat) (rest : List Nat) :
    ∀ (visited kept : List Nat) (s : Solver) (r : Bool × List Nat × Solver),
      cs = visited ++ rest → kept.length ≤ visited.length → s.ok = true →
      replaceSetLoop propagate vr cs rest kept s = some r →
      r.1 = r.2.2.ok
      ∧ (r.1 = false → r.2.1.length = cs.length
          ∧ ∃ off ∈ r.2.1, ∃ s3 : Solver, r.2.2 = s3.clauseFree off) := by
  induction rest with
  | nil =>
    intro visited kept s r _ _ hok hr
    simp only [replaceSetLoop, Option.some.injEq] at hr
    rw [← hr]
    refine ⟨rfl, ?_⟩
    intro hf
    simp only at hf
    rw [hok] at hf; cases hf
  | cons offset rest ih =>
    intro visited kept s r hcs hlen hok hr
    have hcs2 : cs = (visited ++ [offset]) ++ rest := by rw [hcs]; simp
    obtain ⟨c, o1, o2, l3, l4, t, hal, _, hcase⟩ :=
      replaceSetLoop_cons_inv propagate vr cs s offset rest kept r hr
    rcases hcase with ⟨lits1, _, hloop⟩ | ⟨lits1, h, _, hrun, hloop⟩
    · exact ih (visited ++ [offset]) (kept ++ [offset]) s r hcs2
        (by simp only [List.length_append, List.length_singleton]; omega) hok hloop
    · split at hloop
      · split at hloop
        · rename_i hfree
          rw [← Option.some.inj hloop]
          refine ⟨hfree.symm, ?_⟩
          intro _
          refine ⟨?_, offset, ?_, h.2, rfl⟩
          · simp only [List.length_append, List.length_drop]
            have : visited.length ≤ cs.length := by rw [hcs]; simp
            omega
          · apply List.mem_append_right
            rw [hcs, List.drop_append_of_le_length hlen]
            simp
        · rename_i hfree
          refine ih (visited ++ [offset]) kept _ r hcs2
            (by simp only [List.length_append, List.length_singleton]; omega) ?_ hloop
          cases hb : (h.2.clauseFree offset).ok
          · exact absurd hb hfree
          · rfl
      · rename_i hk
        have hk2 : h.1 = false := by
          cases hb : h.1
          · rfl
          · exact absurd hb hk
        have hlt : offset < s.clAllocator.length := by
          rcases Nat.lt_or_ge offset s.clAllocator.length with hlt | hge
          · exact hlt
          · rw [List.getElem?_eq_none hge] at hal
            cases hal
        have hfr := handleUpdatedClause_kept_frame propagate _ offset o1 o2
          ⟨lits1, c.red⟩ h (by simp [hlt]) hrun hk2
        exact ih (visited ++ [offset]) (kept ++ [offset]) h.2 r hcs2
          (by simp only [List.length_append, List.length_singleton]; omega)
          (hfr.1.trans hok) hloop

theorem simplifyLoop_nil (s : Solver) (ls : List Lit) :
    ∀ (kept : List Lit) (p : Option Lit) (r : Bool × List Lit × List Lit),
      simplifyLoop s ls kept p = some r → r.1 = false → r.2.2 = [] := by
  induction ls with
  | nil =>
    intro kept p r h _
    simp only [simplifyLoop, Option.some.injEq] at h
    rw [← h]
  | cons l rest ih =>
    intro kept p r h hf
    rw [simplifyLoop] at h
    split at h
    · split at h
      · cases h
      · split at h
        · rw [← Option.some.inj h] at hf; cases hf
        · split at h
          · exact ih _ _ r h hf
          · exact ih _ _ r h hf
    · cases h

/-- C17, as the code has it: on the database that `refutedSolver` holds, the long
clause `1 ∨ 2 ∨ ~4 ∨ 5` is rewritten to `2 ∨ 2 ∨ 5 ∨ 5` and simplified to size 0
(variables 2 and 5 are false); `replace_set` frees it, clears `ok` and returns without
compacting the container, which still holds the offset 0 of the freed clause. The
whole run of `performReplace` ends in the same way. -/
theorem freed_clause_stays_listed :
    replaceLits pairsReplacer [⟨1, false⟩, ⟨2, false⟩, ⟨4, true⟩, ⟨5, false⟩]
      = some (true, [⟨2, false⟩, ⟨2, false⟩, ⟨5, false⟩, ⟨5, false⟩])
    ∧ simplifyLoop refutedSolverMid
        (sortLits [⟨2, false⟩, ⟨2, false⟩, ⟨5, false⟩, ⟨5, false⟩]) [] none
      = some (false, [], [])
    ∧ (replace_set propagateNone pairsReplacer refutedSolverMid [0]).map
        (fun r => (r.1, r.2.1, r.2.2.clAllocator, r.2.2.ok))
      = some (false, [0], [none], false)
    ∧ (performReplace id propagateNone pairsReplacer refutedSolver).map
        (fun r => (r.1, r.2.2.longIrredCls, r.2.2.clAllocator, r.2.2.ok))
      = some (false, [0], [none], false) := by
  refine ⟨by decide, by decide, by decide, by decide⟩

/-- C17, amended (long-clause size branching). Let the allocator hold at `offset` the
clause `c` of at least four literals, visited by the loop of `replace_set` over the
container `cs` with the offsets `kept` written so far, and let `s1` be the solver once
the literals of `c` are replaced in place by `lits1`.

If no literal was substituted, the offset is kept and the solver is not touched. If one
was, then by the size of the simplified clause `handleUpdatedClause` clears `ok`
(size 0), enqueues the literal and runs one propagation pass whose conflict clears `ok`
(size 1), attaches a binary (size 2) or a ternary (size 3) clause with the redundancy
flag of `c`, and returns `true`; or it attaches the clause again as a long clause
(size at least 4) and returns `false`. When it returns `true` the clause is freed
(the loop goes on with `clauseFree offset`); its
offset leaves the container if `ok` is still set, and when `ok` is cleared
`replace_set` returns `false` at once with the container not compacted. When it
returns `false` the offset is kept.

For the whole run from a solver with `ok` set: the returned bool is the flag `ok`; on
`true` the container is a sublist of the old one, so the kept offsets are in their
original relative order; on `false` the container has its old length and still holds
the offset of the clause freed last. -/
theorem long_clause_size_branching (propagate : Solver → Solver × Bool)
    (vr : VarReplacer) (cs : List Nat) (s s1 : Solver) (offset : Nat)
    (rest kept : List Nat) (c : Clause) (o1 o2 l3 l4 : Lit) (t lits1 : List Lit)
    (hal : s.clAllocator[offset]? = some (some c))
    (hshape : c.lits = o1 :: o2 :: l3 :: l4 :: t)
    (hs1 : s1 = { s with clAllocator := s.clAllocator.set offset (some ⟨lits1, c.red⟩) }) :
    (replaceLits vr c.lits = some (false, lits1) →
      replaceSetLoop propagate vr cs (offset :: rest) kept s
        = replaceSetLoop propagate vr cs rest (kept ++ [offset]) s
      ∧ ∀ r, replaceSetLoop propagate vr cs (offset :: rest) kept s = some r →
          r.1 = true → ∃ ks, r.2.1 = kept ++ offset :: ks ∧ ks.Sublist rest)
    ∧ (replaceLits vr c.lits = some (true, lits1) →
        ∀ h, handleUpdatedClause propagate s1 offset o1 o2 = some h →
        (∃ r s2, simplifyLoop s1 (sortLits lits1) [] none = some r
          ∧ s2.ok = s.ok ∧ s2.assigns = s.assigns ∧ s2.trail = s.trail
          ∧ (r.1 = true → h = (true, s2))
          ∧ (r.1 = false →
              (r.2.1 = [] → h = (true, { s2 with ok := false }))
              ∧ (∀ l, r.2.1 = [l] →
                  h = (true, { (propagate (s2.enqueue l)).1 with ok := (propagate (s2.enqueue l)).2 }))
              ∧ (∀ a b, r.2.1 = [a, b] →
                  h.1 = true ∧ s2.attachBinClause a b c.red = some h.2)
              ∧ (∀ a b d, r.2.1 = [a, b, d] →
                  h.1 = true ∧ s2.attachTriClause a b d c.red = some h.2)
              ∧ (4 ≤ r.2.1.length →
                  h.1 = false ∧ s2.clAllocator[offset]? = some (some ⟨r.2.1, c.red⟩)
                  ∧ s2.attachClause offset = some h.2)))
        ∧ (h.1 = false →
            replaceSetLoop propagate vr cs (offset :: rest) kept s
              = replaceSetLoop propagate vr cs rest (kept ++ [offset]) h.2
            ∧ ∀ r, replaceSetLoop propagate vr cs (offset :: rest) kept s = some r →
                r.1 = true → ∃ ks, r.2.1 = kept ++ offset :: ks ∧ ks.Sublist rest)
        ∧ (h.1 = true → h.2.ok = true →
            replaceSetLoop propagate vr cs (offset :: rest) kept s
              = replaceSetLoop propagate vr cs rest kept (h.2.clauseFree offset)
            ∧ ∀ r, replaceSetLoop propagate vr cs (offset :: rest) kept s = some r →
                r.1 = true → ∃ ks, r.2.1 = kept ++ ks ∧ ks.Sublist rest)
        ∧ (h.1 = true → h.2.ok = false →
            replaceSetLoop propagate vr cs (offset :: rest) kept s
              = some (false, kept ++ cs.drop kept.length, h.2.clauseFree offset)))
    ∧ (∀ (s0 : Solver) (r : Bool × List Nat × Solver), s0.ok = true →
        replace_set propagate vr s0 cs = some r →
        r.1 = r.2.2.ok
        ∧ (r.1 = true → r.2.1.Sublist cs)
        ∧ (r.1 = false → r.2.1.length = cs.length
            ∧ ∃ off ∈ r.2.1, ∃ s3 : Solver, r.2.2 = s3.clauseFree off)) := by
  have hlt : offset < s.clAllocator.length := by
    rcases Nat.lt_or_ge offset s.clAllocator.length with hlt | hge
    · exact hlt
    · rw [List.getElem?_eq_none hge] at hal
      cases hal
  have hal1 : s1.clAllocator[offset]? = some (some ⟨lits1, c.red⟩) := by
    rw [hs1]; simp [hlt]
  refine ⟨?_, ?_, ?_⟩
  · intro hrl
    have heq := replaceSetLoop_unchanged propagate vr cs s offset rest kept c o1 o2 l3 l4 t
      lits1 hal hshape hrl
    refine ⟨heq, ?_⟩
    intro r hr ht
    rw [heq] at hr
    obtain ⟨ks, hk, hsub⟩ := replaceSetLoop_container propagate vr cs rest _ s r hr ht
    refine ⟨ks, ?_, hsub⟩
    rw [hk]; simp
  · intro hrl h hrun
    have heq := replaceSetLoop_changed propagate vr cs s s1 offset rest kept c o1 o2 l3 l4
      t lits1 h hal hshape hrl hs1 hrun
    have hfree : (h.2.clauseFree offset).ok = h.2.ok := rfl
    refine ⟨?_, ?_, ?_, ?_⟩
    · obtain ⟨r, s2, hsl, hok, has, htr, hcl, htrue, hfalse⟩ :=
        handleUpdatedClause_cases propagate s1 offset o1 o2 ⟨lits1, c.red⟩ h hal1 hrun
      refine ⟨r, s2, hsl, ?_, ?_, ?_, htrue, ?_⟩
      · rw [hok, hs1]
      · rw [has, hs1]
      · rw [htr, hs1]
      · intro hf
        have hn := simplifyLoop_nil s1 _ [] none r hsl hf
        have hm := hfalse hf
        rw [hn] at hm hcl
        simp only [List.length_nil, List.take_zero, List.append_nil] at hm hcl
        have hlt1 : offset < s1.clAllocator.length := by rw [hs1]; simp [hlt]
        refine ⟨?_, ?_, ?_, ?_, ?_⟩
        · intro he
          rw [he] at hm
          exact hm
        · intro l he
          rw [he] at hm
          exact hm
        · intro a b he
          rw [he] at hm
          exact hm
        · intro a b d he
          rw [he] at hm
          exact hm
        · intro hlen
          have hal2 : s2.clAllocator[offset]? = some (some ⟨r.2.1, c.red⟩) := by
            rw [hcl]; simp [hlt1]
          generalize r.2.1 = lits at hm hlen hal2
          rcases lits with _ | ⟨a, _ | ⟨b, _ | ⟨d, _ | ⟨e, u⟩⟩⟩⟩
          · simp at hlen
          · simp at hlen
          · simp at hlen
          · simp at hlen
          · exact ⟨hm.1, hal2, hm.2⟩
    · intro hk
      rw [if_neg (by rw [hk]; simp)] at heq
      refine ⟨heq, ?_⟩
      intro r hr ht
      rw [heq] at hr
      obtain ⟨ks, hk2, hsub⟩ := replaceSetLoop_container propagate vr cs rest _ h.2 r hr ht
      refine ⟨ks, ?_, hsub⟩
      rw [hk2]; simp
    · intro hk hok
      rw [if_pos hk, if_neg (by rw [hfree, hok]; simp)] at heq
      refine ⟨heq, ?_⟩
      intro r hr ht
      rw [heq] at hr
      exact replaceSetLoop_container propagate vr cs rest _ _ r hr ht
    · intro hk hok
      rw [if_pos hk, if_pos (by rw [hfree, hok])] at heq
      exact heq
  · intro s0 r hok hr
    unfold replace_set at hr
    obtain ⟨h1, h2⟩ := replaceSetLoop_fail propagate vr cs cs [] [] s0 r rfl
      (Nat.le_refl _) hok hr
    refine ⟨h1, ?_, h2⟩
    intro ht
    obtain ⟨ks, hk, hsub⟩ := replaceSetLoop_container propagate vr cs cs [] s0 r hr ht
    rw [hk]
    exact hsub

/-- Witness of C17, amended: on `refutedSolverMid` the clause at offset 0 has a
substituted literal and is simplified to size 0, so `handleUpdatedClause` returns
`true` with `ok` cleared and `replace_set` returns `false` with the container `[0]`
as it was. -/
theorem long_clause_size_branching_witness :
    (refutedSolverMid.clAllocator[0]?
        = some (some ⟨[⟨1, false⟩, ⟨2, false⟩, ⟨4, true⟩, ⟨5, false⟩], false⟩)
      ∧ replaceLits pairsReplacer [⟨1, false⟩, ⟨2, false⟩, ⟨4, true⟩, ⟨5, false⟩]
        = some (true, [⟨2, false⟩, ⟨2, false⟩, ⟨5, false⟩, ⟨5, false⟩]))
    ∧ (∃ h, handleUpdatedClause propagateNone refutedSolverReplaced 0 ⟨1, false⟩ ⟨2, false⟩
          = some h
        ∧ h.1 = true ∧ h.2.ok = false
        ∧ replaceSetLoop propagateNone pairsReplacer [0] [0] [] refutedSolverMid
          = some (false, [] ++ [0].drop ([] : List Nat).length, h.2.clauseFree 0))
    ∧ (∃ r, replace_set propagateNone pairsReplacer refutedSolverMid [0] = some r
        ∧ r.1 = r.2.2.ok
        ∧ (r.1 = false → r.2.1.length = [0].length
            ∧ ∃ off ∈ r.2.1, ∃ s3 : Solver, r.2.2 = s3.clauseFree off)) := by
  have T := long_clause_size_branching propagateNone pairsReplacer [0] refutedSolverMid
    refutedSolverReplaced 0 [] []
    ⟨[⟨1, false⟩, ⟨2, false⟩, ⟨4, true⟩, ⟨5, false⟩], false⟩
    ⟨1, false⟩ ⟨2, false⟩ ⟨4, true⟩ ⟨5, false⟩ []
    [⟨2, false⟩, ⟨2, false⟩, ⟨5, false⟩, ⟨5, false⟩] (by decide) rfl (by decide)
  refine ⟨⟨by decide, by decide⟩, ?_, ?_⟩
  · have hv : (handleUpdatedClause propagateNone refutedSolverReplaced 0 ⟨1, false⟩
        ⟨2, false⟩).map (fun h => (h.1, h.2.ok)) = some (true, false) := by decide
    cases hh : handleUpdatedClause propagateNone refutedSolverReplaced 0 ⟨1, false⟩
        ⟨2, false⟩ with
    | none => rw [hh] at hv; cases hv
    | some h =>
      rw [hh] at hv
      simp only [Option.map_some', Option.some.injEq, Prod.mk.injEq] at hv
      exact ⟨h, rfl, hv.1, hv.2, (T.2.1 (by decide) h hh).2.2.2 hv.1 hv.2⟩
  · have hv : (replace_set propagateNone pairsReplacer refutedSolverMid [0]).isSome
        = true := by decide
    cases hh : replace_set propagateNone pairsReplacer refutedSolverMid [0] with
    | none => rw [hh] at hv; cases hv
    | some r =>
      have h3 := T.2.2 refutedSolverMid r (by decide) hh
      exact ⟨r, rfl, h3.1, h3.2.2⟩

theorem enqueueUnassigned_nil (s : Solver) : enqueueUnassigned s [] = s := rfl

theorem enqueueUnassigned_cons (s : Solver) (l : Lit) (ls : List Lit) :
    enqueueUnassigned s (l :: ls)
      = enqueueUnassigned (if s.value l = some LBool.l_Undef then s.enqueue l else s) ls :=
  rfl

theorem enqueueUnassigned_append (s : Solver) (l1 l2 : List Lit) :
    enqueueUnassigned s (l1 ++ l2) = enqueueUnassigned (enqueueUnassigned s l1) l2 := by
  unfold enqueueUnassigned
  rw [List.foldl_append]

theorem enqueue_frame (s : Solver) (l : Lit) :
    (s.enqueue l).ok = s.ok ∧ (s.enqueue l).assigns.length = s.assigns.length
    ∧ (s.enqueue l).clAllocator = s.clAllocator
    ∧ (s.enqueue l).longIrredCls = s.longIrredCls ∧ (s.enqueue l).longRedCls = s.longRedCls
    ∧ (s.enqueue l).assumptions = s.assumptions
    ∧ (s.enqueue l).assumptionsSet = s.assumptionsSet
    ∧ (s.enqueue l).removed = s.removed ∧ (s.enqueue l).watches = s.watches := by
  unfold Solver.enqueue
  simp

theorem enqueueUnassigned_frame (ls : List Lit) : ∀ (s : Solver),
    (enqueueUnassigned s ls).ok = s.ok
    ∧ (enqueueUnassigned s ls).assigns.length = s.assigns.length
    ∧ (enqueueUnassigned s ls).clAllocator = s.clAllocator
    ∧ (enqueueUnassigned s ls).longIrredCls = s.longIrredCls
    ∧ (enqueueUnassigned s ls).longRedCls = s.longRedCls
    ∧ (enqueueUnassigned s ls).assumptions = s.assumptions
    ∧ (enqueueUnassigned s ls).assumptionsSet = s.assumptionsSet
    ∧ (enqueueUnassigned s ls).removed = s.removed
    ∧ (enqueueUnassigned s ls).watches = s.watches := by
  induction ls with
  | nil => intro s; exact ⟨rfl, rfl, rfl, rfl, rfl, rfl, rfl, rfl, rfl⟩
  | cons l rest ih =>
    intro s
    rw [enqueueUnassigned_cons]
    split
    · obtain ⟨a1, a2, a3, a4, a5, a6, a7, a8, a9⟩ := ih (s.enqueue l)
      obtain ⟨b1, b2, b3, b4, b5, b6, b7, b8, b9⟩ := enqueue_frame s l
      exact ⟨a1.trans b1, a2.trans b2, a3.trans b3, a4.trans b4, a5.trans b5, a6.trans b6,
        a7.trans b7, a8.trans b8, a9.trans b9⟩
    · exact ih s

/-- The loop of the flush when no literal is false at its turn: it is the flush
without the stop. -/
theorem enqueueDelayedLoop_none_false (q : List Lit) : ∀ (s : Solver),
    (∀ l ∈ q, l.var < s.assigns.length) →
    (∀ pre l post, q = pre ++ l :: post →
      (enqueueUnassigned s pre).value l ≠ some LBool.l_False) →
    enqueueDelayedLoop q s = some (enqueueUnassigned s q) := by
  induction q with
  | nil => intro s _ _; rfl
  | cons l rest ih =>
    intro s hr hnf
    obtain ⟨v, hv⟩ := value_total s l (hr l (List.mem_cons_self _ _))
    have h0 := hnf [] l rest rfl
    rw [enqueueUnassigned_nil, hv] at h0
    rw [enqueueDelayedLoop, hv, enqueueUnassigned_cons, hv]
    simp only
    by_cases hu : v = LBool.l_Undef
    · rw [if_pos hu, if_pos (by rw [hu])]
      apply ih
      · intro m hm
        rw [(enqueue_frame s l).2.1]
        exact hr m (List.mem_cons_of_mem _ hm)
      · intro pre m post he
        have := hnf (l :: pre) m post (by rw [he]; rfl)
        rw [enqueueUnassigned_cons, hv, if_pos (by rw [hu])] at this
        exact this
    · have hf : v ≠ LBool.l_False := fun h => h0 (by rw [h])
      rw [if_neg hu, if_neg hf, if_neg (by intro h; exact hu (Option.some.inj h))]
      apply ih
      · intro m hm
        exact hr m (List.mem_cons_of_mem _ hm)
      · intro pre m post he
        have := hnf (l :: pre) m post (by rw [he]; rfl)
        rw [enqueueUnassigned_cons, hv,
          if_neg (by intro h; exact hu (Option.some.inj h))] at this
        exact this

/-- The loop of the flush when `l` is the first literal false at its turn: the
literals before it are flushed, `ok` is cleared and the rest is not visited. -/
theorem enqueueDelayedLoop_first_false (pre : List Lit) : ∀ (s : Solver) (l : Lit)
    (post : List Lit),
    (∀ m ∈ pre, m.var < s.assigns.length) →
    (∀ a m b, pre = a ++ m :: b →
      (enqueueUnassigned s a).value m ≠ some LBool.l_False) →
    (enqueueUnassigned s pre).value l = some LBool.l_False →
    enqueueDelayedLoop (pre ++ l :: post) s
      = some { enqueueUnassigned s pre with ok := false } := by
  induction pre with
  | nil =>
    intro s l post _ _ hl
    rw [enqueueUnassigned_nil] at hl ⊢
    rw [List.nil_append, enqueueDelayedLoop, hl]
    simp
  | cons m rest ih =>
    intro s l post hr hnf hl
    obtain ⟨v, hv⟩ := value_total s m (hr m (List.mem_cons_self _ _))
    have h0 := hnf [] m rest rfl
    rw [enqueueUnassigned_nil, hv] at h0
    rw [List.cons_append, enqueueDelayedLoop, hv]
    rw [enqueueUnassigned_cons, hv] at hl ⊢
    simp only
    by_cases hu : v = LBool.l_Undef
    · rw [if_pos hu]
      rw [if_pos (by rw [hu])] at hl ⊢
      apply ih
      · intro x hx
        rw [(enqueue_frame s m).2.1]
        exact hr x (List.mem_cons_of_mem _ hx)
      · intro a x b he
        have := hnf (m :: a) x b (by rw [he]; rfl)
        rw [enqueueUnassigned_cons, hv, if_pos (by rw [hu])] at this
        exact this
      · exact hl
    · have hf : v ≠ LBool.l_False := fun h => h0 (by rw [h])
      have hne : ¬ (some v = some LBool.l_Undef) := fun h => hu (Option.some.inj h)
      rw [if_neg hu, if_neg hf]
      rw [if_neg hne] at hl ⊢
      apply ih
      · intro x hx
        exact hr x (List.mem_cons_of_mem _ hx)
      · intro a x b he
        have := hnf (m :: a) x b (by rw [he]; rfl)
        rw [enqueueUnassigned_cons, hv, if_neg hne] at this
        exact this
      · exact hl

theorem value_enqueue_self (s : Solver) (l : Lit) (h : l.var < s.assigns.length) :
    (s.enqueue l).value l = some LBool.l_True := by
  unfold Solver.value Solver.enqueue
  simp only [List.getElem?_set_self h, Option.map_some']
  cases l.sign <;> rfl

theorem value_enqueue_other (s : Solver) (l m : Lit) (x : LBool)
    (hl : s.value l = some LBool.l_Undef) (hm : s.value m = some x)
    (hx : x ≠ LBool.l_Undef) : (s.enqueue l).value m = some x := by
  have hne : l.var ≠ m.var := by
    intro he
    unfold Solver.value at hl hm
    rw [he] at hl
    cases ha : s.assigns[m.var]? with
    | none => rw [ha] at hm; cases hm
    | some y =>
      rw [ha] at hl hm
      simp only [Option.map_some', Option.some.injEq] at hl hm
      apply hx
      rw [← hm]
      cases y <;> cases hs : l.sign <;> cases hs2 : m.sign <;> rw [hs] at hl
        <;> simp [LBool.xor] at hl ⊢
  unfold Solver.value Solver.enqueue at *
  simp only
  rw [List.getElem?_set_ne hne]
  exact hm

theorem value_neg_of_true (s : Solver) (l : Lit) (h : s.value l = some LBool.l_True) :
    s.value l.neg = some LBool.l_False := by
  unfold Solver.value at h ⊢
  simp only [Lit.neg]
  cases ha : s.assigns[l.var]? with
  | none => rw [ha] at h; cases h
  | some x =>
    rw [ha] at h
    simp only [Option.map_some', Option.some.injEq] at h ⊢
    cases x <;> cases hs : l.sign <;> rw [hs] at h <;> simp [LBool.xor] at h ⊢

/-- The loop of the flush returns when the literals of the queue are literals of the
solver. -/
theorem enqueueDelayedLoop_total (q : List Lit) : ∀ (s : Solver),
    (∀ l ∈ q, l.var < s.assigns.length) → ∃ s1, enqueueDelayedLoop q s = some s1 := by
  induction q with
  | nil => intro s _; exact ⟨s, rfl⟩
  | cons l rest ih =>
    intro s hr
    obtain ⟨v, hv⟩ := value_total s l (hr l (List.mem_cons_self _ _))
    rw [enqueueDelayedLoop, hv]
    simp only
    split
    · apply ih
      intro m hm
      rw [(enqueue_frame s l).2.1]
      exact hr m (List.mem_cons_of_mem _ hm)
    · split
      · exact ⟨_, rfl⟩
      · exact ih s (fun m hm => hr m (List.mem_cons_of_mem _ hm))

/-- A queue that holds a literal false at the start clears `ok`. -/
theorem enqueueDelayedLoop_false_mem (q : List Lit) : ∀ (s : Solver) (m : Lit),
    (∀ l ∈ q, l.var < s.assigns.length) → m ∈ q → s.value m = some LBool.l_False →
    ∃ s1, enqueueDelayedLoop q s = some s1 ∧ s1.ok = false := by
  induction q with
  | nil => intro s m _ hm _; cases hm
  | cons l rest ih =>
    intro s m hr hm hmv
    obtain ⟨v, hv⟩ := value_total s l (hr l (List.mem_cons_self _ _))
    rw [enqueueDelayedLoop, hv]
    simp only
    have hml : v ≠ LBool.l_False → m ∈ rest := by
      intro hvf
      rcases List.mem_cons.1 hm with he | he
      · rw [he, hv] at hmv
        exact absurd (Option.some.inj hmv) hvf
      · exact he
    by_cases hu : v = LBool.l_Undef
    · rw [if_pos hu]
      apply ih (s.enqueue l) m
      · intro x hx
        rw [(enqueue_frame s l).2.1]
        exact hr x (List.mem_cons_of_mem _ hx)
      · exact hml (by rw [hu]; simp)
      · exact value_enqueue_other s l m _ (by rw [hv, hu]) hmv (by simp)
    · rw [if_neg hu]
      by_cases hf : v = LBool.l_False
      · rw [if_pos hf]
        exact ⟨_, rfl, rfl⟩
      · rw [if_neg hf]
        exact ih s m (fun x hx => hr x (List.mem_cons_of_mem _ hx)) (hml hf) hmv

/-- A queue that holds a literal and later its negation clears `ok`. -/
theorem enqueueDelayedLoop_contradictory (a : List Lit) : ∀ (s : Solver) (l : Lit)
    (rest : List Lit),
    (∀ x ∈ a ++ l :: rest, x.var < s.assigns.length) → l.neg ∈ rest →
    ∃ s1, enqueueDelayedLoop (a ++ l :: rest) s = some s1 ∧ s1.ok = false := by
  induction a with
  | nil =>
    intro s l rest hr hn
    rw [List.nil_append] at hr ⊢
    have hl := hr l (List.mem_cons_self _ _)
    obtain ⟨v, hv⟩ := value_total s l hl
    rw [enqueueDelayedLoop, hv]
    simp only
    by_cases hu : v = LBool.l_Undef
    · rw [if_pos hu]
      apply enqueueDelayedLoop_false_mem rest (s.enqueue l) l.neg
      · intro x hx
        rw [(enqueue_frame s l).2.1]
        exact hr x (List.mem_cons_of_mem _ hx)
      · exact hn
      · exact value_neg_of_true _ l (value_enqueue_self s l hl)
    · rw [if_neg hu]
      by_cases hf : v = LBool.l_False
      · rw [if_pos hf]
        exact ⟨_, rfl, rfl⟩
      · rw [if_neg hf]
        apply enqueueDelayedLoop_false_mem rest s l.neg
          (fun x hx => hr x (List.mem_cons_of_mem _ hx)) hn
        apply value_neg_of_true
        rw [hv]
        cases v
        · rfl
        · exact absurd rfl hf
        · exact absurd rfl hu
  | cons m a ih =>
    intro s l rest hr hn
    obtain ⟨v, hv⟩ := value_total s m (hr m (List.mem_cons_self _ _))
    rw [List.cons_append, enqueueDelayedLoop, hv]
    simp only
    by_cases hu : v = LBool.l_Undef
    · rw [if_pos hu]
      apply ih (s.enqueue m) l rest
      · intro x hx
        rw [(enqueue_frame s m).2.1]
        exact hr x (List.mem_cons_of_mem _ hx)
      · exact hn
    · rw [if_neg hu]
      by_cases hf : v = LBool.l_False
      · rw [if_pos hf]
        exact ⟨_, rfl, rfl⟩
      · rw [if_neg hf]
        exact ih s l rest (fun x hx => hr x (List.mem_cons_of_mem _ hx)) hn

/-- C18 (propagation bridge flush). From a solver with `ok` set, as at the call in
`performReplace`, and a queue of literals of the solver, `enqueueDelayedEnqueue`
returns, empties the queue and returns the flag `ok`. If no literal of the queue is
false when its turn comes, every literal unassigned at its turn is enqueued, the others
are skipped, exactly one propagation pass runs on the result and the returned bool is
"no conflict". If `l` is the first literal false at its turn, the literals before it
are flushed in that way, `ok` is cleared, the literals after `l` are not visited and no
propagation runs. A queue that holds a literal and later its negation returns `false`
with `ok` cleared. -/
theorem delayed_enqueue_flush (propagate : Solver → Solver × Bool) (vr : VarReplacer)
    (s : Solver) (hok : s.ok = true)
    (hr : ∀ l ∈ vr.delayedEnqueue, l.var < s.assigns.length) :
    (∃ r, enqueueDelayedEnqueue propagate vr s = some r
      ∧ r.2.1 = { vr with delayedEnqueue := [] } ∧ r.1 = r.2.2.ok)
    ∧ ((∀ pre l post, vr.delayedEnqueue = pre ++ l :: post →
          (enqueueUnassigned s pre).value l ≠ some LBool.l_False) →
        enqueueDelayedEnqueue propagate vr s
          = some ((propagate (enqueueUnassigned s vr.delayedEnqueue)).2,
              { vr with delayedEnqueue := [] },
              { (propagate (enqueueUnassigned s vr.delayedEnqueue)).1 with ok := (propagate (enqueueUnassigned s vr.delayedEnqueue)).2 }))
    ∧ (∀ pre l post, vr.delayedEnqueue = pre ++ l :: post →
        (∀ a m b, pre = a ++ m :: b →
          (enqueueUnassigned s a).value m ≠ some LBool.l_False) →
        (enqueueUnassigned s pre).value l = some LBool.l_False →
        enqueueDelayedEnqueue propagate vr s
          = some (false, { vr with delayedEnqueue := [] },
              { enqueueUnassigned s pre with ok := false }))
    ∧ (∀ a l b c, vr.delayedEnqueue = a ++ l :: (b ++ l.neg :: c) →
        ∃ r, enqueueDelayedEnqueue propagate vr s = some r ∧ r.1 = false
          ∧ r.2.2.ok = false) := by
  refine ⟨?_, ?_, ?_, ?_⟩
  · obtain ⟨s1, h1⟩ := enqueueDelayedLoop_total vr.delayedEnqueue s hr
    unfold enqueueDelayedEnqueue
    rw [h1]
    simp only
    split
    · rename_i hf
      exact ⟨_, rfl, rfl, hf.symm⟩
    · exact ⟨_, rfl, rfl, rfl⟩
  · intro hnf
    have h1 := enqueueDelayedLoop_none_false vr.delayedEnqueue s hr hnf
    unfold enqueueDelayedEnqueue
    rw [h1]
    simp only
    rw [if_neg (by rw [(enqueueUnassigned_frame _ s).1, hok]; simp)]
  · intro pre l post hq hnf hl
    have h1 := enqueueDelayedLoop_first_false pre s l post
      (fun m hm => hr m (by rw [hq]; exact List.mem_append_left _ hm)) hnf hl
    unfold enqueueDelayedEnqueue
    rw [hq, h1]
    simp only
    rw [if_pos trivial]
  · intro a l b c hq
    rw [hq] at hr
    obtain ⟨s1, h1, h2⟩ := enqueueDelayedLoop_contradictory a s l (b ++ l.neg :: c) hr
      (List.mem_append_right _ (List.mem_cons_self _ _))
    unfold enqueueDelayedEnqueue
    rw [hq, h1]
    simp only
    rw [if_pos h2]
    exact ⟨_, rfl, rfl, h2⟩

/-- Witness of C18: the queue `~2, ~2, ~5` is flushed (two literals enqueued, one
skipped) and propagated once; with `2, 5` appended the flush stops at `2`, which is
false by then, clears `ok` and leaves `5` unvisited. -/
theorem delayed_enqueue_flush_witness :
    (pairsSolver.ok = true
      ∧ ∀ l ∈ flushReplacer.delayedEnqueue, l.var < pairsSolver.assigns.length)
    ∧ (enqueueDelayedEnqueue propagateNone flushReplacerOk pairsSolver).map
        (fun r => (r.1, r.2.1.delayedEnqueue, r.2.2.ok, r.2.2.trail))
        = some (true, [], true, [⟨2, true⟩, ⟨5, true⟩])
    ∧ enqueueDelayedEnqueue propagateNone flushReplacer pairsSolver
        = some (false, { flushReplacer with delayedEnqueue := [] },
            { enqueueUnassigned pairsSolver [⟨2, true⟩, ⟨2, true⟩, ⟨5, true⟩] with ok := false })
    ∧ (enqueueUnassigned pairsSolver [⟨2, true⟩, ⟨2, true⟩, ⟨5, true⟩]).trail
        = [⟨2, true⟩, ⟨5, true⟩]
    ∧ (∃ r, enqueueDelayedEnqueue propagateNone flushReplacer pairsSolver = some r
        ∧ r.1 = false ∧ r.2.2.ok = false) := by
  have T := delayed_enqueue_flush propagateNone flushReplacer pairsSolver (by decide)
    (by decide)
  have T2 := delayed_enqueue_flush propagateNone flushReplacerOk pairsSolver (by decide)
    (by decide)
  refine ⟨⟨by decide, by decide⟩, ?_, ?_, by decide, ?_⟩
  · rw [T2.2.1 (by
      intro pre l post hq
      have hlen : pre.length < 3 := by
        have := congrArg List.length hq
        simp [flushReplacerOk] at this
        omega
      rcases pre with _ | ⟨p1, _ | ⟨p2, _ | ⟨p3, pre⟩⟩⟩
      · simp [flushReplacerOk] at hq
        rw [← hq.1]; decide
      · simp [flushReplacerOk] at hq
        rw [← hq.1, ← hq.2.1]; decide
      · simp [flushReplacerOk] at hq
        rw [← hq.1, ← hq.2.1, ← hq.2.2.1]; decide
      · simp at hlen
        omega)]
    decide
  · exact T.2.2.1 [⟨2, true⟩, ⟨2, true⟩, ⟨5, true⟩] ⟨2, false⟩ [⟨5, false⟩] rfl
      (by
        intro a m b hq
        rcases a with _ | ⟨p1, _ | ⟨p2, _ | ⟨p3, a⟩⟩⟩
        · simp at hq
          rw [← hq.1]; decide
        · simp at hq
          rw [← hq.1, ← hq.2.1]; decide
        · simp at hq
          rw [← hq.1, ← hq.2.1, ← hq.2.2.1]; decide
        · have := congrArg List.length hq
          simp at this)
      (by decide)
  · exact T.2.2.2 [] ⟨2, true⟩ [⟨2, true⟩, ⟨5, true⟩] [⟨5, false⟩] rfl

theorem sameLists_refl (a : Solver) : a.sameLists a := ⟨rfl, rfl, rfl, rfl⟩

theorem sameClauses_refl (a : Solver) : a.sameClauses a := ⟨sameLists_refl a, rfl⟩

theorem sameLists_trans {a b c : Solver} (h1 : a.sameLists b) (h2 : b.sameLists c) :
    a.sameLists c :=
  ⟨h2.1.trans h1.1, h2.2.1.trans h1.2.1, h2.2.2.1.trans h1.2.2.1,
    h2.2.2.2.trans h1.2.2.2⟩

theorem sameClauses_trans {a b c : Solver} (h1 : a.sameClauses b)
    (h2 : b.sameClauses c) : a.sameClauses c :=
  ⟨sameLists_trans h1.1 h2.1, h2.2.trans h1.2⟩

theorem update_vardata_sameClauses (s s1 : Solver) (orig rep : Nat)
    (h : update_vardata_and_decisionvar s orig rep = some s1) : s.sameClauses s1 := by
  unfold update_vardata_and_decisionvar at h
  cases hrem : s.removed[rep]? with
  | none => rw [hrem] at h; cases h
  | some x =>
    rw [hrem] at h
    simp only at h
    have key : ∀ (s0 : Solver), s.sameClauses s0 →
        (if orig = rep ∨ s0.removed[rep]? = some Removed.decomposed
            ∨ s0.removed[rep]? = some Removed.elimed then some s0
          else
            match s0.removed[orig]? with
            | none => none
            | some ro =>
              if ro = Removed.replaced then some s0
              else
                if ({ s0 with removed := s0.removed.set orig Removed.replaced } : Solver).noneOrQueued rep then
                  some ((({ s0 with removed := s0.removed.set orig Removed.replaced } : Solver).unsetDecisionVar orig).setDecisionVar rep)
                else none) = some s1 → s.sameClauses s1 := by
      intro s0 h0 hk
      split at hk
      · rw [← Option.some.inj hk]; exact h0
      · split at hk
        · cases hk
        · split at hk
          · rw [← Option.some.inj hk]; exact h0
          · split at hk
            · rw [← Option.some.inj hk]
              exact ⟨⟨h0.1.1, h0.1.2.1, h0.1.2.2.1, h0.1.2.2.2⟩, h0.2⟩
            · cases hk
    by_cases hc : orig = rep ∧ some x = some Removed.queued_replacer
    · rw [if_pos hc] at h
      refine key _ ?_ h
      exact ⟨⟨rfl, rfl, rfl, rfl⟩, rfl⟩
    · rw [if_neg hc] at h
      exact key _ (sameClauses_refl s) h

theorem statusFlipFrom_sameClauses (l : List Lit) : ∀ (var : Nat) (s s1 : Solver),
    statusFlipFrom l var s = some s1 → s.sameClauses s1 := by
  induction l with
  | nil =>
    intro var s s1 h
    simp only [statusFlipFrom, Option.some.injEq] at h
    rw [← h]
    exact sameClauses_refl s
  | cons t rest ih =>
    intro var s s1 h
    rw [statusFlipFrom] at h
    split at h
    · cases h
    · rename_i s2 h2
      exact sameClauses_trans (update_vardata_sameClauses _ _ _ _ h2) (ih _ _ _ h)

theorem pushWatch_sameClauses (s s1 : Solver) (l : Lit) (w : Watched)
    (h : s.pushWatch l w = some s1) : s.sameClauses s1 ∧ s1.ok = s.ok := by
  have f := pushWatch_frame s s1 l w h
  exact ⟨⟨⟨f.2.2.2.2.2.2.2.1, f.2.2.2.2.2.2.2.2.1, f.2.2.2.2.2.1, f.2.2.2.2.2.2.1⟩,
    f.2.2.2.1⟩, f.1⟩

theorem newBinClause_table (vr : VarReplacer) (o1 o2 o3 x y : Lit) (red : Bool) :
    (newBinClause vr o1 o2 o3 x y red).table = vr.table := by
  unfold newBinClause
  split <;> rfl

theorem scanEntry_frame (vr : VarReplacer) (s : Solver) (kept : List Watched)
    (o1 : Lit) (w : Watched) (r : List Watched × VarReplacer × Solver)
    (h : scanEntry vr s kept o1 w = some r) :
    r.2.1.table = vr.table ∧ s.sameClauses r.2.2 ∧ r.2.2.ok = s.ok := by
  cases w with
  | clause off =>
    simp only [scanEntry, Option.some.injEq] at h
    rw [← h]
    exact ⟨rfl, sameClauses_refl s, rfl⟩
  | binary o2 red =>
    simp only [scanEntry] at h
    split at h
    · split at h
      · rename_i lit1 lit2 _ _
        unfold updateBin at h
        simp only at h
        have ht : (if lit1 = lit2
            then { vr with delayedEnqueue := vr.delayedEnqueue ++ [lit2] }
            else vr).table = vr.table := by
          split <;> rfl
        split at h
        · rw [← Option.some.inj h]
          exact ⟨ht, sameClauses_refl s, rfl⟩
        · split at h
          · split at h
            · cases h
            · rename_i s1 hp
              rw [← Option.some.inj h]
              have f := pushWatch_sameClauses _ _ _ _ hp
              exact ⟨ht, f.1, f.2⟩
          · rw [← Option.some.inj h]
            exact ⟨ht, sameClauses_refl s, rfl⟩
      · cases h
    · cases h
  | tri o2 o3 red =>
    simp only [scanEntry] at h
    split at h
    · split at h
      · rename_i lit1 lit2 _ _
        unfold updateTri at h
        split at h
        · split at h
          · cases h
          · rename_i lit3 _
            split at h
            · rw [← Option.some.inj h]
              exact ⟨rfl, sameClauses_refl s, rfl⟩
            · split at h
              · rw [← Option.some.inj h]
                exact ⟨rfl, sameClauses_refl s, rfl⟩
              · split at h
                · rw [← Option.some.inj h]
                  exact ⟨newBinClause_table _ _ _ _ _ _ _, sameClauses_refl s, rfl⟩
                · split at h
                  · rw [← Option.some.inj h]
                    exact ⟨newBinClause_table _ _ _ _ _ _ _, sameClauses_refl s, rfl⟩
                  · simp only at h
                    split at h
                    · split at h
                      · cases h
                      · rename_i s1 hp
                        rw [← Option.some.inj h]
                        have f := pushWatch_sameClauses _ _ _ _ hp
                        exact ⟨rfl, f.1, f.2⟩
                    · rw [← Option.some.inj h]
                      exact ⟨rfl, sameClauses_refl s, rfl⟩
        · cases h
      · cases h
    · cases h

theorem scanList_frame (o1 : Lit) (ws : List Watched) :
    ∀ (kept : List Watched) (vr : VarReplacer) (s : Solver)
      (r : List Watched × VarReplacer × Solver),
      scanList o1 ws kept vr s = some r →
      r.2.1.table = vr.table ∧ s.sameClauses r.2.2 ∧ r.2.2.ok = s.ok := by
  induction ws with
  | nil =>
    intro kept vr s r h
    simp only [scanList, Option.some.injEq] at h
    rw [← h]
    exact ⟨rfl, sameClauses_refl s, rfl⟩
  | cons w rest ih =>
    intro kept vr s r h
    rw [scanList] at h
    split at h
    · cases h
    · rename_i r1 h1
      have f1 := scanEntry_frame vr s kept o1 w r1 h1
      have f2 := ih _ _ _ r h
      exact ⟨f2.1.trans f1.1, sameClauses_trans f1.2.1 f2.2.1, f2.2.2.trans f1.2.2⟩

theorem scanWatches_frame (n : Nat) : ∀ (wsLit : Nat) (vr : VarReplacer) (s : Solver)
    (r : VarReplacer × Solver), scanWatches n wsLit vr s = some r →
    r.1.table = vr.table ∧ s.sameClauses r.2 ∧ r.2.ok = s.ok := by
  induction n with
  | zero =>
    intro wsLit vr s r h
    simp only [scanWatches, Option.some.injEq] at h
    rw [← h]
    exact ⟨rfl, sameClauses_refl s, rfl⟩
  | succ n ih =>
    intro wsLit vr s r h
    rw [scanWatches] at h
    split at h
    · cases h
    · split at h
      · cases h
      · rename_i r1 h1
        have f1 := scanList_frame _ _ _ _ _ r1 h1
        have f2 := ih _ _ _ r h
        exact ⟨f2.1.trans f1.1, sameClauses_trans f1.2.1 f2.2.1, f2.2.2.trans f1.2.2⟩

theorem attachDelayed_frame (bs : List BinaryClause) : ∀ (s s1 : Solver),
    attachDelayed bs s = some s1 → s.sameClauses s1 ∧ s1.ok = s.ok := by
  induction bs with
  | nil =>
    intro s s1 h
    simp only [attachDelayed, Option.some.injEq] at h
    rw [← h]
    exact ⟨sameClauses_refl s, rfl⟩
  | cons b rest ih =>
    intro s s1 h
    rw [attachDelayed] at h
    split at h
    · cases h
    · rename_i s2 h2
      have f := attachBinClause_frame _ _ _ _ _ h2
      have f2 := ih _ _ h
      exact ⟨sameClauses_trans ⟨⟨f.2.2.2.2.2.2.2.1, f.2.2.2.2.2.2.2.2.1, f.2.2.2.2.2.1,
        f.2.2.2.2.2.2.1⟩, f.2.2.2.1⟩ f2.1, f2.2.trans f.1⟩

/-- The rewrite of the implicit clauses keeps the table, the long clauses and the
assumptions, and the flag `ok`. -/
theorem replaceImplicit_frame (vr : VarReplacer) (s : Solver)
    (r : Bool × VarReplacer × Solver) (h : replaceImplicit vr s = some r) :
    r.2.1.table = vr.table ∧ s.sameClauses r.2.2 ∧ r.2.2.ok = s.ok ∧ r.1 = r.2.2.ok := by
  unfold replaceImplicit at h
  split at h
  · cases h
  · rename_i r1 h1
    split at h
    · cases h
    · rename_i s1 h2
      unfold replaceImplicitScan at h1
      have f1 := scanWatches_frame _ _ _ _ r1 h1
      have f2 := attachDelayed_frame _ _ _ h2
      rw [← Option.some.inj h]
      exact ⟨f1.1, sameClauses_trans f1.2.1 f2.1, f2.2.trans f1.2.2, rfl⟩

theorem enqueue_sameClauses (s : Solver) (l : Lit) : s.sameClauses (s.enqueue l) :=
  ⟨⟨rfl, rfl, rfl, rfl⟩, rfl⟩

theorem enqueueDelayedLoop_sameClauses (q : List Lit) : ∀ (s s1 : Solver),
    enqueueDelayedLoop q s = some s1 → s.sameClauses s1 := by
  induction q with
  | nil =>
    intro s s1 h
    simp only [enqueueDelayedLoop, Option.some.injEq] at h
    rw [← h]
    exact sameClauses_refl s
  | cons l rest ih =>
    intro s s1 h
    rw [enqueueDelayedLoop] at h
    split at h
    · cases h
    · split at h
      · exact sameClauses_trans (enqueue_sameClauses s l) (ih _ _ h)
      · split at h
        · rw [← Option.some.inj h]
          exact ⟨⟨rfl, rfl, rfl, rfl⟩, rfl⟩
        · exact ih _ _ h

theorem entryUpToOrder_refl (x : Option (Option Clause)) : entryUpToOrder x x := Or.inl rfl

theorem entryUpToOrder_of_eq {x y : Option (Option Clause)} (h : y = x) :
    entryUpToOrder x y := Or.inl h.symm

theorem entryUpToOrder_trans {x y z : Option (Option Clause)} (h1 : entryUpToOrder x y)
    (h2 : entryUpToOrder y z) : entryUpToOrder x z := by
  rcases h1 with rfl | ⟨c, d, hx, hy, hp, hr⟩
  · exact h2
  · rcases h2 with rfl | ⟨d2, e, hy2, hz, hp2, hr2⟩
    · exact Or.inr ⟨c, d, hx, hy, hp, hr⟩
    · rw [hy] at hy2
      simp only [Option.some.injEq] at hy2
      subst hy2
      exact Or.inr ⟨c, e, hx, hz, hp2.trans hp, hr2.trans hr⟩

theorem swapWatched_perm (ls : List Lit) : (swapWatched ls).Perm ls := by
  rcases ls with _ | ⟨a, _ | ⟨b, rest⟩⟩
  · exact List.Perm.refl _
  · exact List.Perm.refl _
  · exact List.Perm.swap _ _ _

/-- The stand-in `propagateSwap` keeps the lists and every clause up to the order of
its literals, and it does change the allocator. -/
theorem propagateSwap_keeps : PropagateKeepsLiterals propagateSwap := by
  refine ⟨fun st => ⟨rfl, rfl, rfl, rfl⟩, ?_⟩
  intro st off
  show entryUpToOrder (st.clAllocator[off]?)
    ((st.clAllocator.map (fun e => e.map (fun c => { c with lits := swapWatched c.lits })))[off]?)
  rw [List.getElem?_map]
  cases st.clAllocator[off]? with
  | none => exact Or.inl rfl
  | some e =>
    cases e with
    | none => exact Or.inl rfl
    | some c => exact Or.inr ⟨c, _, rfl, rfl, swapWatched_perm c.lits, rfl⟩

/-- The flush of the deferred units keeps the table, the assumptions and the
containers when the propagation keeps the lists, and returns the flag `ok`. -/
theorem enqueueDelayedEnqueue_lists (propagate : Solver → Solver × Bool)
    (hp : PropagateKeepsLists propagate) (vr : VarReplacer) (s : Solver)
    (r : Bool × VarReplacer × Solver)
    (h : enqueueDelayedEnqueue propagate vr s = some r) :
    r.2.1.table = vr.table ∧ s.sameLists r.2.2 ∧ r.1 = r.2.2.ok := by
  unfold enqueueDelayedEnqueue at h
  split at h
  · cases h
  · rename_i s1 h1
    have f1 := (enqueueDelayedLoop_sameClauses _ _ _ h1).1
    split at h
    · rename_i hf
      rw [← Option.some.inj h]
      exact ⟨rfl, f1, hf.symm⟩
    · rw [← Option.some.inj h]
      have f2 := hp s1
      exact ⟨rfl, sameLists_trans f1 ⟨f2.1, f2.2.1, f2.2.2.1, f2.2.2.2⟩, rfl⟩

/-- The flush of the deferred units rewrites no clause: every allocator entry is the
one before up to the order of its literals, and the very same when the flush stops at
a false unit. -/
theorem enqueueDelayedEnqueue_entries (propagate : Solver → Solver × Bool)
    (hp : PropagateKeepsLiterals propagate) (vr : VarReplacer) (s : Solver)
    (r : Bool × VarReplacer × Solver)
    (h : enqueueDelayedEnqueue propagate vr s = some r) :
    ∀ off : Nat, entryUpToOrder (s.clAllocator[off]?) (r.2.2.clAllocator[off]?) := by
  unfold enqueueDelayedEnqueue at h
  split at h
  · cases h
  · rename_i s1 h1
    have f1 := (enqueueDelayedLoop_sameClauses _ _ _ h1).2
    intro off
    split at h
    · rw [← Option.some.inj h]
      simp only
      rw [f1]
      exact entryUpToOrder_refl _
    · rw [← Option.some.inj h]
      have f2 := hp.2 s1 off
      rw [f1] at f2
      exact f2

theorem detachModifiedClause_sameClauses (s s2 : Solver) (o1 o2 : Lit) (offset : Nat)
    (h : s.detachModifiedClause o1 o2 offset = some s2) : s.sameClauses s2 := by
  have f := detachModifiedClause_frame s s2 o1 o2 offset h
  exact ⟨⟨f.2.2.2.2.2.2.2.1, f.2.2.2.2.2.2.2.2.1, f.2.2.2.2.2.1, f.2.2.2.2.2.2.1⟩,
    f.2.2.2.1⟩

theorem attachBinClause_sameClauses (s s1 : Solver) (l1 l2 : Lit) (red : Bool)
    (h : s.attachBinClause l1 l2 red = some s1) : s.sameClauses s1 := by
  have f := attachBinClause_frame s s1 l1 l2 red h
  exact ⟨⟨f.2.2.2.2.2.2.2.1, f.2.2.2.2.2.2.2.2.1, f.2.2.2.2.2.1, f.2.2.2.2.2.2.1⟩,
    f.2.2.2.1⟩

theorem attachTriClause_sameClauses (s s1 : Solver) (l1 l2 l3 : Lit) (red : Bool)
    (h : s.attachTriClause l1 l2 l3 red = some s1) : s.sameClauses s1 := by
  have f := attachTriClause_frame s s1 l1 l2 l3 red h
  exact ⟨⟨f.2.2.2.2.2.2.2.1, f.2.2.2.2.2.2.2.2.1, f.2.2.2.2.2.1, f.2.2.2.2.2.2.1⟩,
    f.2.2.2.1⟩

theorem attachClause_sameClauses (s s1 : Solver) (offset : Nat)
    (h : s.attachClause offset = some s1) : s.sameClauses s1 := by
  have f := attachClause_frame s s1 offset h
  exact ⟨⟨f.2.2.2.2.2.2.2.1, f.2.2.2.2.2.2.2.2.1, f.2.2.2.2.2.1, f.2.2.2.2.2.2.1⟩,
    f.2.2.2.1⟩

/-- The method `handleUpdatedClause` keeps the assumptions and the containers when the
propagation keeps the lists. -/
theorem handleUpdatedClause_lists (propagate : Solver → Solver × Bool)
    (hp : PropagateKeepsLists propagate) (s : Solver) (offset : Nat) (o1 o2 : Lit)
    (h : Bool × Solver) (hrun : handleUpdatedClause propagate s offset o1 o2 = some h) :
    s.sameLists h.2 := by
  unfold handleUpdatedClause at hrun
  split at hrun
  · rename_i c hc
    split at hrun
    · cases hrun
    · rename_i r hr
      simp only at hrun
      split at hrun
      · cases hrun
      · rename_i s2 hd
        have f := detachModifiedClause_sameClauses _ s2 o1 o2 offset hd
        have f1 : s.sameLists s2 := ⟨f.1.1, f.1.2.1, f.1.2.2.1, f.1.2.2.2⟩
        have key : ∀ s3 : Solver, s2.sameLists s3 → s.sameLists s3 :=
          fun s3 h3 => sameLists_trans f1 h3
        split at hrun
        · rw [← Option.some.inj hrun]
          exact f1
        · split at hrun
          · rw [← Option.some.inj hrun]
            exact key _ ⟨rfl, rfl, rfl, rfl⟩
          · rw [← Option.some.inj hrun]
            rename_i l0 _
            have g := hp (s2.enqueue l0)
            exact key _ ⟨g.1, g.2.1, g.2.2.1, g.2.2.2⟩
          · split at hrun
            · cases hrun
            · rename_i s3 h3
              rw [← Option.some.inj hrun]
              exact key _ (attachBinClause_sameClauses _ _ _ _ _ h3).1
          · split at hrun
            · cases hrun
            · rename_i s3 h3
              rw [← Option.some.inj hrun]
              exact key _ (attachTriClause_sameClauses _ _ _ _ _ _ h3).1
          · split at hrun
            · cases hrun
            · rename_i s3 h3
              rw [← Option.some.inj hrun]
              exact key _ (attachClause_sameClauses _ _ _ h3).1
  · cases hrun

/-- The method `handleUpdatedClause` rewrites the clause at `offset` only: every other
allocator entry is the one before up to the order of its literals. -/
theorem handleUpdatedClause_entries (propagate : Solver → Solver × Bool)
    (hp : PropagateKeepsLiterals propagate) (s : Solver) (offset : Nat) (o1 o2 : Lit)
    (h : Bool × Solver) (hrun : handleUpdatedClause propagate s offset o1 o2 = some h) :
    ∀ off, off ≠ offset → entryUpToOrder (s.clAllocator[off]?) (h.2.clAllocator[off]?) := by
  unfold handleUpdatedClause at hrun
  split at hrun
  · rename_i c hc
    split at hrun
    · cases hrun
    · rename_i r hr
      simp only at hrun
      split at hrun
      · cases hrun
      · rename_i s2 hd
        have f := detachModifiedClause_sameClauses _ s2 o1 o2 offset hd
        have f2 : ∀ off, off ≠ offset → s2.clAllocator[off]? = s.clAllocator[off]? := by
          intro off hne
          rw [f.2]
          simp only
          rw [List.getElem?_set_ne (Ne.symm hne)]
        have key : ∀ s3 : Solver, s3.clAllocator = s2.clAllocator →
            ∀ off, off ≠ offset →
              entryUpToOrder (s.clAllocator[off]?) (s3.clAllocator[off]?) := by
          intro s3 h3 off hne
          rw [h3, f2 off hne]
          exact entryUpToOrder_refl _
        split at hrun
        · rw [← Option.some.inj hrun]
          exact key s2 rfl
        · split at hrun
          · rw [← Option.some.inj hrun]
            exact key _ rfl
          · rw [← Option.some.inj hrun]
            rename_i l0 _
            intro off hne
            have g := hp.2 (s2.enqueue l0) off
            have e : (s2.enqueue l0).clAllocator[off]? = s.clAllocator[off]? := f2 off hne
            rw [e] at g
            exact g
          · split at hrun
            · cases hrun
            · rename_i s3 h3
              rw [← Option.some.inj hrun]
              exact key _ (attachBinClause_sameClauses _ _ _ _ _ h3).2
          · split at hrun
            · cases hrun
            · rename_i s3 h3
              rw [← Option.some.inj hrun]
              exact key _ (attachTriClause_sameClauses _ _ _ _ _ _ h3).2
          · split at hrun
            · cases hrun
            · rename_i s3 h3
              rw [← Option.some.inj hrun]
              exact key _ (attachClause_sameClauses _ _ _ h3).2
  · cases hrun

/-- The loop of `replace_set` keeps the assumptions and the two containers held by the
solver when the propagation keeps the lists. -/
theorem replaceSetLoop_lists (propagate : Solver → Solver × Bool)
    (hp : PropagateKeepsLists propagate) (vr : VarReplacer) (cs : List Nat)
    (rest : List Nat) :
    ∀ (kept : List Nat) (s : Solver) (r : Bool × List Nat × Solver),
      replaceSetLoop propagate vr cs rest kept s = some r → s.sameLists r.2.2 := by
  induction rest with
  | nil =>
    intro kept s r h
    simp only [replaceSetLoop, Option.some.injEq] at h
    rw [← h]
    exact sameLists_refl s
  | cons offset rest ih =>
    intro kept s r hr
    obtain ⟨c, o1, o2, l3, l4, t, hal, _, hcase⟩ :=
      replaceSetLoop_cons_inv propagate vr cs s offset rest kept r hr
    rcases hcase with ⟨lits1, _, hloop⟩ | ⟨lits1, h, _, hrun, hloop⟩
    · exact ih _ _ r hloop
    · have f1 := handleUpdatedClause_lists propagate hp _ offset o1 o2 h hrun
      have f1s : s.sameLists h.2 := f1
      have f4s : s.sameLists (h.2.clauseFree offset) := f1s
      split at hloop
      · split at hloop
        · rw [← Option.some.inj hloop]
          exact f4s
        · exact sameLists_trans f4s (ih _ _ r hloop)
      · exact sameLists_trans f1s (ih _ _ r hloop)

/-- The loop of `replace_set` rewrites clauses at the offsets it visits only: every
other allocator entry is the one before up to the order of its literals. -/
theorem replaceSetLoop_entries (propagate : Solver → Solver × Bool)
    (hp : PropagateKeepsLiterals propagate) (vr : VarReplacer) (cs : List Nat)
    (rest : List Nat) :
    ∀ (kept : List Nat) (s : Solver) (r : Bool × List Nat × Solver),
      replaceSetLoop propagate vr cs rest kept s = some r →
      ∀ off, off ∉ rest → entryUpToOrder (s.clAllocator[off]?) (r.2.2.clAllocator[off]?) := by
  induction rest with
  | nil =>
    intro kept s r h
    simp only [replaceSetLoop, Option.some.injEq] at h
    rw [← h]
    exact fun _ _ => entryUpToOrder_refl _
  | cons offset rest ih =>
    intro kept s r hr
    obtain ⟨c, o1, o2, l3, l4, t, hal, _, hcase⟩ :=
      replaceSetLoop_cons_inv propagate vr cs s offset rest kept r hr
    rcases hcase with ⟨lits1, _, hloop⟩ | ⟨lits1, h, _, hrun, hloop⟩
    · exact fun off hoff => ih _ _ r hloop off (fun hm => hoff (List.mem_cons_of_mem _ hm))
    · have f2 := handleUpdatedClause_entries propagate hp _ offset o1 o2 h hrun
      have f2s : ∀ off, off ≠ offset →
          entryUpToOrder (s.clAllocator[off]?) (h.2.clAllocator[off]?) := by
        intro off hne
        have g := f2 off hne
        simp only at g
        rw [List.getElem?_set_ne (Ne.symm hne)] at g
        exact g
      have f3s : ∀ off, off ≠ offset →
          entryUpToOrder (s.clAllocator[off]?) ((h.2.clauseFree offset).clAllocator[off]?) := by
        intro off hne
        unfold Solver.clauseFree
        simp only
        rw [List.getElem?_set_ne (Ne.symm hne)]
        exact f2s off hne
      split at hloop
      · split at hloop
        · rw [← Option.some.inj hloop]
          exact fun off hoff => f3s off (fun he => hoff (by rw [he]; simp))
        · intro off hoff
          exact entryUpToOrder_trans (f3s off (fun he => hoff (by rw [he]; simp)))
            (ih _ _ r hloop off (fun hm => hoff (List.mem_cons_of_mem _ hm)))
      · intro off hoff
        exact entryUpToOrder_trans (f2s off (fun he => hoff (by rw [he]; simp)))
          (ih _ _ r hloop off (fun hm => hoff (List.mem_cons_of_mem _ hm)))

/-- The steps of `performReplace` that returned, step by step: each step that returns
`false` ends the run with the state it left. -/
theorem performReplaceSteps_cases (propagate : Solver → Solver × Bool) (vr : VarReplacer)
    (s : Solver) (r : VarReplacer × Solver)
    (h : performReplaceSteps propagate vr s = some r) :
    ∃ r1, replaceImplicit vr s = some r1
      ∧ ((r1.1 = false ∧ r = r1.2)
        ∨ (r1.1 = true ∧ ∃ r2, enqueueDelayedEnqueue propagate r1.2.1 r1.2.2 = some r2
          ∧ ((r2.1 = false ∧ r = r2.2)
            ∨ (r2.1 = true
              ∧ ∃ r3, replace_set propagate r2.2.1 r2.2.2 r2.2.2.longIrredCls = some r3
              ∧ ((r3.1 = false ∧ r = (r2.2.1, { r3.2.2 with longIrredCls := r3.2.1 }))
                ∨ (r3.1 = true
                  ∧ ∃ r4, replace_set propagate r2.2.1
                      { r3.2.2 with longIrredCls := r3.2.1 } r3.2.2.longRedCls = some r4
                  ∧ ((r4.1 = false ∧ r = (r2.2.1, { r4.2.2 with longRedCls := r4.2.1 }))
                    ∨ (r4.1 = true
                      ∧ ∃ a, updateAssumptions r2.2.1 r4.2.2.assumptions
                          r4.2.2.assumptionsSet = some a
                      ∧ r = (r2.2.1, { r4.2.2 with longRedCls := r4.2.1, assumptions := a.1, assumptionsSet := a.2 }))))))))) := by
  unfold performReplaceSteps at h
  split at h
  · cases h
  · rename_i r1 h1
    refine ⟨r1, h1, ?_⟩
    split at h
    · rename_i hf
      exact Or.inl ⟨hf, (Option.some.inj h).symm⟩
    · rename_i hf
      have ht1 : r1.1 = true := by
        cases hb : r1.1
        · exact absurd hb hf
        · rfl
      refine Or.inr ⟨ht1, ?_⟩
      split at h
      · cases h
      · rename_i r2 h2
        refine ⟨r2, h2, ?_⟩
        split at h
        · rename_i hf2
          exact Or.inl ⟨hf2, (Option.some.inj h).symm⟩
        · rename_i hf2
          have ht2 : r2.1 = true := by
            cases hb : r2.1
            · exact absurd hb hf2
            · rfl
          refine Or.inr ⟨ht2, ?_⟩
          split at h
          · cases h
          · rename_i r3 h3
            refine ⟨r3, h3, ?_⟩
            split at h
            · rename_i hf3
              exact Or.inl ⟨hf3, (Option.some.inj h).symm⟩
            · rename_i hf3
              have ht3 : r3.1 = true := by
                cases hb : r3.1
                · exact absurd hb hf3
                · rfl
              refine Or.inr ⟨ht3, ?_⟩
              split at h
              · cases h
              · rename_i r4 h4
                refine ⟨r4, h4, ?_⟩
                split at h
                · rename_i hf4
                  exact Or.inl ⟨hf4, (Option.some.inj h).symm⟩
                · rename_i hf4
                  have ht4 : r4.1 = true := by
                    cases hb : r4.1
                    · exact absurd hb hf4
                    · rfl
                  refine Or.inr ⟨ht4, ?_⟩
                  split at h
                  · cases h
                  · rename_i a ha
                    exact ⟨a, ha, (Option.some.inj h).symm⟩

/-- A run of `performReplace` that returned: the entry checks passed, the statuses were
flipped after the cleaner, the steps returned, and the result is their state with its
flag `ok`. -/
theorem performReplace_cases (clean : Solver → Solver)
    (propagate : Solver → Solver × Bool) (vr : VarReplacer) (s : Solver)
    (r : Bool × VarReplacer × Solver)
    (h : performReplace clean propagate vr s = some r) :
    s.ok = true ∧ ∃ s1 rr, statusFlip vr (clean s) = some s1
      ∧ performReplaceSteps propagate { vr with lastReplacedVars := vr.replacedVars } s1
          = some rr
      ∧ r = (rr.2.ok, rr.1, rr.2)
      ∧ (rr.2.ok = true → checkUnsetSanity rr.1 rr.2 = some true) := by
  unfold performReplace at h
  split at h
  · rename_i hc
    split at h
    · cases h
    · rename_i s1 h1
      split at h
      · split at h
        · cases h
        · rename_i rr hrr
          split at h
          · rename_i hfin
            exact ⟨hc.1, s1, rr, h1, hrr, (Option.some.inj h).symm, hfin.2⟩
          · cases h
      · cases h
  · cases h

/-- C19 (failure semantics of applyAll). Let the propagation rewrite no clause: it
keeps the assumptions, their flags and the containers, and every allocator entry up to
the order of its literals (it may move watches). Let `performReplace` return `r`. Then
the returned bool is the flag `ok` of the final state (success if and only if the UNSAT
flag is unset). If the rewrite of the implicit clauses fails, the run returns `false`
and the assumptions, their flags, the two containers and the allocator are those the
cleaner left. If the flush of the deferred units fails, the run returns `false`, the
assumptions, their flags and the two containers are those the cleaner left, and every
allocator entry is the one the cleaner left up to the order of its literals: no long
clause and no assumption is rewritten. If the rewrite of the irredundant long clauses
fails, the run returns `false`, the container of redundant clauses, the assumptions
and their flags are those the cleaner left, and so is, up to the order of its literals,
every allocator entry whose offset is not in the irredundant container. -/
theorem applyAll_failure_semantics (clean : Solver → Solver)
    (propagate : Solver → Solver × Bool) (hp : PropagateKeepsLiterals propagate)
    (vr : VarReplacer) (s : Solver) (r : Bool × VarReplacer × Solver)
    (hrun : performReplace clean propagate vr s = some r) :
    r.1 = r.2.2.ok
    ∧ ∃ s1 r1, statusFlip vr (clean s) = some s1
      ∧ replaceImplicit { vr with lastReplacedVars := vr.replacedVars } s1 = some r1
      ∧ (r1.1 = false → r.1 = false ∧ (clean s).sameClauses r.2.2)
      ∧ (r1.1 = true → ∃ r2, enqueueDelayedEnqueue propagate r1.2.1 r1.2.2 = some r2
          ∧ (r2.1 = false → r.1 = false ∧ (clean s).sameLists r.2.2
              ∧ ∀ off : Nat,
                  entryUpToOrder ((clean s).clAllocator[off]?) (r.2.2.clAllocator[off]?))
          ∧ (r2.1 = true →
              ∃ r3, replace_set propagate r2.2.1 r2.2.2 r2.2.2.longIrredCls = some r3
                ∧ (r3.1 = false → r.1 = false
                    ∧ r.2.2.longRedCls = (clean s).longRedCls
                    ∧ r.2.2.assumptions = (clean s).assumptions
                    ∧ r.2.2.assumptionsSet = (clean s).assumptionsSet
                    ∧ ∀ off : Nat, off ∉ (clean s).longIrredCls →
                        entryUpToOrder ((clean s).clAllocator[off]?)
                          (r.2.2.clAllocator[off]?)))) := by
  obtain ⟨_, s1, rr, hflip, hsteps, hr, _⟩ :=
    performReplace_cases clean propagate vr s r hrun
  have Fflip : (clean s).sameClauses s1 := by
    unfold statusFlip at hflip
    exact statusFlipFrom_sameClauses _ _ _ _ hflip
  obtain ⟨r1, h1, hc1⟩ := performReplaceSteps_cases propagate _ s1 rr hsteps
  have Fimpl := replaceImplicit_frame _ s1 r1 h1
  have F1 : (clean s).sameClauses r1.2.2 := sameClauses_trans Fflip Fimpl.2.1
  refine ⟨by rw [hr], s1, r1, hflip, h1, ?_, ?_⟩
  · intro hf1
    rcases hc1 with ⟨_, hrr⟩ | ⟨ht1, _⟩
    · rw [hr, hrr]
      refine ⟨?_, F1⟩
      simp only
      rw [← Fimpl.2.2.2, hf1]
    · rw [hf1] at ht1; cases ht1
  · intro ht1
    rcases hc1 with ⟨hf1, _⟩ | ⟨_, r2, h2, hc2⟩
    · rw [ht1] at hf1; cases hf1
    · have Fflush := enqueueDelayedEnqueue_lists propagate hp.1 _ _ r2 h2
      have Eflush := enqueueDelayedEnqueue_entries propagate hp _ _ r2 h2
      have L2 : (clean s).sameLists r2.2.2 := sameLists_trans F1.1 Fflush.2.1
      have E2 : ∀ off : Nat,
          entryUpToOrder ((clean s).clAllocator[off]?) (r2.2.2.clAllocator[off]?) := by
        intro off
        have g := Eflush off
        rw [F1.2] at g
        exact g
      refine ⟨r2, h2, ?_, ?_⟩
      · intro hf2
        rcases hc2 with ⟨_, hrr⟩ | ⟨ht2, _⟩
        · rw [hr, hrr]
          refine ⟨?_, L2, E2⟩
          simp only
          rw [← Fflush.2.2, hf2]
        · rw [hf2] at ht2; cases ht2
      · intro ht2
        rcases hc2 with ⟨hf2, _⟩ | ⟨_, r3, h3, hc3⟩
        · rw [ht2] at hf2; cases hf2
        · refine ⟨r3, h3, ?_⟩
          intro hf3
          rcases hc3 with ⟨_, hrr⟩ | ⟨ht3, _⟩
          · have hok2 : r2.2.2.ok = true := by rw [← Fflush.2.2, ht2]
            have Ffail := (replaceSetLoop_fail propagate r2.2.1 r2.2.2.longIrredCls
              r2.2.2.longIrredCls [] [] r2.2.2 r3 rfl (Nat.le_refl _) hok2 h3).1
            have Lset := replaceSetLoop_lists propagate hp.1 r2.2.1 r2.2.2.longIrredCls
              r2.2.2.longIrredCls [] r2.2.2 r3 h3
            have Eset := replaceSetLoop_entries propagate hp r2.2.1 r2.2.2.longIrredCls
              r2.2.2.longIrredCls [] r2.2.2 r3 h3
            rw [hr, hrr]
            simp only
            refine ⟨by rw [← Ffail, hf3], ?_, ?_, ?_, ?_⟩
            · rw [Lset.2.2.2, L2.2.2.2]
            · rw [Lset.1, L2.1]
            · rw [Lset.2.1, L2.2.1]
            · intro off hoff
              exact entryUpToOrder_trans (E2 off)
                (Eset off (by rw [L2.2.2.1]; exact hoff))
          · rw [hf3] at ht3; cases ht3

/-- Witness of C19, with a propagation that exchanges the watched literals of every
long clause: on `flushFailSolver` the deferred units `2` and `~2` make the flush fail,
and the run returns `false` with the long clauses and the assumptions as they were; on
`refutedSolverFull` the rewrite of the irredundant clauses fails (a clause of size 0),
the assumptions are as they were and the redundant clause at offset 1 has its
literals, the first two exchanged by the propagation. -/
theorem applyAll_failure_semantics_witness :
    PropagateKeepsLiterals propagateSwap
    ∧ (performReplace id propagateSwap pairsReplacer flushFailSolver).map
        (fun r => (r.1, r.2.2.ok, r.2.2.trail, r.2.2.clAllocator))
        = some (false, false, [⟨2, false⟩], flushFailSolver.clAllocator)
    ∧ (performReplace id propagateSwap pairsReplacer flushFailSolver).map
        (fun r => (r.2.2.assumptions, r.2.2.assumptionsSet, r.2.2.longIrredCls,
          r.2.2.longRedCls))
        = some (flushFailSolver.assumptions, flushFailSolver.assumptionsSet, [0], [1])
    ∧ (performReplace id propagateSwap pairsReplacer refutedSolverFull).map
        (fun r => (r.1, r.2.2.ok, r.2.2.clAllocator[0]?, r.2.2.clAllocator[1]?))
        = some (false, false, some none,
            some (some ⟨[⟨1, false⟩, ⟨0, false⟩, ⟨3, false⟩, ⟨4, false⟩], true⟩))
    ∧ (performReplace id propagateSwap pairsReplacer refutedSolverFull).map
        (fun r => (r.2.2.assumptions, r.2.2.assumptionsSet, r.2.2.longIrredCls,
          r.2.2.longRedCls))
        = some (refutedSolverFull.assumptions, refutedSolverFull.assumptionsSet, [0], [1])
    ∧ (∃ r, performReplace id propagateSwap pairsReplacer flushFailSolver = some r
      ∧ r.1 = r.2.2.ok
      ∧ ∃ s1 r1, statusFlip pairsReplacer (id flushFailSolver) = some s1
        ∧ replaceImplicit { pairsReplacer with lastReplacedVars := pairsReplacer.replacedVars } s1 = some r1
        ∧ (r1.1 = false → r.1 = false ∧ (id flushFailSolver).sameClauses r.2.2)
        ∧ (r1.1 = true →
            ∃ r2, enqueueDelayedEnqueue propagateSwap r1.2.1 r1.2.2 = some r2
              ∧ (r2.1 = false → r.1 = false ∧ (id flushFailSolver).sameLists r.2.2
                  ∧ ∀ off : Nat, entryUpToOrder ((id flushFailSolver).clAllocator[off]?)
                      (r.2.2.clAllocator[off]?))
              ∧ (r2.1 = true →
                  ∃ r3, replace_set propagateSwap r2.2.1 r2.2.2 r2.2.2.longIrredCls = some r3
                    ∧ (r3.1 = false → r.1 = false
                        ∧ r.2.2.longRedCls = (id flushFailSolver).longRedCls
                        ∧ r.2.2.assumptions = (id flushFailSolver).assumptions
                        ∧ r.2.2.assumptionsSet = (id flushFailSolver).assumptionsSet
                        ∧ ∀ off : Nat, off ∉ (id flushFailSolver).longIrredCls →
                            entryUpToOrder ((id flushFailSolver).clAllocator[off]?)
                              (r.2.2.clAllocator[off]?)))))
    ∧ (∃ r, performReplace id propagateSwap pairsReplacer refutedSolverFull = some r
      ∧ r.1 = r.2.2.ok
      ∧ ∃ s1 r1, statusFlip pairsReplacer (id refutedSolverFull) = some s1
        ∧ replaceImplicit { pairsReplacer with lastReplacedVars := pairsReplacer.replacedVars } s1 = some r1
        ∧ (r1.1 = false → r.1 = false ∧ (id refutedSolverFull).sameClauses r.2.2)
        ∧ (r1.1 = true →
            ∃ r2, enqueueDelayedEnqueue propagateSwap r1.2.1 r1.2.2 = some r2
              ∧ (r2.1 = false → r.1 = false ∧ (id refutedSolverFull).sameLists r.2.2
                  ∧ ∀ off : Nat, entryUpToOrder ((id refutedSolverFull).clAllocator[off]?)
                      (r.2.2.clAllocator[off]?))
              ∧ (r2.1 = true →
                  ∃ r3, replace_set propagateSwap r2.2.1 r2.2.2 r2.2.2.longIrredCls = some r3
                    ∧ (r3.1 = false → r.1 = false
                        ∧ r.2.2.longRedCls = (id refutedSolverFull).longRedCls
                        ∧ r.2.2.assumptions = (id refutedSolverFull).assumptions
                        ∧ r.2.2.assumptionsSet = (id refutedSolverFull).assumptionsSet
                        ∧ ∀ off : Nat, off ∉ (id refutedSolverFull).longIrredCls →
                            entryUpToOrder ((id refutedSolverFull).clAllocator[off]?)
                              (r.2.2.clAllocator[off]?))))) := by
  refine ⟨propagateSwap_keeps, by decide, by decide, by decide, by decide, ?_, ?_⟩
  · have hv : (performReplace id propagateSwap pairsReplacer flushFailSolver).isSome
        = true := by decide
    cases hh : performReplace id propagateSwap pairsReplacer flushFailSolver with
    | none => rw [hh] at hv; cases hv
    | some r =>
      exact ⟨r, rfl, applyAll_failure_semantics id propagateSwap
        propagateSwap_keeps pairsReplacer flushFailSolver r hh⟩
  · have hv : (performReplace id propagateSwap pairsReplacer refutedSolverFull).isSome
        = true := by decide
    cases hh : performReplace id propagateSwap pairsReplacer refutedSolverFull with
    | none => rw [hh] at hv; cases hv
    | some r =>
      exact ⟨r, rfl, applyAll_failure_semantics id propagateSwap
        propagateSwap_keeps pairsReplacer refutedSolverFull r hh⟩

/-- The loop over the assumptions replaces each literal by what it resolves to, in
place, and keeps the number of flags. -/
theorem updateAssumptions_lits (vr : VarReplacer) (as : List Lit) :
    ∀ (flags : List Bool) (r : List Lit × List Bool),
      updateAssumptions vr as flags = some r →
      List.Forall₂ (fun a b => vr.getLitReplacedWith a = some b) as r.1
      ∧ r.2.length = flags.length := by
  induction as with
  | nil =>
    intro flags r h
    simp only [updateAssumptions, Option.some.injEq] at h
    rw [← h]
    exact ⟨List.Forall₂.nil, rfl⟩
  | cons lit rest ih =>
    intro flags r h
    rw [updateAssumptions] at h
    split at h
    · split at h
      · cases h
      · rename_i lit1 h1
        split at h
        · split at h
          · cases h
          · rename_i r1 hr1
            obtain ⟨g1, g2⟩ := ih _ r1 hr1
            rw [← Option.some.inj h]
            refine ⟨List.Forall₂.cons h1 g1, ?_⟩
            rw [g2]
            simp
        · cases h
    · cases h

theorem forall2_resolve_map (vr : VarReplacer) (as bs : List Lit)
    (h : List.Forall₂ (fun a b => vr.getLitReplacedWith a = some b) as bs) :
    bs.map some = as.map vr.getLitReplacedWith := by
  induction h with
  | nil => rfl
  | cons hab _ ih =>
    simp only [List.map_cons]
    rw [hab, ih]

theorem forall2_resolve_mem (vr : VarReplacer) (as bs : List Lit)
    (h : List.Forall₂ (fun a b => vr.getLitReplacedWith a = some b) as bs) :
    ∀ a ∈ as, ∃ b ∈ bs, vr.getLitReplacedWith a = some b := by
  induction h with
  | nil => intro a ha; cases ha
  | @cons x y xs ys hab _ ih =>
    intro a ha
    rcases List.mem_cons.1 ha with hx | hx
    · exact ⟨y, List.mem_cons_self _ _, by rw [hx]; exact hab⟩
    · obtain ⟨z, hz, hz2⟩ := ih a hx
      exact ⟨z, List.mem_cons_of_mem _ hz, hz2⟩

/-- A literal whose variable is the variable some literal resolves to resolves to a
literal of the same variable, in a flat table. -/
theorem resolve_of_representative (vr : VarReplacer)
    (hflat : ∀ (v : Nat) (t : Lit), vr.table[v]? = some t →
      vr.table[t.var]? = some ⟨t.var, false⟩)
    (lit lit1 a a1 : Lit) (h1 : vr.getLitReplacedWith lit = some lit1)
    (ha : a.var = lit1.var) (h2 : vr.getLitReplacedWith a = some a1) :
    a1.var = lit1.var := by
  unfold VarReplacer.getLitReplacedWith at h1 h2
  cases ht : vr.table[lit.var]? with
  | none => rw [ht] at h1; cases h1
  | some t =>
    rw [ht] at h1
    simp only [Option.map_some', Option.some.injEq] at h1
    have hv : lit1.var = t.var := by rw [← h1]; rfl
    have hrep := hflat _ _ ht
    rw [ha, hv, hrep] at h2
    simp only [Option.map_some', Option.some.injEq] at h2
    rw [← h2, hv]
    rfl

theorem flags_set_set (flags : List Bool) (i j v : Nat) (hj : j < flags.length) :
    ((flags.set i false).set j true)[v]? = some true
      ↔ (v = j ∨ (v ≠ i ∧ flags[v]? = some true)) := by
  rw [List.getElem?_set]
  by_cases h1 : j = v
  · rw [if_pos h1, if_pos (by simp; exact hj)]
    simp [h1]
  · rw [if_neg h1, List.getElem?_set]
    by_cases h2 : i = v
    · rw [if_pos h2]
      constructor
      · intro h
        split at h <;> cases h
      · rintro (h | ⟨h, _⟩)
        · exact absurd h.symm h1
        · exact absurd h2.symm h
    · rw [if_neg h2]
      constructor
      · intro h
        exact Or.inr ⟨fun he => h2 he.symm, h⟩
      · rintro (h | ⟨_, h⟩)
        · exact absurd h.symm h1
        · exact h

/-- The flags after the loop over the assumptions, in a flat table: a flag is set
exactly when its variable is the variable of a rewritten assumption, or when it was
set before and no assumption had that variable. -/
theorem updateAssumptions_flags (vr : VarReplacer)
    (hflat : ∀ (v : Nat) (t : Lit), vr.table[v]? = some t →
      vr.table[t.var]? = some ⟨t.var, false⟩)
    (as : List Lit) :
    ∀ (flags : List Bool) (r : List Lit × List Bool),
      updateAssumptions vr as flags = some r →
      ∀ v, r.2[v]? = some true
        ↔ ((∃ b ∈ r.1, b.var = v) ∨ (flags[v]? = some true ∧ ∀ a ∈ as, a.var ≠ v)) := by
  induction as with
  | nil =>
    intro flags r h v
    simp only [updateAssumptions, Option.some.injEq] at h
    rw [← h]
    simp
  | cons lit rest ih =>
    intro flags r h v
    rw [updateAssumptions] at h
    split at h
    · split at h
      · cases h
      · rename_i lit1 h1
        split at h
        · rename_i hj
          split at h
          · cases h
          · rename_i r1 hr1
            have g := ih _ r1 hr1 v
            have gl := (updateAssumptions_lits vr rest _ r1 hr1).1
            rw [← Option.some.inj h]
            simp only
            rw [g, flags_set_set flags lit.var lit1.var v hj]
            constructor
            · rintro (⟨b, hb, hbv⟩ | ⟨hv | ⟨hne, hf⟩, hno⟩)
              · exact Or.inl ⟨b, List.mem_cons_of_mem _ hb, hbv⟩
              · exact Or.inl ⟨lit1, List.mem_cons_self _ _, hv.symm⟩
              · right
                refine ⟨hf, ?_⟩
                intro a ha
                rcases List.mem_cons.1 ha with he | he
                · rw [he]; exact fun h => hne h.symm
                · exact hno a he
            · rintro (⟨b, hb, hbv⟩ | ⟨hf, hno⟩)
              · rcases List.mem_cons.1 hb with he | he
                · by_cases hex : ∃ a ∈ rest, a.var = v
                  · obtain ⟨a, ha, hav⟩ := hex
                    obtain ⟨a1, ha1, hra⟩ := forall2_resolve_mem vr rest r1.1 gl a ha
                    left
                    refine ⟨a1, ha1, ?_⟩
                    have := resolve_of_representative vr hflat lit lit1 a a1 h1
                      (by rw [hav, ← hbv, he]) hra
                    rw [this, ← he, hbv]
                  · right
                    refine ⟨Or.inl (by rw [← hbv, he]), ?_⟩
                    intro a ha hav
                    exact hex ⟨a, ha, hav⟩
                · exact Or.inl ⟨b, he, hbv⟩
              · right
                refine ⟨Or.inr ⟨fun he => hno lit (List.mem_cons_self _ _) he.symm, hf⟩, ?_⟩
                intro a ha
                exact hno a (List.mem_cons_of_mem _ ha)
        · cases h
    · cases h

/-- C20 (assumptions rewrite). Let the table be well formed, let the cleaner keep the
assumptions and their flags, let the propagation keep the assumptions, their flags and
the containers (it may move watches and reorder the literals of long clauses), and let
`performReplace` return success. Then the table is the one of the start, the
assumptions are, position by position, the literals the old ones
resolve to, the number of flags is the same, and if the flags were exact before (the
flag of `v` is set if and only if some assumption has the variable `v`) they are exact
afterwards, for any order of the assumptions and also when the variable of one
assumption is the representative of another. -/
theorem assumptions_rewrite (clean : Solver → Solver)
    (propagate : Solver → Solver × Bool) (hp : PropagateKeepsLists propagate)
    (hclean : ∀ st : Solver, (clean st).assumptions = st.assumptions
      ∧ (clean st).assumptionsSet = st.assumptionsSet)
    (vr : VarReplacer) (hwf : WellFormed vr) (s : Solver)
    (r : Bool × VarReplacer × Solver)
    (hrun : performReplace clean propagate vr s = some r) (hsucc : r.1 = true) :
    r.2.1.table = vr.table
    ∧ r.2.2.assumptions.map some = s.assumptions.map vr.getLitReplacedWith
    ∧ r.2.2.assumptionsSet.length = s.assumptionsSet.length
    ∧ ((∀ v, s.assumptionsSet[v]? = some true ↔ ∃ a ∈ s.assumptions, a.var = v) →
        ∀ v, r.2.2.assumptionsSet[v]? = some true ↔ ∃ a ∈ r.2.2.assumptions, a.var = v) := by
  obtain ⟨_, s1, rr, hflip, hsteps, hr, _⟩ :=
    performReplace_cases clean propagate vr s r hrun
  have hok : rr.2.ok = true := by rw [hr] at hsucc; exact hsucc
  have Fflip : (clean s).sameClauses s1 := by
    unfold statusFlip at hflip
    exact statusFlipFrom_sameClauses _ _ _ _ hflip
  obtain ⟨r1, h1, hc1⟩ := performReplaceSteps_cases propagate _ s1 rr hsteps
  have Fimpl := replaceImplicit_frame _ s1 r1 h1
  rcases hc1 with ⟨hf1, hrr⟩ | ⟨ht1, r2, h2, hc2⟩
  · rw [hrr, ← Fimpl.2.2.2, hf1] at hok; cases hok
  have Fflush := enqueueDelayedEnqueue_lists propagate hp _ _ r2 h2
  rcases hc2 with ⟨hf2, hrr⟩ | ⟨ht2, r3, h3, hc3⟩
  · rw [hrr, ← Fflush.2.2, hf2] at hok; cases hok
  have hok2 : r2.2.2.ok = true := by rw [← Fflush.2.2, ht2]
  have Ffail3 := (replaceSetLoop_fail propagate r2.2.1 r2.2.2.longIrredCls
    r2.2.2.longIrredCls [] [] r2.2.2 r3 rfl (Nat.le_refl _) hok2 h3).1
  have Fset3 := replaceSetLoop_lists propagate hp r2.2.1 r2.2.2.longIrredCls
    r2.2.2.longIrredCls [] r2.2.2 r3 h3
  rcases hc3 with ⟨hf3, hrr⟩ | ⟨ht3, r4, h4, hc4⟩
  · rw [hrr] at hok
    simp only at hok
    rw [← Ffail3, hf3] at hok; cases hok
  have hok3 : r3.2.2.ok = true := by rw [← Ffail3, ht3]
  have Ffail4 := (replaceSetLoop_fail propagate r2.2.1 r3.2.2.longRedCls
    r3.2.2.longRedCls [] [] { r3.2.2 with longIrredCls := r3.2.1 } r4 rfl (Nat.le_refl _)
    hok3 h4).1
  have Fset4 := replaceSetLoop_lists propagate hp r2.2.1 r3.2.2.longRedCls
    r3.2.2.longRedCls [] { r3.2.2 with longIrredCls := r3.2.1 } r4 h4
  rcases hc4 with ⟨hf4, hrr⟩ | ⟨_, a, ha, hrr⟩
  · rw [hrr] at hok
    simp only at hok
    rw [← Ffail4, hf4] at hok; cases hok
  have htab : r2.2.1.table = vr.table := by rw [Fflush.1, Fimpl.1]
  have has : r4.2.2.assumptions = s.assumptions := by
    rw [Fset4.1]
    simp only
    rw [Fset3.1, Fflush.2.1.1, Fimpl.2.1.1.1, Fflip.1.1, (hclean s).1]
  have hfl : r4.2.2.assumptionsSet = s.assumptionsSet := by
    rw [Fset4.2.1]
    simp only
    rw [Fset3.2.1, Fflush.2.1.2.1, Fimpl.2.1.1.2.1, Fflip.1.2.1, (hclean s).2]
  rw [has, hfl] at ha
  have hres : ∀ l : Lit, r2.2.1.getLitReplacedWith l = vr.getLitReplacedWith l := by
    intro l
    unfold VarReplacer.getLitReplacedWith
    rw [htab]
  have hflat : ∀ (v : Nat) (t : Lit), r2.2.1.table[v]? = some t →
      r2.2.1.table[t.var]? = some ⟨t.var, false⟩ := by
    rw [htab]
    exact hwf.1
  obtain ⟨g1, g2⟩ := updateAssumptions_lits r2.2.1 s.assumptions s.assumptionsSet a ha
  have g3 := updateAssumptions_flags r2.2.1 hflat s.assumptions s.assumptionsSet a ha
  rw [hr, hrr]
  simp only
  refine ⟨htab, ?_, g2, ?_⟩
  · rw [forall2_resolve_map r2.2.1 _ _ g1]
    apply List.map_congr_left
    intro l _
    exact hres l
  · intro hex v
    rw [g3 v]
    constructor
    · rintro (h | ⟨hf, hno⟩)
      · exact h
      · obtain ⟨a0, ha0, hv0⟩ := (hex v).1 hf
        exact absurd hv0 (hno a0 ha0)
    · intro h
      exact Or.inl h

/-- Witness of C20, with a propagation that exchanges the watched literals of every long
clause: after `1 = 2` the assumptions `~1, 2` become `~2, 2`, in place, and
the flags, exact before, are exact afterwards: the flag of 1 is cleared and the one of
2, cleared and set again on the way, is set. -/
theorem assumptions_rewrite_witness :
    (PropagateKeepsLists propagateSwap
      ∧ (∀ v, implSolver.assumptionsSet[v]? = some true
          ↔ ∃ a ∈ implSolver.assumptions, a.var = v))
    ∧ (performReplace id propagateSwap implReplacer implSolver).map
        (fun r => (r.1, r.2.2.assumptions, r.2.2.assumptionsSet))
        = some (true, [⟨2, true⟩, ⟨2, false⟩], [false, false, true, false])
    ∧ ∃ r, performReplace id propagateSwap implReplacer implSolver = some r
      ∧ r.2.1.table = implReplacer.table
      ∧ r.2.2.assumptions.map some
          = implSolver.assumptions.map implReplacer.getLitReplacedWith
      ∧ r.2.2.assumptionsSet.length = implSolver.assumptionsSet.length
      ∧ ∀ v, r.2.2.assumptionsSet[v]? = some true ↔ ∃ a ∈ r.2.2.assumptions, a.var = v := by
  have hex : ∀ v, implSolver.assumptionsSet[v]? = some true
      ↔ ∃ a ∈ implSolver.assumptions, a.var = v := by
    intro v
    rcases Nat.lt_or_ge v 4 with hlt | hge
    · interval_cases v <;> simp [implSolver]
    · have h1 : implSolver.assumptionsSet[v]? = none := List.getElem?_eq_none hge
      rw [h1]
      simp only [implSolver, List.mem_cons, List.not_mem_nil, or_false]
      constructor
      · intro h; cases h
      · rintro ⟨a, ha | ha, hv⟩
        · rw [ha] at hv; simp at hv; omega
        · rw [ha] at hv; simp at hv; omega
  have hv : (performReplace id propagateSwap implReplacer implSolver).map
      (fun r => r.1) = some true := by decide
  refine ⟨⟨propagateSwap_keeps.1, hex⟩, by decide, ?_⟩
  cases hh : performReplace id propagateSwap implReplacer implSolver with
  | none => rw [hh] at hv; cases hv
  | some r =>
    rw [hh] at hv
    simp only [Option.map_some', Option.some.injEq] at hv
    have T := assumptions_rewrite id propagateSwap (propagateSwap_keeps.1)
      (fun st => ⟨rfl, rfl⟩) implReplacer (reachable_wellFormed _ reachable_implReplacer)
      implSolver r hh hv
    exact ⟨r, rfl, T.1, T.2.1, T.2.2.1, T.2.2.2 hex⟩

/-! ## The consistency check and forced variables -/

/-- The test of `checkUnsetSanity` for the variable `i`, when its table entry `t`, the
two statuses and the two assignments can be read: it is a violation exactly when `i`
and the variable of `t` both have status none or queued and the assignment of `i`
differs from the one of `t`. -/
theorem sanityViolationAt_spec (vr : VarReplacer) (s : Solver) (i : Nat) (t : Lit)
    (ht : vr.table[i]? = some t) (hi : i < s.removed.length)
    (hr : t.var < s.removed.length) (hai : i < s.assigns.length)
    (har : t.var < s.assigns.length) :
    ∃ b, sanityViolationAt vr s i = some b
      ∧ (b = true ↔ (s.noneOrQueued i ∧ s.noneOrQueued t.var
          ∧ s.assigns[i]? ≠ s.value t)) := by
  unfold sanityViolationAt
  rw [ht, List.getElem?_eq_getElem hi]
  simp only
  have hri : s.removed[i]? = some s.removed[i] := List.getElem?_eq_getElem hi
  have hrr : s.removed[t.var]? = some s.removed[t.var] := List.getElem?_eq_getElem hr
  have hvi : s.assigns[i]? = some s.assigns[i] := List.getElem?_eq_getElem hai
  obtain ⟨vrep, hvrep⟩ := value_total s t har
  by_cases h1 : s.removed[i] = Removed.none ∨ s.removed[i] = Removed.queued_replacer
  · rw [if_pos h1, hrr]
    simp only
    have h1q : s.noneOrQueued i := by
      unfold Solver.noneOrQueued
      rw [hri]
      rcases h1 with h | h
      · exact Or.inl (by rw [h])
      · exact Or.inr (by rw [h])
    by_cases h2 : s.removed[t.var] = Removed.none
        ∨ s.removed[t.var] = Removed.queued_replacer
    · rw [if_pos h2, hvi, hvrep]
      simp only
      have h2q : s.noneOrQueued t.var := by
        unfold Solver.noneOrQueued
        rw [hrr]
        rcases h2 with h | h
        · exact Or.inl (by rw [h])
        · exact Or.inr (by rw [h])
      refine ⟨_, rfl, ?_⟩
      rw [decide_eq_true_iff]
      constructor
      · intro hne
        exact ⟨h1q, h2q, fun he => hne (Option.some.inj he)⟩
      · rintro ⟨_, _, hne⟩ he
        exact hne (by rw [he])
    · rw [if_neg h2]
      refine ⟨false, rfl, ?_⟩
      constructor
      · intro h; cases h
      · rintro ⟨_, hq, _⟩
        exfalso
        apply h2
        unfold Solver.noneOrQueued at hq
        rw [hrr] at hq
        rcases hq with h | h
        · exact Or.inl (Option.some.inj h)
        · exact Or.inr (Option.some.inj h)
  · rw [if_neg h1]
    refine ⟨false, rfl, ?_⟩
    constructor
    · intro h; cases h
    · rintro ⟨hq, _, _⟩
      exfalso
      apply h1
      unfold Solver.noneOrQueued at hq
      rw [hri] at hq
      rcases hq with h | h
      · exact Or.inl (Option.some.inj h)
      · exact Or.inr (Option.some.inj h)

/-- The loop of `checkUnsetSanity` reports no violation exactly when no variable of its
list is one. -/
theorem checkUnsetSanityFrom_true (vr : VarReplacer) (s : Solver) (l : List Nat) :
    checkUnsetSanityFrom vr s l = some true
      ↔ ∀ i ∈ l, sanityViolationAt vr s i = some false := by
  induction l with
  | nil => simp [checkUnsetSanityFrom]
  | cons i rest ih =>
    rw [checkUnsetSanityFrom]
    cases hv : sanityViolationAt vr s i with
    | none =>
      simp only
      constructor
      · intro h; cases h
      · intro h
        have := h i (List.mem_cons_self _ _)
        rw [hv] at this; cases this
    | some b =>
      simp only
      cases b with
      | true =>
        simp only [if_true]
        constructor
        · intro h; cases h
        · intro h
          have := h i (List.mem_cons_self _ _)
          rw [hv] at this; cases this
      | false =>
        rw [if_neg (by simp), ih]
        constructor
        · intro h j hj
          rcases List.mem_cons.1 hj with he | he
          · rw [he]; exact hv
          · exact h j he
        · intro h j hj
          exact h j (List.mem_cons_of_mem _ hj)

/-- The loop of `checkUnsetSanity` returns when every test can be evaluated, and it
reports a violation exactly when some variable of its list is one. -/
theorem checkUnsetSanityFrom_total (vr : VarReplacer) (s : Solver) (l : List Nat)
    (h : ∀ i ∈ l, ∃ b, sanityViolationAt vr s i = some b) :
    ∃ b, checkUnsetSanityFrom vr s l = some b
      ∧ (b = false ↔ ∃ i ∈ l, sanityViolationAt vr s i = some true) := by
  induction l with
  | nil =>
    refine ⟨true, rfl, ?_⟩
    simp
  | cons i rest ih =>
    obtain ⟨b, hb⟩ := h i (List.mem_cons_self _ _)
    obtain ⟨b2, hb2, hiff⟩ := ih (fun j hj => h j (List.mem_cons_of_mem _ hj))
    rw [checkUnsetSanityFrom, hb]
    simp only
    cases b with
    | true =>
      refine ⟨false, by simp, ?_⟩
      constructor
      · intro _
        exact ⟨i, List.mem_cons_self _ _, hb⟩
      · intro _; rfl
    | false =>
      refine ⟨b2, by simpa using hb2, ?_⟩
      rw [hiff]
      constructor
      · rintro ⟨j, hj, hjv⟩
        exact ⟨j, List.mem_cons_of_mem _ hj, hjv⟩
      · rintro ⟨j, hj, hjv⟩
        rcases List.mem_cons.1 hj with he | he
        · rw [he, hb] at hjv; cases hjv
        · exact ⟨j, he, hjv⟩

theorem keepsAssigned_refl (a : Solver) : a.keepsAssigned a := fun _ _ h _ => h

theorem keepsAssigned_trans {a b c : Solver} (h1 : a.keepsAssigned b)
    (h2 : b.keepsAssigned c) : a.keepsAssigned c :=
  fun v x hv hx => h2 v x (h1 v x hv hx) hx

theorem keepsAssigned_of_eq {a b : Solver} (h : b.assigns = a.assigns) :
    a.keepsAssigned b := by
  intro v x hv _
  rw [h]; exact hv

theorem update_vardata_assigns (s s1 : Solver) (orig rep : Nat)
    (h : update_vardata_and_decisionvar s orig rep = some s1) :
    s1.assigns = s.assigns := by
  unfold update_vardata_and_decisionvar at h
  cases hrem : s.removed[rep]? with
  | none => rw [hrem] at h; cases h
  | some x =>
    rw [hrem] at h
    simp only at h
    have key : ∀ (s0 : Solver), s0.assigns = s.assigns →
        (if orig = rep ∨ s0.removed[rep]? = some Removed.decomposed
            ∨ s0.removed[rep]? = some Removed.elimed then some s0
          else
            match s0.removed[orig]? with
            | none => none
            | some ro =>
              if ro = Removed.replaced then some s0
              else
                if ({ s0 with removed := s0.removed.set orig Removed.replaced } : Solver).noneOrQueued rep then
                  some ((({ s0 with removed := s0.removed.set orig Removed.replaced } : Solver).unsetDecisionVar orig).setDecisionVar rep)
                else none) = some s1 → s1.assigns = s.assigns := by
      intro s0 h0 hk
      split at hk
      · rw [← Option.some.inj hk]; exact h0
      · split at hk
        · cases hk
        · split at hk
          · rw [← Option.some.inj hk]; exact h0
          · split at hk
            · rw [← Option.some.inj hk]
              exact h0
            · cases hk
    by_cases hc : orig = rep ∧ some x = some Removed.queued_replacer
    · rw [if_pos hc] at h
      refine key _ ?_ h
      rfl
    · rw [if_neg hc] at h
      exact key _ rfl h

theorem statusFlipFrom_assigns (l : List Lit) : ∀ (var : Nat) (s s1 : Solver),
    statusFlipFrom l var s = some s1 → s1.assigns = s.assigns := by
  induction l with
  | nil =>
    intro var s s1 h
    simp only [statusFlipFrom, Option.some.injEq] at h
    rw [← h]
  | cons t rest ih =>
    intro var s s1 h
    rw [statusFlipFrom] at h
    split at h
    · cases h
    · rename_i s2 h2
      rw [ih _ _ _ h, update_vardata_assigns _ _ _ _ h2]

theorem pushWatch_assigns (s s1 : Solver) (l : Lit) (w : Watched)
    (h : s.pushWatch l w = some s1) : s1.assigns = s.assigns :=
  (pushWatch_frame s s1 l w h).2.1

theorem scanEntry_assigns (vr : VarReplacer) (s : Solver) (kept : List Watched)
    (o1 : Lit) (w : Watched) (r : List Watched × VarReplacer × Solver)
    (h : scanEntry vr s kept o1 w = some r) : r.2.2.assigns = s.assigns := by
  cases w with
  | clause off =>
    simp only [scanEntry, Option.some.injEq] at h
    rw [← h]
  | binary o2 red =>
    simp only [scanEntry] at h
    split at h
    · split at h
      · unfold updateBin at h
        simp only at h
        split at h
        · rw [← Option.some.inj h]
        · split at h
          · split at h
            · cases h
            · rename_i s1 hp
              rw [← Option.some.inj h]
              exact pushWatch_assigns _ _ _ _ hp
          · rw [← Option.some.inj h]
      · cases h
    · cases h
  | tri o2 o3 red =>
    simp only [scanEntry] at h
    split at h
    · split at h
      · unfold updateTri at h
        split at h
        · split at h
          · cases h
          · split at h
            · rw [← Option.some.inj h]
            · split at h
              · rw [← Option.some.inj h]
              · split at h
                · rw [← Option.some.inj h]
                · split at h
                  · rw [← Option.some.inj h]
                  · simp only at h
                    split at h
                    · split at h
                      · cases h
                      · rename_i s1 hp
                        rw [← Option.some.inj h]
                        exact pushWatch_assigns _ _ _ _ hp
                    · rw [← Option.some.inj h]
        · cases h
      · cases h
    · cases h

theorem scanList_assigns (o1 : Lit) (ws : List Watched) :
    ∀ (kept : List Watched) (vr : VarReplacer) (s : Solver)
      (r : List Watched × VarReplacer × Solver),
      scanList o1 ws kept vr s = some r → r.2.2.assigns = s.assigns := by
  induction ws with
  | nil =>
    intro kept vr s r h
    simp only [scanList, Option.some.injEq] at h
    rw [← h]
  | cons w rest ih =>
    intro kept vr s r h
    rw [scanList] at h
    split at h
    · cases h
    · rename_i r1 h1
      rw [ih _ _ _ r h, scanEntry_assigns vr s kept o1 w r1 h1]

theorem scanWatches_assigns (n : Nat) : ∀ (wsLit : Nat) (vr : VarReplacer) (s : Solver)
    (r : VarReplacer × Solver), scanWatches n wsLit vr s = some r →
    r.2.assigns = s.assigns := by
  induction n with
  | zero =>
    intro wsLit vr s r h
    simp only [scanWatches, Option.some.injEq] at h
    rw [← h]
  | succ n ih =>
    intro wsLit vr s r h
    rw [scanWatches] at h
    split at h
    · cases h
    · split at h
      · cases h
      · rename_i r1 h1
        rw [ih _ _ _ r h]
        exact scanList_assigns _ _ _ _ _ r1 h1

theorem attachDelayed_assigns (bs : List BinaryClause) : ∀ (s s1 : Solver),
    attachDelayed bs s = some s1 → s1.assigns = s.assigns := by
  induction bs with
  | nil =>
    intro s s1 h
    simp only [attachDelayed, Option.some.injEq] at h
    rw [← h]
  | cons b rest ih =>
    intro s s1 h
    rw [attachDelayed] at h
    split at h
    · cases h
    · rename_i s2 h2
      rw [ih _ _ h, (attachBinClause_frame _ _ _ _ _ h2).2.1]

theorem replaceImplicit_assigns (vr : VarReplacer) (s : Solver)
    (r : Bool × VarReplacer × Solver) (h : replaceImplicit vr s = some r) :
    r.2.2.assigns = s.assigns := by
  unfold replaceImplicit at h
  split at h
  · cases h
  · rename_i r1 h1
    split at h
    · cases h
    · rename_i s1 h2
      unfold replaceImplicitScan at h1
      rw [← Option.some.inj h]
      simp only
      rw [attachDelayed_assigns _ _ _ h2, scanWatches_assigns _ _ _ _ r1 h1]

/-- Enqueuing an unassigned literal keeps every assigned variable. -/
theorem enqueue_keepsAssigned (s : Solver) (l : Lit)
    (hl : s.value l = some LBool.l_Undef) : s.keepsAssigned (s.enqueue l) := by
  intro v x hv hx
  have hne : l.var ≠ v := by
    intro he
    unfold Solver.value at hl
    rw [he, hv] at hl
    simp only [Option.map_some', Option.some.injEq] at hl
    apply hx
    cases x <;> cases hs : l.sign <;> rw [hs] at hl <;> simp [LBool.xor] at hl ⊢
  unfold Solver.enqueue
  simp only
  rw [List.getElem?_set_ne hne]
  exact hv

theorem enqueueDelayedLoop_keepsAssigned (q : List Lit) : ∀ (s s1 : Solver),
    enqueueDelayedLoop q s = some s1 → s.keepsAssigned s1 := by
  induction q with
  | nil =>
    intro s s1 h
    simp only [enqueueDelayedLoop, Option.some.injEq] at h
    rw [← h]
    exact keepsAssigned_refl s
  | cons l rest ih =>
    intro s s1 h
    rw [enqueueDelayedLoop] at h
    split at h
    · cases h
    · rename_i v hv
      split at h
      · rename_i hu
        exact keepsAssigned_trans (enqueue_keepsAssigned s l (by rw [hv, hu])) (ih _ _ h)
      · split at h
        · rw [← Option.some.inj h]
          exact keepsAssigned_of_eq rfl
        · exact ih _ _ h

theorem enqueueDelayedEnqueue_keepsAssigned (propagate : Solver → Solver × Bool)
    (hp : PropagateKeepsAssigned propagate) (vr : VarReplacer) (s : Solver)
    (r : Bool × VarReplacer × Solver)
    (h : enqueueDelayedEnqueue propagate vr s = some r) : s.keepsAssigned r.2.2 := by
  unfold enqueueDelayedEnqueue at h
  split at h
  · cases h
  · rename_i s1 h1
    have f1 := enqueueDelayedLoop_keepsAssigned _ _ _ h1
    split at h
    · rw [← Option.some.inj h]
      exact f1
    · rw [← Option.some.inj h]
      refine keepsAssigned_trans f1 ?_
      intro v x hv hx
      exact hp s1 v x hv hx

/-- The literals the simplification loop keeps are unassigned. -/
theorem simplifyLoop_kept_undef (s : Solver) (ls : List Lit) :
    ∀ (kept : List Lit) (p : Option Lit) (r : Bool × List Lit × List Lit),
      (∀ k ∈ kept, s.value k = some LBool.l_Undef) →
      simplifyLoop s ls kept p = some r →
      ∀ k ∈ r.2.1, s.value k = some LBool.l_Undef := by
  induction ls with
  | nil =>
    intro kept p r hk h
    simp only [simplifyLoop, Option.some.injEq] at h
    rw [← h]
    exact hk
  | cons l rest ih =>
    intro kept p r hk h
    rw [simplifyLoop] at h
    split at h
    · split at h
      · cases h
      · rename_i v hv
        split at h
        · rw [← Option.some.inj h]
          exact hk
        · rename_i hA
          split at h
          · rename_i hB
            refine ih _ _ r ?_ h
            intro k hkm
            rcases List.mem_append.1 hkm with h1 | h1
            · exact hk k h1
            · rw [List.mem_singleton.1 h1, hv]
              cases v
              · exact absurd (Or.inl rfl) hA
              · exact absurd rfl hB.1
              · rfl
          · exact ih _ _ r hk h
    · cases h

theorem handleUpdatedClause_keepsAssigned (propagate : Solver → Solver × Bool)
    (hp : PropagateKeepsAssigned propagate) (s : Solver) (offset : Nat) (o1 o2 : Lit)
    (h : Bool × Solver) (hrun : handleUpdatedClause propagate s offset o1 o2 = some h) :
    s.keepsAssigned h.2 := by
  unfold handleUpdatedClause at hrun
  split at hrun
  · rename_i c hc
    split at hrun
    · cases hrun
    · rename_i r hr
      have hund := simplifyLoop_kept_undef s _ [] none r (fun k hk => by cases hk) hr
      simp only at hrun
      split at hrun
      · cases hrun
      · rename_i s2 hd
        have f := (detachModifiedClause_frame _ s2 o1 o2 offset hd).2.1
        have f1 : s2.assigns = s.assigns := f
        split at hrun
        · rw [← Option.some.inj hrun]
          exact keepsAssigned_of_eq f1
        · rename_i hns
          split at hrun
          · rw [← Option.some.inj hrun]
            exact keepsAssigned_of_eq f1
          · rename_i l0 heq
            rw [← Option.some.inj hrun]
            have hl0 : l0 ∈ r.2.1 := by
              have hmem : l0 ∈ r.2.1 ++ List.take r.2.2.length
                  (List.drop r.2.1.length (sortLits c.lits)) := by
                rw [heq]; simp
              have hlen := congrArg List.length heq
              simp only [List.length_append, List.length_cons, List.length_nil] at hlen
              rcases List.mem_append.1 hmem with hm | hm
              · exact hm
              · cases hk : r.2.1 with
                | nil =>
                  exfalso
                  rw [hk] at heq hlen
                  simp only [List.nil_append, List.length_nil, List.drop_zero] at heq hlen
                  by_cases hsat : r.1 = true
                  · exact hns hsat
                  · have hf : r.1 = false := by
                      cases hb : r.1
                      · rfl
                      · exact absurd hb hsat
                    have := simplifyLoop_nil s _ [] none r hr hf
                    rw [this] at hlen
                    simp at hlen
                | cons a t =>
                  rw [hk] at hlen
                  simp only [List.length_cons] at hlen
                  have ht : t = [] := List.eq_nil_of_length_eq_zero (by omega)
                  rw [hk, ht] at heq
                  simp only [List.singleton_append, List.cons.injEq] at heq
                  rw [← heq.1]
                  simp
            have hv0 : s2.value l0 = some LBool.l_Undef := by
              unfold Solver.value
              rw [f1]
              exact hund l0 hl0
            refine keepsAssigned_trans (keepsAssigned_of_eq f1) ?_
            refine keepsAssigned_trans (enqueue_keepsAssigned s2 l0 hv0) ?_
            intro v x hv hx
            exact hp _ v x hv hx
          · split at hrun
            · cases hrun
            · rename_i s3 h3
              rw [← Option.some.inj hrun]
              exact keepsAssigned_of_eq
                ((attachBinClause_frame _ _ _ _ _ h3).2.1.trans f1)
          · split at hrun
            · cases hrun
            · rename_i s3 h3
              rw [← Option.some.inj hrun]
              exact keepsAssigned_of_eq
                ((attachTriClause_frame _ _ _ _ _ _ h3).2.1.trans f1)
          · split at hrun
            · cases hrun
            · rename_i s3 h3
              rw [← Option.some.inj hrun]
              exact keepsAssigned_of_eq ((attachClause_frame _ _ _ h3).2.1.trans f1)
  · cases hrun

theorem replaceSetLoop_keepsAssigned (propagate : Solver → Solver × Bool)
    (hp : PropagateKeepsAssigned propagate) (vr : VarReplacer) (cs : List Nat)
    (rest : List Nat) :
    ∀ (kept : List Nat) (s : Solver) (r : Bool × List Nat × Solver),
      replaceSetLoop propagate vr cs rest kept s = some r → s.keepsAssigned r.2.2 := by
  induction rest with
  | nil =>
    intro kept s r h
    simp only [replaceSetLoop, Option.some.injEq] at h
    rw [← h]
    exact keepsAssigned_refl s
  | cons offset rest ih =>
    intro kept s r hr
    obtain ⟨c, o1, o2, l3, l4, t, hal, _, hcase⟩ :=
      replaceSetLoop_cons_inv propagate vr cs s offset rest kept r hr
    rcases hcase with ⟨lits1, _, hloop⟩ | ⟨lits1, h, _, hrun, hloop⟩
    · exact ih _ _ r hloop
    · have f1 := handleUpdatedClause_keepsAssigned propagate hp _ offset o1 o2 h hrun
      have f2 : s.keepsAssigned h.2 := f1
      have f3 : s.keepsAssigned (h.2.clauseFree offset) := f1
      split at hloop
      · split at hloop
        · rw [← Option.some.inj hloop]
          exact f3
        · exact keepsAssigned_trans f3 (ih _ _ r hloop)
      · exact keepsAssigned_trans f2 (ih _ _ r hloop)

/-- A variable of status none or queued whose assignment differs from the one of the
literal it resolves to, itself of status none or queued, does not pass the test of
`checkUnsetSanity`. -/
theorem sanityViolationAt_mismatch (vr : VarReplacer) (s : Solver) (v : Nat) (t : Lit)
    (ht : vr.table[v]? = some t) (h1 : s.noneOrQueued v) (h2 : s.noneOrQueued t.var)
    (hne : s.assigns[v]? ≠ s.value t) : sanityViolationAt vr s v ≠ some false := by
  unfold sanityViolationAt
  rw [ht]
  unfold Solver.noneOrQueued at h1 h2
  cases hri : s.removed[v]? with
  | none => simp
  | some ri =>
    rw [hri] at h1
    simp only
    have h1b : ri = Removed.none ∨ ri = Removed.queued_replacer := by
      rcases h1 with h | h
      · exact Or.inl (Option.some.inj h)
      · exact Or.inr (Option.some.inj h)
    rw [if_pos h1b]
    cases hrr : s.removed[t.var]? with
    | none => simp
    | some rr =>
      rw [hrr] at h2
      simp only
      have h2b : rr = Removed.none ∨ rr = Removed.queued_replacer := by
        rcases h2 with h | h
        · exact Or.inl (Option.some.inj h)
        · exact Or.inr (Option.some.inj h)
      rw [if_pos h2b]
      cases hvi : s.assigns[v]? with
      | none => simp
      | some vi =>
        cases hvr : s.value t with
        | none => simp
        | some vrep =>
          simp only
          rw [hvi, hvr] at hne
          intro he
          have := Option.some.inj he
          rw [decide_eq_false_iff_not] at this
          exact this (fun h => hne (by rw [h]))

/-- The entry check of `performReplace`: with such a variable the run aborts. -/
theorem performReplace_mismatch (clean : Solver → Solver)
    (propagate : Solver → Solver × Bool) (vr : VarReplacer) (s : Solver) (v : Nat)
    (t : Lit) (ht : vr.table[v]? = some t) (hv : v < s.assigns.length)
    (h1 : s.noneOrQueued v) (h2 : s.noneOrQueued t.var)
    (hne : s.assigns[v]? ≠ s.value t) :
    performReplace clean propagate vr s = none := by
  unfold performReplace
  rw [if_neg]
  rintro ⟨_, hchk⟩
  unfold checkUnsetSanity at hchk
  have := (checkUnsetSanityFrom_true vr s _).1 hchk v (List.mem_range.2 hv)
  exact sanityViolationAt_mismatch vr s v t ht h1 h2 hne this

/-- A run of `performReplace` keeps the value of every assigned variable, when the
cleaner and the propagation do. -/
theorem performReplace_keepsAssigned (clean : Solver → Solver)
    (propagate : Solver → Solver × Bool)
    (hclean : ∀ st : Solver, st.keepsAssigned (clean st))
    (hp : PropagateKeepsAssigned propagate) (vr : VarReplacer) (s : Solver)
    (r : Bool × VarReplacer × Solver)
    (hrun : performReplace clean propagate vr s = some r) : s.keepsAssigned r.2.2 := by
  obtain ⟨_, s1, rr, hflip, hsteps, hr, _⟩ :=
    performReplace_cases clean propagate vr s r hrun
  have F0 : s.keepsAssigned s1 := by
    unfold statusFlip at hflip
    exact keepsAssigned_trans (hclean s)
      (keepsAssigned_of_eq (statusFlipFrom_assigns _ _ _ _ hflip))
  obtain ⟨r1, h1, hc1⟩ := performReplaceSteps_cases propagate _ s1 rr hsteps
  have F1 : s.keepsAssigned r1.2.2 :=
    keepsAssigned_trans F0 (keepsAssigned_of_eq (replaceImplicit_assigns _ _ r1 h1))
  rw [hr]
  simp only
  rcases hc1 with ⟨_, hrr⟩ | ⟨_, r2, h2, hc2⟩
  · rw [hrr]; exact F1
  have F2 : s.keepsAssigned r2.2.2 :=
    keepsAssigned_trans F1 (enqueueDelayedEnqueue_keepsAssigned propagate hp _ _ r2 h2)
  rcases hc2 with ⟨_, hrr⟩ | ⟨_, r3, h3, hc3⟩
  · rw [hrr]; exact F2
  have F3 : s.keepsAssigned r3.2.2 :=
    keepsAssigned_trans F2 (replaceSetLoop_keepsAssigned propagate hp _ _ _ _ _ r3 h3)
  rcases hc3 with ⟨_, hrr⟩ | ⟨_, r4, h4, hc4⟩
  · rw [hrr]; exact F3
  have F4 : s.keepsAssigned r4.2.2 := by
    refine keepsAssigned_trans ?_
      (replaceSetLoop_keepsAssigned propagate hp _ _ _ _ _ r4 h4)
    exact F3
  rcases hc4 with ⟨_, hrr⟩ | ⟨_, a, _, hrr⟩
  · rw [hrr]; exact F4
  · rw [hrr]; exact F4

/-- C21, as the code has it: on three fresh variables `replace(+1, +2, true)` returns
`true` and leaves variable 1 resolving to `+2`; once variable 1 is forced true from
outside, with variable 2 still unassigned, `performReplace` does not run to completion:
`checkUnsetSanity` reports a violation at its entry and the run aborts. -/
theorem forced_variable_aborts :
    replace propagateDrain (freshReplacer 3) (freshSolver 3) ⟨1, false⟩ ⟨2, false⟩ true false
      = some (true, scenarioReplacer, scenarioSolver)
    ∧ scenarioReplacer.getLitReplacedWith ⟨1, false⟩ = some ⟨2, false⟩
    ∧ forcedSolver.assigns = [LBool.l_Undef, LBool.l_True, LBool.l_Undef]
    ∧ forcedSolver.ok = true
    ∧ checkUnsetSanity scenarioReplacer forcedSolver = some false
    ∧ performReplace id propagateDrain scenarioReplacer forcedSolver = none := by
  refine ⟨by decide, by decide, by decide, by decide, by decide, by decide⟩

/-- C21, amended (forced variable). Let the cleaner and the propagation keep the value
of every assigned variable. Then (a) `performReplace` aborts at its entry check
whenever some variable of status none or queued has an assignment different from the
one of the literal it resolves to, itself of status none or queued; (b) a run that
returns leaves every assigned variable with its value and returns the flag `ok`;
(c) in the scenario, after `replace(+1, +2, true)` on three fresh variables, the run
aborts when variable 1 was forced true with variable 2 unassigned, and when both are
true every run that returns leaves variables 1 and 2 true. -/
theorem applyAll_forced_variable (clean : Solver → Solver)
    (propagate : Solver → Solver × Bool)
    (hclean : ∀ st : Solver, st.keepsAssigned (clean st))
    (hp : PropagateKeepsAssigned propagate) :
    (∀ (vr : VarReplacer) (s : Solver) (v : Nat) (t : Lit),
        vr.getLitReplacedWith ⟨v, false⟩ = some t → v < s.assigns.length →
        s.noneOrQueued v → s.noneOrQueued t.var → s.assigns[v]? ≠ s.value t →
        performReplace clean propagate vr s = none)
    ∧ (∀ (vr : VarReplacer) (s : Solver) (r : Bool × VarReplacer × Solver),
        performReplace clean propagate vr s = some r →
        s.keepsAssigned r.2.2 ∧ r.1 = r.2.2.ok)
    ∧ (replace propagate (freshReplacer 3) (freshSolver 3) ⟨1, false⟩ ⟨2, false⟩ true false
          = some (true, scenarioReplacer, scenarioSolver)
        ∧ performReplace clean propagate scenarioReplacer forcedSolver = none
        ∧ ∀ r, performReplace clean propagate scenarioReplacer forcedBothSolver = some r →
            r.2.2.assigns[1]? = some LBool.l_True
            ∧ r.2.2.assigns[2]? = some LBool.l_True) := by
  have hA : ∀ (vr : VarReplacer) (s : Solver) (v : Nat) (t : Lit),
      vr.getLitReplacedWith ⟨v, false⟩ = some t → v < s.assigns.length →
      s.noneOrQueued v → s.noneOrQueued t.var → s.assigns[v]? ≠ s.value t →
      performReplace clean propagate vr s = none := by
    intro vr s v t ht hv h1 h2 hne
    have ht2 : vr.table[v]? = some t := by
      unfold VarReplacer.getLitReplacedWith at ht
      cases hx : vr.table[v]? with
      | none => rw [hx] at ht; cases ht
      | some x =>
        rw [hx] at ht
        simp only [Option.map_some', Option.some.injEq, Lit.xor_false] at ht
        rw [ht]
    exact performReplace_mismatch clean propagate vr s v t ht2 hv h1 h2 hne
  have hB : ∀ (vr : VarReplacer) (s : Solver) (r : Bool × VarReplacer × Solver),
      performReplace clean propagate vr s = some r →
      s.keepsAssigned r.2.2 ∧ r.1 = r.2.2.ok := by
    intro vr s r hrun
    refine ⟨performReplace_keepsAssigned clean propagate hclean hp vr s r hrun, ?_⟩
    obtain ⟨_, _, _, _, _, hr, _⟩ := performReplace_cases clean propagate vr s r hrun
    rw [hr]
  refine ⟨hA, hB, rfl, ?_, ?_⟩
  · exact hA scenarioReplacer forcedSolver 1 ⟨2, false⟩ (by decide) (by decide)
      (by decide) (by decide) (by decide)
  · intro r hrun
    have hk := (hB scenarioReplacer forcedBothSolver r hrun).1
    exact ⟨hk 1 LBool.l_True (by decide) (by decide),
      hk 2 LBool.l_True (by decide) (by decide)⟩

/-- Witness of C21, amended: with the identity as cleaner and a propagation that only
drains the queue, the run on `forcedSolver` aborts and the run on `forcedBothSolver`
returns success with variables 1 and 2 true. -/
theorem applyAll_forced_variable_witness :
    ((∀ st : Solver, st.keepsAssigned (id st)) ∧ PropagateKeepsAssigned propagateDrain)
    ∧ performReplace id propagateDrain scenarioReplacer forcedSolver = none
    ∧ (performReplace id propagateDrain scenarioReplacer forcedBothSolver).map
        (fun r => (r.1, r.2.2.ok, r.2.2.assigns))
        = some (true, true, [LBool.l_Undef, LBool.l_True, LBool.l_True])
    ∧ ∀ r, performReplace id propagateDrain scenarioReplacer forcedBothSolver = some r →
        r.2.2.assigns[1]? = some LBool.l_True ∧ r.2.2.assigns[2]? = some LBool.l_True := by
  have h1 : ∀ st : Solver, st.keepsAssigned (id st) := fun st => keepsAssigned_refl st
  have h2 : PropagateKeepsAssigned propagateDrain := fun st v x hv _ => hv
  have T := applyAll_forced_variable id propagateDrain h1 h2
  exact ⟨⟨h1, h2⟩, T.2.2.2.1, by decide, T.2.2.2.2⟩

/-- C22, as the code has it: after the run of `performReplace` on `unitSolver` (the
binary `~1 ∨ ~2` becomes the unit `~2`), variable 1 has status replaced, neither it nor
variable 2, which it resolves to, is eliminated or decomposed, variable 1 is unassigned
and `+2` is false; the checker reports no violation. -/
theorem checker_skips_replaced :
    pairsReplacer.getLitReplacedWith ⟨1, false⟩ = some ⟨2, false⟩
    ∧ (performReplace id propagateDrain pairsReplacer unitSolver).map
        (fun r => (r.1, r.2.2.removed[1]?, r.2.2.removed[2]?, r.2.2.assigns[1]?,
          r.2.2.value ⟨2, false⟩))
        = some (true, some Removed.replaced, some Removed.none, some LBool.l_Undef,
            some LBool.l_False)
    ∧ (performReplace id propagateDrain pairsReplacer unitSolver).map
        (fun r => (r.2.1.table, checkUnsetSanity r.2.1 r.2.2))
        = some (pairsReplacer.table, some true) := by
  refine ⟨by decide, by decide, by decide⟩

/-- C22, amended (consistency checker). When every variable of the solver has a table
entry, a status and an assignment, and so has the variable of its entry, the checker
returns, and it reports a violation if and only if there is a variable `v` such that
`v` and the variable it resolves to both have status none or queued, and the
assignment of `v` differs from the one of the literal `+v` resolves to (two unassigned
ones are equal). -/
theorem checker_reports_iff (vr : VarReplacer) (s : Solver)
    (hall : ∀ i, i < s.assigns.length → ∃ t, vr.table[i]? = some t
      ∧ i < s.removed.length ∧ t.var < s.removed.length ∧ t.var < s.assigns.length) :
    ∃ b, checkUnsetSanity vr s = some b
      ∧ (b = false ↔ ∃ v t, v < s.assigns.length
          ∧ vr.getLitReplacedWith ⟨v, false⟩ = some t
          ∧ s.noneOrQueued v ∧ s.noneOrQueued t.var ∧ s.assigns[v]? ≠ s.value t) := by
  have htot : ∀ i ∈ List.range s.assigns.length, ∃ b, sanityViolationAt vr s i = some b := by
    intro i hi
    obtain ⟨t, ht, h1, h2, h3⟩ := hall i (List.mem_range.1 hi)
    obtain ⟨b, hb, _⟩ := sanityViolationAt_spec vr s i t ht h1 h2 (List.mem_range.1 hi) h3
    exact ⟨b, hb⟩
  obtain ⟨b, hb, hiff⟩ := checkUnsetSanityFrom_total vr s _ htot
  refine ⟨b, hb, ?_⟩
  rw [hiff]
  constructor
  · rintro ⟨i, hi, hv⟩
    have hi2 := List.mem_range.1 hi
    obtain ⟨t, ht, h1, h2, h3⟩ := hall i hi2
    obtain ⟨b2, hb2, hiff2⟩ := sanityViolationAt_spec vr s i t ht h1 h2 hi2 h3
    rw [hv] at hb2
    have hb3 : b2 = true := (Option.some.inj hb2).symm
    obtain ⟨g1, g2, g3⟩ := hiff2.1 hb3
    refine ⟨i, t, hi2, ?_, g1, g2, g3⟩
    unfold VarReplacer.getLitReplacedWith
    rw [ht]
    simp
  · rintro ⟨v, t, hv, ht, g1, g2, g3⟩
    have ht2 : vr.table[v]? = some t := by
      unfold VarReplacer.getLitReplacedWith at ht
      cases hx : vr.table[v]? with
      | none => rw [hx] at ht; cases ht
      | some x =>
        rw [hx] at ht
        simp only [Option.map_some', Option.some.injEq, Lit.xor_false] at ht
        rw [ht]
    obtain ⟨t', ht', h1, h2, h3⟩ := hall v hv
    rw [ht2] at ht'
    have hte : t = t' := Option.some.inj ht'
    rw [← hte] at h2 h3
    obtain ⟨b2, hb2, hiff2⟩ := sanityViolationAt_spec vr s v t ht2 h1 h2 hv h3
    have hb3 : b2 = true := hiff2.2 ⟨g1, g2, g3⟩
    rw [hb3] at hb2
    exact ⟨v, List.mem_range.2 hv, hb2⟩

/-- Witness of C22, amended: on `forcedSolver` variable 1, queued, is true and the
literal `+2` it resolves to, queued too, is unassigned: the checker reports a
violation. -/
theorem checker_reports_iff_witness :
    (∀ i, i < forcedSolver.assigns.length → ∃ t, scenarioReplacer.table[i]? = some t
      ∧ i < forcedSolver.removed.length ∧ t.var < forcedSolver.removed.length
      ∧ t.var < forcedSolver.assigns.length)
    ∧ checkUnsetSanity scenarioReplacer forcedSolver = some false
    ∧ ∃ b, checkUnsetSanity scenarioReplacer forcedSolver = some b
      ∧ (b = false ↔ ∃ v t, v < forcedSolver.assigns.length
          ∧ scenarioReplacer.getLitReplacedWith ⟨v, false⟩ = some t
          ∧ forcedSolver.noneOrQueued v ∧ forcedSolver.noneOrQueued t.var
          ∧ forcedSolver.assigns[v]? ≠ forcedSolver.value t) := by
  have hall : ∀ i, i < forcedSolver.assigns.length → ∃ t,
      scenarioReplacer.table[i]? = some t
      ∧ i < forcedSolver.removed.length ∧ t.var < forcedSolver.removed.length
      ∧ t.var < forcedSolver.assigns.length := by
    intro i hi
    have hi3 : i < 3 := hi
    interval_cases i
    · exact ⟨⟨0, false⟩, by decide, by decide, by decide, by decide⟩
    · exact ⟨⟨2, false⟩, by decide, by decide, by decide, by decide⟩
    · exact ⟨⟨2, false⟩, by decide, by decide, by decide, by decide⟩
  exact ⟨hall, by decide, checker_reports_iff scenarioReplacer forcedSolver hall⟩

/-! ## Deferred equality clauses -/

/-- A call of `replace` that returns, by the case it went through: the two resolved
literals have the same variable, or one of them is assigned (the replacer is left
alone in both cases), or both are unassigned and the call is the structural merge. -/
theorem replace_cases (propagate : Solver → Solver × Bool) (vr vr1 : VarReplacer)
    (s s1 : Solver) (lit1 lit2 : Lit) (x dl ret : Bool)
    (h : replace propagate vr s lit1 lit2 x dl = some (ret, vr1, s1)) :
    ∃ t1 t2, vr.table[lit1.var]? = some t1 ∧ vr.table[lit2.var]? = some t2
      ∧ ((t1.var = t2.var ∧ vr1 = vr)
        ∨ (t1.var ≠ t2.var ∧ ∃ val1 val2, s.value t1 = some val1
            ∧ s.value (t2.xor (!x)) = some val2
            ∧ (((val1 ≠ LBool.l_Undef ∨ val2 ≠ LBool.l_Undef) ∧ vr1 = vr)
              ∨ (val1 = LBool.l_Undef ∧ val2 = LBool.l_Undef
                ∧ replaceStructural vr s t1 (t2.xor (!x)) dl = some (ret, vr1, s1))))) := by
  obtain ⟨hc, t1, t2, h1, h2⟩ := replace_some_pre propagate vr s lit1 lit2 x dl _ h
  rw [replace_unfold propagate vr s lit1 lit2 t1 t2 x dl hc h1 h2] at h
  refine ⟨t1, t2, h1, h2, ?_⟩
  split at h
  · rename_i he
    left
    simp only [Option.some.injEq, Prod.mk.injEq] at h
    exact ⟨he, h.2.1.symm⟩
  · rename_i hne
    right
    refine ⟨hne, ?_⟩
    split at h
    · split at h
      · rename_i val1 val2 hv1 hv2
        refine ⟨val1, val2, hv1, hv2, ?_⟩
        split at h
        · rename_i hb
          left
          simp only [Option.some.injEq, Prod.mk.injEq] at h
          exact ⟨Or.inl hb.1, h.2.1.symm⟩
        · rename_i hb
          split at h
          · rename_i ho
            left
            simp only [Option.some.injEq, Prod.mk.injEq] at h
            refine ⟨?_, h.2.1.symm⟩
            rcases ho with ho | ho
            · exact Or.inl ho.1
            · exact Or.inr ho.1
          · rename_i ho
            right
            have hu1 : val1 = LBool.l_Undef := by
              by_contra hn
              by_cases h2u : val2 = LBool.l_Undef
              · exact ho (Or.inl ⟨hn, h2u⟩)
              · exact hb ⟨hn, h2u⟩
            have hu2 : val2 = LBool.l_Undef := by
              by_contra hn
              exact ho (Or.inr ⟨hn, hu1⟩)
            exact ⟨hu1, hu2, h⟩
      · cases h
    · cases h

/-- The loop of `addLaterAddBinXor` that runs to its end has added the clauses of
`equalityClauses`, in order, and left `ok` as the last insertion did. -/
theorem addLaterLoop_spec (addClauseInt : Solver → List Lit → Solver)
    (fs : List LaterAddBinXor) : ∀ (s : Solver), s.ok = true →
    ((addLaterLoop addClauseInt fs s).1 = (addLaterLoop addClauseInt fs s).2.ok)
    ∧ ((addLaterLoop addClauseInt fs s).1 = true →
        (addLaterLoop addClauseInt fs s).2 = (equalityClauses fs).foldl addClauseInt s)
    ∧ ((addLaterLoop addClauseInt fs s).1 = false →
        ∃ pre post, equalityClauses fs = pre ++ post ∧ pre ≠ []
          ∧ (addLaterLoop addClauseInt fs s).2 = pre.foldl addClauseInt s) := by
  induction fs with
  | nil =>
    intro s hok
    refine ⟨hok.symm, fun _ => rfl, ?_⟩
    intro h
    simp [addLaterLoop] at h
  | cons f rest ih =>
    intro s hok
    have hcl : equalityClauses (f :: rest)
        = [f.lit1, f.lit2] :: [f.lit1.neg, f.lit2.neg] :: equalityClauses rest := by
      simp [equalityClauses]
    rw [addLaterLoop]
    simp only [Lit.xor_true]
    by_cases h1 : (addClauseInt s [f.lit1, f.lit2]).ok = false
    · rw [if_pos h1]
      refine ⟨h1.symm, fun h => (by cases h), ?_⟩
      intro _
      exact ⟨[[f.lit1, f.lit2]], [f.lit1.neg, f.lit2.neg] :: equalityClauses rest,
        by rw [hcl]; rfl, by simp, rfl⟩
    · rw [if_neg h1]
      by_cases h2 : (addClauseInt (addClauseInt s [f.lit1, f.lit2])
          [f.lit1.neg, f.lit2.neg]).ok = false
      · rw [if_pos h2]
        refine ⟨h2.symm, fun h => (by cases h), ?_⟩
        intro _
        exact ⟨[[f.lit1, f.lit2], [f.lit1.neg, f.lit2.neg]], equalityClauses rest,
          by rw [hcl]; rfl, by simp, rfl⟩
      · rw [if_neg h2]
        have hok2 : (addClauseInt (addClauseInt s [f.lit1, f.lit2])
            [f.lit1.neg, f.lit2.neg]).ok = true := by
          cases hb : (addClauseInt (addClauseInt s [f.lit1, f.lit2])
            [f.lit1.neg, f.lit2.neg]).ok
          · exact absurd hb h2
          · rfl
        obtain ⟨g1, g2, g3⟩ := ih _ hok2
        refine ⟨g1, ?_, ?_⟩
        · intro h
          rw [g2 h, hcl]
          rfl
        · intro h
          obtain ⟨pre, post, hpp, _, hfold⟩ := g3 h
          refine ⟨[f.lit1, f.lit2] :: [f.lit1.neg, f.lit2.neg] :: pre, post, ?_, by simp, ?_⟩
          · rw [hcl, hpp]; rfl
          · rw [hfold]; rfl

/-- The two clauses of a queued fact say that its two literals differ, that is, that
the first literal equals the negation of the second. -/
theorem equality_clauses_sound (α : Nat → Bool) (a b : Lit) :
    (clauseHolds α [a, b] ∧ clauseHolds α [a.neg, b.neg]) ↔ a.eval α = b.neg.eval α := by
  rw [clauseHolds_pair, clauseHolds_pair]
  simp only [Lit.eval_neg]
  cases a.eval α <;> cases b.eval α <;> simp

theorem equalityClauses_length (fs : List LaterAddBinXor) :
    (equalityClauses fs).length = 2 * fs.length
    ∧ ∀ c ∈ equalityClauses fs, c.length = 2 := by
  induction fs with
  | nil => simp [equalityClauses]
  | cons f rest ih =>
    have hcl : equalityClauses (f :: rest)
        = [f.lit1, f.lit2] :: [f.lit1.neg, f.lit2.neg] :: equalityClauses rest := by
      simp [equalityClauses]
    rw [hcl]
    refine ⟨?_, ?_⟩
    · simp only [List.length_cons, ih.1]
      omega
    · intro c hc
      rcases List.mem_cons.1 hc with h | h
      · rw [h]; rfl
      · rcases List.mem_cons.1 h with h | h
        · rw [h]; rfl
        · exact ih.2 c h

/-- C23 (materializeDeferredEqualityClauses). Let a call of `replace` on a well-formed
replacer return, and let `t1` and `t2'` be the two resolved literals it works on (the
entry of the first variable, and the entry of the second composed with the requested
relation). If the call reaches the structural case (different variables, both
literals unassigned) with the defer flag, exactly one fact, `(t1, ~t2')`, is appended
to the queue; otherwise the queue is as before. The two clauses of that fact,
`t1 ∨ ~t2'` and `~t1 ∨ t2'`, hold together exactly when `t1` and `t2'` have the same
value. From a solver with `ok` set, `addLaterAddBinXor` returns the flag `ok`; when it
returns `true` the queue is empty and the solver is the old one with the clauses of
`equalityClauses` (two binary clauses for each fact, in order) inserted; when it
returns `false` the insertions stopped after one that cleared `ok` and the replacer is
as before. -/
theorem materialize_deferred_equalities (propagate : Solver → Solver × Bool)
    (addClauseInt : Solver → List Lit → Solver) (vr vr1 : VarReplacer) (s s1 : Solver)
    (lit1 lit2 : Lit) (x dl ret : Bool) (hwf : WellFormed vr)
    (hrun : replace propagate vr s lit1 lit2 x dl = some (ret, vr1, s1)) :
    ∃ t1 t2, vr.table[lit1.var]? = some t1 ∧ vr.table[lit2.var]? = some t2
      ∧ ((t1.var ≠ t2.var ∧ s.value t1 = some LBool.l_Undef
            ∧ s.value (t2.xor (!x)) = some LBool.l_Undef) ∧ dl = true →
          vr1.laterAddBinXor = vr.laterAddBinXor ++ [⟨t1, (t2.xor (!x)).xor true⟩])
      ∧ (¬ ((t1.var ≠ t2.var ∧ s.value t1 = some LBool.l_Undef
            ∧ s.value (t2.xor (!x)) = some LBool.l_Undef) ∧ dl = true) →
          vr1.laterAddBinXor = vr.laterAddBinXor)
      ∧ (∀ α : Nat → Bool,
          (clauseHolds α [t1, (t2.xor (!x)).xor true]
            ∧ clauseHolds α [t1.xor true, ((t2.xor (!x)).xor true).xor true])
          ↔ t1.eval α = (t2.xor (!x)).eval α)
      ∧ ((equalityClauses vr1.laterAddBinXor).length = 2 * vr1.laterAddBinXor.length
          ∧ ∀ c ∈ equalityClauses vr1.laterAddBinXor, c.length = 2)
      ∧ (∀ s2 : Solver, s2.ok = true →
          ∃ r, addLaterAddBinXor addClauseInt vr1 s2 = some r ∧ r.1 = r.2.2.ok
            ∧ (r.1 = true → r.2.1 = { vr1 with laterAddBinXor := [] }
                ∧ r.2.2 = (equalityClauses vr1.laterAddBinXor).foldl addClauseInt s2)
            ∧ (r.1 = false → r.2.1 = vr1
                ∧ ∃ pre post, equalityClauses vr1.laterAddBinXor = pre ++ post
                  ∧ pre ≠ [] ∧ r.2.2 = pre.foldl addClauseInt s2)) := by
  obtain ⟨t1, t2, h1, h2, hc⟩ :=
    replace_cases propagate vr vr1 s s1 lit1 lit2 x dl ret hrun
  have hq : ∀ (hne : t1.var ≠ t2.var),
      replaceStructural vr s t1 (t2.xor (!x)) dl = some (ret, vr1, s1) →
      vr1.laterAddBinXor = (if dl then vr.laterAddBinXor ++ [⟨t1, (t2.xor (!x)).xor true⟩]
        else vr.laterAddBinXor) := by
    intro hne hst
    obtain ⟨vr2, hrun2, _, _, _, hq2, _⟩ := replaceStructural_spec vr s t1 (t2.xor (!x)) dl
      hwf (hwf.1 _ _ h1) (hwf.1 _ t2 h2) hne
    rw [hrun2] at hst
    simp only [Option.some.injEq, Prod.mk.injEq] at hst
    rw [← hst.2.1]
    exact hq2
  refine ⟨t1, t2, h1, h2, ?_, ?_, ?_, equalityClauses_length _, ?_⟩
  · rintro ⟨⟨hne, hv1, hv2⟩, hdl⟩
    rcases hc with ⟨he, _⟩ | ⟨_, val1, val2, g1, g2, hc2⟩
    · exact absurd he hne
    · rw [hv1] at g1
      rw [hv2] at g2
      rcases hc2 with ⟨hset, _⟩ | ⟨_, _, hst⟩
      · rcases hset with h | h
        · exact absurd (Option.some.inj g1).symm h
        · exact absurd (Option.some.inj g2).symm h
      · rw [hq hne hst, hdl]
        rfl
  · intro hn
    rcases hc with ⟨_, he⟩ | ⟨hne, val1, val2, g1, g2, hc2⟩
    · rw [he]
    · rcases hc2 with ⟨_, he⟩ | ⟨hu1, hu2, hst⟩
      · rw [he]
      · rw [hq hne hst]
        cases hdl : dl
        · rfl
        · exfalso
          apply hn
          rw [hu1] at g1
          rw [hu2] at g2
          exact ⟨⟨hne, g1, g2⟩, hdl⟩
  · intro α
    rw [Lit.xor_true, Lit.xor_true, Lit.xor_true, equality_clauses_sound, Lit.neg_neg]
  · intro s2 hok
    obtain ⟨g1, g2, g3⟩ := addLaterLoop_spec addClauseInt vr1.laterAddBinXor s2 hok
    unfold addLaterAddBinXor
    rw [if_pos hok]
    by_cases hb : (addLaterLoop addClauseInt vr1.laterAddBinXor s2).1 = true
    · rw [if_pos hb]
      refine ⟨_, rfl, ?_, ?_, ?_⟩
      · simp only
        rw [← g1, hb]
      · intro _
        exact ⟨rfl, g2 hb⟩
      · intro h; cases h
    · rw [if_neg hb]
      have hf : (addLaterLoop addClauseInt vr1.laterAddBinXor s2).1 = false := by
        cases hx : (addLaterLoop addClauseInt vr1.laterAddBinXor s2).1
        · rfl
        · exact absurd hx hb
      refine ⟨_, rfl, ?_, ?_, ?_⟩
      · simp only
        rw [← g1, hf]
      · intro h; cases h
      · intro _
        exact ⟨rfl, g3 hf⟩

/-- Witness of C23: `replace(+1, +2, true)` with the defer flag on three fresh
variables queues the one fact `(+1, ~2)`; a second call queues nothing more; the
materialization inserts the two clauses `1 ∨ ~2` and `~1 ∨ 2` and empties the queue. -/
theorem materialize_deferred_equalities_witness :
    (WellFormed (freshReplacer 3)
      ∧ replace propagateDrain (freshReplacer 3) (freshSolver 3) ⟨1, false⟩ ⟨2, false⟩
          true true
        = some (true, deferredReplacer,
            scenarioSolver))
    ∧ (replace propagateDrain
          deferredReplacer
          scenarioSolver ⟨1, false⟩ ⟨2, false⟩ true true).map
        (fun r => (r.1, r.2.1.laterAddBinXor))
        = some (true, [⟨⟨1, false⟩, ⟨2, true⟩⟩])
    ∧ (addLaterAddBinXor addClauseRecord
          deferredReplacer
          scenarioSolver).map
        (fun r => (r.1, r.2.1.laterAddBinXor, r.2.2.clAllocator))
        = some (true, [], [some ⟨[⟨1, false⟩, ⟨2, true⟩], false⟩,
            some ⟨[⟨1, true⟩, ⟨2, false⟩], false⟩])
    ∧ ∃ t1 t2, (freshReplacer 3).table[1]? = some t1 ∧ (freshReplacer 3).table[2]? = some t2
      ∧ deferredReplacer.laterAddBinXor
        = (freshReplacer 3).laterAddBinXor ++ [⟨t1, (t2.xor (!true)).xor true⟩] := by
  have hwf : WellFormed (freshReplacer 3) := reachable_wellFormed _ (reachable_freshReplacer 3)
  have hrun : replace propagateDrain (freshReplacer 3) (freshSolver 3) ⟨1, false⟩
      ⟨2, false⟩ true true
      = some (true, deferredReplacer,
          scenarioSolver) := by decide
  obtain ⟨t1, t2, h1, h2, hq, _⟩ := materialize_deferred_equalities propagateDrain
    addClauseRecord (freshReplacer 3) _ (freshSolver 3) _ ⟨1, false⟩ ⟨2, false⟩ true true
    true hwf hrun
  refine ⟨⟨hwf, hrun⟩, by decide, by decide, t1, t2, h1, h2, ?_⟩
  apply hq
  have e1 : t1 = ⟨1, false⟩ := by
    have : (freshReplacer 3).table[1]? = some ⟨1, false⟩ := by decide
    rw [h1] at this
    exact Option.some.inj this
  have e2 : t2 = ⟨2, false⟩ := by
    have : (freshReplacer 3).table[2]? = some ⟨2, false⟩ := by decide
    rw [h2] at this
    exact Option.some.inj this
  rw [e1, e2]
  decide

/-! ## The key order of the reverse table and the list of representatives -/

/-- A key has no entry exactly when no pair of the reverse table carries it. -/
theorem rtFind_none_iff (rt : RevTable) (key : Nat) :
    rtFind rt key = none ↔ ∀ e ∈ rt, e.1 ≠ key := by
  induction rt with
  | nil => simp [rtFind]
  | cons e rest ih =>
    obtain ⟨k, xs⟩ := e
    rw [rtFind_cons]
    by_cases hk : k = key
    · rw [if_pos hk]
      constructor
      · intro h; cases h
      · intro h
        exact absurd hk (h (k, xs) (List.mem_cons_self _ _))
    · rw [if_neg hk, ih]
      constructor
      · intro h e he
        rcases List.mem_cons.1 he with h1 | h1
        · rw [h1]; exact hk
        · exact h e h1
      · intro h e he
        exact h e (List.mem_cons_of_mem _ he)

theorem rtInsert_mem (rt : RevTable) (key : Nat) (xs : List Nat) (e : Nat × List Nat) :
    e ∈ rtInsert rt key xs ↔ (e = (key, xs) ∨ e ∈ rt) := by
  induction rt with
  | nil => simp [rtInsert]
  | cons hd rest ih =>
    obtain ⟨k, ys⟩ := hd
    rw [rtInsert]
    split
    · simp
    · simp only [List.mem_cons, ih]
      tauto

theorem rtInsert_sorted (rt : RevTable) (key : Nat) (xs : List Nat)
    (hs : rt.Pairwise (fun a b => a.1 < b.1)) (hk : ∀ e ∈ rt, e.1 ≠ key) :
    (rtInsert rt key xs).Pairwise (fun a b => a.1 < b.1) := by
  induction rt with
  | nil => simp [rtInsert]
  | cons hd rest ih =>
    obtain ⟨k, ys⟩ := hd
    have hs2 := List.pairwise_cons.1 hs
    rw [rtInsert]
    split
    · rename_i hlt
      refine List.pairwise_cons.2 ⟨?_, hs⟩
      intro e he
      rcases List.mem_cons.1 he with h1 | h1
      · rw [h1]; exact hlt
      · exact Nat.lt_trans hlt (hs2.1 e h1)
    · rename_i hge
      have hne : k ≠ key := hk (k, ys) (List.mem_cons_self _ _)
      refine List.pairwise_cons.2 ⟨?_, ih hs2.2 (fun e he => hk e (List.mem_cons_of_mem _ he))⟩
      intro e he
      rcases (rtInsert_mem rest key xs e).1 he with h1 | h1
      · rw [h1]
        simp only
        omega
      · exact hs2.1 e h1

theorem rtPush_sorted (rt : RevTable) (key v : Nat)
    (hs : rt.Pairwise (fun a b => a.1 < b.1)) :
    (rtPush rt key v).Pairwise (fun a b => a.1 < b.1) := by
  unfold rtPush
  simp only
  have hmap : ∀ (l : RevTable), l.Pairwise (fun a b => a.1 < b.1) →
      (l.map (fun e => if e.1 = key then (e.1, e.2 ++ [v]) else e)).Pairwise
        (fun a b => a.1 < b.1) := by
    intro l hl
    rw [List.pairwise_map]
    refine hl.imp ?_
    intro a b hab
    split <;> split <;> exact hab
  apply hmap
  split
  · rename_i hn
    apply rtInsert_sorted rt key [] hs
    apply (rtFind_none_iff rt key).1
    cases hf : rtFind rt key with
    | none => rfl
    | some x => rw [hf] at hn; simp at hn
  · exact hs

theorem rtErase_sorted (rt : RevTable) (key : Nat)
    (hs : rt.Pairwise (fun a b => a.1 < b.1)) :
    (rtErase rt key).Pairwise (fun a b => a.1 < b.1) := by
  unfold rtErase
  exact hs.filter _

theorem repointAll_sorted (var : Nat) (lit : Lit) (deps : List Nat) :
    ∀ (table : List Lit) (rt : RevTable) (r : List Lit × RevTable),
      rt.Pairwise (fun a b => a.1 < b.1) →
      repointAll var lit deps table rt = some r →
      r.2.Pairwise (fun a b => a.1 < b.1) := by
  induction deps with
  | nil =>
    intro table rt r hs h
    simp only [repointAll, Option.some.injEq] at h
    rw [← h]; exact hs
  | cons d ds ih =>
    intro table rt r hs h
    rw [repointAll] at h
    split at h
    · cases h
    · split at h
      · cases h
      · split at h
        · exact ih _ _ r (rtPush_sorted rt _ _ hs) h
        · exact ih _ _ r hs h

theorem setAllThatPointsHereTo_sorted (vr vr1 : VarReplacer) (var : Nat) (lit : Lit)
    (hs : vr.reverseTable.Pairwise (fun a b => a.1 < b.1))
    (h : setAllThatPointsHereTo vr var lit = some vr1) :
    vr1.reverseTable.Pairwise (fun a b => a.1 < b.1) := by
  unfold setAllThatPointsHereTo at h
  simp only at h
  cases hf : rtFind vr.reverseTable var with
  | none =>
    rw [hf] at h
    simp only at h
    split at h
    · rw [← Option.some.inj h]
      exact rtPush_sorted _ _ _ hs
    · cases h
  | some deps =>
    rw [hf] at h
    simp only at h
    cases hr : repointAll var lit deps vr.table vr.reverseTable with
    | none => rw [hr] at h; simp at h
    | some p =>
      rw [hr] at h
      simp only [Option.map_some'] at h
      have hp := repointAll_sorted var lit deps _ _ p hs hr
      split at h
      · rw [← Option.some.inj h]
        exact rtPush_sorted _ _ _ (rtErase_sorted _ _ hp)
      · cases h

theorem replaceStructural_sorted (vr vr1 : VarReplacer) (s s1 : Solver) (l1 l2 : Lit)
    (dl ret : Bool) (hs : vr.reverseTable.Pairwise (fun a b => a.1 < b.1))
    (h : replaceStructural vr s l1 l2 dl = some (ret, vr1, s1)) :
    vr1.reverseTable.Pairwise (fun a b => a.1 < b.1) := by
  unfold replaceStructural at h
  simp only at h
  generalize hv0 : (if dl = true
      then { vr with laterAddBinXor := vr.laterAddBinXor ++ [⟨l1, l2.xor true⟩] }
      else vr) = vr0 at h
  have h0 : vr0.reverseTable = vr.reverseTable := by
    rw [← hv0]
    split <;> rfl
  split at h
  · simp only [Option.some.injEq, Prod.mk.injEq] at h
    rw [← h.2.1]
    simp only
    rw [h0]
    exact rtPush_sorted _ _ _ hs
  · split at h
    · simp only [Option.some.injEq, Prod.mk.injEq] at h
      rw [← h.2.1]
      simp only
      rw [h0]
      exact rtPush_sorted _ _ _ hs
    · split at h
      · cases h
      · rename_i vr2 h2
        simp only [Option.some.injEq, Prod.mk.injEq] at h
        rw [← h.2.1]
        simp only
        exact setAllThatPointsHereTo_sorted _ vr2 _ _ (by rw [h0]; exact hs) h2

/-- In every reachable replacer the keys of the reverse table are strictly
ascending. -/
theorem reachable_sorted (vr : VarReplacer) (h : Reachable vr) :
    vr.reverseTable.Pairwise (fun a b => a.1 < b.1) := by
  induction h with
  | init => exact List.Pairwise.nil
  | newVar vr _ ih => exact ih
  | replace vr vr1 propagate s s1 lit1 lit2 x dl ret _ hrun ih =>
    rcases replace_inv propagate vr vr1 s s1 lit1 lit2 x dl ret hrun with
      he | ⟨t1, t2, _, _, _, hs⟩
    · rw [he]; exact ih
    · exact replaceStructural_sorted vr vr1 s s1 _ _ dl ret ih hs

theorem mem_getReplacingVars (vr : VarReplacer) (r : Nat) :
    r ∈ getReplacingVars vr ↔ rtFind vr.reverseTable r ≠ none := by
  unfold getReplacingVars
  rw [Ne, rtFind_none_iff, List.mem_map]
  constructor
  · rintro ⟨e, he, rfl⟩ h
    exact h e he rfl
  · intro h
    by_contra hc
    apply h
    intro e he heq
    exact hc ⟨e, he, heq⟩

/-- Claim C24. In every reachable replacer `getReplacingVars` returns a strictly
ascending list (so it has no duplicates) that holds exactly the variables `r` to which
some other variable `v ≠ r` resolves; a variable to which no other variable resolves,
as a former representative whose class was folded under another one, is not in it. -/
theorem listRepresentativeVariables_exact (vr : VarReplacer) (h : Reachable vr) :
    (getReplacingVars vr).Pairwise (fun a b => a < b)
    ∧ (getReplacingVars vr).Nodup
    ∧ (∀ r : Nat, r ∈ getReplacingVars vr ↔
        ∃ v : Nat, v ≠ r ∧ vr.getVarReplacedWith v = some r)
    ∧ (∀ r : Nat, (∀ v : Nat, vr.getVarReplacedWith v = some r → v = r) →
        r ∉ getReplacingVars vr) := by
  have hwf := reachable_wellFormed vr h
  have hsorted : (getReplacingVars vr).Pairwise (fun a b => a < b) := by
    unfold getReplacingVars
    rw [List.pairwise_map]
    exact reachable_sorted vr h
  have hiff : ∀ r : Nat, r ∈ getReplacingVars vr ↔
      ∃ v : Nat, v ≠ r ∧ vr.getVarReplacedWith v = some r := by
    intro r
    rw [mem_getReplacingVars]
    constructor
    · intro hne
      cases hf : rtFind vr.reverseTable r with
      | none => exact absurd hf hne
      | some deps =>
        obtain ⟨hnil, _, hmem⟩ := hwf.2.1 r deps hf
        cases deps with
        | nil => exact absurd rfl hnil
        | cons d ds =>
          obtain ⟨hdr, l, hl, hlr⟩ := (hmem d).1 (List.mem_cons_self _ _)
          refine ⟨d, hdr, ?_⟩
          unfold VarReplacer.getVarReplacedWith
          simp only at hl
          rw [hl, Option.map_some', hlr]
    · rintro ⟨v, hvr, hv⟩ hnone
      unfold VarReplacer.getVarReplacedWith at hv
      cases ht : vr.table[v]? with
      | none => rw [ht] at hv; cases hv
      | some l =>
        rw [ht, Option.map_some', Option.some.injEq] at hv
        exact hvr (hwf.2.2 r hnone v l ht hv)
  refine ⟨hsorted, ?_, hiff, ?_⟩
  · exact hsorted.imp (fun hab => Nat.ne_of_lt hab)
  · intro r hr hmem
    obtain ⟨v, hvr, hv⟩ := (hiff r).1 hmem
    exact hvr (hr v hv)

/-- Six variables after `1 = 2`, `2 = 3`, `4 = ~5`, `1 = 4`: the class of 2 was folded
under 5, so only 5 is listed; after `1 = 2` and `4 = ~5` alone both 2 and 5 are. -/
theorem listRepresentativeVariables_exact_witness :
    Reachable demoReplacer
    ∧ getReplacingVars demoReplacer = [5]
    ∧ getReplacingVars pairsReplacer = [2, 5]
    ∧ ((getReplacingVars demoReplacer).Pairwise (fun a b => a < b)
      ∧ (getReplacingVars demoReplacer).Nodup
      ∧ (∀ r : Nat, r ∈ getReplacingVars demoReplacer ↔
          ∃ v : Nat, v ≠ r ∧ demoReplacer.getVarReplacedWith v = some r)
      ∧ (∀ r : Nat, (∀ v : Nat, demoReplacer.getVarReplacedWith v = some r → v = r) →
          r ∉ getReplacingVars demoReplacer)) :=
  ⟨reachable_demoReplacer, by decide, by decide,
    listRepresentativeVariables_exact demoReplacer reachable_demoReplacer⟩

/-! ## Model extension -/

theorem extendModelLoop_spec {E : Type} (addClause : E → List Lit → E × Bool)
    (table : List Lit) :
    ∀ (i : Nat) (e : E),
      (∀ e1, extendModelLoop addClause table i e = some e1 →
        e1 = (extensionClausesFrom table i).foldl (fun x c => (addClause x c).1) e)
      ∧ ((∀ x c, (addClause x c).2 = true) →
        extendModelLoop addClause table i e
          = some ((extensionClausesFrom table i).foldl (fun x c => (addClause x c).1) e)) := by
  induction table with
  | nil =>
    intro i e
    simp [extendModelLoop, extensionClausesFrom]
  | cons t rest ih =>
    intro i e
    rw [extendModelLoop, extensionClausesFrom, extensionClausesAt]
    by_cases hti : t.var = i
    · rw [if_pos hti, if_pos hti]
      exact ih (i + 1) e
    · rw [if_neg hti, if_neg hti]
      simp only [Lit.xor, Bool.xor_true, Bool.not_true, List.cons_append, List.nil_append,
        List.foldl_cons]
      constructor
      · intro e1 h
        split at h
        · cases h
        · split at h
          · cases h
          · exact (ih (i + 1) _).1 e1 h
      · intro hall
        rw [if_neg (by rw [hall]; decide), if_neg (by rw [hall]; decide)]
        exact (ih (i + 1) _).2 hall

theorem mem_extensionClausesFrom (table : List Lit) :
    ∀ (i : Nat) (c : List Lit), c ∈ extensionClausesFrom table i ↔
      ∃ (k : Nat) (t : Lit), table[k]? = some t ∧ c ∈ extensionClausesAt (i + k) t := by
  induction table with
  | nil =>
    intro i c
    simp [extensionClausesFrom]
  | cons t rest ih =>
    intro i c
    rw [extensionClausesFrom, List.mem_append, ih]
    constructor
    · rintro (h | ⟨k, t1, hk, hc⟩)
      · exact ⟨0, t, List.getElem?_cons_zero, h⟩
      · refine ⟨k + 1, t1, ?_, ?_⟩
        · rw [List.getElem?_cons_succ]; exact hk
        · rw [show i + (k + 1) = i + 1 + k by omega]; exact hc
    · rintro ⟨k, t1, hk, hc⟩
      cases k with
      | zero =>
        left
        simp only [List.getElem?_cons_zero, Option.some.injEq] at hk
        rw [hk]; exact hc
      | succ k =>
        right
        rw [List.getElem?_cons_succ] at hk
        refine ⟨k, t1, hk, ?_⟩
        rw [show i + 1 + k = i + (k + 1) by omega]; exact hc

theorem extensionClausesFrom_length (table : List Lit) :
    ∀ (i : Nat), (extensionClausesFrom table i).length
      = 2 * ((table.enumFrom i).countP (fun p => decide (p.2.var ≠ p.1))) := by
  induction table with
  | nil => intro i; rfl
  | cons t rest ih =>
    intro i
    rw [extensionClausesFrom, List.length_append, ih, List.enumFrom_cons, List.countP_cons,
      extensionClausesAt]
    by_cases hti : t.var = i
    · rw [if_pos hti]
      simp [hti]
    · rw [if_neg hti]
      simp [hti]
      omega

theorem extension_clauses_sound (α : Nat → Bool) (v : Nat) (t : Lit) :
    (clauseHolds α [⟨t.var, true⟩, ⟨v, t.sign⟩] ∧ clauseHolds α [⟨t.var, false⟩, ⟨v, !t.sign⟩])
      ↔ α v = t.eval α := by
  rw [clauseHolds_pair, clauseHolds_pair]
  simp only [Lit.eval]
  cases α t.var <;> cases α v <;> cases t.sign <;> simp

theorem foldl_recordClause (cs : List (List Lit)) :
    ∀ acc : List (List Lit),
      cs.foldl (fun x c => (recordClause x c).1) acc = acc ++ cs := by
  induction cs with
  | nil => intro acc; simp
  | cons c rest ih =>
    intro acc
    rw [List.foldl_cons, ih]
    simp [recordClause]

/-- Claim C29. `extendModel` hands the extender the clauses of `extensionClausesFrom`
in the order of the variables and nothing else: when it returns, the extender is the
fold of `addClause` over them, it returns when every clause is accepted, and a
recording extender ends with exactly this list. The list holds, for each variable `v`
with table entry `t`, no clause when `t` is on `v` itself and else the two clauses
`[Lit(t.var, true), Lit(v, t.sign)]` and `[Lit(t.var, false), Lit(v, !t.sign)]`, which
hold together under an assignment exactly when `v` has the value of the literal `t`. -/
theorem extendModel_clauses {E : Type} (addClause : E → List Lit → E × Bool)
    (vr : VarReplacer) (e : E) :
    (∀ e1, extendModel addClause vr e = some e1 →
        e1 = (extensionClausesFrom vr.table 0).foldl (fun x c => (addClause x c).1) e)
    ∧ ((∀ x c, (addClause x c).2 = true) →
        extendModel addClause vr e
          = some ((extensionClausesFrom vr.table 0).foldl (fun x c => (addClause x c).1) e))
    ∧ extendModel recordClause vr [] = some (extensionClausesFrom vr.table 0)
    ∧ (∀ c : List Lit, c ∈ extensionClausesFrom vr.table 0 ↔
        ∃ (v : Nat) (t : Lit), vr.table[v]? = some t ∧ c ∈ extensionClausesAt v t)
    ∧ (extensionClausesFrom vr.table 0).length
        = 2 * (vr.table.enum.countP (fun p => decide (p.2.var ≠ p.1)))
    ∧ (∀ (v : Nat) (t : Lit), vr.table[v]? = some t →
        (t.var = v → extensionClausesAt v t = [])
        ∧ (t.var ≠ v →
            extensionClausesAt v t
              = [[⟨t.var, true⟩, ⟨v, t.sign⟩], [⟨t.var, false⟩, ⟨v, !t.sign⟩]]
            ∧ ∀ α : Nat → Bool,
                ((∀ c ∈ extensionClausesAt v t, clauseHolds α c) ↔ α v = t.eval α))) := by
  refine ⟨(extendModelLoop_spec addClause vr.table 0 e).1,
    (extendModelLoop_spec addClause vr.table 0 e).2, ?_, ?_,
    extensionClausesFrom_length vr.table 0, ?_⟩
  · have h := (extendModelLoop_spec recordClause vr.table 0 []).2 (fun _ _ => rfl)
    rw [foldl_recordClause, List.nil_append] at h
    exact h
  · intro c
    rw [mem_extensionClausesFrom]
    simp only [Nat.zero_add]
  · intro v t _
    constructor
    · intro h
      rw [extensionClausesAt, if_pos h]
    · intro h
      have hc : extensionClausesAt v t
          = [[⟨t.var, true⟩, ⟨v, t.sign⟩], [⟨t.var, false⟩, ⟨v, !t.sign⟩]] := by
        rw [extensionClausesAt, if_neg h]
      refine ⟨hc, ?_⟩
      intro α
      rw [hc, ← extension_clauses_sound α v t]
      simp only [List.mem_cons, List.not_mem_nil, or_false, forall_eq_or_imp, forall_eq]

/-- Six variables after `1 = 2`, `2 = 3`, `4 = ~5`, `1 = 4`: two clauses for each of
1, 2, 3, 4 and none for 0 and 5; an extender that refuses a clause stops the run. -/
theorem extendModel_clauses_witness :
    extendModel recordClause demoReplacer []
      = some [[⟨5, true⟩, ⟨1, true⟩], [⟨5, false⟩, ⟨1, false⟩],
              [⟨5, true⟩, ⟨2, true⟩], [⟨5, false⟩, ⟨2, false⟩],
              [⟨5, true⟩, ⟨3, true⟩], [⟨5, false⟩, ⟨3, false⟩],
              [⟨5, true⟩, ⟨4, true⟩], [⟨5, false⟩, ⟨4, false⟩]]
    ∧ extendModel recordClauseRefuse demoReplacer [] = none
    ∧ extendModel recordClause demoReplacer [] = some (extensionClausesFrom demoReplacer.table 0)
    ∧ (extensionClausesFrom demoReplacer.table 0).length = 8 :=
  ⟨by decide, by decide,
    (extendModel_clauses recordClause demoReplacer []).2.2.1, by decide⟩

/-! ## Merges keep earlier equivalences -/

/-- The lookup of two variables of one class after a link: both entries change
together, so they stay on one variable and keep their relative sign. -/
theorem linked_same_class (vr vr1 : VarReplacer) (x y : Nat) (sg : Bool)
    (hwf : WellFormed vr) (hl : Linked vr vr1 x y sg)
    (hx : vr.table[x]? = some ⟨x, false⟩) (u v : Nat) (tu tv : Lit)
    (hu : vr.table[u]? = some tu) (hv : vr.table[v]? = some tv) (hsame : tu.var = tv.var) :
    ∃ ru rv, vr1.table[u]? = some ru ∧ vr1.table[v]? = some rv ∧ ru.var = rv.var
      ∧ Bool.xor ru.sign rv.sign = Bool.xor tu.sign tv.sign := by
  have h1 := linked_lookup vr vr1 x y sg hwf hl hx u tu hu
  have h2 := linked_lookup vr vr1 x y sg hwf hl hx v tv hv
  refine ⟨_, _, h1, h2, ?_, ?_⟩
  · by_cases hc : tu.var = x
    · rw [if_pos hc, if_pos (hsame ▸ hc)]
    · rw [if_neg hc, if_neg (hsame ▸ hc)]
      exact hsame
  · by_cases hc : tu.var = x
    · rw [if_pos hc, if_pos (hsame ▸ hc)]
      simp only
      cases sg <;> cases tu.sign <;> cases tv.sign <;> rfl
    · rw [if_neg hc, if_neg (hsame ▸ hc)]

/-- Claim C26. A call of `replace` that returns, with any bool, never undoes an
equivalence: if before the call the positive literals of `u` and `v` resolve to
literals of one variable, they do so after the call, and the relative polarity, the
exclusive or of the two signs, is the same. -/
theorem merge_keeps_equivalences (propagate : Solver → Solver × Bool)
    (vr vr1 : VarReplacer) (s s1 : Solver) (lit1 lit2 : Lit) (x dl ret : Bool)
    (hwf : WellFormed vr)
    (hrun : replace propagate vr s lit1 lit2 x dl = some (ret, vr1, s1))
    (u v : Nat) (tu tv : Lit)
    (hu : vr.getLitReplacedWith ⟨u, false⟩ = some tu)
    (hv : vr.getLitReplacedWith ⟨v, false⟩ = some tv)
    (hsame : tu.var = tv.var) :
    ∃ ru rv, vr1.getLitReplacedWith ⟨u, false⟩ = some ru
      ∧ vr1.getLitReplacedWith ⟨v, false⟩ = some rv
      ∧ ru.var = rv.var
      ∧ Bool.xor ru.sign rv.sign = Bool.xor tu.sign tv.sign := by
  have key : ∀ (w : VarReplacer) (a : Nat) (t : Lit),
      w.getLitReplacedWith ⟨a, false⟩ = some t ↔ w.table[a]? = some t := by
    intro w a t
    unfold VarReplacer.getLitReplacedWith
    simp only
    cases w.table[a]? with
    | none => simp
    | some t0 => simp [Lit.xor_false]
  rw [key] at hu hv
  have goal : ∃ ru rv, vr1.table[u]? = some ru ∧ vr1.table[v]? = some rv ∧ ru.var = rv.var
      ∧ Bool.xor ru.sign rv.sign = Bool.xor tu.sign tv.sign := by
    obtain ⟨t1, t2, h1, h2, hc⟩ := replace_cases propagate vr vr1 s s1 lit1 lit2 x dl ret hrun
    have hsameCase : vr1 = vr → ∃ ru rv, vr1.table[u]? = some ru ∧ vr1.table[v]? = some rv
        ∧ ru.var = rv.var ∧ Bool.xor ru.sign rv.sign = Bool.xor tu.sign tv.sign := by
      intro he
      rw [he]
      exact ⟨tu, tv, hu, hv, hsame, rfl⟩
    rcases hc with ⟨_, he⟩ | ⟨hne, val1, val2, _, _, hc2⟩
    · exact hsameCase he
    · rcases hc2 with ⟨_, he⟩ | ⟨_, _, hst⟩
      · exact hsameCase he
      · have hx : vr.table[t1.var]? = some ⟨t1.var, false⟩ := hwf.1 _ _ h1
        have hy : vr.table[(t2.xor (!x)).var]? = some ⟨(t2.xor (!x)).var, false⟩ :=
          hwf.1 lit2.var t2 h2
        obtain ⟨vr2, hrun2, hlk, _⟩ :=
          replaceStructural_spec vr s t1 (t2.xor (!x)) dl hwf hx hy hne
        rw [hrun2] at hst
        simp only [Option.some.injEq, Prod.mk.injEq] at hst
        obtain ⟨_, rfl, _⟩ := hst
        split at hlk
        · exact linked_same_class vr vr2 _ _ _ hwf hlk hy u v tu tv hu hv hsame
        · exact linked_same_class vr vr2 _ _ _ hwf hlk hx u v tu tv hu hv hsame
  obtain ⟨ru, rv, g1, g2, g3, g4⟩ := goal
  exact ⟨ru, rv, (key _ _ _).2 g1, (key _ _ _).2 g2, g3, g4⟩

/-- Six variables after `1 = 2` and `4 = ~5`: the merge `1 = 4` folds the class of 2
under 5, and 1 and 2 still resolve to one variable with the same relative polarity. -/
theorem merge_keeps_equivalences_witness :
    WellFormed pairsReplacer
    ∧ replace propagateNone pairsReplacer pairsSolver ⟨1, false⟩ ⟨4, false⟩ true false
        = some (true, pairsMergedReplacer, pairsSolver)
    ∧ pairsMergedReplacer.getLitReplacedWith ⟨1, false⟩ = some ⟨5, true⟩
    ∧ (∃ ru rv, pairsMergedReplacer.getLitReplacedWith ⟨1, false⟩ = some ru
        ∧ pairsMergedReplacer.getLitReplacedWith ⟨2, false⟩ = some rv
        ∧ ru.var = rv.var
        ∧ Bool.xor ru.sign rv.sign
            = Bool.xor (⟨2, false⟩ : Lit).sign (⟨2, false⟩ : Lit).sign) :=
  ⟨reachable_wellFormed _ reachable_pairsReplacer, by decide, by decide,
    merge_keeps_equivalences propagateNone pairsReplacer pairsMergedReplacer pairsSolver
      pairsSolver ⟨1, false⟩ ⟨4, false⟩ true false true
      (reachable_wellFormed _ reachable_pairsReplacer) (by decide)
      1 2 ⟨2, false⟩ ⟨2, false⟩ (by decide) (by decide) rfl⟩

/-! ## The counter of replaced variables -/

theorem sameIndex_refl (a : VarReplacer) : a.sameIndex a := ⟨rfl, rfl, rfl, rfl⟩

theorem sameIndex_trans {a b c : VarReplacer} (h1 : a.sameIndex b) (h2 : b.sameIndex c) :
    a.sameIndex c :=
  ⟨h2.1.trans h1.1, h2.2.1.trans h1.2.1, h2.2.2.1.trans h1.2.2.1, h2.2.2.2.trans h1.2.2.2⟩

theorem newBinClause_sameIndex (vr : VarReplacer) (o1 o2 o3 x y : Lit) (red : Bool) :
    vr.sameIndex (newBinClause vr o1 o2 o3 x y red) := by
  unfold newBinClause
  split
  · exact ⟨rfl, rfl, rfl, rfl⟩
  · exact sameIndex_refl vr

theorem scanEntry_sameIndex (vr : VarReplacer) (s : Solver) (kept : List Watched)
    (o1 : Lit) (w : Watched) (r : List Watched × VarReplacer × Solver)
    (h : scanEntry vr s kept o1 w = some r) : vr.sameIndex r.2.1 := by
  cases w with
  | clause off =>
    simp only [scanEntry, Option.some.injEq] at h
    rw [← h]
    exact sameIndex_refl vr
  | binary o2 red =>
    simp only [scanEntry] at h
    split at h
    · split at h
      · rename_i lit1 lit2 _ _
        unfold updateBin at h
        simp only at h
        have ht : vr.sameIndex (if lit1 = lit2
            then { vr with delayedEnqueue := vr.delayedEnqueue ++ [lit2] }
            else vr) := by
          split
          · exact ⟨rfl, rfl, rfl, rfl⟩
          · exact sameIndex_refl vr
        split at h
        · rw [← Option.some.inj h]
          exact ht
        · split at h
          · split at h
            · cases h
            · rw [← Option.some.inj h]
              exact ht
          · rw [← Option.some.inj h]
            exact ht
      · cases h
    · cases h
  | tri o2 o3 red =>
    simp only [scanEntry] at h
    split at h
    · split at h
      · rename_i lit1 lit2 _ _
        unfold updateTri at h
        split at h
        · split at h
          · cases h
          · rename_i lit3 _
            split at h
            · rw [← Option.some.inj h]
              exact sameIndex_refl vr
            · split at h
              · rw [← Option.some.inj h]
                exact sameIndex_refl vr
              · split at h
                · rw [← Option.some.inj h]
                  exact newBinClause_sameIndex _ _ _ _ _ _ _
                · split at h
                  · rw [← Option.some.inj h]
                    exact newBinClause_sameIndex _ _ _ _ _ _ _
                  · simp only at h
                    split at h
                    · split at h
                      · cases h
                      · rw [← Option.some.inj h]
                        exact sameIndex_refl vr
                    · rw [← Option.some.inj h]
                      exact sameIndex_refl vr
        · cases h
      · cases h
    · cases h

theorem scanList_sameIndex (o1 : Lit) (ws : List Watched) :
    ∀ (kept : List Watched) (vr : VarReplacer) (s : Solver)
      (r : List Watched × VarReplacer × Solver),
      scanList o1 ws kept vr s = some r → vr.sameIndex r.2.1 := by
  induction ws with
  | nil =>
    intro kept vr s r h
    simp only [scanList, Option.some.injEq] at h
    rw [← h]
    exact sameIndex_refl vr
  | cons w rest ih =>
    intro kept vr s r h
    rw [scanList] at h
    split at h
    · cases h
    · rename_i r1 h1
      exact sameIndex_trans (scanEntry_sameIndex vr s kept o1 w r1 h1) (ih _ _ _ r h)

theorem scanWatches_sameIndex (n : Nat) : ∀ (wsLit : Nat) (vr : VarReplacer) (s : Solver)
    (r : VarReplacer × Solver), scanWatches n wsLit vr s = some r → vr.sameIndex r.1 := by
  induction n with
  | zero =>
    intro wsLit vr s r h
    simp only [scanWatches, Option.some.injEq] at h
    rw [← h]
    exact sameIndex_refl vr
  | succ n ih =>
    intro wsLit vr s r h
    rw [scanWatches] at h
    split at h
    · cases h
    · split at h
      · cases h
      · rename_i r1 h1
        exact sameIndex_trans (scanList_sameIndex _ _ _ _ _ r1 h1) (ih _ _ _ r h)

theorem replaceImplicit_sameIndex (vr : VarReplacer) (s : Solver)
    (r : Bool × VarReplacer × Solver) (h : replaceImplicit vr s = some r) :
    vr.sameIndex r.2.1 := by
  unfold replaceImplicit at h
  split at h
  · cases h
  · rename_i r1 h1
    split at h
    · cases h
    · unfold replaceImplicitScan at h1
      have f1 := scanWatches_sameIndex _ _ _ _ r1 h1
      rw [← Option.some.inj h]
      exact ⟨f1.1, f1.2.1, f1.2.2.1, f1.2.2.2⟩

theorem enqueueDelayedEnqueue_sameIndex (propagate : Solver → Solver × Bool)
    (vr : VarReplacer) (s : Solver) (r : Bool × VarReplacer × Solver)
    (h : enqueueDelayedEnqueue propagate vr s = some r) : vr.sameIndex r.2.1 := by
  unfold enqueueDelayedEnqueue at h
  split at h
  · cases h
  · split at h
    · rw [← Option.some.inj h]
      exact ⟨rfl, rfl, rfl, rfl⟩
    · rw [← Option.some.inj h]
      exact ⟨rfl, rfl, rfl, rfl⟩

theorem performReplaceSteps_sameIndex (propagate : Solver → Solver × Bool)
    (vr : VarReplacer) (s : Solver) (r : VarReplacer × Solver)
    (h : performReplaceSteps propagate vr s = some r) : vr.sameIndex r.1 := by
  unfold performReplaceSteps at h
  split at h
  · cases h
  · rename_i r1 h1
    have f1 := replaceImplicit_sameIndex vr s r1 h1
    split at h
    · rw [← Option.some.inj h]; exact f1
    · split at h
      · cases h
      · rename_i r2 h2
        have f2 := sameIndex_trans f1 (enqueueDelayedEnqueue_sameIndex propagate _ _ r2 h2)
        split at h
        · rw [← Option.some.inj h]; exact f2
        · split at h
          · cases h
          · split at h
            · rw [← Option.some.inj h]; exact f2
            · split at h
              · cases h
              · split at h
                · rw [← Option.some.inj h]; exact f2
                · split at h
                  · cases h
                  · rw [← Option.some.inj h]; exact f2

/-- A returning `performReplace` keeps the table, the reverse table and `replacedVars`,
and leaves `lastReplacedVars` equal to `replacedVars`. -/
theorem performReplace_counters (clean : Solver → Solver)
    (propagate : Solver → Solver × Bool) (vr : VarReplacer) (s : Solver)
    (r : Bool × VarReplacer × Solver)
    (h : performReplace clean propagate vr s = some r) :
    r.2.1.table = vr.table ∧ r.2.1.reverseTable = vr.reverseTable
      ∧ r.2.1.replacedVars = vr.replacedVars ∧ r.2.1.lastReplacedVars = vr.replacedVars := by
  obtain ⟨_, s1, rr, _, hsteps, hr, _⟩ := performReplace_cases clean propagate vr s r h
  have f := performReplaceSteps_sameIndex propagate _ s1 rr hsteps
  rw [hr]
  exact ⟨f.1, f.2.1, f.2.2.1, f.2.2.2⟩

theorem countP_add_one (P Q : Nat → Bool) (x : Nat) (hPx : P x = false) :
    ∀ (L : List Nat), L.Nodup → x ∈ L → (∀ v ∈ L, Q v = (P v || decide (v = x))) →
      L.countP Q = L.countP P + 1 := by
  intro L
  induction L with
  | nil => intro _ hx _; cases hx
  | cons a rest ih =>
    intro hnd hx hq
    have hnd2 := List.nodup_cons.1 hnd
    rw [List.countP_cons, List.countP_cons]
    by_cases hax : a = x
    · have hrest : rest.countP Q = rest.countP P := by
        apply List.countP_congr
        intro v hv
        have hvx : v ≠ x := by
          intro he
          rw [he, ← hax] at hv
          exact hnd2.1 hv
        rw [hq v (List.mem_cons_of_mem _ hv)]
        simp [hvx]
      have hQa : Q a = true := by
        rw [hq a (List.mem_cons_self _ _)]
        simp [hax]
      have hPa : P a = false := by rw [hax]; exact hPx
      rw [hrest, hQa, hPa]
      simp
    · have hxr : x ∈ rest := by
        rcases List.mem_cons.1 hx with h | h
        · exact absurd h.symm hax
        · exact h
      have hrest := ih hnd2.2 hxr (fun v hv => hq v (List.mem_cons_of_mem _ hv))
      have hQa : Q a = P a := by
        rw [hq a (List.mem_cons_self _ _)]
        simp [hax]
      rw [hrest, hQa]
      omega

theorem replacedCount_newVar (vr : VarReplacer) :
    replacedCount vr.newVar = replacedCount vr := by
  unfold replacedCount VarReplacer.newVar
  simp only [List.length_append, List.length_singleton]
  rw [List.range_succ, List.countP_append]
  have h1 : List.countP (fun v => decide ((vr.table ++ [(⟨vr.table.length, false⟩ : Lit)])[v]?
      ≠ some ⟨v, false⟩)) [vr.table.length] = 0 := by
    simp
  rw [h1, Nat.add_zero]
  apply List.countP_congr
  intro v hv
  rw [List.mem_range] at hv
  rw [List.getElem?_append_left hv]

theorem replacedCount_linked (vr vr1 : VarReplacer) (x y : Nat) (sg : Bool)
    (hwf : WellFormed vr) (hl : Linked vr vr1 x y sg)
    (hx : vr.table[x]? = some ⟨x, false⟩) (hy : vr.table[y]? = some ⟨y, false⟩)
    (hxy : x ≠ y) : replacedCount vr1 = replacedCount vr + 1 := by
  unfold replacedCount
  rw [hl.1]
  have hxlt : x < vr.table.length := by
    rcases Nat.lt_or_ge x vr.table.length with h | h
    · exact h
    · rw [List.getElem?_eq_none h] at hx; cases hx
  apply countP_add_one _ _ x
  · simp [hx]
  · exact List.nodup_range _
  · exact List.mem_range.2 hxlt
  · intro v hv
    rw [List.mem_range] at hv
    have hvt : vr.table[v]? = some (vr.table[v]) := List.getElem?_eq_getElem hv
    generalize vr.table[v] = t at hvt
    have h1 := linked_lookup vr vr1 x y sg hwf hl hx v t hvt
    rw [h1, hvt]
    by_cases htx : t.var = x
    · rw [if_pos htx]
      by_cases hvx : v = x
      · have : (⟨y, Bool.xor sg t.sign⟩ : Lit) ≠ ⟨v, false⟩ := by
          intro he
          have := congrArg Lit.var he
          simp only at this
          exact hxy (hvx ▸ this.symm)
        have e1 : decide (some (⟨y, Bool.xor sg t.sign⟩ : Lit) ≠ some ⟨v, false⟩) = true :=
          decide_eq_true (fun he => this (Option.some.inj he))
        have e2 : decide (v = x) = true := decide_eq_true hvx
        rw [e1, e2, Bool.or_true]
      · have hvy : y ≠ v := by
          intro he
          rw [← he, hy] at hvt
          have := congrArg Lit.var (Option.some.inj hvt)
          simp only at this
          exact hxy (htx ▸ this).symm
        have h2 : (⟨y, Bool.xor sg t.sign⟩ : Lit) ≠ ⟨v, false⟩ := by
          intro he
          exact hvy (congrArg Lit.var he)
        have h3 : t ≠ ⟨v, false⟩ := by
          intro he
          rw [he] at htx
          exact hvx htx
        simp [h2, h3]
    · rw [if_neg htx]
      have hvx : v ≠ x := by
        intro he
        rw [he, hx] at hvt
        have := congrArg Lit.var (Option.some.inj hvt)
        simp only at this
        exact htx this.symm
      simp [hvx]

/-- One returning call of `replace` on a well-formed replacer: in the structural case
both the counter and the number of replaced variables go up by one, in every other
case the replacer is unchanged; `lastReplacedVars` is never touched. -/
theorem replace_counter_step (propagate : Solver → Solver × Bool) (vr vr1 : VarReplacer)
    (s s1 : Solver) (lit1 lit2 : Lit) (x dl ret : Bool) (hwf : WellFormed vr)
    (h : replace propagate vr s lit1 lit2 x dl = some (ret, vr1, s1)) :
    (reachesStructural vr s lit1 lit2 x →
        vr1.replacedVars = vr.replacedVars + 1 ∧ replacedCount vr1 = replacedCount vr + 1
        ∧ vr1.lastReplacedVars = vr.lastReplacedVars)
    ∧ (¬ reachesStructural vr s lit1 lit2 x → vr1 = vr) := by
  obtain ⟨t1, t2, h1, h2, hc⟩ := replace_cases propagate vr vr1 s s1 lit1 lit2 x dl ret h
  constructor
  · rintro ⟨u1, u2, g1, g2, hne, hv1, hv2⟩
    rw [h1] at g1; rw [h2] at g2
    cases g1; cases g2
    rcases hc with ⟨he, _⟩ | ⟨_, val1, val2, e1, e2, hc2⟩
    · exact absurd he hne
    · rw [hv1] at e1; rw [hv2] at e2
      cases e1; cases e2
      rcases hc2 with ⟨hv, _⟩ | ⟨_, _, hst⟩
      · rcases hv with hv | hv <;> exact absurd rfl hv
      · have hx : vr.table[t1.var]? = some ⟨t1.var, false⟩ := hwf.1 _ _ h1
        have hy : vr.table[(t2.xor (!x)).var]? = some ⟨(t2.xor (!x)).var, false⟩ :=
          hwf.1 lit2.var t2 h2
        obtain ⟨vr2, hrun2, hlk, hcnt, hlast, _⟩ :=
          replaceStructural_spec vr s t1 (t2.xor (!x)) dl hwf hx hy hne
        rw [hrun2] at hst
        simp only [Option.some.injEq, Prod.mk.injEq] at hst
        obtain ⟨_, rfl, _⟩ := hst
        refine ⟨hcnt, ?_, hlast⟩
        split at hlk
        · exact replacedCount_linked vr vr2 _ _ _ hwf hlk hy hx (Ne.symm hne)
        · exact replacedCount_linked vr vr2 _ _ _ hwf hlk hx hy hne
  · intro hns
    rcases hc with ⟨_, he⟩ | ⟨hne, val1, val2, e1, e2, hc2⟩
    · exact he
    · rcases hc2 with ⟨_, he⟩ | ⟨hu1, hu2, _⟩
      · exact he
      · exact absurd ⟨t1, t2, h1, h2, hne, hu1 ▸ e1, hu2 ▸ e2⟩ hns

/-- Every reachable replacer comes from the constructor by a counted run. -/
theorem reachable_mergesSince (vr : VarReplacer) (h : Reachable vr) :
    ∃ n, MergesSince VarReplacer.init vr n := by
  induction h with
  | init => exact ⟨0, MergesSince.start⟩
  | newVar vr _ ih =>
    obtain ⟨n, hn⟩ := ih
    exact ⟨n, MergesSince.newVar vr n hn⟩
  | replace vr vr1 propagate s s1 lit1 lit2 x dl ret _ hrun ih =>
    obtain ⟨n, hn⟩ := ih
    by_cases hs : reachesStructural vr s lit1 lit2 x
    · exact ⟨n + 1, MergesSince.structural vr vr1 n propagate s s1 lit1 lit2 x dl ret hn hrun hs⟩
    · exact ⟨n, MergesSince.other vr vr1 n propagate s s1 lit1 lit2 x dl ret hn hrun hs⟩

theorem mergesSince_counters (a : VarReplacer) (hwf : WellFormed a)
    (hcnt : a.replacedVars = replacedCount a) (vr : VarReplacer) (n : Nat)
    (hrun : MergesSince a vr n) :
    WellFormed vr ∧ vr.replacedVars = replacedCount vr
      ∧ vr.replacedVars = a.replacedVars + n
      ∧ vr.lastReplacedVars = a.lastReplacedVars := by
  induction hrun with
  | start => exact ⟨hwf, hcnt, rfl, rfl⟩
  | newVar vr n _ ih =>
    refine ⟨wellFormed_newVar vr ih.1, ?_, ih.2.2.1, ih.2.2.2⟩
    rw [replacedCount_newVar]
    exact ih.2.1
  | structural vr vr1 n propagate s s1 lit1 lit2 x dl ret _ hrun hs ih =>
    have hstep := (replace_counter_step propagate vr vr1 s s1 lit1 lit2 x dl ret ih.1 hrun).1 hs
    refine ⟨replace_wellFormed propagate vr vr1 s s1 lit1 lit2 x dl ret ih.1 hrun, ?_, ?_, ?_⟩
    · rw [hstep.1, hstep.2.1, ih.2.1]
    · rw [hstep.1, ih.2.2.1]; omega
    · rw [hstep.2.2, ih.2.2.2]
  | other vr vr1 n propagate s s1 lit1 lit2 x dl ret _ hrun hs ih =>
    have hstep := (replace_counter_step propagate vr vr1 s s1 lit1 lit2 x dl ret ih.1 hrun).2 hs
    rw [hstep]
    exact ih

/-- Claim C28. Let the replacer `a` be well formed with `replacedVars` equal to the
number of variables whose table entry is not themselves (as after the constructor),
and let `vr` come from `a` by calls of `newVar` and returning calls of `replace`, `n`
of them structural. Then `replacedVars` of `vr` is again the number of variables whose
entry is not themselves, and it is `n` above that of `a`; a further structural call
raises it by one and any other returning call leaves it; if `a` was left by an
`performReplace` (`lastReplacedVars = replacedVars`), the count the next
`performReplace` reports, `replacedVars - lastReplacedVars`, is `n`; and a returning
`performReplace` leaves a replacer that meets the hypotheses again, with
`lastReplacedVars = replacedVars`. -/
theorem replaced_counter (a vr : VarReplacer) (n : Nat) (hwf : WellFormed a)
    (hcnt : a.replacedVars = replacedCount a) (hrun : MergesSince a vr n) :
    vr.replacedVars = replacedCount vr
    ∧ vr.replacedVars = a.replacedVars + n
    ∧ (∀ (propagate : Solver → Solver × Bool) (s s1 : Solver) (lit1 lit2 : Lit)
        (x dl ret : Bool) (vr1 : VarReplacer),
        replace propagate vr s lit1 lit2 x dl = some (ret, vr1, s1) →
        (reachesStructural vr s lit1 lit2 x → vr1.replacedVars = vr.replacedVars + 1)
        ∧ (¬ reachesStructural vr s lit1 lit2 x → vr1.replacedVars = vr.replacedVars))
    ∧ (a.lastReplacedVars = a.replacedVars → actuallyReplacedVars vr = n)
    ∧ (∀ (clean : Solver → Solver) (propagate : Solver → Solver × Bool) (s : Solver)
        (r : Bool × VarReplacer × Solver),
        performReplace clean propagate vr s = some r →
        WellFormed r.2.1 ∧ r.2.1.replacedVars = replacedCount r.2.1
        ∧ r.2.1.replacedVars = vr.replacedVars
        ∧ r.2.1.lastReplacedVars = r.2.1.replacedVars
        ∧ actuallyReplacedVars r.2.1 = 0) := by
  obtain ⟨hwf1, hc1, hc2, hc3⟩ := mergesSince_counters a hwf hcnt vr n hrun
  refine ⟨hc1, hc2, ?_, ?_, ?_⟩
  · intro propagate s s1 lit1 lit2 x dl ret vr1 hcall
    have hstep := replace_counter_step propagate vr vr1 s s1 lit1 lit2 x dl ret hwf1 hcall
    exact ⟨fun hs => (hstep.1 hs).1, fun hs => by rw [hstep.2 hs]⟩
  · intro hlast
    unfold actuallyReplacedVars
    rw [hc2, hc3, hlast]
    omega
  · intro clean propagate s r hr
    obtain ⟨ht, hrt, hrv, hlv⟩ := performReplace_counters clean propagate vr s r hr
    have hw : WellFormed r.2.1 := by
      unfold WellFormed
      rw [ht, hrt]
      exact hwf1
    have hcount : replacedCount r.2.1 = replacedCount vr := by
      unfold replacedCount
      rw [ht]
    refine ⟨hw, ?_, hrv, ?_, ?_⟩
    · rw [hrv, hcount]; exact hc1
    · rw [hlv, hrv]
    · unfold actuallyReplacedVars
      rw [hlv, hrv]
      omega

/-- Six variables after `1 = 2` and `4 = ~5`, two replaced: the merge `1 = 4` is
structural and the counter goes from 2 to 3, which is the number of entries of the new
table that are not on their own variable. -/
theorem replaced_counter_witness :
    WellFormed pairsReplacer
    ∧ pairsReplacer.replacedVars = replacedCount pairsReplacer
    ∧ MergesSince pairsReplacer pairsMergedReplacer 1
    ∧ pairsMergedReplacer.replacedVars = 3
    ∧ pairsMergedReplacer.replacedVars = replacedCount pairsMergedReplacer
    ∧ actuallyReplacedVars pairsMergedReplacer = 3 :=
  have hrun : MergesSince pairsReplacer pairsMergedReplacer 1 :=
    MergesSince.structural pairsReplacer pairsMergedReplacer 0 propagateNone pairsSolver
      pairsSolver ⟨1, false⟩ ⟨4, false⟩ true false true MergesSince.start (by decide)
      ⟨⟨2, false⟩, ⟨5, true⟩, by decide, by decide, by decide, by decide, by decide⟩
  ⟨reachable_wellFormed _ reachable_pairsReplacer, by decide, hrun, by decide,
    (replaced_counter pairsReplacer pairsMergedReplacer 1
      (reachable_wellFormed _ reachable_pairsReplacer) (by decide) hrun).1, by decide⟩

/-! ## Kept ternary clauses -/

theorem toInt_ne_of_var_ne (a b : Lit) (h : a.var ≠ b.var) : a.toInt ≠ b.toInt :=
  fun e => h (congrArg Lit.var (Lit.toInt_inj a b e))

theorem ne_of_var_ne (a b : Lit) (h : a.var ≠ b.var) : a ≠ b ∧ a ≠ b.neg := by
  constructor
  · intro e; exact h (congrArg Lit.var e)
  · intro e
    have := congrArg Lit.var e
    rw [Lit.neg_var] at this
    exact h this

theorem orderLits_sorted_strict (a b c : Lit) (hab : a.toInt ≠ b.toInt)
    (hac : a.toInt ≠ c.toInt) (hbc : b.toInt ≠ c.toInt) :
    (orderLits a b c).1.toInt < (orderLits a b c).2.1.toInt
      ∧ (orderLits a b c).2.1.toInt < (orderLits a b c).2.2.toInt := by
  unfold orderLits
  simp only
  split_ifs <;> simp_all <;> omega

theorem orderLits_of_sorted (a b c : Lit) (hab : a.toInt < b.toInt) (hbc : b.toInt < c.toInt) :
    orderLits a b c = (a, b, c) := by
  unfold orderLits
  simp only
  rw [if_neg (show ¬ a.toInt > c.toInt by omega)]
  simp only
  rw [if_neg (show ¬ a.toInt > b.toInt by omega), if_neg (show ¬ b.toInt > c.toInt by omega)]

theorem orderLits_swap (a b c : Lit) (hab : a.toInt ≠ b.toInt)
    (hac : a.toInt ≠ c.toInt) (hbc : b.toInt ≠ c.toInt) :
    orderLits b a c = orderLits a b c := by
  unfold orderLits
  simp only
  split_ifs <;> first | rfl | (exfalso; simp_all; omega)

theorem orderLits_rotate (a b c : Lit) (hab : a.toInt ≠ b.toInt)
    (hac : a.toInt ≠ c.toInt) (hbc : b.toInt ≠ c.toInt) :
    orderLits c a b = orderLits a b c := by
  unfold orderLits
  simp only
  split_ifs <;> first | rfl | (exfalso; simp_all; omega)

theorem triReorder_first (o1 o2 o3 x y z : Lit) (h : o1.toInt < o2.toInt) :
    triReorder o1 o2 o3 x y z = orderLits x y z := by
  unfold triReorder
  simp only
  rw [if_neg (show ¬ (o1.toInt > o2.toInt ∧ o1.toInt < o3.toInt) by omega),
    if_neg (show ¬ (o1.toInt > o2.toInt ∧ o1.toInt > o3.toInt) by omega)]

theorem triReorder_middle (o1 o2 o3 x y z : Lit) (h1 : o2.toInt < o1.toInt)
    (h2 : o1.toInt < o3.toInt) :
    triReorder o1 o2 o3 x y z
      = ((orderLits x y z).2.1, (orderLits x y z).1, (orderLits x y z).2.2) := by
  unfold triReorder
  simp only
  rw [if_pos (show o1.toInt > o2.toInt ∧ o1.toInt < o3.toInt from ⟨h1, h2⟩),
    if_neg (show ¬ (o1.toInt > o2.toInt ∧ o1.toInt > o3.toInt) by omega)]

theorem triReorder_last (o1 o2 o3 x y z : Lit) (h1 : o2.toInt < o1.toInt)
    (h2 : o3.toInt < o1.toInt) :
    triReorder o1 o2 o3 x y z
      = ((orderLits x y z).2.2, (orderLits x y z).1, (orderLits x y z).2.1) := by
  unfold triReorder
  simp only
  rw [if_neg (show ¬ (o1.toInt > o2.toInt ∧ o1.toInt < o3.toInt) by omega),
    if_pos (show o1.toInt > o2.toInt ∧ o1.toInt > o3.toInt from ⟨h1, h2⟩)]

/-- A ternary watch entry whose three rewritten literals are on three different
variables is kept: in place when the first literal of the reordered triple is the
literal of the list, pushed on the list of that literal otherwise. -/
theorem scanEntry_tri_kept (vr : VarReplacer) (s : Solver) (kept : List Watched)
    (o1 o2 o3 l1 l2 l3 : Lit) (red : Bool)
    (ha : s.value o1 = some LBool.l_Undef ∧ s.value o2 = some LBool.l_Undef
      ∧ o1.var ≠ o2.var)
    (hb : o1.var ≠ o3.var ∧ o2.var ≠ o3.var ∧ o2.toInt < o3.toInt
      ∧ s.value o3 = some LBool.l_Undef)
    (h1 : replaceLit vr o1 = some l1) (h2 : replaceLit vr o2 = some l2)
    (h3 : replaceLit vr o3 = some l3)
    (hd : l1.var ≠ l2.var ∧ l1.var ≠ l3.var ∧ l2.var ≠ l3.var) :
    scanEntry vr s kept o1 (Watched.tri o2 o3 red)
      = if (triReorder o1 o2 o3 l1 l2 l3).1 = o1 then
          some (kept ++ [Watched.tri (triReorder o1 o2 o3 l1 l2 l3).2.1
            (triReorder o1 o2 o3 l1 l2 l3).2.2 red], vr, s)
        else (s.pushWatch (triReorder o1 o2 o3 l1 l2 l3).1
            (Watched.tri (triReorder o1 o2 o3 l1 l2 l3).2.1
              (triReorder o1 o2 o3 l1 l2 l3).2.2 red)).map (fun s1 => (kept, vr, s1)) := by
  rw [scanEntry_tri vr s kept o1 o2 o3 l1 l2 red ha h1 h2,
    updateTri_unfold vr s kept red o1 o2 o3 l1 l2 l3 hb h3]
  have n12 := ne_of_var_ne l1 l2 hd.1
  have n13 := ne_of_var_ne l1 l3 hd.2.1
  have n23 := ne_of_var_ne l2 l3 hd.2.2
  rw [if_neg (by rintro (h | h | h)
                 · exact n12.2 h
                 · exact n13.2 h
                 · exact n23.2 h),
    if_neg (fun h => n12.1 h.1), if_neg n12.1,
    if_neg (by rintro (h | h)
               · exact n13.1 h
               · exact n23.1 h)]
  by_cases hr : (triReorder o1 o2 o3 l1 l2 l3).1 = o1
  · rw [if_neg (not_not.2 hr), if_pos hr]
  · rw [if_pos hr, if_neg hr]
    cases s.pushWatch (triReorder o1 o2 o3 l1 l2 l3).1
      (Watched.tri (triReorder o1 o2 o3 l1 l2 l3).2.1
        (triReorder o1 o2 o3 l1 l2 l3).2.2 red) <;> rfl

theorem replaceLit_fixed (vr : VarReplacer) (hwf : WellFormed vr) (l r : Lit)
    (h : replaceLit vr l = some r) : replaceLit vr r = some r := by
  unfold replaceLit at h
  cases ht : vr.table[l.var]? with
  | none => rw [ht] at h; cases h
  | some t =>
    rw [ht] at h
    simp only [Option.some.injEq] at h
    have hrv : r.var = t.var := by
      rw [← h]
      by_cases hv : t.var ≠ l.var
      · rw [if_pos hv, Lit.xor_var]
      · rw [if_neg hv]
        exact (not_not.1 hv).symm
    have hself : vr.table[r.var]? = some ⟨r.var, false⟩ := by
      rw [hrv]
      exact hwf.1 _ _ ht
    unfold replaceLit
    rw [hself]
    simp

/-- The three watch entries of a ternary clause on the literals `a < b < c` whose
rewritten literals `ra`, `rb`, `rc` are on three different variables and sort to
`m1 < m2 < m3`: the entry of the smallest original goes to `m1`, the one of the middle
original to `m2`, the one of the largest to `m3`, each with the other two ascending. -/
theorem kept_ternary_entries (vr : VarReplacer) (s : Solver) (kept : List Watched)
    (a b c ra rb rc m1 m2 m3 : Lit) (red : Bool)
    (hord : a.toInt < b.toInt ∧ b.toInt < c.toInt)
    (hvars : a.var ≠ b.var ∧ a.var ≠ c.var ∧ b.var ≠ c.var)
    (hval : s.value a = some LBool.l_Undef ∧ s.value b = some LBool.l_Undef
      ∧ s.value c = some LBool.l_Undef)
    (h1 : replaceLit vr a = some ra) (h2 : replaceLit vr b = some rb)
    (h3 : replaceLit vr c = some rc)
    (hdist : ra.var ≠ rb.var ∧ ra.var ≠ rc.var ∧ rb.var ≠ rc.var)
    (hm : orderLits ra rb rc = (m1, m2, m3)) :
    scanEntry vr s kept a (Watched.tri b c red)
        = (if m1 = a then some (kept ++ [Watched.tri m2 m3 red], vr, s)
           else (s.pushWatch m1 (Watched.tri m2 m3 red)).map (fun s1 => (kept, vr, s1)))
    ∧ scanEntry vr s kept b (Watched.tri a c red)
        = (if m2 = b then some (kept ++ [Watched.tri m1 m3 red], vr, s)
           else (s.pushWatch m2 (Watched.tri m1 m3 red)).map (fun s1 => (kept, vr, s1)))
    ∧ scanEntry vr s kept c (Watched.tri a b red)
        = (if m3 = c then some (kept ++ [Watched.tri m1 m2 red], vr, s)
           else (s.pushWatch m3 (Watched.tri m1 m2 red)).map (fun s1 => (kept, vr, s1))) := by
  have tab := toInt_ne_of_var_ne ra rb hdist.1
  have tac := toInt_ne_of_var_ne ra rc hdist.2.1
  have tbc := toInt_ne_of_var_ne rb rc hdist.2.2
  refine ⟨?_, ?_, ?_⟩
  · rw [scanEntry_tri_kept vr s kept a b c ra rb rc red ⟨hval.1, hval.2.1, hvars.1⟩
      ⟨hvars.2.1, hvars.2.2, hord.2, hval.2.2⟩ h1 h2 h3 hdist,
      triReorder_first a b c ra rb rc hord.1, hm]
  · rw [scanEntry_tri_kept vr s kept b a c rb ra rc red
      ⟨hval.2.1, hval.1, Ne.symm hvars.1⟩
      ⟨hvars.2.2, hvars.2.1, Nat.lt_trans hord.1 hord.2, hval.2.2⟩ h2 h1 h3
      ⟨Ne.symm hdist.1, hdist.2.2, hdist.2.1⟩,
      triReorder_middle b a c rb ra rc hord.1 hord.2,
      orderLits_swap ra rb rc tab tac tbc, hm]
  · rw [scanEntry_tri_kept vr s kept c a b rc ra rb red
      ⟨hval.2.2, hval.1, Ne.symm hvars.2.1⟩
      ⟨Ne.symm hvars.2.2, hvars.1, hord.1, hval.2.1⟩ h3 h1 h2
      ⟨Ne.symm hdist.2.1, Ne.symm hdist.2.2, hdist.1⟩,
      triReorder_last c a b rc ra rb (Nat.lt_trans hord.1 hord.2) hord.2,
      orderLits_rotate ra rb rc tab tac tbc, hm]

/-- Claim C27. Let a ternary clause on the literals `a < b < c` be stored as its three
watch entries, all three literals unassigned and on different variables, and let the
rewritten literals `ra`, `rb`, `rc` be on three different variables (pairwise distinct
and not complementary), with `m1`, `m2`, `m3` their ascending order. Then `m1 < m2 <
m3`, and the entry from the list of `a` ends in the list of `m1` as `(m2, m3)`, the one
from the list of `b` in the list of `m2` as `(m1, m3)`, the one from the list of `c` in
the list of `m3` as `(m1, m2)`: kept in place when the list is the same, pushed there
otherwise. Under the table invariant an entry that was pushed is kept in place, as it
is, when its new list is scanned, so each of the three lists ends with one entry. -/
theorem kept_ternary_watches (vr : VarReplacer) (s : Solver) (kept : List Watched)
    (a b c ra rb rc m1 m2 m3 : Lit) (red : Bool)
    (hord : a.toInt < b.toInt ∧ b.toInt < c.toInt)
    (hvars : a.var ≠ b.var ∧ a.var ≠ c.var ∧ b.var ≠ c.var)
    (hval : s.value a = some LBool.l_Undef ∧ s.value b = some LBool.l_Undef
      ∧ s.value c = some LBool.l_Undef)
    (h1 : replaceLit vr a = some ra) (h2 : replaceLit vr b = some rb)
    (h3 : replaceLit vr c = some rc)
    (hdist : ra.var ≠ rb.var ∧ ra.var ≠ rc.var ∧ rb.var ≠ rc.var)
    (hm : orderLits ra rb rc = (m1, m2, m3)) :
    (m1.toInt < m2.toInt ∧ m2.toInt < m3.toInt ∧ [m1, m2, m3].Perm [ra, rb, rc])
    ∧ (scanEntry vr s kept a (Watched.tri b c red)
        = (if m1 = a then some (kept ++ [Watched.tri m2 m3 red], vr, s)
           else (s.pushWatch m1 (Watched.tri m2 m3 red)).map (fun s1 => (kept, vr, s1))))
    ∧ (scanEntry vr s kept b (Watched.tri a c red)
        = (if m2 = b then some (kept ++ [Watched.tri m1 m3 red], vr, s)
           else (s.pushWatch m2 (Watched.tri m1 m3 red)).map (fun s1 => (kept, vr, s1))))
    ∧ (scanEntry vr s kept c (Watched.tri a b red)
        = (if m3 = c then some (kept ++ [Watched.tri m1 m2 red], vr, s)
           else (s.pushWatch m3 (Watched.tri m1 m2 red)).map (fun s1 => (kept, vr, s1))))
    ∧ (WellFormed vr → ∀ (s2 : Solver) (kept2 : List Watched),
        s2.value m1 = some LBool.l_Undef → s2.value m2 = some LBool.l_Undef →
        s2.value m3 = some LBool.l_Undef →
        scanEntry vr s2 kept2 m1 (Watched.tri m2 m3 red)
            = some (kept2 ++ [Watched.tri m2 m3 red], vr, s2)
        ∧ scanEntry vr s2 kept2 m2 (Watched.tri m1 m3 red)
            = some (kept2 ++ [Watched.tri m1 m3 red], vr, s2)
        ∧ scanEntry vr s2 kept2 m3 (Watched.tri m1 m2 red)
            = some (kept2 ++ [Watched.tri m1 m2 red], vr, s2)) := by
  have tab := toInt_ne_of_var_ne ra rb hdist.1
  have tac := toInt_ne_of_var_ne ra rc hdist.2.1
  have tbc := toInt_ne_of_var_ne rb rc hdist.2.2
  have hsorted := orderLits_sorted_strict ra rb rc tab tac tbc
  have hperm := orderLits_perm ra rb rc
  rw [hm] at hsorted hperm
  simp only at hsorted hperm
  obtain ⟨e1, e2, e3⟩ := kept_ternary_entries vr s kept a b c ra rb rc m1 m2 m3 red hord hvars
    hval h1 h2 h3 hdist hm
  refine ⟨⟨hsorted.1, hsorted.2, hperm⟩, e1, e2, e3, ?_⟩
  intro hwf s2 kept2 v1 v2 v3
  -- each of `m1`, `m2`, `m3` is one of the rewritten literals, so it resolves to itself
  have hfix : ∀ m, m ∈ [ra, rb, rc] → replaceLit vr m = some m := by
    intro m hmem
    simp only [List.mem_cons, List.not_mem_nil, or_false] at hmem
    rcases hmem with rfl | rfl | rfl
    · exact replaceLit_fixed vr hwf a _ h1
    · exact replaceLit_fixed vr hwf b _ h2
    · exact replaceLit_fixed vr hwf c _ h3
  have hmem : ∀ m, m ∈ [m1, m2, m3] → m ∈ [ra, rb, rc] := fun m h => hperm.subset h
  have g1 := hfix m1 (hmem m1 (by simp))
  have g2 := hfix m2 (hmem m2 (by simp))
  have g3 := hfix m3 (hmem m3 (by simp))
  -- two of them on one variable would be the same rewritten literal
  have hvne : ∀ x y, x ∈ [ra, rb, rc] → y ∈ [ra, rb, rc] → x.toInt ≠ y.toInt →
      x.var ≠ y.var := by
    intro x y hx hy hne
    simp only [List.mem_cons, List.not_mem_nil, or_false] at hx hy
    rcases hx with rfl | rfl | rfl <;> rcases hy with rfl | rfl | rfl
    · exact absurd rfl hne
    · exact hdist.1
    · exact hdist.2.1
    · exact Ne.symm hdist.1
    · exact absurd rfl hne
    · exact hdist.2.2
    · exact Ne.symm hdist.2.1
    · exact Ne.symm hdist.2.2
    · exact absurd rfl hne
  have d12 := hvne m1 m2 (hmem m1 (by simp)) (hmem m2 (by simp)) (by omega)
  have d13 := hvne m1 m3 (hmem m1 (by simp)) (hmem m3 (by simp)) (by omega)
  have d23 := hvne m2 m3 (hmem m2 (by simp)) (hmem m3 (by simp)) (by omega)
  obtain ⟨f1, f2, f3⟩ := kept_ternary_entries vr s2 kept2 m1 m2 m3 m1 m2 m3 m1 m2 m3 red
    ⟨hsorted.1, hsorted.2⟩ ⟨d12, d13, d23⟩ ⟨v1, v2, v3⟩ g1 g2 g3 ⟨d12, d13, d23⟩
    (orderLits_of_sorted m1 m2 m3 hsorted.1 hsorted.2)
  rw [if_pos rfl] at f1 f2 f3
  exact ⟨f1, f2, f3⟩

/-- Four variables after `0 = 3` and the clause `0 ∨ 1 ∨ 2`: it becomes `1 ∨ 2 ∨ 3`,
the entry of `+0` moves to the list of `+1`, the one of `+1` to the list of `+2`, the
one of `+2` to the list of `+3`, and the whole rewrite leaves one entry in each. -/
theorem kept_ternary_watches_witness :
    (replaceImplicit rankReplacer rankSolver).map (fun r => (r.1, r.2.2.watches))
      = some (true, [[], [], [Watched.tri ⟨2, false⟩ ⟨3, false⟩ false], [],
          [Watched.tri ⟨1, false⟩ ⟨3, false⟩ false], [],
          [Watched.tri ⟨1, false⟩ ⟨2, false⟩ false], []])
    ∧ scanEntry rankReplacer rankSolver [] ⟨1, false⟩ (Watched.tri ⟨0, false⟩ ⟨2, false⟩ false)
        = (if (⟨2, false⟩ : Lit) = ⟨1, false⟩
           then some ([] ++ [Watched.tri ⟨1, false⟩ ⟨3, false⟩ false], rankReplacer, rankSolver)
           else (rankSolver.pushWatch ⟨2, false⟩ (Watched.tri ⟨1, false⟩ ⟨3, false⟩ false)).map
             (fun s1 => ([], rankReplacer, s1))) :=
  ⟨by decide,
    (kept_ternary_watches rankReplacer rankSolver [] ⟨0, false⟩ ⟨1, false⟩ ⟨2, false⟩
      ⟨3, false⟩ ⟨1, false⟩ ⟨2, false⟩ ⟨1, false⟩ ⟨2, false⟩ ⟨3, false⟩ false
      (by decide) (by decide) (by decide) (by decide) (by decide) (by decide) (by decide)
      (by decide)).2.2.1⟩

/-! ## Renumbering -/

theorem mapAll_cons_some {α β : Type} (f : α → Option β) (x : α) (xs : List α) (y : β)
    (ys : List β) (h1 : f x = some y) (h2 : mapAll f xs = some ys) :
    mapAll f (x :: xs) = some (y :: ys) := by
  simp only [mapAll, h1, h2]

theorem mapAll_cons_inv {α β : Type} (f : α → Option β) (x : α) (xs : List α)
    (r : List β) (h : mapAll f (x :: xs) = some r) :
    ∃ y ys, f x = some y ∧ mapAll f xs = some ys ∧ r = y :: ys := by
  rw [mapAll] at h
  split at h
  · rename_i y ys h1 h2
    exact ⟨y, ys, h1, h2, (Option.some.inj h).symm⟩
  · cases h

theorem mapAll_eq_map {α β : Type} (f : α → Option β) (g : α → β) (l : List α)
    (h : ∀ x ∈ l, f x = some (g x)) : mapAll f l = some (l.map g) := by
  induction l with
  | nil => rfl
  | cons x xs ih =>
    exact mapAll_cons_some f x xs _ _ (h x (List.mem_cons_self _ _))
      (ih (fun y hy => h y (List.mem_cons_of_mem _ hy)))

theorem mapAll_getElem {α β : Type} (f : α → Option β) (l : List α) :
    ∀ (r : List β), mapAll f l = some r → ∀ i : Nat, r[i]? = (l[i]?).bind f := by
  induction l with
  | nil =>
    intro r h i
    simp only [mapAll, Option.some.injEq] at h
    rw [← h]
    simp
  | cons x xs ih =>
    intro r h i
    obtain ⟨y, ys, h1, h2, rfl⟩ := mapAll_cons_inv f x xs r h
    cases i with
    | zero => simp [h1]
    | succ i =>
      rw [List.getElem?_cons_succ, List.getElem?_cons_succ]
      exact ih ys h2 i

theorem mapAll_length {α β : Type} (f : α → Option β) (l : List α) :
    ∀ (r : List β), mapAll f l = some r → r.length = l.length := by
  induction l with
  | nil =>
    intro r h
    simp only [mapAll, Option.some.injEq] at h
    rw [← h]
    rfl
  | cons x xs ih =>
    intro r h
    obtain ⟨y, ys, _, h2, rfl⟩ := mapAll_cons_inv f x xs r h
    simp only [List.length_cons, ih ys h2]

theorem rtFind_rtAssign (rt : RevTable) (key : Nat) (xs : List Nat) (k : Nat) :
    rtFind (rtAssign rt key xs) k = if k = key then some xs else rtFind rt k := by
  unfold rtAssign
  have h0 : rtFind (rtErase rt key) key = none := by
    rw [rtFind_rtErase, if_pos rfl]
  rw [rtFind_rtInsert _ key xs k h0, rtFind_rtErase]
  by_cases hk : k = key
  · rw [if_pos hk, if_pos hk]
  · rw [if_neg hk, if_neg hk, if_neg hk]

theorem rtAssign_sorted (rt : RevTable) (key : Nat) (xs : List Nat)
    (hs : rt.Pairwise (fun a b => a.1 < b.1)) :
    (rtAssign rt key xs).Pairwise (fun a b => a.1 < b.1) := by
  unfold rtAssign
  apply rtInsert_sorted _ key xs (rtErase_sorted rt key hs)
  apply (rtFind_none_iff _ key).1
  rw [rtFind_rtErase, if_pos rfl]

/-- The loop of `updateVars` over a reverse table with distinct keys, for a mapping
`p` of the variables that `outerToInter` gives on the keys and the listed variables and
that is injective on the keys: the entry of `p k` is the image of the entry of `k`. -/
theorem updateReverse_spec (outerToInter : List Nat) (p : Nat → Nat) (old : RevTable) :
    ∀ (new : RevTable),
      (∀ e ∈ old, outerToInter[e.1]? = some (p e.1)
        ∧ ∀ x ∈ e.2, outerToInter[x]? = some (p x)) →
      old.Pairwise (fun a b => p a.1 ≠ p b.1) →
      new.Pairwise (fun a b => a.1 < b.1) →
      ∃ rt, updateReverse outerToInter old new = some rt
        ∧ rt.Pairwise (fun a b => a.1 < b.1)
        ∧ (∀ e ∈ old, rtFind rt (p e.1) = some (e.2.map p))
        ∧ (∀ k, (∀ e ∈ old, p e.1 ≠ k) → rtFind rt k = rtFind new k) := by
  induction old with
  | nil =>
    intro new _ _ hs
    exact ⟨new, rfl, hs, fun e he => absurd he (List.not_mem_nil e), fun k _ => rfl⟩
  | cons e rest ih =>
    intro new hin hd hs
    obtain ⟨k, deps⟩ := e
    have hk := hin (k, deps) (List.mem_cons_self _ _)
    have hdeps : updateArrayMapCopy deps outerToInter = some (deps.map p) :=
      mapAll_eq_map _ p deps hk.2
    have hd2 := List.pairwise_cons.1 hd
    obtain ⟨rt, hrun, hsorted, hfound, hother⟩ := ih (rtAssign new (p k) (deps.map p))
      (fun e he => hin e (List.mem_cons_of_mem _ he)) hd2.2
      (rtAssign_sorted new (p k) (deps.map p) hs)
    refine ⟨rt, ?_, hsorted, ?_, ?_⟩
    · rw [updateReverse]
      simp only [hdeps, hk.1]
      exact hrun
    · intro e he
      rcases List.mem_cons.1 he with rfl | he
      · simp only
        rw [hother (p k) (fun e2 he2 => Ne.symm (hd2.1 e2 he2)), rtFind_rtAssign, if_pos rfl]
      · exact hfound e he
    · intro k2 hk2
      rw [hother k2 (fun e2 he2 => hk2 e2 (List.mem_cons_of_mem _ he2)), rtFind_rtAssign,
        if_neg (Ne.symm (hk2 (k, deps) (List.mem_cons_self _ _)))]

theorem mapAll_exists {α β : Type} (f : α → Option β) (l : List α)
    (h : ∀ x ∈ l, ∃ y, f x = some y) : ∃ r, mapAll f l = some r := by
  induction l with
  | nil => exact ⟨[], rfl⟩
  | cons x xs ih =>
    obtain ⟨y, hy⟩ := h x (List.mem_cons_self _ _)
    obtain ⟨ys, hys⟩ := ih (fun z hz => h z (List.mem_cons_of_mem _ hz))
    exact ⟨y :: ys, mapAll_cons_some f x xs y ys hy hys⟩

theorem rtFind_some_mem (rt : RevTable) (k : Nat) (xs : List Nat)
    (h : rtFind rt k = some xs) : (k, xs) ∈ rt := by
  induction rt with
  | nil => cases h
  | cons e rest ih =>
    obtain ⟨k1, ys⟩ := e
    rw [rtFind_cons] at h
    split at h
    · rename_i hk
      rw [← hk, ← Option.some.inj h]
      exact List.mem_cons_self _ _
    · exact List.mem_cons_of_mem _ (ih h)

theorem rtFind_of_mem_sorted (rt : RevTable) (hs : rt.Pairwise (fun a b => a.1 < b.1))
    (e : Nat × List Nat) (he : e ∈ rt) : rtFind rt e.1 = some e.2 := by
  induction rt with
  | nil => cases he
  | cons hd rest ih =>
    obtain ⟨k1, ys⟩ := hd
    have hs2 := List.pairwise_cons.1 hs
    rw [rtFind_cons]
    rcases List.mem_cons.1 he with rfl | he
    · rw [if_pos rfl]
    · have := hs2.1 e he
      simp only at this
      rw [if_neg (by omega)]
      exact ih hs2.2 he

/-- The first two steps of `updateVars`: the table permuted through `interToOuter` and
renamed through `outerToInter`. -/
theorem updateTable_spec (table : List Lit) (o2i i2o : List Nat) (p : Nat → Nat)
    (hflat : ∀ (v : Nat) (t : Lit), table[v]? = some t → t.var < table.length)
    (hleni : i2o.length = table.length)
    (hp : ∀ v : Nat, v < table.length → o2i[v]? = some (p v))
    (hinv1 : ∀ v w : Nat, o2i[v]? = some w → i2o[w]? = some v)
    (hinv2 : ∀ w v : Nat, i2o[w]? = some v → o2i[v]? = some w)
    (hlen : o2i.length = table.length) :
    ∃ t1 t2, updateArray table i2o = some t1 ∧ updateLitsMap t1 o2i = some t2
      ∧ t2.length = table.length
      ∧ (∀ (v : Nat) (t : Lit), table[v]? = some t →
          t2[p v]? = some ⟨p t.var, t.sign⟩) := by
  -- every index below the length is the image of a variable below the length
  have hback : ∀ w, w < table.length → ∃ v, v < table.length ∧ i2o[w]? = some v := by
    intro w hw
    have hw2 : w < i2o.length := by omega
    refine ⟨i2o[w], ?_, List.getElem?_eq_getElem hw2⟩
    have h := hinv2 w _ (List.getElem?_eq_getElem hw2)
    rcases Nat.lt_or_ge i2o[w] o2i.length with h1 | h1
    · omega
    · rw [List.getElem?_eq_none h1] at h; cases h
  have himg : ∀ v, v < table.length → p v < table.length ∧ i2o[p v]? = some v := by
    intro v hv
    have h := hinv1 v _ (hp v hv)
    refine ⟨?_, h⟩
    rcases Nat.lt_or_ge (p v) i2o.length with h1 | h1
    · omega
    · rw [List.getElem?_eq_none h1] at h; cases h
  obtain ⟨t1, ht1⟩ : ∃ t1, updateArray table i2o = some t1 := by
    unfold updateArray
    apply mapAll_exists
    intro i hi
    rw [List.mem_range] at hi
    obtain ⟨v, hv, hiv⟩ := hback i hi
    refine ⟨table[v], ?_⟩
    rw [hiv, Option.some_bind]
    exact List.getElem?_eq_getElem hv
  have hget1 := mapAll_getElem _ _ t1 ht1
  have hlen1 : t1.length = table.length := by
    rw [mapAll_length _ _ t1 ht1, List.length_range]
  have hat1 : ∀ (v : Nat), v < table.length → t1[p v]? = table[v]? := by
    intro v hv
    rw [hget1 (p v), List.getElem?_range (himg v hv).1, Option.some_bind, (himg v hv).2,
      Option.some_bind]
  have hmem1 : ∀ l ∈ t1, l.var < table.length := by
    intro l hl
    obtain ⟨i, hi, hil⟩ := List.getElem_of_mem hl
    have hi2 : i < table.length := by omega
    obtain ⟨v, hv, hiv⟩ := hback i hi2
    have h := hget1 i
    rw [List.getElem?_range hi2, Option.some_bind, hiv, Option.some_bind,
      List.getElem?_eq_getElem hi, hil] at h
    exact hflat v l h.symm
  obtain ⟨t2, ht2⟩ : ∃ t2, updateLitsMap t1 o2i = some t2 := by
    unfold updateLitsMap
    apply mapAll_exists
    intro l hl
    exact ⟨⟨p l.var, l.sign⟩, by rw [hp l.var (hmem1 l hl), Option.map_some']⟩
  have hget2 := mapAll_getElem _ _ t2 ht2
  refine ⟨t1, t2, ht1, ht2, ?_, ?_⟩
  · rw [mapAll_length _ _ t2 ht2, hlen1]
  · intro v t hv
    have hvlt : v < table.length := by
      rcases Nat.lt_or_ge v table.length with h1 | h1
      · exact h1
      · rw [List.getElem?_eq_none h1] at hv; cases hv
    rw [hget2 (p v), hat1 v hvlt, hv, Option.some_bind, hp t.var (hflat v t hv),
      Option.map_some']

/-- Claim C25. Let `outerToInter` give a mapping `p` of the variables of the table and
`interToOuter` be its inverse (each list undoes the other, both have the length of the
table). On a well-formed replacer with ascending reverse-table keys and no pending
equality, `updateVars` returns a replacer whose table holds at `p v` the entry of `v`
renamed, `Lit(p(table[v].var()), table[v].sign())`, whose reverse table holds under
`p r` the image under `p` of the entry of `r`, and which is again well formed with
ascending keys; the counters are unchanged. -/
theorem renumbering_preserves (vr : VarReplacer) (o2i i2o : List Nat) (p : Nat → Nat)
    (hwf : WellFormed vr) (hsorted : vr.reverseTable.Pairwise (fun a b => a.1 < b.1))
    (hq : vr.laterAddBinXor = [])
    (hlen : o2i.length = vr.table.length) (hleni : i2o.length = vr.table.length)
    (hp : ∀ v : Nat, v < vr.table.length → o2i[v]? = some (p v))
    (hinv1 : ∀ v w : Nat, o2i[v]? = some w → i2o[w]? = some v)
    (hinv2 : ∀ w v : Nat, i2o[w]? = some v → o2i[v]? = some w) :
    ∃ vr1, updateVars vr o2i i2o = some vr1
      ∧ vr1.table.length = vr.table.length
      ∧ (∀ (v : Nat) (t : Lit), vr.table[v]? = some t →
          vr1.table[p v]? = some ⟨p t.var, t.sign⟩)
      ∧ (∀ r : Nat, r < vr.table.length →
          rtFind vr1.reverseTable (p r) = (rtFind vr.reverseTable r).map (List.map p))
      ∧ WellFormed vr1
      ∧ vr1.reverseTable.Pairwise (fun a b => a.1 < b.1)
      ∧ vr1.replacedVars = vr.replacedVars ∧ vr1.lastReplacedVars = vr.lastReplacedVars := by
  have hlt : ∀ (v : Nat) (t : Lit), vr.table[v]? = some t → v < vr.table.length := by
    intro v t hv
    rcases Nat.lt_or_ge v vr.table.length with h1 | h1
    · exact h1
    · rw [List.getElem?_eq_none h1] at hv; cases hv
  have hflat : ∀ (v : Nat) (t : Lit), vr.table[v]? = some t → t.var < vr.table.length :=
    fun v t hv => hlt _ _ (hwf.1 v t hv)
  -- `p` maps the variables into themselves, one to one and onto
  have himg : ∀ v, v < vr.table.length → p v < vr.table.length ∧ i2o[p v]? = some v := by
    intro v hv
    have h := hinv1 v _ (hp v hv)
    refine ⟨?_, h⟩
    rcases Nat.lt_or_ge (p v) i2o.length with h1 | h1
    · omega
    · rw [List.getElem?_eq_none h1] at h; cases h
  have hinj : ∀ v w, v < vr.table.length → w < vr.table.length → p v = p w → v = w := by
    intro v w hv hw he
    have h1 := (himg v hv).2
    rw [he, (himg w hw).2] at h1
    exact (Option.some.inj h1).symm
  have hback : ∀ w, w < vr.table.length → ∃ v, v < vr.table.length ∧ p v = w := by
    intro w hw
    have hw2 : w < i2o.length := by omega
    have h := hinv2 w _ (List.getElem?_eq_getElem hw2)
    have hv : i2o[w] < vr.table.length := by
      rcases Nat.lt_or_ge i2o[w] o2i.length with h1 | h1
      · omega
      · rw [List.getElem?_eq_none h1] at h; cases h
    refine ⟨i2o[w], hv, ?_⟩
    rw [hp _ hv] at h
    exact Option.some.inj h
  obtain ⟨t1, t2, ht1, ht2, hlen2, htab⟩ :=
    updateTable_spec vr.table o2i i2o p hflat hleni hp hinv1 hinv2 hlen
  -- the entries of the reverse table are on variables of the table
  have hentry : ∀ e ∈ vr.reverseTable, e.1 < vr.table.length
      ∧ ∀ x ∈ e.2, x < vr.table.length := by
    intro e he
    obtain ⟨hne, _, hmem⟩ := hwf.2.1 e.1 e.2 (rtFind_of_mem_sorted _ hsorted e he)
    have hx : ∀ x ∈ e.2, x < vr.table.length ∧ e.1 < vr.table.length := by
      intro x hx
      obtain ⟨_, l, hl, hlv⟩ := (hmem x).1 hx
      exact ⟨hlt x l hl, hlv ▸ hflat x l hl⟩
    refine ⟨?_, fun x hxm => (hx x hxm).1⟩
    cases hd : e.2 with
    | nil => exact absurd hd hne
    | cons d ds => exact (hx d (by rw [hd]; exact List.mem_cons_self _ _)).2
  obtain ⟨rt, hrun, hrsorted, hfound, hother⟩ := updateReverse_spec o2i p vr.reverseTable []
    (fun e he => ⟨hp _ (hentry e he).1, fun x hx => hp _ ((hentry e he).2 x hx)⟩)
    (hsorted.imp_of_mem (fun {a b} ha hb hab he => by
      have := hinj a.1 b.1 (hentry a ha).1 (hentry b hb).1 he
      omega))
    List.Pairwise.nil
  have hrt : ∀ r : Nat, r < vr.table.length →
      rtFind rt (p r) = (rtFind vr.reverseTable r).map (List.map p) := by
    intro r hr
    cases hf : rtFind vr.reverseTable r with
    | some deps =>
      exact hfound (r, deps) (rtFind_some_mem _ _ _ hf)
    | none =>
      rw [hother (p r), Option.map_none']
      · rfl
      · intro e he hpe
        have := hinj e.1 r (hentry e he).1 hr hpe
        exact (rtFind_none_iff _ r).1 hf e he this
  -- every entry of the new table is the renamed entry of some variable
  have hsrc : ∀ (w : Nat) (l : Lit), t2[w]? = some l →
      ∃ (v : Nat) (t : Lit), vr.table[v]? = some t ∧ w = p v ∧ l = ⟨p t.var, t.sign⟩ := by
    intro w l hw
    have hwlt : w < vr.table.length := by
      rcases Nat.lt_or_ge w t2.length with h1 | h1
      · omega
      · rw [List.getElem?_eq_none h1] at hw; cases hw
    obtain ⟨v, hv, hpv⟩ := hback w hwlt
    refine ⟨v, vr.table[v], List.getElem?_eq_getElem hv, hpv.symm, ?_⟩
    have h := htab v _ (List.getElem?_eq_getElem hv)
    rw [hpv, hw] at h
    exact Option.some.inj h
  have hwf1 : InvF (fun v => t2[v]?) (rtFind rt) := by
    refine ⟨?_, ?_, ?_⟩
    · intro w l hw
      obtain ⟨v, t, hv, _, rfl⟩ := hsrc w l hw
      exact htab t.var ⟨t.var, false⟩ (hwf.1 v t hv)
    · intro k deps1 hk
      have hex : ∃ e ∈ vr.reverseTable, p e.1 = k := by
        by_contra hc
        rw [hother k (fun e he hpe => hc ⟨e, he, hpe⟩)] at hk
        cases hk
      obtain ⟨e, he, rfl⟩ := hex
      rw [hfound e he] at hk
      cases hk
      obtain ⟨hne, hnd, hmem⟩ := hwf.2.1 e.1 e.2 (rtFind_of_mem_sorted _ hsorted e he)
      have hb := hentry e he
      refine ⟨?_, ?_, ?_⟩
      · intro h0
        exact hne (List.map_eq_nil_iff.1 h0)
      · exact List.Nodup.map_on (fun x hx y hy hxy => hinj x y (hb.2 x hx) (hb.2 y hy) hxy) hnd
      · intro w
        constructor
        · intro hw
          obtain ⟨x, hx, rfl⟩ := List.mem_map.1 hw
          obtain ⟨hxr, l, hl, hlv⟩ := (hmem x).1 hx
          refine ⟨fun hpe => hxr (hinj x e.1 (hb.2 x hx) hb.1 hpe), ⟨p l.var, l.sign⟩,
            htab x l hl, ?_⟩
          simp only
          rw [hlv]
        · rintro ⟨hwr, l, hl, hlv⟩
          obtain ⟨v, t, hv, rfl, rfl⟩ := hsrc w l hl
          simp only at hlv
          have htr : t.var = e.1 := hinj _ _ (hflat v t hv) hb.1 hlv
          have hvr : v ≠ e.1 := fun h0 => hwr (by rw [h0])
          exact List.mem_map_of_mem p ((hmem v).2 ⟨hvr, t, hv, htr⟩)
    · intro k hk w l hw hlv
      obtain ⟨v, t, hv, rfl, rfl⟩ := hsrc w l hw
      simp only at hlv
      have h := hrt t.var (hflat v t hv)
      rw [hlv, hk] at h
      have hnone : rtFind vr.reverseTable t.var = none := by
        cases hf : rtFind vr.reverseTable t.var with
        | none => rfl
        | some d => rw [hf] at h; cases h
      have := hwf.2.2 t.var hnone v t hv rfl
      rw [this, hlv]
  refine ⟨{ vr with table := t2, reverseTable := rt }, ?_, hlen2, htab, hrt, hwf1, hrsorted,
    rfl, rfl⟩
  simp only [updateVars, if_pos hq, ht1, ht2, hrun]

/-- Six variables after `1 = 2` and `4 = ~5`, renumbered by `v ↦ v + 1 mod 6`: the
class of 2 becomes the class of 3 and the class of 5 the class of 0, which now comes
first in the reverse table. -/
theorem renumbering_preserves_witness :
    updateVars pairsReplacer [1, 2, 3, 4, 5, 0] [5, 0, 1, 2, 3, 4] = some pairsRenumbered
    ∧ ∃ vr1, updateVars pairsReplacer [1, 2, 3, 4, 5, 0] [5, 0, 1, 2, 3, 4] = some vr1
      ∧ vr1.table.length = pairsReplacer.table.length
      ∧ (∀ (v : Nat) (t : Lit), pairsReplacer.table[v]? = some t →
          vr1.table[(fun v => (v + 1) % 6) v]?
            = some ⟨(fun v => (v + 1) % 6) t.var, t.sign⟩)
      ∧ (∀ r : Nat, r < pairsReplacer.table.length →
          rtFind vr1.reverseTable ((fun v => (v + 1) % 6) r)
            = (rtFind pairsReplacer.reverseTable r).map (List.map (fun v => (v + 1) % 6)))
      ∧ WellFormed vr1
      ∧ vr1.reverseTable.Pairwise (fun a b => a.1 < b.1)
      ∧ vr1.replacedVars = pairsReplacer.replacedVars
      ∧ vr1.lastReplacedVars = pairsReplacer.lastReplacedVars :=
  ⟨by decide,
    renumbering_preserves pairsReplacer [1, 2, 3, 4, 5, 0] [5, 0, 1, 2, 3, 4]
      (fun v => (v + 1) % 6) (reachable_wellFormed _ reachable_pairsReplacer)
      (reachable_sorted _ reachable_pairsReplacer) rfl rfl rfl
      (by
        intro v hv
        have hv6 : v < 6 := hv
        interval_cases v <;> rfl)
      (by
        intro v w h
        rcases Nat.lt_or_ge v 6 with h1 | h1
        · interval_cases v <;> simp at h <;> subst h <;> rfl
        · rw [List.getElem?_eq_none (by simpa using h1)] at h; cases h)
      (by
        intro w v h
        rcases Nat.lt_or_ge w 6 with h1 | h1
        · interval_cases w <;> simp at h <;> subst h <;> rfl
        · rw [List.getElem?_eq_none (by simpa using h1)] at h; cases h)⟩

end CMSat
